import Mathlib

/-!
# BAli-Phy: a shallow embedding of the DP table, the pin construction and the likelihood cache

The C++ sources embedded here are `dp-matrix.H` (`state_matrix`),
`alignment-constraint.C` (`clean`, `load_alignment_constraint`, `constrained`,
`constraint_columns`, `get_pins`, `constraint_satisfied`, `report_constraints`),
`alignment.C` (`get_path`), `util.H` (`find_index`, `compute_mapping`, `convertTo`,
`wrap`, `split<T>`), `substitution-cache.H` (`Multi_Likelihood_Cache`,
`Likelihood_Cache`), `setup.C` (`letter_count`, `letter_counts`,
`parse_partitions_and_model`, `get_mapping`), `alphabet.H` (`is_letter`) and
`tools/alignment-cat.C` (`get_mapping`, `concatenate`).

Conventions.
* A C++ `int` is a Lean `Int`.  Signed overflow is undefined in C++: where sizes
  supplied by the caller are multiplied (the constructor of `state_matrix`) the
  embedding makes an overflow of the 32-bit `int` the outcome `Fault.overflow`;
  elsewhere it describes the executions in which every sum is representable.
* A `std::vector<T>` is a `List T`.  An access outside the vector is undefined in
  C++; the embedding makes it the outcome `Fault.out_of_range`.
* A failing `assert` is the outcome `Fault.assertion_failed`, a thrown
  `myexception` is `Fault.exception msg`.
-/

namespace BAliPhy

/-- Abnormal outcomes of the embedded C++ code. -/
inductive Fault where
  | assertion_failed
  | out_of_range
  | overflow
  | exception (msg : String)
deriving DecidableEq, Repr

deriving instance DecidableEq for Except

/-- Read `v[i]` of a `std::vector`: defined only for `0 <= i < v.size()`. -/
def vget {α : Type} (v : List α) (i : Int) : Except Fault α :=
  if 0 ≤ i then
    match v[i.toNat]? with
    | some x => .ok x
    | none => .error .out_of_range
  else .error .out_of_range

/-- Assign `v[i] = x` of a `std::vector`: defined only for `0 <= i < v.size()`. -/
def vset {α : Type} (v : List α) (i : Int) (x : α) : Except Fault (List α) :=
  if 0 ≤ i ∧ i < (v.length : Int) then .ok (v.set i.toNat x) else .error .out_of_range

/-- The values of a 32-bit `int`. -/
@[reducible] def int_fits (x : Int) : Prop := -2147483648 ≤ x ∧ x ≤ 2147483647

/-! ## `dp-matrix.H`: `state_matrix` -/

/-- The class `state_matrix`: sizes `s1`, `s2`, `s3`, the probability buffer `data`
and the scale exponents `scale_`.  The stored `double` is kept abstract as `R`. -/
structure state_matrix (R : Type) where
  s1 : Int
  s2 : Int
  s3 : Int
  data : List R
  scale_ : List Int
deriving DecidableEq

namespace state_matrix

variable {R : Type}

/-- The constructor `state_matrix(i1,i2,i3)`: `data(i1*i2*i3)`, `scale_(s1*s2)`, both
value-initialised; `zero` is the value-initialised `double`.  The products are computed
in `int`.  A negative element count cannot be allocated (`std::vector` throws). -/
def construct (zero : R) (i1 i2 i3 : Int) : Except Fault (state_matrix R) :=
  if ¬ (int_fits (i1 * i2) ∧ int_fits (i1 * i2 * i3)) then .error .overflow
  else if i1 * i2 * i3 < 0 ∨ i1 * i2 < 0 then .error (.exception "std::length_error")
  else .ok { s1 := i1, s2 := i2, s3 := i3,
             data := List.replicate (i1 * i2 * i3).toNat zero,
             scale_ := List.replicate (i1 * i2).toNat 0 }

/-- The storage slot of cell `(i,j,k)`: the index expression `s3*(i*s2+j)+k`. -/
def slot (m : state_matrix R) (i j k : Int) : Int := m.s3 * (i * m.s2 + j) + k

/-- The storage slot of the exponent of `(i,j)`: the index expression `i*s2 + j`. -/
def scale_slot (m : state_matrix R) (i j : Int) : Int := i * m.s2 + j

/-- Reading through `double operator()(int i,int j,int k) const`. -/
def get (m : state_matrix R) (i j k : Int) : Except Fault R :=
  if ¬ (0 ≤ i ∧ i < m.s1) then .error .assertion_failed
  else if ¬ (0 ≤ j ∧ j < m.s2) then .error .assertion_failed
  else if ¬ (0 ≤ k ∧ k < m.s3) then .error .assertion_failed
  else vget m.data (m.slot i j k)

/-- Assigning `M(i,j,k) = v` through `double& operator()(int i,int j,int k)`. -/
def set (m : state_matrix R) (i j k : Int) (v : R) : Except Fault (state_matrix R) :=
  if ¬ (0 ≤ i ∧ i < m.s1) then .error .assertion_failed
  else if ¬ (0 ≤ j ∧ j < m.s2) then .error .assertion_failed
  else if ¬ (0 ≤ k ∧ k < m.s3) then .error .assertion_failed
  else do
    let d ← vset m.data (m.slot i j k) v
    pure { m with data := d }

/-- Reading through `int scale(int i,int j) const`. -/
def scale (m : state_matrix R) (i j : Int) : Except Fault Int :=
  if ¬ (0 ≤ i ∧ i < m.s1) then .error .assertion_failed
  else if ¬ (0 ≤ j ∧ j < m.s2) then .error .assertion_failed
  else vget m.scale_ (m.scale_slot i j)

/-- Assigning `M.scale(i,j) = e` through `int& scale(int i,int j)`. -/
def set_scale (m : state_matrix R) (i j : Int) (e : Int) : Except Fault (state_matrix R) :=
  if ¬ (0 ≤ i ∧ i < m.s1) then .error .assertion_failed
  else if ¬ (0 ≤ j ∧ j < m.s2) then .error .assertion_failed
  else do
    let s ← vset m.scale_ (m.scale_slot i j) e
    pure { m with scale_ := s }

/-- The matrices that a program can hold: one made by the constructor, then changed
by any number of assignments through `operator()` and `scale`. -/
inductive Built (zero : R) (i1 i2 i3 : Int) : state_matrix R → Prop where
  | construct {m : state_matrix R} : state_matrix.construct zero i1 i2 i3 = .ok m →
      Built zero i1 i2 i3 m
  | set {m m' : state_matrix R} (i j k : Int) (v : R) : Built zero i1 i2 i3 m →
      m.set i j k v = .ok m' → Built zero i1 i2 i3 m'
  | set_scale {m m' : state_matrix R} (i j : Int) (e : Int) : Built zero i1 i2 i3 m →
      m.set_scale i j e = .ok m' → Built zero i1 i2 i3 m'

end state_matrix


/-! ## `util.H`: `find_index` -/

/-- The template `find_index(v,t)`: the position of the first element equal to `t`
(`std::find`), or `-1` when `std::find` returns `v.end()`. -/
def find_index {α : Type} [DecidableEq α] (v : List α) (t : α) : Int :=
  if v.indexOf t = v.length then -1 else (v.indexOf t : Int)

/-! ## `alignment-constraint.C`: constraints and pins -/

/-- A `ublas::matrix<int>`: `size1()` rows, `size2()` columns, element `(i,j)`. -/
structure IntMatrix where
  size1 : Nat
  size2 : Nat
  elem : Nat → Nat → Int

/-- The part of the class `alignment` that the embedded functions read: the
character array, one row per alignment column and one column per sequence. -/
structure alignment where
  array : IntMatrix

/-- The number of columns, `A.length()` (`array.size1()`). -/
def alignment.length (A : alignment) : Nat := A.array.size1

/-- The loop of `constrained(group,constraint,c)` over the entries `i` of row `c`:
`if (group[i] and constraint(c,i) != -1) present = true`.  A `dynamic_bitset` is a list of
bits; a position outside it is the outcome `out_of_range`. -/
def constrained_loop (group : List Bool) (constraint : IntMatrix) (c : Nat) :
    List Nat → Bool → Except Fault Bool
  | [], present => .ok present
  | i :: rest, present => do
      let g ← vget group i
      constrained_loop group constraint c rest
        (if g && constraint.elem c i != -1 then true else present)

/-- The function `constrained(group,constraint,c)`: does row `c` constrain a residue of
a sequence in `group`? -/
def constrained (group : List Bool) (constraint : IntMatrix) (c : Nat) : Except Fault Bool :=
  constrained_loop group constraint c (List.range constraint.size2) false

/-- The inner loop of `constraint_columns` for constraint `i`, over the sequences `j`;
`cur` is `columns[i]`.  The `break` ends the loop with `columns[i] = -1`. -/
def constraint_columns_row (column_indices : List (List Int)) (constraint : IntMatrix)
    (i : Nat) : List Nat → Int → Except Fault Int
  | [], cur => .ok cur
  | j :: rest, cur =>
      if constraint.elem i j != -1 then do
        let residues ← vget column_indices j
        let c ← vget residues (constraint.elem i j)
        if cur = -1 then constraint_columns_row column_indices constraint i rest c
        else if cur ≠ c then pure (-1)
        else constraint_columns_row column_indices constraint i rest cur
      else constraint_columns_row column_indices constraint i rest cur

/-- The outer loop of `constraint_columns` over the constraints `i`. -/
def constraint_columns_rows (column_indices : List (List Int)) (constraint : IntMatrix) :
    List Nat → Except Fault (List Int)
  | [] => .ok []
  | i :: rest => do
      let c ← constraint_columns_row column_indices constraint i
        (List.range constraint.size2) (-1)
      let cs ← constraint_columns_rows column_indices constraint rest
      pure (c :: cs)

/-- The function `constraint_columns(constraint,A)`: for each constraint the alignment
column that holds all its constrained residues, or `-1`.  The helper `column_lookup`
(`alignment-util.C`) is not among the embedded sources and is a parameter. -/
def constraint_columns (column_lookup : alignment → List (List Int))
    (constraint : IntMatrix) (A : alignment) : Except Fault (List Int) :=
  constraint_columns_rows (column_lookup A) constraint (List.range constraint.size1)

/-- The condition `constrained(group1,constraint,i) and constrained(group2,constraint,i)`
of the first loop of `get_pins`; `and` evaluates its right operand only when the left one
is true. -/
def constrained_both (constraint : IntMatrix) (group1 group2 : List Bool) (i : Nat) :
    Except Fault Bool := do
  let c1 ← constrained group1 constraint i
  if c1 then constrained group2 constraint i else pure false

/-- The first loop of `get_pins`: `satisfied[i] = -1` unless constraint `i` is
constrained in both groups.  The list argument is `satisfied` from position `i` on. -/
def get_pins_filter (constraint : IntMatrix) (group1 group2 : List Bool) :
    List Int → Nat → Except Fault (List Int)
  | [], _ => .ok []
  | s :: rest, i => do
      let both ← constrained_both constraint group1 group2 i
      let rest' ← get_pins_filter constraint group1 group2 rest (i + 1)
      pure ((if both then s else -1) :: rest')

/-- The second loop of `get_pins`: mark each column that gets pinned.  The result
`none` is the early `return impossible`. -/
def get_pins_mark (seq1 seq2 : List Int) :
    List Int → List Int → Except Fault (Option (List Int))
  | [], pinned => .ok (some pinned)
  | column :: rest, pinned =>
      if column != -1 then do
        let p ← vget pinned column
        if p = 0 then do
          let pinned' ← vset pinned column 1
          let x := find_index seq1 column
          let y := find_index seq2 column
          if x = -1 ∨ y = -1 then pure none
          else get_pins_mark seq1 seq2 rest pinned'
        else get_pins_mark seq1 seq2 rest pinned
      else get_pins_mark seq1 seq2 rest pinned

/-- The message of the exception of the third loop for a column without coordinates. -/
def unpinnable_msg : String := "Did not already bail out on un-pinnable column?!?"

/-- The message of both order checks of the third loop. -/
def not_increasing_msg : String := "X pins not always increasing!"

/-- The order check `V.size() >= 2 and V[pins.size()-2] > V[pins.size()-1]`, where
`pins` is the two-element vector holding `X` and `Y`. -/
def pins_order_check (pins : List (List Int)) (V : List Int) : Except Fault Unit :=
  if V.length ≥ 2 then do
    let a ← vget V ((pins.length : Int) - 2)
    let b ← vget V ((pins.length : Int) - 1)
    if a > b then throw (.exception not_increasing_msg) else pure ()
  else pure ()

/-- The third loop of `get_pins`, over the columns of `seq12`. -/
def get_pins_collect (seq1 seq2 pinned : List Int) :
    List Int → List Int → List Int → Except Fault (List (List Int))
  | [], X, Y => .ok [X, Y]
  | column :: rest, X, Y => do
      let p ← vget pinned column
      if p = 0 then get_pins_collect seq1 seq2 pinned rest X Y
      else
        let x := find_index seq1 column
        let y := find_index seq2 column
        if ¬ (x ≥ 0 ∧ x < (seq1.length : Int)) then throw .assertion_failed
        else if ¬ (y ≥ 0 ∧ y < (seq2.length : Int)) then throw .assertion_failed
        else if x = -1 ∨ y = -1 then throw (.exception unpinnable_msg)
        else do
          let X' := X ++ [x + 1]
          let Y' := Y ++ [y + 1]
          pins_order_check [X', Y'] X'
          pins_order_check [X', Y'] Y'
          get_pins_collect seq1 seq2 pinned rest X' Y'

/-- The value returned when a pinned column has no coordinate: the one-element list
holding `vector<int>(2,-1)`. -/
def impossible : List (List Int) := [List.replicate 2 (-1)]

/-- The constraints that `get_pins` enforces: `constraint_columns`, then the first
loop. -/
def get_pins_satisfied (column_lookup : alignment → List (List Int))
    (constraint : IntMatrix) (A : alignment) (group1 group2 : List Bool) :
    Except Fault (List Int) := do
  let satisfied ← constraint_columns column_lookup constraint A
  get_pins_filter constraint group1 group2 satisfied 0

/-- The function `get_pins(constraint,A,group1,group2,seq1,seq2,seq12)`. -/
def get_pins (column_lookup : alignment → List (List Int))
    (constraint : IntMatrix) (A : alignment) (group1 group2 : List Bool)
    (seq1 seq2 seq12 : List Int) : Except Fault (List (List Int)) := do
  let satisfied ← get_pins_satisfied column_lookup constraint A group1 group2
  let marked ← get_pins_mark seq1 seq2 satisfied (List.replicate A.length 0)
  match marked with
  | none => pure impossible
  | some pinned => get_pins_collect seq1 seq2 pinned seq12 [] []

/-- A pin `(x,y)` names one alignment column on both axes: `x` and `y` are 1-based
positions in `seq1` and `seq2` that hold the same column, a column of `seq12` that an
enforced constraint (an entry of `sat` other than `-1`) pinned. -/
def pin_names_column (seq1 seq2 seq12 sat : List Int) (x y : Int) : Prop :=
  1 ≤ x ∧ x ≤ (seq1.length : Int) ∧ 1 ≤ y ∧ y ≤ (seq2.length : Int) ∧
  ∃ column : Int, column ∈ seq12 ∧ column ∈ sat ∧ column ≠ -1 ∧
    seq1[(x - 1).toNat]? = some column ∧ seq2[(y - 1).toNat]? = some column

/-! ### A run of `get_pins` on three pinned columns

Two leaf sequences of three residues each, aligned residue by residue in the columns
`0,1,2`; three constraints, constraint `i` pairing residue `i` of both leaves; `group1`
is the first leaf and `group2` the second; `seq1` and `seq2` list the columns in order,
and `seq12` lists them in the order `0,2,1`. -/

/-- The constraint matrix: row `i` is `(i,i)`. -/
def run3_constraint : IntMatrix := ⟨3, 2, fun i _ => (i : Int)⟩

/-- The alignment: three columns, two sequences, residue `c` of both in column `c`. -/
def run3_A : alignment := ⟨⟨3, 2, fun c _ => (c : Int)⟩⟩

/-- The table of `column_lookup` for `run3_A`: residue `r` of either leaf is in column `r`. -/
def run3_column_lookup : alignment → List (List Int) := fun _ => [[0, 1, 2], [0, 1, 2]]

/-! ## `substitution-cache.H`: `Multi_Likelihood_Cache` and `Likelihood_Cache`

The header declares the data members and defines the accessors inline; they are embedded
from it.  The bodies of the other member functions are in `substitution-cache.C`, which
is not among the embedded sources: each of them is modelled from the specification and is
marked so. -/

/-- The class `Multi_Likelihood_Cache`.  `store` is the base class
`std::vector< std::vector<Matrix> >`: element `loc` holds the matrices of Location `loc`.
The type `Matrix` is kept abstract.  The stack `unused_locations` is a list whose head is
the top of the stack. -/
structure Multi_Likelihood_Cache (Matrix : Type) where
  C : Int
  M : Int
  S : Int
  store : List (List Matrix)
  mapping : List (List Int)
  n_uses : List Int
  unused_locations : List Int
  active : List Bool
  length : List Int
  up_to_date_ : List Int
  cv_up_to_date_ : List Int
deriving DecidableEq, Repr

namespace Multi_Likelihood_Cache

variable {Matrix : Type}

/-- The accessor `int cv_up_to_date(int t) const`. -/
def cv_up_to_date (c : Multi_Likelihood_Cache Matrix) (t : Int) : Except Fault Int :=
  vget c.cv_up_to_date_ t

/-- The accessor `int location(int t,int b) const`: `mapping[t][b]`. -/
def location (c : Multi_Likelihood_Cache Matrix) (t b : Int) : Except Fault Int := do
  let row ← vget c.mapping t
  vget row b

/-- The accessor `bool up_to_date(int token,int branch) const`:
`up_to_date_[ mapping[token][branch] ]`, an `int` converted to `bool`. -/
def up_to_date (c : Multi_Likelihood_Cache Matrix) (token branch : Int) : Except Fault Bool := do
  let loc ← c.location token branch
  let flag ← vget c.up_to_date_ loc
  pure (flag != 0)

/-- The accessor `int n_models() const`. -/
def n_models (c : Multi_Likelihood_Cache Matrix) : Int := c.M

/-- The accessor `int n_states() const`. -/
def n_states (c : Multi_Likelihood_Cache Matrix) : Int := c.S

/-- The accessor `int get_length(int token) const`. -/
def get_length (c : Multi_Likelihood_Cache Matrix) (token : Int) : Except Fault Int :=
  vget c.length token

/-- Modelled from the spec: the value of a branch slot that is "unmapped" (the state of
every slot after `add_token`); it is no Location of the arena. -/
def unmapped : Int := -1

/-- Modelled from the spec: the constructor `Multi_Likelihood_Cache(const MultiModel&)`
(body in `substitution-cache.C`).  A new pool has no token and no Location. -/
def empty (M S : Int) : Multi_Likelihood_Cache Matrix :=
  { C := 0, M := M, S := S, store := [], mapping := [], n_uses := [], unused_locations := [],
    active := [], length := [], up_to_date_ := [], cv_up_to_date_ := [] }

/-- Modelled from the spec: one step of `allocate` (body in `substitution-cache.C`).  The
arena grows by one Location: `C` matrices, use-count 0, not up to date, and its index goes
on the stack of unused locations. -/
def allocate_one [Inhabited Matrix] (c : Multi_Likelihood_Cache Matrix) :
    Multi_Likelihood_Cache Matrix :=
  { c with store := c.store ++ [List.replicate c.C.toNat default],
           n_uses := c.n_uses ++ [0],
           up_to_date_ := c.up_to_date_ ++ [0],
           unused_locations := (c.store.length : Int) :: c.unused_locations }

/-- Modelled from the spec: `void allocate(int s)`, "allocate space for s new branches"
(body in `substitution-cache.C`). -/
def allocate [Inhabited Matrix] (c : Multi_Likelihood_Cache Matrix) :
    Nat → Multi_Likelihood_Cache Matrix
  | 0 => c
  | s + 1 => allocate (allocate_one c) s

/-- Modelled from the spec: `int get_unused_location()`, "acquire and return an unused
location" (body in `substitution-cache.C`).  A freed Location (count 0) is reused from
the stack; when the stack is empty a fresh Location is allocated.  The acquired Location
has one user and is not up to date. -/
def get_unused_location [Inhabited Matrix] (c : Multi_Likelihood_Cache Matrix) :
    Except Fault (Int × Multi_Likelihood_Cache Matrix) :=
  match (if c.unused_locations.isEmpty then allocate c 1 else c) with
  | c1 =>
    match c1.unused_locations with
    | [] => .error .assertion_failed
    | loc :: rest => do
        let n ← vset c1.n_uses loc 1
        let u ← vset c1.up_to_date_ loc 0
        pure (loc, { c1 with unused_locations := rest, n_uses := n, up_to_date_ := u })

/-- Modelled from the spec: `void release_location(int loc)`, "release one use of location
loc" (body in `substitution-cache.C`).  The count drops by one; at zero the Location is
freed for reuse. -/
def release_location (c : Multi_Likelihood_Cache Matrix) (loc : Int) :
    Except Fault (Multi_Likelihood_Cache Matrix) := do
  let n ← vget c.n_uses loc
  let nu ← vset c.n_uses loc (n - 1)
  pure { c with n_uses := nu,
                unused_locations :=
                  if n - 1 = 0 then loc :: c.unused_locations else c.unused_locations }

/-- Modelled from the spec: the remapping of a branch slot, `mapping[token][b] = loc`, a
step of `init_token` and of the fork (bodies in `substitution-cache.C`). -/
def set_mapping (c : Multi_Likelihood_Cache Matrix) (token b loc : Int) :
    Except Fault (Multi_Likelihood_Cache Matrix) := do
  let row ← vget c.mapping token
  let row' ← vset row b loc
  let m ← vset c.mapping token row'
  pure { c with mapping := m }

/-- Modelled from the spec: `void validate_branch(int token,int branch)` (body in
`substitution-cache.C`), "sets the bit once recomputation for that branch is complete".
The bit is the one that `up_to_date` reads. -/
def validate_branch (c : Multi_Likelihood_Cache Matrix) (token branch : Int) :
    Except Fault (Multi_Likelihood_Cache Matrix) := do
  let loc ← c.location token branch
  let u ← vset c.up_to_date_ loc 1
  pure { c with up_to_date_ := u }

/-- Modelled from the spec: the step "ensure exclusive ownership" of the write and
invalidate semantics (in `substitution-cache.C`): "if the Location's reference count
exceeds 1, a fresh Location is allocated, the token is remapped to it, and the old
Location's count is decremented". -/
def ensure_exclusive [Inhabited Matrix] (c : Multi_Likelihood_Cache Matrix)
    (token branch : Int) : Except Fault (Multi_Likelihood_Cache Matrix) := do
  let loc ← c.location token branch
  let n ← vget c.n_uses loc
  if n > 1 then do
    let c1 ← c.release_location loc
    let r ← c1.get_unused_location
    r.2.set_mapping token branch r.1
  else pure c

/-- Modelled from the spec: `void invalidate_one_branch(int token,int branch)` (body in
`substitution-cache.C`): the branch stops sharing its Location, and "exactly one branch's
bit" is cleared. -/
def invalidate_one_branch [Inhabited Matrix] (c : Multi_Likelihood_Cache Matrix)
    (token branch : Int) : Except Fault (Multi_Likelihood_Cache Matrix) := do
  let c1 ← c.ensure_exclusive token branch
  let loc ← c1.location token branch
  let u ← vset c1.up_to_date_ loc 0
  pure { c1 with up_to_date_ := u }

/-- Modelled from the spec: the loop of `invalidate_all` over the branch slots (body in
`substitution-cache.C`). -/
def invalidate_all_loop [Inhabited Matrix] (token : Int) :
    List Nat → Multi_Likelihood_Cache Matrix → Except Fault (Multi_Likelihood_Cache Matrix)
  | [], c => .ok c
  | b :: rest, c => do
      let c1 ← c.invalidate_one_branch token b
      invalidate_all_loop token rest c1

/-- Modelled from the spec: `void invalidate_all(int token)` (body in
`substitution-cache.C`), "clears every branch". -/
def invalidate_all [Inhabited Matrix] (c : Multi_Likelihood_Cache Matrix) (token : Int) :
    Except Fault (Multi_Likelihood_Cache Matrix) := do
  let row ← vget c.mapping token
  invalidate_all_loop token (List.range row.length) c

/-- Modelled from the spec: `void set_length(int token,int l)` (body in
`substitution-cache.C`), the column count of a token. -/
def set_length (c : Multi_Likelihood_Cache Matrix) (token l : Int) :
    Except Fault (Multi_Likelihood_Cache Matrix) := do
  let len ← vset c.length token l
  pure { c with length := len }

/-- Modelled from the spec: `int find_free_token() const` (body in
`substitution-cache.C`), "returns an inactive token id without allocating storage, or a
sentinel if none exists": the first inactive token, or `-1`. -/
def find_free_token (c : Multi_Likelihood_Cache Matrix) : Int := find_index c.active false

/-- Modelled from the spec: `int add_token(int B)` (body in `substitution-cache.C`),
"allocates a fresh token with branch_count branch slots, all initially unmapped"; the
header calls it an unused token. -/
def add_token (c : Multi_Likelihood_Cache Matrix) (B : Int) :
    Int × Multi_Likelihood_Cache Matrix :=
  ((c.active.length : Int),
   { c with active := c.active ++ [false],
            length := c.length ++ [0],
            mapping := c.mapping ++ [List.replicate B.toNat unmapped],
            cv_up_to_date_ := c.cv_up_to_date_ ++ [0] })

/-- Modelled from the spec: the first part of `int claim_token(int C,int B)` (body in
`substitution-cache.C`), "acquires a token (reusing a free one if available) and
configures its column count and branch slot count".  The token becomes active and has
`B` branch slots, which are still unmapped. -/
def acquire_token (c : Multi_Likelihood_Cache Matrix) (C B : Int) :
    Except Fault (Int × Multi_Likelihood_Cache Matrix) :=
  match (if c.find_free_token = -1 then c.add_token B else (c.find_free_token, c)) with
  | (token, c1) => do
      let c2 ← c1.set_length token C
      let m ← vset c2.mapping token (List.replicate B.toNat unmapped)
      let a ← vset c2.active token true
      pure (token, { c2 with mapping := m, active := a })

/-- Modelled from the spec: the loop over the branch slots that gives each slot a
Location of its own (in `substitution-cache.C`): each slot gets a Location from
`get_unused_location`; that Location has one user and is not up to date. -/
def init_token_loop [Inhabited Matrix] (token : Int) :
    List Nat → Multi_Likelihood_Cache Matrix → Except Fault (Multi_Likelihood_Cache Matrix)
  | [], c => .ok c
  | b :: rest, c => do
      let r ← c.get_unused_location
      let c2 ← r.2.set_mapping token b r.1
      init_token_loop token rest c2

/-- Modelled from the spec: "allocates fresh, unshared Locations for every branch slot of
the token" (in `substitution-cache.C`), for a token whose slots are unmapped. -/
def allocate_slots [Inhabited Matrix] (c : Multi_Likelihood_Cache Matrix) (token : Int) :
    Except Fault (Multi_Likelihood_Cache Matrix) := do
  let row ← vget c.mapping token
  init_token_loop token (List.range row.length) c

/-- Modelled from the spec: the increment `n_uses[loc]++` of `copy_token` (body in
`substitution-cache.C`), "incrementing their reference counts". -/
def add_use (c : Multi_Likelihood_Cache Matrix) (loc : Int) :
    Except Fault (Multi_Likelihood_Cache Matrix) := do
  let n ← vget c.n_uses loc
  let nu ← vset c.n_uses loc (n + 1)
  pure { c with n_uses := nu }

/-- Modelled from the spec: the loop of `copy_token` over the Locations of the copied
mapping (body in `substitution-cache.C`). -/
def add_uses : List Int → Multi_Likelihood_Cache Matrix →
    Except Fault (Multi_Likelihood_Cache Matrix)
  | [], c => .ok c
  | loc :: rest, c => do
      let c1 ← c.add_use loc
      add_uses rest c1

/-- Modelled from the spec: the sharing step of `copy_token` (body in
`substitution-cache.C`), "makes dst's branch mapping identical to src's (sharing
Locations, incrementing their reference counts); no data is duplicated". -/
def share_slots (c : Multi_Likelihood_Cache Matrix) (token1 token2 : Int) :
    Except Fault (Multi_Likelihood_Cache Matrix) := do
  let row ← vget c.mapping token1
  let m ← vset c.mapping token2 row
  add_uses row { c with mapping := m }

/-- Modelled from the spec: the loop over the Locations of the branch slots of a token
that decrements their reference counts (in `substitution-cache.C`). -/
def release_locations : List Int → Multi_Likelihood_Cache Matrix →
    Except Fault (Multi_Likelihood_Cache Matrix)
  | [], c => .ok c
  | loc :: rest, c => do
      let c1 ← c.release_location loc
      release_locations rest c1

/-- Modelled from the spec: a token gives up the Locations of its branch slots (in
`substitution-cache.C`): "for every branch slot, decrements the mapped Location's
reference count (freeing it for reuse at zero)".  The slots are left unmapped: the count
of a Location is "the number of (token,branch) pairs currently mapped to it". -/
def unmap_token (c : Multi_Likelihood_Cache Matrix) (token : Int) :
    Except Fault (Multi_Likelihood_Cache Matrix) := do
  let row ← vget c.mapping token
  let c1 ← release_locations row c
  let m ← vset c1.mapping token (List.replicate row.length unmapped)
  pure { c1 with mapping := m }

/-- Modelled from the spec: `int claim_token(int C,int B)` (body in
`substitution-cache.C`), "acquires a token (reusing a free one if available) and
configures its column count and branch slot count; all branches begin invalid".  The
header reads the bit of a pair from the Location of its slot
(`up_to_date_[mapping[token][branch]]`), so every slot of the claimed token is given a
Location of its own, which is not up to date. -/
def claim_token [Inhabited Matrix] (c : Multi_Likelihood_Cache Matrix) (C B : Int) :
    Except Fault (Int × Multi_Likelihood_Cache Matrix) := do
  let r ← c.acquire_token C B
  let c2 ← r.2.allocate_slots r.1
  pure (r.1, c2)

/-- Modelled from the spec: `void init_token(int token)` (body in
`substitution-cache.C`), "allocates fresh, unshared Locations for every branch slot of the
token (used when a token must not share any storage)".  The token gives up the Locations
it holds, then every slot gets a Location of its own. -/
def init_token [Inhabited Matrix] (c : Multi_Likelihood_Cache Matrix) (token : Int) :
    Except Fault (Multi_Likelihood_Cache Matrix) := do
  let c1 ← c.unmap_token token
  c1.allocate_slots token

/-- Modelled from the spec: `void copy_token(int token1,int token2)` (body in
`substitution-cache.C`; the header: "setup token2 to point to cached likelihoods for
token1"), "makes dst's branch mapping identical to src's (sharing Locations, incrementing
their reference counts); no data is duplicated".  `token2` first gives up the Locations
it holds. -/
def copy_token (c : Multi_Likelihood_Cache Matrix) (token1 token2 : Int) :
    Except Fault (Multi_Likelihood_Cache Matrix) := do
  let c1 ← c.unmap_token token2
  c1.share_slots token1 token2

/-- Modelled from the spec: `void release_token(int token)` (body in
`substitution-cache.C`), "for every branch slot, decrements the mapped Location's
reference count (freeing it for reuse at zero) and marks the token inactive". -/
def release_token (c : Multi_Likelihood_Cache Matrix) (token : Int) :
    Except Fault (Multi_Likelihood_Cache Matrix) := do
  let c1 ← c.unmap_token token
  let a ← vset c1.active token false
  pure { c1 with active := a }

end Multi_Likelihood_Cache

/-- The class `Likelihood_Cache`, a view into the shared pool: `B` (the number of directed
branches plus one), the `token` and the `root`.  The pool itself is passed to each
function. -/
structure Likelihood_Cache where
  B : Int
  token : Int
  root : Int
deriving DecidableEq

namespace Likelihood_Cache

variable {Matrix : Type}

/-- The accessor `int scratch() const`: the scratch branch slot `B-1`. -/
def scratch (v : Likelihood_Cache) : Int := v.B - 1

/-- The accessor `int n_branches() const`: `B/2`. -/
def n_branches (v : Likelihood_Cache) : Int := Int.tdiv v.B 2

/-- The accessor `bool up_to_date(int b) const`. -/
def up_to_date (v : Likelihood_Cache) (cache : Multi_Likelihood_Cache Matrix) (b : Int) :
    Except Fault Bool :=
  cache.up_to_date v.token b

/-- The member `void validate_branch(int b)`. -/
def validate_branch (v : Likelihood_Cache) (cache : Multi_Likelihood_Cache Matrix) (b : Int) :
    Except Fault (Multi_Likelihood_Cache Matrix) :=
  cache.validate_branch v.token b

/-- Reading through `const std::vector<Matrix>& operator[](int b) const`:
`(*cache)[cache->location(token,b)]`. -/
def get_branch (v : Likelihood_Cache) (cache : Multi_Likelihood_Cache Matrix) (b : Int) :
    Except Fault (List Matrix) := do
  let loc ← cache.location v.token b
  vget cache.store loc

/-- Assigning `LC[b] = ms` through `std::vector<Matrix>& operator[](int b)`: the store goes
to `(*cache)[cache->location(token,b)]`. -/
def set_branch (v : Likelihood_Cache) (cache : Multi_Likelihood_Cache Matrix) (b : Int)
    (ms : List Matrix) : Except Fault (Multi_Likelihood_Cache Matrix) := do
  let loc ← cache.location v.token b
  let s ← vset cache.store loc ms
  pure { cache with store := s }

end Likelihood_Cache

/-! ### The bookkeeping of the pool -/

namespace Multi_Likelihood_Cache

variable {Matrix : Type}

/-- The entries of `mapping` that belong to active tokens, row after row. -/
def live_entries : List (List Int) → List Bool → List Int
  | row :: rows, a :: as => (if a then row else []) ++ live_entries rows as
  | _, _ => []

/-- The number of `(token,branch)` pairs of active tokens with
`mapping[token][branch] = loc`. -/
def n_live_pairs (c : Multi_Likelihood_Cache Matrix) (loc : Int) : Nat :=
  (live_entries c.mapping c.active).count loc

/-- The bookkeeping of the pool is consistent with `g v` users of each Location `v`:
the vectors indexed by Location have one length and those indexed by token have one
length, the stack of unused locations holds each Location at most once and only
Locations of count 0, every used value is a Location of the arena or `unmapped`, and
`n_uses[v] = g v`. -/
structure Inv (c : Multi_Likelihood_Cache Matrix) (g : Int → Nat) : Prop where
  len_flags : c.up_to_date_.length = c.n_uses.length
  len_store : c.store.length = c.n_uses.length
  len_active : c.active.length = c.mapping.length
  len_length : c.length.length = c.mapping.length
  free_nodup : c.unused_locations.Nodup
  free_zero : ∀ loc ∈ c.unused_locations, vget c.n_uses loc = .ok 0
  g_range : ∀ v, 0 < g v → v = unmapped ∨ (0 ≤ v ∧ v < (c.n_uses.length : Int))
  counts : ∀ v, 0 ≤ v → v < (c.n_uses.length : Int) → vget c.n_uses v = .ok (g v : Int)

/-- The pool invariant: the bookkeeping is consistent with the pairs of the active
tokens. -/
def PoolInv (c : Multi_Likelihood_Cache Matrix) : Prop := Inv c (n_live_pairs c)

/-- Token `token` is active. -/
@[reducible] def is_active (c : Multi_Likelihood_Cache Matrix) (token : Int) : Prop :=
  vget c.active token = .ok true

/-- Every branch slot of `token` is unmapped, as after `add_token`. -/
def all_unmapped (c : Multi_Likelihood_Cache Matrix) (token : Int) : Prop :=
  ∃ row, vget c.mapping token = .ok row ∧ ∀ v ∈ row, v = unmapped

/-- One more user of `loc`. -/
def bump (g : Int → Nat) (loc : Int) : Int → Nat := fun v => g v + if v = loc then 1 else 0

/-- One user of `loc` less. -/
def unbump (g : Int → Nat) (loc : Int) : Int → Nat := fun v => g v - if v = loc then 1 else 0

end Multi_Likelihood_Cache

namespace Multi_Likelihood_Cache

variable {Matrix : Type}

/-- The pool after `acquire_token` has configured token `t` of the pool `c1`: column
count `C`, `B` unmapped slots, active. -/
def claimed (c1 : Multi_Likelihood_Cache Matrix) (t : Int) (C B : Int) :
    Multi_Likelihood_Cache Matrix :=
  { c1 with length := c1.length.set t.toNat C
            mapping := c1.mapping.set t.toNat (List.replicate B.toNat unmapped)
            active := c1.active.set t.toNat true }

/-- The slots of the tokens agree with their state: every slot of an active token is
mapped to a Location, and every slot of an inactive token is unmapped. -/
def slots_settled (c : Multi_Likelihood_Cache Matrix) : Prop :=
  ∀ t b loc : Int, location c t b = .ok loc →
    (is_active c t → 0 ≤ loc) ∧ (¬ is_active c t → loc = unmapped)

/-- The states of a pool that its clients reach through the token operations, from the
empty pool: `add_token` and `claim_token`; `init_token`, `invalidate_one_branch`,
`invalidate_all` and `release_token` on a token in use; `copy_token` from a token in use
to another token in use; `validate_branch`; and a store through `operator[]`.  Each step
is a call that returns normally. -/
inductive Reachable [Inhabited Matrix] : Multi_Likelihood_Cache Matrix → Prop where
  | empty (M S : Int) : Reachable (empty M S)
  | add_token {c : Multi_Likelihood_Cache Matrix} (B : Int) :
      Reachable c → Reachable (c.add_token B).2
  | claim_token {c c' : Multi_Likelihood_Cache Matrix} (C B token : Int) :
      Reachable c → c.claim_token C B = .ok (token, c') → Reachable c'
  | init_token {c c' : Multi_Likelihood_Cache Matrix} (token : Int) :
      Reachable c → is_active c token → c.init_token token = .ok c' → Reachable c'
  | copy_token {c c' : Multi_Likelihood_Cache Matrix} (token1 token2 : Int) :
      Reachable c → is_active c token1 → is_active c token2 → token1 ≠ token2 →
      c.copy_token token1 token2 = .ok c' → Reachable c'
  | validate_branch {c c' : Multi_Likelihood_Cache Matrix} (token b : Int) :
      Reachable c → c.validate_branch token b = .ok c' → Reachable c'
  | invalidate_one_branch {c c' : Multi_Likelihood_Cache Matrix} (token b : Int) :
      Reachable c → is_active c token → c.invalidate_one_branch token b = .ok c' →
      Reachable c'
  | invalidate_all {c c' : Multi_Likelihood_Cache Matrix} (token : Int) :
      Reachable c → is_active c token → c.invalidate_all token = .ok c' → Reachable c'
  | set_branch {c c' : Multi_Likelihood_Cache Matrix} (v : Likelihood_Cache) (b : Int)
      (ms : List Matrix) :
      Reachable c → v.set_branch c b ms = .ok c' → Reachable c'
  | release_token {c c' : Multi_Likelihood_Cache Matrix} (token : Int) :
      Reachable c → is_active c token → c.release_token token = .ok c' → Reachable c'

end Multi_Likelihood_Cache

/-- Copy-on-write isolation of branch `b` between the views `vA` and `vB`, in the pool
`c'` and relative to the earlier pool `c`: the matrices read through `vA` for branch `b`
are those of `c`, the two views hold branch `b` on different Locations, and every other
branch `b'` of the `nb` branch slots is on one Location for both views, with use-count at
least 2. -/
def cow_isolated {Matrix : Type} (vA vB : Likelihood_Cache) (nb : Nat) (b : Int)
    (c c' : Multi_Likelihood_Cache Matrix) : Prop :=
  vA.get_branch c' b = vA.get_branch c b ∧
  (∃ la lb, c'.location vA.token b = .ok la ∧ c'.location vB.token b = .ok lb ∧ la ≠ lb) ∧
  ∀ b' : Int, 0 ≤ b' → b' < (nb : Int) → b' ≠ b →
    ∃ (l n : Int), c'.location vA.token b' = .ok l ∧ c'.location vB.token b' = .ok l ∧
      vget c'.n_uses l = .ok n ∧ 2 ≤ n

/-- A store through `operator[]` of the view `vB` is in place: in the pool `c'` after
the store, relative to the pool `c` before it, the view `vA` reads the written matrices
`ms` for branch `b`, and the two views hold branch `b` on one Location as before. -/
def stored_in_place {Matrix : Type} (vA vB : Likelihood_Cache) (b : Int) (ms : List Matrix)
    (c c' : Multi_Likelihood_Cache Matrix) : Prop :=
  vA.get_branch c' b = .ok ms ∧ c'.mapping = c.mapping ∧ c'.n_uses = c.n_uses ∧
  ∃ l, c'.location vA.token b = .ok l ∧ c'.location vB.token b = .ok l

/-! ### Some states of a pool of one model and four states

`pool_init` is the empty pool after `claim_token(1,2)`, `pool_two` is `pool_init` after a
second `claim_token(1,2)`, and `pool_copied` is `pool_two` after `copy_token(0,1)`. -/

/-- The pool after the first `claim_token`: token 0 is active and holds the Locations 0
and 1, which are not up to date. -/
def pool_init : Multi_Likelihood_Cache Nat :=
  { C := 0, M := 1, S := 4, store := [[], []], mapping := [[0, 1]], n_uses := [1, 1],
    unused_locations := [], active := [true], length := [1], up_to_date_ := [0, 0],
    cv_up_to_date_ := [0] }

/-- The pool after the second `claim_token`: token 1 is active and holds the Locations 2
and 3. -/
def pool_two : Multi_Likelihood_Cache Nat :=
  { C := 0, M := 1, S := 4, store := [[], [], [], []], mapping := [[0, 1], [2, 3]],
    n_uses := [1, 1, 1, 1], unused_locations := [], active := [true, true],
    length := [1, 1], up_to_date_ := [0, 0, 0, 0], cv_up_to_date_ := [0, 0] }

/-- The pool `pool_two` after `copy_token(0,1)`: both tokens hold the Locations 0 and 1,
and the Locations 2 and 3 are free. -/
def pool_copied : Multi_Likelihood_Cache Nat :=
  { C := 0, M := 1, S := 4, store := [[], [], [], []], mapping := [[0, 1], [0, 1]],
    n_uses := [2, 2, 0, 0], unused_locations := [3, 2], active := [true, true],
    length := [1, 1], up_to_date_ := [0, 0, 0, 0], cv_up_to_date_ := [0, 0] }

/-- A pool of two Locations in which both tokens hold the Locations 0 and 1. -/
def pool_shared : Multi_Likelihood_Cache Nat :=
  { C := 0, M := 1, S := 4, store := [[], []], mapping := [[0, 1], [0, 1]],
    n_uses := [2, 2], unused_locations := [], active := [true, true], length := [1, 1],
    up_to_date_ := [0, 0], cv_up_to_date_ := [0, 0] }

/-! ## `substitution-cache.H`: the column accessors of `Likelihood_Cache` -/

namespace Likelihood_Cache

variable {Matrix : Type}

/-- The accessor `int get_length() const`: `cache->get_length(token)`. -/
def get_length (v : Likelihood_Cache) (cache : Multi_Likelihood_Cache Matrix) :
    Except Fault Int :=
  cache.get_length v.token

/-- Reading through `const Matrix& operator()(int i,int b) const`: the Location is looked
up first, then `assert(0 <= i and i < get_length())`, then `(*cache)[loc][i]`. -/
def get_matrix (v : Likelihood_Cache) (cache : Multi_Likelihood_Cache Matrix) (i b : Int) :
    Except Fault Matrix := do
  let loc ← cache.location v.token b
  let len ← v.get_length cache
  if ¬ (0 ≤ i ∧ i < len) then throw .assertion_failed
  else do
    let ms ← vget cache.store loc
    vget ms i

/-- Reading through `const Matrix& scratch(int i) const`: as `operator()` on the slot
`B-1`. -/
def scratch_matrix (v : Likelihood_Cache) (cache : Multi_Likelihood_Cache Matrix) (i : Int) :
    Except Fault Matrix := do
  let loc ← cache.location v.token (v.B - 1)
  let len ← v.get_length cache
  if ¬ (0 ≤ i ∧ i < len) then throw .assertion_failed
  else do
    let ms ← vget cache.store loc
    vget ms i

end Likelihood_Cache

/-- An index that `mapping[token][branch]` cannot serve: `token` is no index of `mapping`,
or `branch` is no index of the row of `token`. -/
def slot_out_of_range {Matrix : Type} (c : Multi_Likelihood_Cache Matrix)
    (token branch : Int) : Prop :=
  ¬ (0 ≤ token ∧ token < (c.mapping.length : Int)) ∨
  ∃ row, vget c.mapping token = .ok row ∧ ¬ (0 ≤ branch ∧ branch < (row.length : Int))

/-! ## `alignment.C`: `get_path` -/

/-- The loop of `get_path` over the columns; `state` is the vector built so far.  The
member `alignment::gap(column,node)` is declared in `alignment.H`, which is not among the
embedded sources, and is a parameter. -/
def get_path_loop (gap : alignment → Nat → Int → Bool) (A : alignment) (node1 node2 : Int) :
    List Nat → List Int → List Int
  | [], state => state
  | column :: rest, state =>
      if gap A column node1 then
        if gap A column node2 then get_path_loop gap A node1 node2 rest state
        else get_path_loop gap A node1 node2 rest (state ++ [1])
      else
        if gap A column node2 then get_path_loop gap A node1 node2 rest (state ++ [2])
        else get_path_loop gap A node1 node2 rest (state ++ [0])

/-- The function `get_path(A,node1,node2)`: one state per column in which the two nodes
are not both gaps, then the terminal state `3`. -/
def get_path (gap : alignment → Nat → Int → Bool) (A : alignment) (node1 node2 : Int) :
    List Int :=
  get_path_loop gap A node1 node2 (List.range A.length) [] ++ [3]

/-- The columns of `A` that satisfy `p`, counted. -/
def count_columns (A : alignment) (p : Nat → Bool) : Nat :=
  ((List.range A.length).filter p).length

/-- An alignment of four columns and two sequences; the entry `-1` is a gap. -/
def path4_A : alignment :=
  ⟨⟨4, 2, fun c s => if (c = 1 ∧ s = 0) ∨ (c = 2 ∧ s = 1) ∨ c = 3 then -1 else 0⟩⟩

/-- The gap test of `path4_A`: the entry is `-1`. -/
def path4_gap : alignment → Nat → Int → Bool := fun A c n => A.array.elem c n.toNat == -1

/-- The state that `get_path` records for one column: `0` when both nodes have a
character, `1` when only `node2` has one, `2` when only `node1` has one, and nothing when
both are gaps. -/
def column_state (gap : alignment → Nat → Int → Bool) (A : alignment) (node1 node2 : Int)
    (column : Nat) : Option Int :=
  if gap A column node1 then
    if gap A column node2 then none else some 1
  else
    if gap A column node2 then some 2 else some 0

/-! ## `alignment-constraint.C`: `constraint_satisfied` and `report_constraints` -/

/-- The function `constraint_satisfied(constraint,A)`: bit `i` is
`columns[i] != -1`, for the `columns` of `constraint_columns`. -/
def constraint_satisfied (column_lookup : alignment → List (List Int))
    (constraint : IntMatrix) (A : alignment) : Except Fault (List Bool) := do
  let columns ← constraint_columns column_lookup constraint A
  pure (columns.map (fun c => c != -1))

/-- The local function `sum(v)`: the number of set bits. -/
def sum (v : List Bool) : Int := (v.count true : Int)

/-- The message of the exception of `report_constraints` for constraint `i`. -/
def unsatisfied_msg (i : Nat) : String :=
  "Constraint " ++ toString i ++ " went from satisfied -> unsatisfied!"

/-- The loop of `report_constraints` over the constraints `i`; `log` is the text written
to `std::cerr` so far. -/
def report_constraints_loop (s1 s2 : List Bool) :
    List Nat → List String → Except Fault (List String)
  | [], log => .ok log
  | i :: rest, log => do
      let a ← vget s1 i
      let b ← vget s2 i
      if a && !b then throw (.exception (unsatisfied_msg i))
      else
        report_constraints_loop s1 s2 rest
          (if b && !a then log ++ ["Constraint " ++ toString i ++ " satisfied.\n"] else log)

/-- The end of `report_constraints`: the summary lines written when the number of
satisfied constraints changed. -/
def report_constraints_summary (s1 s2 : List Bool) (log : List String) : List String :=
  if sum s1 ≠ sum s2 then
    if sum s2 = (s2.length : Int) then
      log ++ [toString (sum s2) ++ "/" ++ toString s2.length ++ " constraints satisfied.\n",
              "All constraints satisfied.\n"]
    else log ++ [toString (sum s2) ++ "/" ++ toString s2.length ++ " constraints satisfied.\n"]
  else log

/-- The function `report_constraints(s1,s2)`; the value returned is the text written to
`std::cerr`. -/
def report_constraints (s1 s2 : List Bool) : Except Fault (List String) :=
  if s1.length ≠ s2.length then .error .assertion_failed
  else if s1.length = 0 then .ok []
  else do
    let log ← report_constraints_loop s1 s2 (List.range s1.length) []
    pure (report_constraints_summary s1 s2 log)

/-- Some constraint went from satisfied (set in `s1`) to unsatisfied (clear in `s2`). -/
def went_unsatisfied (s1 s2 : List Bool) : Prop :=
  ∃ i : Nat, s1[i]? = some true ∧ s2[i]? = some false

/-! ## `util.H`: `compute_mapping` -/

/-- The exception `bad_mapping<T>`: the element `missing`, the side `from_` (the member
`from`: 0 when `v2` lacks an element of `v1`, 1 for the converse) and the message. -/
structure bad_mapping (T : Type) where
  missing : T
  from_ : Int
  msg : String
deriving DecidableEq

/-- The inner loop of `compute_mapping` for one element `x` of `v1`: `target` becomes the
first `j` with `x == v2[j]` (the loop ends at the first match), and stays `-1` when there
is none.  The list argument is `v2` from position `j` on. -/
def compute_mapping_target {T : Type} [DecidableEq T] (x : T) : List T → Nat → Int
  | [], _ => -1
  | y :: rest, j => if x = y then (j : Int) else compute_mapping_target x rest (j + 1)

/-- The outer loop of `compute_mapping` over the elements of `v1`. -/
def compute_mapping_loop {T : Type} [DecidableEq T] (v2 : List T) :
    List T → Except (bad_mapping T) (List Int)
  | [] => .ok []
  | x :: rest =>
      if compute_mapping_target x v2 0 = -1 then
        .error ⟨x, 0, "Vector v2 does not contain all elements of v1!"⟩
      else do
        let mapping ← compute_mapping_loop v2 rest
        pure (compute_mapping_target x v2 0 :: mapping)

/-- The template `compute_mapping(v1,v2)`.  When `v1` is shorter than `v2` it calls
itself on `(v2,v1)` and turns a `bad_mapping` of that call into one with `from = 1`. -/
def compute_mapping {T : Type} [DecidableEq T] (v1 v2 : List T) :
    Except (bad_mapping T) (List Int) :=
  match compute_mapping_loop v2 v1 with
  | .error b => .error b
  | .ok mapping =>
      if v1.length < v2.length then
        match compute_mapping v2 v1 with
        | .error b => .error ⟨b.missing, 1, "Vector v1 does not contain all elements of v2!"⟩
        | .ok _ => .ok mapping
      else .ok mapping
termination_by (if v1.length < v2.length then 1 else 0 : Nat)
decreasing_by
  have hlt : v1.length < v2.length := by assumption
  rw [if_pos hlt, if_neg (by omega)]
  exact Nat.zero_lt_one

/-! ## `alignment-constraint.C`: what `constraint_columns` computes -/

/-- The expression `column_indices[j][r]` of `constraint_columns`: the alignment column of
residue `r` of sequence `j`, in the table made by `column_lookup`. -/
def residue_column (column_indices : List (List Int)) (j : Nat) (r : Int) : Except Fault Int := do
  let residues ← vget column_indices j
  vget residues r

/-- Row `i` of the constraint matrix has at least one constrained residue (an entry other
than `-1`) and all its constrained residues lie in alignment column `c`. -/
def all_in_column (column_indices : List (List Int)) (constraint : IntMatrix) (i : Nat)
    (c : Int) : Prop :=
  (∃ j, j < constraint.size2 ∧ constraint.elem i j ≠ -1) ∧
  ∀ j, j < constraint.size2 → constraint.elem i j ≠ -1 →
    residue_column column_indices j (constraint.elem i j) = .ok c

/-- Every constrained residue is a residue of its sequence: the table of `column_lookup`
holds an alignment column (a non-negative number) for it. -/
def residues_exist (column_indices : List (List Int)) (constraint : IntMatrix) : Prop :=
  ∀ i j, i < constraint.size1 → j < constraint.size2 → constraint.elem i j ≠ -1 →
    ∃ c, residue_column column_indices j (constraint.elem i j) = .ok c ∧ 0 ≤ c

/-- Row `i` of the constraint matrix has a constrained residue in a sequence of `group`. -/
def has_residue_in (group : List Bool) (constraint : IntMatrix) (i : Nat) : Prop :=
  ∃ j, j < constraint.size2 ∧ group[j]? = some true ∧ constraint.elem i j ≠ -1

/-- All constrained residues of row `i` are in sequences of `group`. -/
def all_residues_in (group : List Bool) (constraint : IntMatrix) (i : Nat) : Prop :=
  ∀ j, j < constraint.size2 → constraint.elem i j ≠ -1 → group[j]? = some true

/-- The two groups share no sequence: they are the two sides of a split of the tree. -/
def groups_disjoint (group1 group2 : List Bool) : Prop :=
  ∀ j : Nat, ¬ (group1[j]? = some true ∧ group2[j]? = some true)

/-- Constraint row `i` is satisfied in alignment column `column` (the value of
`constraint_columns`, not `-1`) and has a constrained residue in `group1` and one in
`group2`. -/
def enforced_row (columns : List Int) (constraint : IntMatrix) (group1 group2 : List Bool)
    (i : Nat) (column : Int) : Prop :=
  columns[i]? = some column ∧ column ≠ -1 ∧
  has_residue_in group1 constraint i ∧ has_residue_in group2 constraint i

/-- The constraint matrix with row `i` constraining nothing: every entry of the row
is `-1`. -/
def blank_row (constraint : IntMatrix) (i : Nat) : IntMatrix :=
  ⟨constraint.size1, constraint.size2, fun r j => if r = i then -1 else constraint.elem r j⟩

/-- The constraints of `run3_constraint` with the residue of the second sequence removed
from row 2: the constrained residues of row 2 all lie in the first sequence. -/
def run3_one_sided : IntMatrix := ⟨3, 2, fun i j => if i = 2 ∧ j = 1 then -1 else (i : Int)⟩

/-! ## `alignment-constraint.C`: `clean` and `load_alignment_constraint`

A `std::string` is a list of characters.  The helpers `split` and `getline_handle_dos`
(`util.C`) and the class `SequenceTree` are not among the embedded sources: `split` is a
parameter, the file is the list of the lines that `getline_handle_dos` reads from it, and
of the tree the embedding keeps the results of `n_leaves()` and `get_sequences()`.  The
stream extraction of `convertTo<int>` (`util.H`) is the parameter `read_int`. -/

/-- The constant `alphabet::gap` (`alphabet.H`). -/
def alphabet_gap : Int := -1

/-- The loop of `clean(in)`: a character is appended unless it is a space that follows a
space (or starts the string); `c` is the character appended last. -/
def clean_loop : List Char → List Char → Char → List Char
  | [], out, _ => out
  | x :: rest, out, c =>
      if x ≠ ' ' ∨ c ≠ ' ' then clean_loop rest (out ++ [x]) x else clean_loop rest out c

/-- The function `clean(in)`: runs of spaces collapse to one space, leading spaces go, and
the one space that may remain at the end is stripped. -/
def clean (s : List Char) : List Char :=
  if (clean_loop s [] ' ').length > 0 ∧ (clean_loop s [] ' ').getLast? = some ' '
  then (clean_loop s [] ' ').dropLast else clean_loop s [] ' '

/-- The loop `while (loc > 0 and line[loc-1] == ' ') loc--` of
`load_alignment_constraint`. -/
def strip_trailing (text : List Char) : Nat → Nat
  | 0 => 0
  | loc + 1 => if text[loc]? = some ' ' then strip_trailing text loc else loc + 1

/-- The text of a line that `load_alignment_constraint` keeps: it stops before the comment
marker `#` (`line.find`; no marker is `-1`, then `loc` is the length of the line), and the
spaces before that point are stripped (`line.substr(0,loc)`). -/
def strip_comment (line : List Char) : List Char :=
  line.take (strip_trailing line
    (if find_index line '#' = -1 then line.length else (find_index line '#').toNat))

/-- The template `convertTo<int>(s)` of `util.H`: the value that the stream extraction
`read_int` gives, or the exception `String ... is not of type ...` (the type name is
`typeid(int).name()`). -/
def convertTo_int (read_int : List Char → Option Int) (s : List Char) : Except Fault Int :=
  match read_int s with
  | some t => .ok t
  | none => .error (.exception ("String '" ++ String.mk s ++ "' is not of type i"))

/-- The message of the exception for a line with a wrong number of entries. -/
def entries_msg (line_no : Int) (entries n_leaves : Nat) : String :=
  "constraint: line " ++ toString line_no ++ " only has " ++ toString entries ++ "/" ++
    toString n_leaves ++ " entries."

/-- The message of the exception for a negative index. -/
def negative_msg (line_no index : Int) (name : List Char) (entry : Nat) : String :=
  "constraint: line " ++ toString line_no ++ " has negative index '" ++ toString index ++
    "' for species '" ++ String.mk name ++ "' (entry " ++ toString entry ++ ")."

/-- The loop of `load_alignment_constraint` over the entries of one line, from entry `i`
on: `-` stores `alphabet::gap` at `c_line[mapping[i]]`, a number is converted, refused
when negative, stored at `c_line[mapping[i]]` and counted in `n_characters`. -/
def parse_entries (read_int : List Char → Option Int) (names : List (List Char))
    (mapping : List Int) (line_no : Int) :
    List (List Char) → Nat → List Int → Int → Except Fault (List Int × Int)
  | [], _, c_line, n_characters => .ok (c_line, n_characters)
  | e :: rest, i, c_line, n_characters =>
      if e = ['-'] then do
        let m ← vget mapping i
        let c ← vset c_line m alphabet_gap
        parse_entries read_int names mapping line_no rest (i + 1) c n_characters
      else do
        let index ← convertTo_int read_int e
        if index < 0 then do
          let name ← vget names i
          throw (.exception (negative_msg line_no index name (i + 1)))
        else do
          let m ← vget mapping i
          let c ← vset c_line m index
          parse_entries read_int names mapping line_no rest (i + 1) c (n_characters + 1)

/-- The body of the line loop of `load_alignment_constraint` for one line: the result is
the constraint that the line adds, if it adds one. -/
def parse_line (split : List Char → Char → List (List Char))
    (read_int : List Char → Option Int) (n_leaves : Nat) (names : List (List Char))
    (mapping : List Int) (line_no : Int) (line : List Char) :
    Except Fault (Option (List Int)) :=
  if (strip_comment line).length = 0 then .ok none
  else if (split (clean (strip_comment line)) ' ').length ≠ n_leaves then
    .error (.exception
      (entries_msg line_no (split (clean (strip_comment line)) ' ').length n_leaves))
  else do
    let r ← parse_entries read_int names mapping line_no
      (split (clean (strip_comment line)) ' ') 0 (List.replicate n_leaves 0) 0
    if r.2 ≥ 2 then pure (some r.1) else pure none

/-- The line loop of `load_alignment_constraint`; `line_no` counts the lines read so far
and `constraints` holds the constraints added so far. -/
def load_lines (split : List Char → Char → List (List Char))
    (read_int : List Char → Option Int) (n_leaves : Nat) (names : List (List Char))
    (mapping : List Int) :
    List (List Char) → Int → List (List Int) → Except Fault (List (List Int))
  | [], _, constraints => .ok constraints
  | line :: rest, line_no, constraints => do
      let r ← parse_line split read_int n_leaves names mapping (line_no + 1) line
      match r with
      | some c_line =>
          load_lines split read_int n_leaves names mapping rest (line_no + 1)
            (constraints ++ [c_line])
      | none => load_lines split read_int n_leaves names mapping rest (line_no + 1) constraints

/-- What the embedding keeps of a `SequenceTree`: the results of `n_leaves()` and of
`get_sequences()`. -/
structure SequenceTree where
  n_leaves : Nat
  sequences : List (List Char)

/-- The complaints about the names, one line for each name of `names` that `others`
lacks. -/
def missing_names (names others : List (List Char)) (found absent : String) : String :=
  String.join ((names.filter (fun n => !others.contains n)).map
    (fun n => "'" ++ String.mk n ++ "' found in " ++ found ++ " but not " ++ absent ++ ".\n"))

/-- The message of the exception thrown when the header does not match the tree. -/
def header_msg (filename : List Char) (names sequences : List (List Char)) : String :=
  "Problem loading alignment constraints from file '" ++ String.mk filename ++ "':\n" ++
  (if names.length ≠ sequences.length then
    "Data set contains " ++ toString sequences.length ++
      " sequences but alignment-constraint header has " ++ toString names.length ++ " names.\n"
   else "") ++
  missing_names names sequences "header" "data set" ++
  missing_names sequences names "data set" "in header"

/-- The loading of the rows into the matrix: `constraint.resize(constraints.size(),
T.n_leaves())`, then `constraint(i,j) = constraints[i][j]`. -/
def matrix_of_rows (constraints : List (List Int)) (n_leaves : Nat) : IntMatrix :=
  ⟨constraints.length, n_leaves, fun i j => (constraints.getD i []).getD j 0⟩

/-- The function `load_alignment_constraint(filename,T)`.  `open_file` gives the lines of
a file that can be opened; the first is the header. -/
def load_alignment_constraint (split : List Char → Char → List (List Char))
    (read_int : List Char → Option Int) (open_file : List Char → Option (List (List Char)))
    (filename : List Char) (T : SequenceTree) : Except Fault IntMatrix :=
  if filename.length = 0 then .ok (matrix_of_rows [] T.n_leaves)
  else
    match open_file filename with
    | none => .error (.exception
        ("Couldn't open alignment-constraint file \"" ++ String.mk filename ++ "\"."))
    | some lines =>
        match compute_mapping (split (clean (lines.headD [])) ' ') T.sequences with
        | .error _ => .error (.exception
            (header_msg filename (split (clean (lines.headD [])) ' ') T.sequences))
        | .ok mapping => do
            let constraints ← load_lines split read_int T.n_leaves
              (split (clean (lines.headD [])) ' ') mapping lines.tail 0 []
            pure (matrix_of_rows constraints T.n_leaves)

/-- Row `i` of a matrix, as a list. -/
def IntMatrix.row (M : IntMatrix) (i : Nat) : List Int :=
  (List.range M.size2).map (M.elem i)

/-! ### What a constraint line says -/

/-- The entries of a line: the pieces of the cleaned text before the comment marker. -/
def line_entries (split : List Char → Char → List (List Char)) (line : List Char) :
    List (List Char) :=
  split (clean (strip_comment line)) ' '

/-- The value that a well-formed entry stands for: `alphabet::gap` for `-`, the index for
a number that is not negative; other entries have none. -/
def entry_value (read_int : List Char → Option Int) (e : List Char) : Option Int :=
  if e = ['-'] then some alphabet_gap
  else
    match read_int e with
    | some v => if v < 0 then none else some v
    | none => none

/-- A line that is ignored: nothing is left of it before the comment marker once the
trailing spaces are stripped (a blank line, or a comment alone). -/
def line_ignored (line : List Char) : Prop := strip_comment line = []

/-- A line with one entry for each leaf, each entry `-` or a non-negative index. -/
def line_well_formed (split : List Char → Char → List (List Char))
    (read_int : List Char → Option Int) (n_leaves : Nat) (line : List Char) : Prop :=
  (line_entries split line).length = n_leaves ∧
  ∀ e ∈ line_entries split line, ∃ v, entry_value read_int e = some v

/-- The number of characters that a line constrains: its entries other than `-`. -/
def n_characters (split : List Char → Char → List (List Char)) (line : List Char) : Nat :=
  (line_entries split line).countP (fun e => e != ['-'])

/-- A line that adds a constraint: it is not ignored and constrains at least two
characters. -/
def line_kept (split : List Char → Char → List (List Char)) (line : List Char) : Bool :=
  decide (strip_comment line ≠ []) && decide (2 ≤ n_characters split line)

/-- The row `row` holds the constraint of the line `line`: one entry per leaf, each entry
`-1` or not negative, at least two entries other than `-1`, and the value of entry `k` of
the line is stored in column `mapping[k]`, the column of the species that the header
names at position `k` (unless a later entry of the line is stored in that same
column). -/
def row_from_line (split : List Char → Char → List (List Char))
    (read_int : List Char → Option Int) (n_leaves : Nat) (mapping : List Int)
    (row : List Int) (line : List Char) : Prop :=
  row.length = n_leaves ∧
  (∀ x ∈ row, x = -1 ∨ 0 ≤ x) ∧
  2 ≤ row.countP (fun x => x != -1) ∧
  ∀ (k : Nat) (e : List Char) (m : Int), (line_entries split line)[k]? = some e →
    mapping[k]? = some m →
    (∀ k2, k < k2 → k2 < (line_entries split line).length → mapping[k2]? ≠ some m) →
    ∃ v, entry_value read_int e = some v ∧ vget row m = .ok v

/-! ### A constraint file of four lines

The header `a b`, then `1 2 # first`, a blank line, `3 -` and `  4   5 `, read for a tree
whose leaves are `b, a`.  The helpers used for the run split a text at a character and
read a number written in decimal digits. -/

/-- The pieces of a text between the occurrences of `c`; `cur` is the piece being read. -/
def split_on (c : Char) : List Char → List Char → List (List Char)
  | [], cur => [cur]
  | x :: rest, cur => if x = c then cur :: split_on c rest [] else split_on c rest (cur ++ [x])

/-- The number written by a list of decimal digits, after the digits read so far. -/
def read_digits : List Char → Nat → Option Nat
  | [], acc => some acc
  | ch :: rest, acc =>
      if '0' ≤ ch ∧ ch ≤ '9' then read_digits rest (10 * acc + (ch.toNat - 48)) else none

/-- A number written in decimal digits, with an optional sign `-`. -/
def read_decimal : List Char → Option Int
  | [] => none
  | '-' :: rest => if rest = [] then none else (read_digits rest 0).map (fun n => -(n : Int))
  | ch :: rest => (read_digits (ch :: rest) 0).map (fun n => (n : Int))

/-- The name of the example file. -/
def file4_name : List Char := ['c']

/-- The lines of the example file. -/
def file4_lines : List (List Char) :=
  [['a', ' ', 'b'],
   ['1', ' ', '2', ' ', '#', ' ', 'f', 'i', 'r', 's', 't'],
   [],
   ['3', ' ', '-'],
   [' ', ' ', '4', ' ', ' ', ' ', '5', ' ']]

/-- The file system of the example: the one file `c`. -/
def file4_open : List Char → Option (List (List Char)) :=
  fun name => if name = file4_name then some file4_lines else none

/-- The tree of the example: two leaves, named `b` and `a`. -/
def file4_T : SequenceTree := ⟨2, [['b'], ['a']]⟩

/-- The lines of a second file: the header `a b` and the line `1 -2`, which holds a
negative index. -/
def file5_lines : List (List Char) := [['a', ' ', 'b'], ['1', ' ', '-', '2']]

/-- The file system with the second file under the name `c`. -/
def file5_open : List Char → Option (List (List Char)) :=
  fun name => if name = file4_name then some file5_lines else none

/-! ## `util.H`: `wrap` -/

/-- The step `if (x < 0) x = -x` of `wrap`. -/
def wrap_flip (x : Int) : Int := if x < 0 then -x else x

/-- The steps `int n = (int)(x/(2*max)); x -= n*2*max` of `wrap`; the division of `int`s
truncates. -/
def wrap_reduce (x max : Int) : Int := x - Int.tdiv x (2 * max) * 2 * max

/-- The step `if (x > max) x = max*2 - x` of `wrap`. -/
def wrap_reflect (x max : Int) : Int := if x > max then max * 2 - x else x

/-- The template `wrap(x,max)` at the type `int`: `x` reflected at the boundaries `0` and
`max`, with the closing `assert(x >= 0 and x <= max)`.  The embedding describes the
executions in which no operation overflows. -/
def wrap (x max : Int) : Except Fault Int :=
  if max = 0 then .ok 0
  else if ¬ (wrap_reflect (wrap_reduce (wrap_flip x) max) max ≥ 0 ∧
      wrap_reflect (wrap_reduce (wrap_flip x) max) max ≤ max) then .error .assertion_failed
  else .ok (wrap_reflect (wrap_reduce (wrap_flip x) max) max)

/-- The template `wrap(x,min,max)` at the type `int`: `wrap(x-min,max-min)+min`. -/
def wrap_min_max (x min max : Int) : Except Fault Int := do
  let r ← wrap (x - min) (max - min)
  pure (r + min)

/-! ## `util.H`: `split<T>`, and `setup.C`: `parse_partitions_and_model` -/

/-- The loop of the template `split<T>(s,c)` at `T = int`: each piece is converted with
`convertTo<int>` and appended. -/
def split_int_loop (read_int : List Char → Option Int) :
    List (List Char) → List Int → Except Fault (List Int)
  | [], vT => .ok vT
  | piece :: rest, vT => do
      let t ← convertTo_int read_int piece
      split_int_loop read_int rest (vT ++ [t])

/-- The template `split<T>(s,c)` at `T = int`: the pieces of `split(s,c)`, converted. -/
def split_int (split : List Char → Char → List (List Char))
    (read_int : List Char → Option Int) (s : List Char) (c : Char) : Except Fault (List Int) :=
  split_int_loop read_int (split s c) []

/-- The function `parse_partitions_and_model(model,partitions)`.  The result holds the
returned string and the final value of the reference parameter `partitions`, which is
cleared first whatever it held. -/
def parse_partitions_and_model (split : List Char → Char → List (List Char))
    (read_int : List Char → Option Int) (model : List Char) (_partitions : List Int) :
    Except Fault (List Char × List Int) :=
  if find_index model ':' = -1 then .ok (model, [])
  else do
    let partitions ← split_int split read_int (model.take (find_index model ':').toNat) ','
    pure (model.drop ((find_index model ':').toNat + 1), partitions)

/-! ## `util.H`: when `compute_mapping` throws -/

/-- The first element of `v1` that does not occur in `v2`, if there is one. -/
def first_missing {T : Type} [DecidableEq T] (v1 v2 : List T) : Option T :=
  v1.find? (fun x => decide (x ∉ v2))

/-- The message of the `bad_mapping` thrown for an element of `v1` that `v2` lacks. -/
def missing_in_v2_msg : String := "Vector v2 does not contain all elements of v1!"

/-- The message of the `bad_mapping` thrown for an element of `v2` that `v1` lacks. -/
def missing_in_v1_msg : String := "Vector v1 does not contain all elements of v2!"

/-! ## `tools/alignment-cat.C`: `get_mapping` and `concatenate`

The class `sequence` (`sequence.H`) is not among the embedded sources: it is a
`std::string` of letters that carries a `name` and a `comment`. -/

/-- A `sequence`: the letters (the `std::string` base), the name and the comment. -/
structure sequence where
  name : List Char
  comment : List Char
  letters : List Char
deriving DecidableEq

namespace alignment_cat

/-- The function `get_mapping(S1,S2)` of `alignment-cat.C`: `compute_mapping` on the names,
with the message of a `bad_mapping` rewritten. -/
def get_mapping (S1 S2 : List sequence) : Except (bad_mapping (List Char)) (List Int) :=
  match compute_mapping (S1.map (fun s => s.name)) (S2.map (fun s => s.name)) with
  | .ok mapping => .ok mapping
  | .error b =>
      .error ⟨b.missing, b.from_,
        if b.from_ = 0 then "Couldn't find sequence '" ++ String.mk b.missing ++ "'."
        else "Extra sequence '" ++ String.mk b.missing ++
          "' not contained in earlier alignments."⟩

/-- The loop of `concatenate` over the positions `i`; `S` starts as a copy of `S1`, and
`(string&)S[i] = S1[i] + S2[mapping[i]]` replaces the letters of `S[i]`.  The mapping is
computed anew in every round. -/
def concatenate_loop (S1 S2 : List sequence) :
    List Nat → List sequence → Except Fault (List sequence)
  | [], S => .ok S
  | i :: rest, S =>
      match get_mapping S1 S2 with
      | .error b => .error (.exception b.msg)
      | .ok mapping => do
          let s1 ← vget S1 i
          let m ← vget mapping i
          let s2 ← vget S2 m
          let s ← vget S i
          let S_next ← vset S i { s with letters := s1.letters ++ s2.letters }
          concatenate_loop S1 S2 rest S_next

/-- The function `concatenate(S1,S2)`. -/
def concatenate (S1 S2 : List sequence) : Except Fault (List sequence) :=
  if S1.length = 0 then .ok S2
  else if S1.length ≠ S2.length then .error .assertion_failed
  else concatenate_loop S1 S2 (List.range S1.length) S1

end alignment_cat

/-- Two alignments of the sequences `a` and `b`, the second listing them in the other
order. -/
def cat_S1 : List sequence :=
  [⟨['a'], [], ['A', 'C']⟩, ⟨['b'], [], ['G', 'T']⟩]

/-- The second alignment of the example. -/
def cat_S2 : List sequence :=
  [⟨['b'], ['x'], ['T']⟩, ⟨['a'], ['y'], ['C']⟩]

/-! ## `alphabet.H` and `setup.C`: `letter_count` and `letter_counts`

The class `alignment` is declared in `alignment.H`, which is not among the embedded
sources: `A(i,j)` is the entry of the character array for column `i` and sequence `j`, and
`n_sequences()` is the number of sequences of the array.  The alphabet of an alignment
(`get_alphabet()`) is a parameter. -/

/-- The class `alphabet`: its letters. -/
structure alphabet where
  letters_ : List (List Char)

/-- The accessor `int n_letters() const`: `letters_.size()`. -/
def alphabet.n_letters (a : alphabet) : Int := a.letters_.length

/-- The accessor `int size() const`: `n_letters()`. -/
def alphabet.size (a : alphabet) : Int := a.n_letters

/-- The test `bool is_letter(int l) const`: `l>=0 and l<n_letters()`. -/
def alphabet.is_letter (a : alphabet) (l : Int) : Bool := decide (l ≥ 0 ∧ l < a.n_letters)

/-- The number of sequences, `A.n_sequences()`. -/
def alignment.n_sequences (A : alignment) : Nat := A.array.size2

/-- The entry `A(i,j)`: the character of sequence `j` in column `i`. -/
def alignment.cell (A : alignment) (i j : Nat) : Int := A.array.elem i j

/-- The inner loop of `letter_count(A,l)` over the sequences `j` of column `i`. -/
def letter_count_row (A : alignment) (l : Int) (i : Nat) : List Nat → Int → Int
  | [], count => count
  | j :: rest, count =>
      letter_count_row A l i rest (if A.cell i j = l then count + 1 else count)

/-- The outer loop of `letter_count(A,l)` over the columns `i`. -/
def letter_count_loop (A : alignment) (l : Int) : List Nat → Int → Int
  | [], count => count
  | i :: rest, count =>
      letter_count_loop A l rest (letter_count_row A l i (List.range A.n_sequences) count)

/-- The function `letter_count(A,l)`: the number of times the letter with index `l` occurs
in `A`. -/
def letter_count (A : alignment) (l : Int) : Int :=
  letter_count_loop A l (List.range A.length) 0

/-- The inner loop of `letter_counts(A)` over the sequences `j` of column `i`:
`if (a.is_letter(A(i,j))) counts[A(i,j)]++`.  An entry of `counts` is a `double` that
holds a whole number; it is embedded as an integer. -/
def letter_counts_row (a : alphabet) (A : alignment) (i : Nat) :
    List Nat → List Int → Except Fault (List Int)
  | [], counts => .ok counts
  | j :: rest, counts =>
      if a.is_letter (A.cell i j) then do
        let c ← vget counts (A.cell i j)
        let counts2 ← vset counts (A.cell i j) (c + 1)
        letter_counts_row a A i rest counts2
      else letter_counts_row a A i rest counts

/-- The outer loop of `letter_counts(A)` over the columns `i`. -/
def letter_counts_loop (a : alphabet) (A : alignment) :
    List Nat → List Int → Except Fault (List Int)
  | [], counts => .ok counts
  | i :: rest, counts => do
      let counts2 ← letter_counts_row a A i (List.range A.n_sequences) counts
      letter_counts_loop a A rest counts2

/-- The function `letter_counts(A)`: the number of times each letter of the alphabet
occurs in `A`; `counts` starts as `a.size()` zeros. -/
def letter_counts (get_alphabet : alignment → alphabet) (A : alignment) :
    Except Fault (List Int) :=
  letter_counts_loop (get_alphabet A) A (List.range A.length)
    (List.replicate (get_alphabet A).size.toNat 0)

/-- The cells of the columns `rows` of an alignment, in the order of the loops. -/
def cells_of (A : alignment) (rows : List Nat) : List Int :=
  rows.flatMap (fun i => (List.range A.n_sequences).map (fun j => A.cell i j))

/-- All cells of an alignment. -/
def cells (A : alignment) : List Int := cells_of A (List.range A.length)

/-- An alignment of two columns and three sequences over an alphabet of four letters; its
cells are `0, 4, -1` and `2, 0, -2`: a letter, a letter class, a gap, two letters and a
wildcard. -/
def count_A : alignment :=
  ⟨⟨2, 3, fun i j => if i = 0 then (if j = 0 then 0 else if j = 1 then 4 else -1)
                     else (if j = 0 then 2 else if j = 1 then 0 else -2)⟩⟩

/-- The alphabet of the example: four letters. -/
def count_alphabet : alignment → alphabet := fun _ => ⟨[['A'], ['G'], ['T'], ['C']]⟩

/-! ## The order of the pins of `get_pins` -/

/-- The column `a` comes before the column `b` in `seq`, when both occur in it:
`find_index(seq,a) < find_index(seq,b)`. -/
def comes_before (seq : List Int) (a b : Int) : Prop :=
  a ∈ seq → b ∈ seq → find_index seq a < find_index seq b

/-! ## `setup.C`: `get_mapping`

The command line is the list `models` of the values given for `--key` (empty when the key
is absent).  The result is the pair of arguments of `shared_items<string>`: the names and
the mapping from partitions to names. -/

/-- The model name `none`. -/
def none_name : List Char := ['n', 'o', 'n', 'e']

/-- The inner loop of `get_mapping` over the partitions of one argument: a partition
number outside `1..n` throws, a partition that is already mapped throws, and otherwise the
partition is mapped to `index`. -/
def get_mapping_partitions (key : List Char) (n index : Int) :
    List Int → List Int → Except Fault (List Int)
  | [], mapping => .ok mapping
  | p :: rest, mapping =>
      if p < 1 ∨ p > n then
        .error (.exception ("Partition " ++ toString p ++ " doesn't exist."))
      else do
        let cur ← vget mapping (p - 1)
        if cur ≠ -2 then
          throw (.exception ("Trying to set '" ++ String.mk key ++ "' for partition " ++
            toString p ++ " twice."))
        else do
          let mapping2 ← vset mapping (p - 1) index
          get_mapping_partitions key n index rest mapping2

/-- Step 2 of the loop of `get_mapping`: the partitions of an argument; an argument
without partition numbers stands for partition 1 when there is only one partition, and
throws otherwise. -/
def get_mapping_check (key model : List Char) (n : Int) (n_models : Nat)
    (partitions : List Int) : Except Fault (List Int) :=
  if partitions.length = 0 then
    if n = 1 then .ok [1]
    else if ¬ (n_models > 1) then .error .assertion_failed
    else .error (.exception ("Failed to specify partition number(s) for '" ++ String.mk key ++
      "' specification '" ++ String.mk model))
  else .ok partitions

/-- The loop of `get_mapping` over the arguments `--key {int}+:name`. -/
def get_mapping_models (split : List Char → Char → List (List Char))
    (read_int : List Char → Option Int) (key : List Char) (n : Int) (n_models : Nat) :
    List (List Char) → List Int → List (List Char) →
      Except Fault (List (List Char) × List Int)
  | [], mapping, model_names => .ok (model_names, mapping)
  | model :: rest, mapping, model_names => do
      let r ← parse_partitions_and_model split read_int model []
      let partitions ← get_mapping_check key model n n_models r.2
      let mapping2 ← get_mapping_partitions key n
        (if r.1 = none_name then -1 else (model_names.length : Int)) partitions mapping
      get_mapping_models split read_int key n n_models rest mapping2
        (if r.1 = none_name then model_names else model_names ++ [r.1])

/-- The last loop of `get_mapping`: every partition that is still unmapped (`-2`) gets a
new name, the empty string.  The list argument holds the entries of `mapping` from the
current position on. -/
def get_mapping_fill : List Int → List (List Char) → List Int × List (List Char)
  | [], model_names => ([], model_names)
  | v :: rest, model_names =>
      if v = -2 then
        ((model_names.length : Int) :: (get_mapping_fill rest (model_names ++ [[]])).1,
          (get_mapping_fill rest (model_names ++ [[]])).2)
      else (v :: (get_mapping_fill rest model_names).1, (get_mapping_fill rest model_names).2)

/-- The general part of `get_mapping`: the loop over the arguments, then the names of the
unmentioned partitions. -/
def get_mapping_main (split : List Char → Char → List (List Char))
    (read_int : List Char → Option Int) (models : List (List Char)) (key : List Char)
    (n : Int) : Except Fault (List (List Char) × List Int) := do
  let r ← get_mapping_models split read_int key n models.length models
    (List.replicate n.toNat (-2)) []
  pure ((get_mapping_fill r.2 r.1).2, (get_mapping_fill r.2 r.1).1)

/-- The function `get_mapping(args,key,n)` of `setup.C`.  A single argument without
partition numbers gives every partition its own copy of the name, or no name for
`none`.  A negative `n` cannot be allocated. -/
def get_mapping (split : List Char → Char → List (List Char))
    (read_int : List Char → Option Int) (models : List (List Char)) (key : List Char)
    (n : Int) : Except Fault (List (List Char) × List Int) :=
  if n < 0 then .error (.exception "std::length_error")
  else if models.length = 1 then do
    let r ← parse_partitions_and_model split read_int (models.headD []) []
    if r.2.length = 0 then
      if r.1 = none_name then pure ([], List.replicate n.toNat (-1))
      else pure (List.replicate n.toNat r.1,
        (List.range n.toNat).map (fun i : Nat => (i : Int)))
    else get_mapping_main split read_int models key n
  else get_mapping_main split read_int models key n

/-- The partition numbers given in the arguments, in order. -/
def given_partitions (split : List Char → Char → List (List Char))
    (read_int : List Char → Option Int) (models : List (List Char)) : List Int :=
  models.flatMap (fun model =>
    match parse_partitions_and_model split read_int model [] with
    | .ok r => r.2
    | .error _ => [])

/-- The command line holds exactly one argument for the key, and that argument gives no
partition numbers (`--key=name`). -/
def single_plain (split : List Char → Char → List (List Char))
    (read_int : List Char → Option Int) (models : List (List Char)) : Prop :=
  ∃ model name, models = [model] ∧
    parse_partitions_and_model split read_int model [] = .ok (name, [])

/-- The state of `mapping` in the loop of `get_mapping`, after the partitions `done` have
been mapped and `names_len` names exist: one entry for each of the `n` partitions, the
entry of partition `p` is `-2` exactly when `p` is not among `done`, every entry is `-2`,
`-1` or the index of a name, and `done` holds partitions of `1..n`, none twice. -/
def mapping_inv (n : Int) (mapping : List Int) (names_len : Nat) (done : List Int) : Prop :=
  (mapping.length : Int) = n ∧
  (∀ p : Int, 1 ≤ p → p ≤ n → (vget mapping (p - 1) = .ok (-2) ↔ p ∉ done)) ∧
  (∀ v ∈ mapping, v = -2 ∨ v = -1 ∨ (0 ≤ v ∧ v < (names_len : Int))) ∧
  done.Nodup ∧ ∀ p ∈ done, 1 ≤ p ∧ p ≤ n

/-! # Theorems -/

/-! ## Facts about vector access -/

theorem vget_eq_ok {α : Type} (v : List α) (i : Int) (x : α) :
    vget v i = .ok x ↔ 0 ≤ i ∧ v[i.toNat]? = some x := by
  unfold vget
  by_cases h : 0 ≤ i
  · simp only [h, if_true, true_and]
    cases hx : v[i.toNat]? with
    | none => simp
    | some y => simp
  · simp [h]

theorem vget_of_lt {α : Type} (v : List α) (i : Int) (h0 : 0 ≤ i) (h1 : i < (v.length : Int)) :
    ∃ x, vget v i = .ok x := by
  have hlt : i.toNat < v.length := by omega
  refine ⟨v[i.toNat], ?_⟩
  rw [vget_eq_ok]
  exact ⟨h0, List.getElem?_eq_getElem hlt⟩

theorem vget_eq_error {α : Type} (v : List α) (i : Int) (e : Fault) (h : vget v i = .error e) :
    e = .out_of_range := by
  unfold vget at h
  by_cases h0 : 0 ≤ i
  · simp only [h0, if_true] at h
    cases hx : v[i.toNat]? with
    | none => rw [hx] at h; simp at h; exact h.symm
    | some y => rw [hx] at h; simp at h
  · simp [h0] at h; exact h.symm

theorem vset_eq_ok {α : Type} (v w : List α) (i : Int) (x : α) :
    vset v i x = .ok w ↔ (0 ≤ i ∧ i < (v.length : Int)) ∧ w = v.set i.toNat x := by
  unfold vset
  by_cases h : 0 ≤ i ∧ i < (v.length : Int)
  · simp [h, eq_comm]
  · simp [h]

theorem vget_set_self {α : Type} (v : List α) (i : Int) (x : α)
    (h0 : 0 ≤ i) (h1 : i < (v.length : Int)) : vget (v.set i.toNat x) i = .ok x := by
  rw [vget_eq_ok]
  refine ⟨h0, ?_⟩
  rw [List.getElem?_set_self]
  omega

theorem vget_set_other {α : Type} (v : List α) (i j : Int) (x : α)
    (hi : 0 ≤ i) (hij : i ≠ j) : vget (v.set i.toNat x) j = vget v j := by
  unfold vget
  by_cases hj : 0 ≤ j
  · have : i.toNat ≠ j.toNat := by omega
    simp only [hj, if_true]
    rw [List.getElem?_set_ne this]
  · simp [hj]

/-! ## `state_matrix` -/

namespace state_matrix

variable {R : Type}

theorem set_eq_ok (m m' : state_matrix R) (i j k : Int) (v : R) (h : m.set i j k v = .ok m') :
    (0 ≤ m.slot i j k ∧ m.slot i j k < (m.data.length : Int)) ∧
    m' = { m with data := m.data.set (m.slot i j k).toNat v } := by
  unfold state_matrix.set at h
  split_ifs at h
  cases hd : vset m.data (m.slot i j k) v with
  | error e => rw [hd] at h; simp [bind, Except.bind] at h
  | ok d =>
    rw [hd] at h
    simp only [bind, Except.bind, pure, Except.pure, Except.ok.injEq] at h
    rw [vset_eq_ok] at hd
    exact ⟨hd.1, by rw [← h, hd.2]⟩

theorem set_scale_eq_ok (m m' : state_matrix R) (i j : Int) (e : Int)
    (h : m.set_scale i j e = .ok m') :
    (0 ≤ m.scale_slot i j ∧ m.scale_slot i j < (m.scale_.length : Int)) ∧
    m' = { m with scale_ := m.scale_.set (m.scale_slot i j).toNat e } := by
  unfold state_matrix.set_scale at h
  split_ifs at h
  cases hd : vset m.scale_ (m.scale_slot i j) e with
  | error e => rw [hd] at h; simp [bind, Except.bind] at h
  | ok d =>
    rw [hd] at h
    simp only [bind, Except.bind, pure, Except.pure, Except.ok.injEq] at h
    rw [vset_eq_ok] at hd
    exact ⟨hd.1, by rw [← h, hd.2]⟩

/-- A built matrix keeps its three sizes and the lengths of its two buffers, and the
element counts are values of `int`. -/
theorem Built.shape {zero : R} {i1 i2 i3 : Int} {m : state_matrix R}
    (h : Built zero i1 i2 i3 m) :
    m.s1 = i1 ∧ m.s2 = i2 ∧ m.s3 = i3 ∧ 0 ≤ i1 * i2 * i3 ∧ 0 ≤ i1 * i2 ∧
      (m.data.length : Int) = i1 * i2 * i3 ∧ (m.scale_.length : Int) = i1 * i2 ∧
      i1 * i2 * i3 ≤ 2147483647 ∧ i1 * i2 ≤ 2147483647 := by
  induction h with
  | construct hc =>
    unfold state_matrix.construct at hc
    by_cases hfit : int_fits (i1 * i2) ∧ int_fits (i1 * i2 * i3)
    · rw [if_neg (not_not.mpr hfit)] at hc
      by_cases hneg : i1 * i2 * i3 < 0 ∨ i1 * i2 < 0
      · rw [if_pos hneg] at hc
        simp at hc
      · rw [if_neg hneg] at hc
        simp only [Except.ok.injEq] at hc
        subst hc
        push_neg at hneg
        refine ⟨rfl, rfl, rfl, hneg.1, hneg.2, ?_, ?_, hfit.2.2, hfit.1.2⟩
        · simp only [List.length_replicate]
          exact Int.toNat_of_nonneg hneg.1
        · simp only [List.length_replicate]
          exact Int.toNat_of_nonneg hneg.2
    · rw [if_pos hfit] at hc
      simp at hc
  | set i j k v _ hs ih =>
    obtain ⟨_, rfl⟩ := set_eq_ok _ _ _ _ _ _ hs
    simpa using ih
  | set_scale i j e _ hs ih =>
    obtain ⟨_, rfl⟩ := set_scale_eq_ok _ _ _ _ _ hs
    simpa using ih

theorem slot_bounds (s1 s2 s3 i j k : Int) (hi : 0 ≤ i ∧ i < s1) (hj : 0 ≤ j ∧ j < s2)
    (hk : 0 ≤ k ∧ k < s3) :
    0 ≤ s3 * (i * s2 + j) + k ∧ s3 * (i * s2 + j) + k < s1 * s2 * s3 := by
  have h1 : 0 ≤ i * s2 := mul_nonneg hi.1 (by omega)
  have h2 : i * s2 + j + 1 ≤ s1 * s2 := by nlinarith
  have h3 : 0 ≤ s3 * (i * s2 + j) := mul_nonneg (by omega) (by omega)
  have h4 : s3 * (i * s2 + j + 1) ≤ s3 * (s1 * s2) :=
    mul_le_mul_of_nonneg_left h2 (by omega)
  constructor
  · omega
  · nlinarith

theorem scale_slot_bounds (s1 s2 i j : Int) (hi : 0 ≤ i ∧ i < s1) (hj : 0 ≤ j ∧ j < s2) :
    0 ≤ i * s2 + j ∧ i * s2 + j < s1 * s2 := by
  have h1 : 0 ≤ i * s2 := mul_nonneg hi.1 (by omega)
  constructor
  · omega
  · nlinarith

theorem divmod_unique (n a b a' b' : Int) (hb : 0 ≤ b ∧ b < n) (hb' : 0 ≤ b' ∧ b' < n)
    (h : a * n + b = a' * n + b') : a = a' ∧ b = b' := by
  have hn : 0 < n := by omega
  have hd : (a - a') * n = b' - b := by linarith
  have ha : a = a' := by
    by_contra hne
    rcases lt_or_gt_of_ne hne with hlt | hgt
    · have : (a - a') * n ≤ -1 * n := mul_le_mul_of_nonneg_right (by omega) (by omega)
      nlinarith
    · have : 1 * n ≤ (a - a') * n := mul_le_mul_of_nonneg_right (by omega) (by omega)
      nlinarith
  subst ha
  exact ⟨rfl, by linarith⟩

theorem slot_injective (s2 s3 i j k i' j' k' : Int) (hj : 0 ≤ j ∧ j < s2)
    (hk : 0 ≤ k ∧ k < s3) (hj' : 0 ≤ j' ∧ j' < s2) (hk' : 0 ≤ k' ∧ k' < s3)
    (h : s3 * (i' * s2 + j') + k' = s3 * (i * s2 + j) + k) : i' = i ∧ j' = j ∧ k' = k := by
  have h1 := divmod_unique s3 (i' * s2 + j') k' (i * s2 + j) k hk' hk (by linarith)
  have h2 := divmod_unique s2 i' j' i j hj' hj h1.1
  exact ⟨h2.1, h2.2, h1.2⟩

/-- An assignment to an in-range cell of a built matrix returns normally. -/
theorem set_ok {zero : R} {s1 s2 s3 : Int} {m : state_matrix R}
    (hm : Built zero s1 s2 s3 m) (i j k : Int) (v : R)
    (hi : 0 ≤ i ∧ i < s1) (hj : 0 ≤ j ∧ j < s2) (hk : 0 ≤ k ∧ k < s3) :
    (0 ≤ m.slot i j k ∧ m.slot i j k < (m.data.length : Int)) ∧
    m.set i j k v = .ok { m with data := m.data.set (m.slot i j k).toNat v } := by
  obtain ⟨e1, e2, e3, _, _, hlen, _⟩ := hm.shape
  have hb := slot_bounds s1 s2 s3 i j k hi hj hk
  have hin : 0 ≤ m.slot i j k ∧ m.slot i j k < (m.data.length : Int) := by
    simp only [slot, e2, e3, hlen]; exact hb
  refine ⟨hin, ?_⟩
  have hv : vset m.data (m.slot i j k) v = .ok (m.data.set (m.slot i j k).toNat v) := by
    rw [vset_eq_ok]; exact ⟨hin, rfl⟩
  unfold state_matrix.set
  rw [e1, e2, e3]
  rw [if_neg (not_not.mpr hi), if_neg (not_not.mpr hj), if_neg (not_not.mpr hk), hv]
  rfl

end state_matrix

/-! ## C1, C2: the storage layout of `state_matrix` -/

/-- C1. For every `state_matrix` built with sizes `(s1,s2,s3)` and every in-range index
triple `(i,j,k)`: the probability buffer has `s1*s2*s3` elements (a value of `int`), the
storage slot `s3*(i*s2+j)+k` lies inside it, two in-range triples with the same slot are
the same triple, the cell can be read, and writing the cell and reading it back returns
the written value and leaves every other cell unchanged. -/
theorem C1_state_matrix_cell_storage {R : Type} (zero : R) (s1 s2 s3 : Int)
    (m : state_matrix R) (hm : state_matrix.Built zero s1 s2 s3 m) (i j k : Int)
    (hi : 0 ≤ i ∧ i < s1) (hj : 0 ≤ j ∧ j < s2) (hk : 0 ≤ k ∧ k < s3) :
    ((m.data.length : Int) = s1 * s2 * s3 ∧ s1 * s2 * s3 ≤ 2147483647) ∧
    m.slot i j k = s3 * (i * s2 + j) + k ∧
    (0 ≤ m.slot i j k ∧ m.slot i j k < (m.data.length : Int)) ∧
    (∀ i' j' k' : Int, 0 ≤ i' ∧ i' < s1 → 0 ≤ j' ∧ j' < s2 → 0 ≤ k' ∧ k' < s3 →
        m.slot i' j' k' = m.slot i j k → i' = i ∧ j' = j ∧ k' = k) ∧
    (∃ x, m.get i j k = .ok x) ∧
    (∀ v : R, ∃ m', m.set i j k v = .ok m' ∧ m'.get i j k = .ok v ∧
        ∀ i' j' k' : Int, (i', j', k') ≠ (i, j, k) → m'.get i' j' k' = m.get i' j' k') := by
  obtain ⟨e1, e2, e3, _, _, hlen, _, hfit, _⟩ := hm.shape
  have hb := state_matrix.slot_bounds s1 s2 s3 i j k hi hj hk
  have hslot : m.slot i j k = s3 * (i * s2 + j) + k := by
    simp only [state_matrix.slot, e2, e3]
  have hin : 0 ≤ m.slot i j k ∧ m.slot i j k < (m.data.length : Int) := by
    rw [hslot, hlen]; exact hb
  have hinj : ∀ i' j' k' : Int, 0 ≤ j' ∧ j' < s2 → 0 ≤ k' ∧ k' < s3 →
      m.slot i' j' k' = m.slot i j k → i' = i ∧ j' = j ∧ k' = k := by
    intro i' j' k' hj' hk' heq
    simp only [state_matrix.slot, e2, e3] at heq
    exact state_matrix.slot_injective s2 s3 i j k i' j' k' hj hk hj' hk' heq
  have hg : ∀ d : List R, state_matrix.get { m with data := d } i j k
      = vget d (m.slot i j k) := by
    intro d
    simp only [state_matrix.get, state_matrix.slot, e1, e2, e3, hi, hj, hk, and_self,
      not_true_eq_false, if_false]
  refine ⟨⟨hlen, hfit⟩, hslot, hin, fun i' j' k' _ hj' hk' h => hinj i' j' k' hj' hk' h,
    ?_, ?_⟩
  · obtain ⟨x, hx⟩ := vget_of_lt m.data _ hin.1 hin.2
    exact ⟨x, by rw [← hx]; exact hg m.data⟩
  · intro v
    refine ⟨{ m with data := m.data.set (m.slot i j k).toNat v },
      (state_matrix.set_ok hm i j k v hi hj hk).2, ?_, ?_⟩
    · rw [hg]; exact vget_set_self _ _ _ hin.1 hin.2
    · intro i' j' k' hne
      simp only [state_matrix.get, state_matrix.slot]
      by_cases hi' : 0 ≤ i' ∧ i' < m.s1
      · by_cases hj' : 0 ≤ j' ∧ j' < m.s2
        · by_cases hk' : 0 ≤ k' ∧ k' < m.s3
          · simp only [hi', hj', hk', and_self, not_true_eq_false, if_false]
            apply vget_set_other _ _ _ _ hin.1
            intro heq
            apply hne
            have := hinj i' j' k' (by rw [← e2]; exact hj') (by rw [← e3]; exact hk')
              (by simp only [state_matrix.slot]; exact heq.symm)
            rw [this.1, this.2.1, this.2.2]
          · simp only [hi', hj', hk', and_self, not_true_eq_false, if_false,
              not_false_eq_true, if_true]
        · simp only [hi', hj', and_self, not_true_eq_false, if_false, not_false_eq_true,
            if_true]
      · simp only [hi', not_false_eq_true, if_true]

/-- A cell of a `2 x 3 x 2` table: the hypotheses of C1 hold there. -/
theorem C1_state_matrix_cell_storage_witness :
    (state_matrix.construct (0 : Int) 2 3 2 =
        .ok ⟨2, 3, 2, List.replicate 12 0, List.replicate 6 0⟩) ∧
    ((⟨2, 3, 2, List.replicate 12 0, List.replicate 6 0⟩ : state_matrix Int).slot 1 2 1 = 11 ∧
      ∃ m', (⟨2, 3, 2, List.replicate 12 0, List.replicate 6 0⟩ : state_matrix Int).set 1 2 1 7
          = .ok m' ∧ m'.get 1 2 1 = .ok 7) :=
  ⟨by decide,
   let h := C1_state_matrix_cell_storage (0 : Int) 2 3 2
      ⟨2, 3, 2, List.replicate 12 0, List.replicate 6 0⟩
      (state_matrix.Built.construct (by decide)) 1 2 1 (by decide) (by decide) (by decide)
   ⟨h.2.1, (h.2.2.2.2.2 7).imp fun _ hm' => ⟨hm'.1, hm'.2.1⟩⟩⟩

/-- C2. For a `state_matrix` of sizes `(s1,s2,s3)` each in-range pair `(i,j)` has one
scale exponent: it is stored at slot `i*s2+j` inside the `s1*s2`-element scale array (one
slot per pair, whatever the state `k`), it can be read, assigning `scale(i,j)` changes no
stored probability and no exponent of any other pair, and assigning a probability cell
`(i,j,k)` changes no exponent. -/
theorem C2_state_matrix_scale_frame {R : Type} (zero : R) (s1 s2 s3 : Int)
    (m : state_matrix R) (hm : state_matrix.Built zero s1 s2 s3 m) (i j : Int)
    (hi : 0 ≤ i ∧ i < s1) (hj : 0 ≤ j ∧ j < s2) :
    ((m.scale_.length : Int) = s1 * s2 ∧ s1 * s2 ≤ 2147483647) ∧
    m.scale_slot i j = i * s2 + j ∧
    (0 ≤ m.scale_slot i j ∧ m.scale_slot i j < (m.scale_.length : Int)) ∧
    (∀ i' j' : Int, 0 ≤ i' ∧ i' < s1 → 0 ≤ j' ∧ j' < s2 →
        m.scale_slot i' j' = m.scale_slot i j → i' = i ∧ j' = j) ∧
    (∃ e, m.scale i j = .ok e) ∧
    (∀ e : Int, ∃ m', m.set_scale i j e = .ok m' ∧ m'.scale i j = .ok e ∧
        m'.data = m.data ∧
        (∀ i' j' k' : Int, m'.get i' j' k' = m.get i' j' k') ∧
        (∀ i' j' : Int, (i', j') ≠ (i, j) → m'.scale i' j' = m.scale i' j')) ∧
    (∀ (k : Int) (v : R), 0 ≤ k ∧ k < s3 → ∃ m', m.set i j k v = .ok m' ∧
        m'.scale_ = m.scale_ ∧ ∀ i' j' : Int, m'.scale i' j' = m.scale i' j') := by
  obtain ⟨e1, e2, e3, _, _, hlen, hslen, _, hfit⟩ := hm.shape
  have hb := state_matrix.scale_slot_bounds s1 s2 i j hi hj
  have hslot : m.scale_slot i j = i * s2 + j := by
    simp only [state_matrix.scale_slot, e2]
  have hin : 0 ≤ m.scale_slot i j ∧ m.scale_slot i j < (m.scale_.length : Int) := by
    rw [hslot, hslen]; exact hb
  have hinj : ∀ i' j' : Int, 0 ≤ j' ∧ j' < s2 →
      m.scale_slot i' j' = m.scale_slot i j → i' = i ∧ j' = j := by
    intro i' j' hj' heq
    simp only [state_matrix.scale_slot, e2] at heq
    exact state_matrix.divmod_unique s2 i' j' i j hj' hj heq
  have hg : ∀ d : List Int, state_matrix.scale { m with scale_ := d } i j
      = vget d (m.scale_slot i j) := by
    intro d
    simp only [state_matrix.scale, state_matrix.scale_slot, e1, e2, hi, hj, and_self,
      not_true_eq_false, if_false]
  refine ⟨⟨hslen, hfit⟩, hslot, hin, fun i' j' _ hj' h => hinj i' j' hj' h, ?_, ?_, ?_⟩
  · obtain ⟨x, hx⟩ := vget_of_lt m.scale_ _ hin.1 hin.2
    exact ⟨x, by rw [← hx]; exact hg m.scale_⟩
  · intro e
    refine ⟨{ m with scale_ := m.scale_.set (m.scale_slot i j).toNat e }, ?_, ?_, rfl,
      fun _ _ _ => rfl, ?_⟩
    · simp only [state_matrix.set_scale, e1, e2, hi, hj, and_self, not_true_eq_false,
        if_false]
      have : vset m.scale_ (m.scale_slot i j) e
          = .ok (m.scale_.set (m.scale_slot i j).toNat e) := by
        rw [vset_eq_ok]; exact ⟨hin, rfl⟩
      simp only [state_matrix.scale_slot, e2] at this
      simp only [state_matrix.scale_slot, e2, this, bind, Except.bind, pure, Except.pure]
    · rw [hg]; exact vget_set_self _ _ _ hin.1 hin.2
    · intro i' j' hne
      simp only [state_matrix.scale, state_matrix.scale_slot]
      by_cases hi' : 0 ≤ i' ∧ i' < m.s1
      · by_cases hj' : 0 ≤ j' ∧ j' < m.s2
        · simp only [hi', hj', and_self, not_true_eq_false, if_false]
          apply vget_set_other _ _ _ _ hin.1
          intro heq
          apply hne
          have := hinj i' j' (by rw [← e2]; exact hj')
            (by simp only [state_matrix.scale_slot]; exact heq.symm)
          rw [this.1, this.2]
        · simp only [hi', hj', and_self, not_true_eq_false, if_false, not_false_eq_true,
            if_true]
      · simp only [hi', not_false_eq_true, if_true]
  · intro k v hk
    exact ⟨_, (state_matrix.set_ok hm i j k v hi hj hk).2, rfl, fun _ _ => rfl⟩

/-- A pair of a `2 x 3 x 2` table: the hypotheses of C2 hold there. -/
theorem C2_state_matrix_scale_frame_witness :
    (state_matrix.construct (0 : Int) 2 3 2 =
        .ok ⟨2, 3, 2, List.replicate 12 0, List.replicate 6 0⟩) ∧
    ((⟨2, 3, 2, List.replicate 12 0, List.replicate 6 0⟩ : state_matrix Int).scale_slot 1 2 = 5 ∧
      ∃ e, (⟨2, 3, 2, List.replicate 12 0, List.replicate 6 0⟩ : state_matrix Int).scale 1 2
          = .ok e) :=
  ⟨by decide,
   let h := C2_state_matrix_scale_frame (0 : Int) 2 3 2
      ⟨2, 3, 2, List.replicate 12 0, List.replicate 6 0⟩
      (state_matrix.Built.construct (by decide)) 1 2 (by decide) (by decide)
   ⟨h.2.1, h.2.2.2.2.1⟩⟩

/-! ## Sequencing in `Except` -/

theorem bind_eq_ok {ε α β : Type} (x : Except ε α) (f : α → Except ε β) (b : β) :
    (x >>= f) = .ok b ↔ ∃ a, x = .ok a ∧ f a = .ok b := by
  cases x with
  | error e => simp [bind, Except.bind]
  | ok a => simp [bind, Except.bind]

theorem bind_eq_error {ε α β : Type} (x : Except ε α) (f : α → Except ε β) (e : ε) :
    (x >>= f) = .error e ↔ x = .error e ∨ ∃ a, x = .ok a ∧ f a = .error e := by
  cases x with
  | error e' => simp [bind, Except.bind]
  | ok a => simp [bind, Except.bind]

theorem pure_eq_ok {ε α : Type} (a b : α) : (pure a : Except ε α) = .ok b ↔ a = b := by
  simp [pure, Except.pure]

theorem pure_ne_error {ε α : Type} (a : α) (e : ε) : (pure a : Except ε α) ≠ .error e := by
  simp [pure, Except.pure]

theorem throw_eq_error {ε α : Type} (e e' : ε) :
    (throw e : Except ε α) = .error e' ↔ e = e' := by
  simp [throw, throwThe, MonadExceptOf.throw]

theorem throw_ne_ok {ε α : Type} (e : ε) (a : α) : (throw e : Except ε α) ≠ .ok a := by
  simp [throw, throwThe, MonadExceptOf.throw]

/-! ## `find_index` -/

theorem find_index_eq_neg_one {α : Type} [DecidableEq α] (v : List α) (t : α) :
    find_index v t = -1 ↔ t ∉ v := by
  unfold find_index
  constructor
  · intro h hmem
    have hlt : v.indexOf t < v.length := List.indexOf_lt_length.mpr hmem
    have hne : v.indexOf t ≠ v.length := by omega
    rw [if_neg hne] at h
    omega
  · intro h
    have : v.indexOf t = v.length := List.indexOf_eq_length.mpr h
    simp [this]

theorem find_index_of_mem {α : Type} [DecidableEq α] (v : List α) (t : α) (h : t ∈ v) :
    0 ≤ find_index v t ∧ find_index v t < (v.length : Int) ∧
      v[(find_index v t).toNat]? = some t := by
  have hlt : v.indexOf t < v.length := List.indexOf_lt_length.mpr h
  have hne : v.indexOf t ≠ v.length := by omega
  unfold find_index
  simp only [hne, if_false]
  refine ⟨by omega, by omega, ?_⟩
  simp only [Int.toNat_ofNat]
  rw [List.getElem?_eq_getElem hlt]
  congr 1
  exact List.indexOf_get hlt

/-! ## The outcomes of the loops of `get_pins` -/

theorem constrained_loop_error (group : List Bool) (constraint : IntMatrix) (c : Nat) :
    ∀ (l : List Nat) (present : Bool) (e : Fault),
      constrained_loop group constraint c l present = .error e → e = .out_of_range := by
  intro l
  induction l with
  | nil => intro present e h; simp [constrained_loop] at h
  | cons i rest ih =>
    intro present e h
    unfold constrained_loop at h
    rcases (bind_eq_error _ _ _).mp h with hg | ⟨g, _, hg⟩
    · exact vget_eq_error _ _ _ hg
    · exact ih _ _ hg

theorem constrained_error (group : List Bool) (constraint : IntMatrix) (c : Nat) (e : Fault)
    (h : constrained group constraint c = .error e) : e = .out_of_range :=
  constrained_loop_error group constraint c _ _ _ h

theorem constraint_columns_row_error (ci : List (List Int)) (constraint : IntMatrix) (i : Nat) :
    ∀ (l : List Nat) (cur : Int) (e : Fault),
      constraint_columns_row ci constraint i l cur = .error e → e = .out_of_range := by
  intro l
  induction l with
  | nil => intro cur e h; simp [constraint_columns_row] at h
  | cons j rest ih =>
    intro cur e h
    unfold constraint_columns_row at h
    by_cases h1 : (constraint.elem i j != -1) = true
    · rw [if_pos h1] at h
      rcases (bind_eq_error _ _ _).mp h with hr | ⟨residues, _, h⟩
      · exact vget_eq_error _ _ _ hr
      · rcases (bind_eq_error _ _ _).mp h with hc | ⟨c, _, h⟩
        · exact vget_eq_error _ _ _ hc
        · by_cases h2 : cur = -1
          · rw [if_pos h2] at h
            exact ih _ _ h
          · rw [if_neg h2] at h
            by_cases h3 : cur ≠ c
            · rw [if_pos h3] at h
              exact absurd h (pure_ne_error _ _)
            · rw [if_neg h3] at h
              exact ih _ _ h
    · rw [if_neg h1] at h
      exact ih _ _ h

theorem constraint_columns_rows_error (ci : List (List Int)) (constraint : IntMatrix) :
    ∀ (l : List Nat) (e : Fault),
      constraint_columns_rows ci constraint l = .error e → e = .out_of_range := by
  intro l
  induction l with
  | nil => intro e h; simp [constraint_columns_rows] at h
  | cons i rest ih =>
    intro e h
    unfold constraint_columns_rows at h
    rcases (bind_eq_error _ _ _).mp h with hr | ⟨c, _, h⟩
    · exact constraint_columns_row_error _ _ _ _ _ _ hr
    · rcases (bind_eq_error _ _ _).mp h with hrs | ⟨cs, _, h⟩
      · exact ih _ hrs
      · exact absurd h (pure_ne_error _ _)

theorem constrained_both_error (constraint : IntMatrix) (group1 group2 : List Bool) (i : Nat)
    (e : Fault) (h : constrained_both constraint group1 group2 i = .error e) :
    e = .out_of_range := by
  unfold constrained_both at h
  rcases (bind_eq_error _ _ _).mp h with h1 | ⟨c1, _, h⟩
  · exact constrained_error _ _ _ _ h1
  · by_cases hc : c1 = true
    · rw [if_pos hc] at h
      exact constrained_error _ _ _ _ h
    · rw [if_neg hc] at h
      exact absurd h (pure_ne_error _ _)

theorem get_pins_filter_error (constraint : IntMatrix) (group1 group2 : List Bool) :
    ∀ (l : List Int) (i : Nat) (e : Fault),
      get_pins_filter constraint group1 group2 l i = .error e → e = .out_of_range := by
  intro l
  induction l with
  | nil => intro i e h; simp [get_pins_filter] at h
  | cons s rest ih =>
    intro i e h
    unfold get_pins_filter at h
    rcases (bind_eq_error _ _ _).mp h with h1 | ⟨both, _, h⟩
    · exact constrained_both_error _ _ _ _ _ h1
    · rcases (bind_eq_error _ _ _).mp h with hr | ⟨rest', _, h⟩
      · exact ih _ _ hr
      · exact absurd h (pure_ne_error _ _)

theorem get_pins_satisfied_error (cl : alignment → List (List Int)) (constraint : IntMatrix)
    (A : alignment) (group1 group2 : List Bool) (e : Fault)
    (h : get_pins_satisfied cl constraint A group1 group2 = .error e) : e = .out_of_range := by
  unfold get_pins_satisfied at h
  rcases (bind_eq_error _ _ _).mp h with hc | ⟨cols, _, h⟩
  · exact constraint_columns_rows_error _ _ _ _ hc
  · exact get_pins_filter_error _ _ _ _ _ _ h

theorem constrained_both_eq_true (constraint : IntMatrix) (group1 group2 : List Bool) (i : Nat) :
    constrained_both constraint group1 group2 i = .ok true ↔
      constrained group1 constraint i = .ok true ∧
      constrained group2 constraint i = .ok true := by
  unfold constrained_both
  rw [bind_eq_ok]
  constructor
  · rintro ⟨c1, h1, h⟩
    by_cases hc : c1 = true
    · rw [if_pos hc] at h
      subst hc
      exact ⟨h1, h⟩
    · rw [if_neg hc] at h
      simp [pure, Except.pure] at h
  · rintro ⟨h1, h2⟩
    exact ⟨true, h1, by simpa using h2⟩

theorem get_pins_filter_ok (constraint : IntMatrix) (group1 group2 : List Bool) :
    ∀ (l : List Int) (i : Nat) (sat : List Int),
      get_pins_filter constraint group1 group2 l i = .ok sat →
      sat.length = l.length ∧
      ∀ (k : Nat) (s : Int), sat[k]? = some s → ∃ (c : Int) (both : Bool), l[k]? = some c ∧
        constrained_both constraint group1 group2 (i + k) = .ok both ∧
        s = if both then c else -1 := by
  intro l
  induction l with
  | nil =>
    intro i sat h
    simp only [get_pins_filter, Except.ok.injEq] at h
    subst h
    simp
  | cons c0 rest ih =>
    intro i sat h
    unfold get_pins_filter at h
    obtain ⟨both, hb, h⟩ := (bind_eq_ok _ _ _).mp h
    obtain ⟨rest', hr, h⟩ := (bind_eq_ok _ _ _).mp h
    rw [pure_eq_ok] at h
    subst h
    obtain ⟨hlen, hk⟩ := ih _ _ hr
    refine ⟨by simp [hlen], ?_⟩
    intro k s hs
    cases k with
    | zero =>
      simp only [List.getElem?_cons_zero, Option.some.injEq] at hs
      exact ⟨c0, both, by simp, by simpa using hb, hs.symm⟩
    | succ k =>
      simp only [List.getElem?_cons_succ] at hs
      obtain ⟨c, b, h1, h2, h3⟩ := hk k s hs
      refine ⟨c, b, by simpa using h1, ?_, h3⟩
      have : i + (k + 1) = i + 1 + k := by omega
      rw [this]; exact h2

/-- The columns marked by the second loop are columns of enforced constraints that occur
in both `seq1` and `seq2`. -/
theorem get_pins_mark_some (seq1 seq2 : List Int) :
    ∀ (sat pinned0 pinned : List Int),
      get_pins_mark seq1 seq2 sat pinned0 = .ok (some pinned) →
      ∀ (column p : Int), vget pinned column = .ok p → p ≠ 0 →
        vget pinned0 column = .ok p ∨
        (column ∈ sat ∧ column ≠ -1 ∧ column ∈ seq1 ∧ column ∈ seq2) := by
  intro sat
  induction sat with
  | nil =>
    intro pinned0 pinned h column p hp _
    simp only [get_pins_mark, Except.ok.injEq, Option.some.injEq] at h
    subst h
    exact Or.inl hp
  | cons c rest ih =>
    intro pinned0 pinned h column p hp hp0
    unfold get_pins_mark at h
    by_cases h1 : (c != -1) = true
    · rw [if_pos h1] at h
      obtain ⟨q, hq, h⟩ := (bind_eq_ok _ _ _).mp h
      by_cases h2 : q = 0
      · rw [if_pos h2] at h
        obtain ⟨pinned', hset, h⟩ := (bind_eq_ok _ _ _).mp h
        by_cases h3 : find_index seq1 c = -1 ∨ find_index seq2 c = -1
        · simp only [h3, if_true] at h
          simp [pure, Except.pure] at h
        · simp only [h3, if_false] at h
          push_neg at h3
          have hc1 : c ∈ seq1 := by
            by_contra hn; exact h3.1 ((find_index_eq_neg_one _ _).mpr hn)
          have hc2 : c ∈ seq2 := by
            by_contra hn; exact h3.2 ((find_index_eq_neg_one _ _).mpr hn)
          have hcne : c ≠ -1 := by simpa using h1
          rcases ih _ _ h column p hp hp0 with hprev | ⟨hm, hr⟩
          · obtain ⟨hin, rfl⟩ := (vset_eq_ok _ _ _ _).mp hset
            by_cases hcc : c = column
            · subst hcc
              exact Or.inr ⟨List.mem_cons_self _ _, hcne, hc1, hc2⟩
            · rw [vget_set_other _ _ _ _ hin.1 hcc] at hprev
              exact Or.inl hprev
          · exact Or.inr ⟨List.mem_cons_of_mem _ hm, hr⟩
      · rw [if_neg h2] at h
        rcases ih _ _ h column p hp hp0 with hprev | ⟨hm, hr⟩
        · exact Or.inl hprev
        · exact Or.inr ⟨List.mem_cons_of_mem _ hm, hr⟩
    · rw [if_neg h1] at h
      rcases ih _ _ h column p hp hp0 with hprev | ⟨hm, hr⟩
      · exact Or.inl hprev
      · exact Or.inr ⟨List.mem_cons_of_mem _ hm, hr⟩

theorem get_pins_mark_error (seq1 seq2 : List Int) :
    ∀ (sat pinned0 : List Int) (e : Fault),
      get_pins_mark seq1 seq2 sat pinned0 = .error e → e = .out_of_range := by
  intro sat
  induction sat with
  | nil => intro pinned0 e h; simp [get_pins_mark] at h
  | cons c rest ih =>
    intro pinned0 e h
    unfold get_pins_mark at h
    by_cases h1 : (c != -1) = true
    · rw [if_pos h1] at h
      rcases (bind_eq_error _ _ _).mp h with hq | ⟨q, _, h⟩
      · exact vget_eq_error _ _ _ hq
      · by_cases h2 : q = 0
        · rw [if_pos h2] at h
          rcases (bind_eq_error _ _ _).mp h with hs | ⟨pinned', _, h⟩
          · unfold vset at hs
            split_ifs at hs
            simp only [Except.error.injEq] at hs
            exact hs.symm
          · by_cases h3 : find_index seq1 c = -1 ∨ find_index seq2 c = -1
            · simp only [h3, if_true] at h
              exact absurd h (pure_ne_error _ _)
            · simp only [h3, if_false] at h
              exact ih _ _ h
        · rw [if_neg h2] at h
          exact ih _ _ h
    · rw [if_neg h1] at h
      exact ih _ _ h

theorem get_pins_mark_none (seq1 seq2 : List Int) :
    ∀ (sat pinned0 : List Int), get_pins_mark seq1 seq2 sat pinned0 = .ok none →
      ∃ column, column ∈ sat ∧ column ≠ -1 ∧ (column ∉ seq1 ∨ column ∉ seq2) := by
  intro sat
  induction sat with
  | nil => intro pinned0 h; simp [get_pins_mark] at h
  | cons c rest ih =>
    intro pinned0 h
    have lift : (∃ column, column ∈ rest ∧ column ≠ -1 ∧ (column ∉ seq1 ∨ column ∉ seq2)) →
        ∃ column, column ∈ c :: rest ∧ column ≠ -1 ∧ (column ∉ seq1 ∨ column ∉ seq2) := by
      rintro ⟨column, hm, hr⟩
      exact ⟨column, List.mem_cons_of_mem _ hm, hr⟩
    unfold get_pins_mark at h
    by_cases h1 : (c != -1) = true
    · rw [if_pos h1] at h
      obtain ⟨q, hq, h⟩ := (bind_eq_ok _ _ _).mp h
      by_cases h2 : q = 0
      · rw [if_pos h2] at h
        obtain ⟨pinned', hset, h⟩ := (bind_eq_ok _ _ _).mp h
        by_cases h3 : find_index seq1 c = -1 ∨ find_index seq2 c = -1
        · refine ⟨c, List.mem_cons_self _ _, by simpa using h1, ?_⟩
          rcases h3 with h3 | h3
          · exact Or.inl ((find_index_eq_neg_one _ _).mp h3)
          · exact Or.inr ((find_index_eq_neg_one _ _).mp h3)
        · simp only [h3, if_false] at h
          exact lift (ih _ h)
      · rw [if_neg h2] at h
        exact lift (ih _ h)
    · rw [if_neg h1] at h
      exact lift (ih _ h)

/-- A column without a coordinate among the enforced constraints makes the second loop
return early, unless an access falls outside `pinned`. -/
theorem get_pins_mark_unreachable (seq1 seq2 : List Int) :
    ∀ (sat pinned0 : List Int),
      (∀ (column p : Int), vget pinned0 column = .ok p → p ≠ 0 →
          column ∈ seq1 ∧ column ∈ seq2) →
      (∃ column, column ∈ sat ∧ column ≠ -1 ∧ (column ∉ seq1 ∨ column ∉ seq2)) →
      get_pins_mark seq1 seq2 sat pinned0 = .ok none ∨
      get_pins_mark seq1 seq2 sat pinned0 = .error .out_of_range := by
  intro sat
  induction sat with
  | nil => rintro pinned0 _ ⟨column, hm, _⟩; simp at hm
  | cons c rest ih =>
    rintro pinned0 hinv ⟨column, hm, hne, habs⟩
    unfold get_pins_mark
    by_cases h1 : (c != -1) = true
    · rw [if_pos h1]
      cases hq : vget pinned0 c with
      | error e =>
        right
        rw [vget_eq_error _ _ _ hq]
        rfl
      | ok q =>
        simp only [bind, Except.bind]
        by_cases h2 : q = 0
        · rw [if_pos h2]
          have hin : 0 ≤ c ∧ c < (pinned0.length : Int) := by
            obtain ⟨h0, hx⟩ := (vget_eq_ok _ _ _).mp hq
            have := (List.getElem?_eq_some_iff.mp hx).1
            omega
          have hset : vset pinned0 c 1 = .ok (pinned0.set c.toNat 1) :=
            (vset_eq_ok _ _ _ _).mpr ⟨hin, rfl⟩
          rw [hset]
          simp only
          by_cases h3 : find_index seq1 c = -1 ∨ find_index seq2 c = -1
          · left
            simp only [h3, if_true]
            rfl
          · simp only [h3, if_false]
            push_neg at h3
            have hc1 : c ∈ seq1 := by
              by_contra hn; exact h3.1 ((find_index_eq_neg_one _ _).mpr hn)
            have hc2 : c ∈ seq2 := by
              by_contra hn; exact h3.2 ((find_index_eq_neg_one _ _).mpr hn)
            apply ih
            · intro col p hp hp0
              by_cases hcc : c = col
              · subst hcc; exact ⟨hc1, hc2⟩
              · rw [vget_set_other _ _ _ _ hin.1 hcc] at hp
                exact hinv col p hp hp0
            · refine ⟨column, ?_, hne, habs⟩
              rcases List.mem_cons.mp hm with heq | hmem
              · subst heq
                rcases habs with ha | ha
                · exact absurd hc1 ha
                · exact absurd hc2 ha
              · exact hmem
        · rw [if_neg h2]
          apply ih _ hinv
          refine ⟨column, ?_, hne, habs⟩
          rcases List.mem_cons.mp hm with heq | hmem
          · subst heq
            have := hinv column q hq h2
            rcases habs with ha | ha
            · exact absurd this.1 ha
            · exact absurd this.2 ha
          · exact hmem
    · rw [if_neg h1]
      apply ih _ hinv
      refine ⟨column, ?_, hne, habs⟩
      rcases List.mem_cons.mp hm with heq | hmem
      · subst heq
        simp at h1
        exact absurd h1 hne
      · exact hmem

theorem pins_order_check_error (pins : List (List Int)) (V : List Int) (e : Fault)
    (h : pins_order_check pins V = .error e) :
    e = .out_of_range ∨ e = .exception not_increasing_msg := by
  unfold pins_order_check at h
  by_cases h1 : V.length ≥ 2
  · rw [if_pos h1] at h
    rcases (bind_eq_error _ _ _).mp h with ha | ⟨a, _, h⟩
    · exact Or.inl (vget_eq_error _ _ _ ha)
    · rcases (bind_eq_error _ _ _).mp h with hb | ⟨b, _, h⟩
      · exact Or.inl (vget_eq_error _ _ _ hb)
      · by_cases h2 : a > b
        · rw [if_pos h2, throw_eq_error] at h
          exact Or.inr h.symm
        · rw [if_neg h2] at h
          exact absurd h (pure_ne_error _ _)
  · rw [if_neg h1] at h
    exact absurd h (pure_ne_error _ _)

theorem get_pins_collect_step (seq1 seq2 pinned : List Int) (column : Int)
    (rest X Y : List Int) (p : Int) (hp : vget pinned column = .ok p) (hp0 : p ≠ 0)
    (h1 : column ∈ seq1) (h2 : column ∈ seq2) :
    get_pins_collect seq1 seq2 pinned (column :: rest) X Y =
      (pins_order_check [X ++ [find_index seq1 column + 1], Y ++ [find_index seq2 column + 1]]
          (X ++ [find_index seq1 column + 1]) >>= fun _ =>
        pins_order_check [X ++ [find_index seq1 column + 1], Y ++ [find_index seq2 column + 1]]
          (Y ++ [find_index seq2 column + 1]) >>= fun _ =>
        get_pins_collect seq1 seq2 pinned rest (X ++ [find_index seq1 column + 1])
          (Y ++ [find_index seq2 column + 1])) := by
  obtain ⟨a1, a2, _⟩ := find_index_of_mem seq1 column h1
  obtain ⟨b1, b2, _⟩ := find_index_of_mem seq2 column h2
  have n1 : ¬ (find_index seq1 column = -1 ∨ find_index seq2 column = -1) := by omega
  have n2 : ¬ ¬ (find_index seq1 column ≥ 0 ∧ find_index seq1 column < (seq1.length : Int)) := by
    omega
  have n3 : ¬ ¬ (find_index seq2 column ≥ 0 ∧ find_index seq2 column < (seq2.length : Int)) := by
    omega
  conv_lhs => unfold get_pins_collect
  rw [hp]
  simp only [bind, Except.bind]
  rw [if_neg hp0, if_neg n2, if_neg n3, if_neg n1]

theorem get_pins_collect_skip (seq1 seq2 pinned : List Int) (column : Int)
    (rest X Y : List Int) (hp : vget pinned column = .ok 0) :
    get_pins_collect seq1 seq2 pinned (column :: rest) X Y =
      get_pins_collect seq1 seq2 pinned rest X Y := by
  conv_lhs => unfold get_pins_collect
  rw [hp]
  simp only [bind, Except.bind, if_true]

theorem get_pins_collect_fault (seq1 seq2 pinned : List Int) (column : Int)
    (rest X Y : List Int) (e : Fault) (hp : vget pinned column = .error e) :
    get_pins_collect seq1 seq2 pinned (column :: rest) X Y = .error .out_of_range := by
  conv_lhs => unfold get_pins_collect
  rw [hp, vget_eq_error _ _ _ hp]
  simp only [bind, Except.bind]

/-- Every pin that the third loop appends names a pinned column of `seq12`. -/
theorem get_pins_collect_ok (seq1 seq2 pinned sat seq12 : List Int)
    (hpin : ∀ (column p : Int), vget pinned column = .ok p → p ≠ 0 →
      column ∈ sat ∧ column ≠ -1 ∧ column ∈ seq1 ∧ column ∈ seq2) :
    ∀ (rest X0 Y0 : List Int) (r : List (List Int)), (∀ c ∈ rest, c ∈ seq12) →
      List.Forall₂ (pin_names_column seq1 seq2 seq12 sat) X0 Y0 →
      get_pins_collect seq1 seq2 pinned rest X0 Y0 = .ok r →
      ∃ X Y, r = [X, Y] ∧ List.Forall₂ (pin_names_column seq1 seq2 seq12 sat) X Y := by
  intro rest
  induction rest with
  | nil =>
    intro X0 Y0 r _ h0 h
    simp only [get_pins_collect, Except.ok.injEq] at h
    exact ⟨X0, Y0, h.symm, h0⟩
  | cons column rest ih =>
    intro X0 Y0 r hsub h0 h
    have hsub' : ∀ c ∈ rest, c ∈ seq12 := fun c hc => hsub c (List.mem_cons_of_mem _ hc)
    cases hp : vget pinned column with
    | error e => rw [get_pins_collect_fault _ _ _ _ _ _ _ e hp] at h; simp at h
    | ok p =>
      by_cases hp0 : p = 0
      · subst hp0
        rw [get_pins_collect_skip _ _ _ _ _ _ _ hp] at h
        exact ih _ _ _ hsub' h0 h
      · obtain ⟨hs, hne, h1, h2⟩ := hpin column p hp hp0
        rw [get_pins_collect_step _ _ _ _ _ _ _ p hp hp0 h1 h2] at h
        obtain ⟨_, _, h⟩ := (bind_eq_ok _ _ _).mp h
        obtain ⟨_, _, h⟩ := (bind_eq_ok _ _ _).mp h
        refine ih _ _ _ hsub' ?_ h
        apply List.rel_append h0
        refine List.Forall₂.cons ?_ List.Forall₂.nil
        obtain ⟨a1, a2, a3⟩ := find_index_of_mem seq1 column h1
        obtain ⟨b1, b2, b3⟩ := find_index_of_mem seq2 column h2
        refine ⟨by omega, by omega, by omega, by omega, column,
          hsub column (List.mem_cons_self _ _), hs, hne, ?_, ?_⟩
        · simpa using a3
        · simpa using b3

theorem get_pins_collect_error (seq1 seq2 pinned : List Int)
    (hpin : ∀ (column p : Int), vget pinned column = .ok p → p ≠ 0 →
      column ∈ seq1 ∧ column ∈ seq2) :
    ∀ (rest X0 Y0 : List Int) (e : Fault),
      get_pins_collect seq1 seq2 pinned rest X0 Y0 = .error e →
      e = .out_of_range ∨ e = .exception not_increasing_msg := by
  intro rest
  induction rest with
  | nil => intro X0 Y0 e h; simp [get_pins_collect] at h
  | cons column rest ih =>
    intro X0 Y0 e h
    cases hp : vget pinned column with
    | error e' =>
      rw [get_pins_collect_fault _ _ _ _ _ _ _ e' hp] at h
      simp only [Except.error.injEq] at h
      exact Or.inl h.symm
    | ok p =>
      by_cases hp0 : p = 0
      · subst hp0
        rw [get_pins_collect_skip _ _ _ _ _ _ _ hp] at h
        exact ih _ _ _ h
      · obtain ⟨h1, h2⟩ := hpin column p hp hp0
        rw [get_pins_collect_step _ _ _ _ _ _ _ p hp hp0 h1 h2] at h
        rcases (bind_eq_error _ _ _).mp h with hc | ⟨_, _, h⟩
        · exact pins_order_check_error _ _ _ hc
        · rcases (bind_eq_error _ _ _).mp h with hc | ⟨_, _, h⟩
          · exact pins_order_check_error _ _ _ hc
          · exact ih _ _ _ h

theorem vget_replicate_zero (n : Nat) (column p : Int)
    (h : vget (List.replicate n (0 : Int)) column = .ok p) : p = 0 := by
  obtain ⟨_, hx⟩ := (vget_eq_ok _ _ _).mp h
  rw [List.getElem?_replicate] at hx
  split_ifs at hx
  simp only [Option.some.injEq] at hx
  exact hx.symm

theorem get_pins_collect_absent (seq1 seq2 pinned : List Int) (column : Int)
    (rest X Y : List Int) (p : Int) (hp : vget pinned column = .ok p) (hp0 : p ≠ 0)
    (h : column ∉ seq1 ∨ column ∉ seq2) :
    get_pins_collect seq1 seq2 pinned (column :: rest) X Y = .error .assertion_failed := by
  conv_lhs => unfold get_pins_collect
  rw [hp]
  simp only [bind, Except.bind]
  rw [if_neg hp0]
  by_cases h1 : column ∈ seq1
  · have h2 : column ∉ seq2 := by
      rcases h with h | h
      · exact absurd h1 h
      · exact h
    obtain ⟨a1, a2, _⟩ := find_index_of_mem seq1 column h1
    have b := (find_index_eq_neg_one seq2 column).mpr h2
    have n2 : ¬ ¬ (find_index seq1 column ≥ 0 ∧ find_index seq1 column < (seq1.length : Int)) := by
      omega
    have n3 : ¬ (find_index seq2 column ≥ 0 ∧ find_index seq2 column < (seq2.length : Int)) := by
      omega
    rw [if_neg n2, if_pos n3]
    rfl
  · have a := (find_index_eq_neg_one seq1 column).mpr h1
    have n2 : ¬ (find_index seq1 column ≥ 0 ∧ find_index seq1 column < (seq1.length : Int)) := by
      omega
    rw [if_pos n2]
    rfl

/-- A normal return of the third loop is the two-element vector `pins`. -/
theorem get_pins_collect_shape (seq1 seq2 pinned : List Int) :
    ∀ (rest X0 Y0 : List Int) (r : List (List Int)),
      get_pins_collect seq1 seq2 pinned rest X0 Y0 = .ok r → ∃ X Y, r = [X, Y] := by
  intro rest
  induction rest with
  | nil =>
    intro X0 Y0 r h
    simp only [get_pins_collect, Except.ok.injEq] at h
    exact ⟨X0, Y0, h.symm⟩
  | cons column rest ih =>
    intro X0 Y0 r h
    cases hp : vget pinned column with
    | error e => rw [get_pins_collect_fault _ _ _ _ _ _ _ e hp] at h; simp at h
    | ok p =>
      by_cases hp0 : p = 0
      · subst hp0
        rw [get_pins_collect_skip _ _ _ _ _ _ _ hp] at h
        exact ih _ _ _ h
      · by_cases hmem : column ∈ seq1 ∧ column ∈ seq2
        · rw [get_pins_collect_step _ _ _ _ _ _ _ p hp hp0 hmem.1 hmem.2] at h
          obtain ⟨_, _, h⟩ := (bind_eq_ok _ _ _).mp h
          obtain ⟨_, _, h⟩ := (bind_eq_ok _ _ _).mp h
          exact ih _ _ _ h
        · rw [get_pins_collect_absent _ _ _ _ _ _ _ p hp hp0 (by tauto)] at h
          simp at h

/-! ## C3, C4, C5: `get_pins` -/

/-- C3. On three pinned columns visited in the order `0,2,1`, `get_pins` neither returns
the infeasible marker nor throws: it returns `X = Y = (1,3,2)`, which decreases from the
second pin to the third.  The order check reads `X[pins.size()-2] > X[pins.size()-1]`
with `pins.size() = 2`, so it compares the first two pins only. -/
theorem C3_get_pins_returns_decreasing_pins :
    get_pins run3_column_lookup run3_constraint run3_A [true, false] [false, true]
        [0, 1, 2] [0, 1, 2] [0, 2, 1] = .ok [[1, 3, 2], [1, 3, 2]] ∧
    ¬ List.Chain' (fun a b : Int => a ≤ b) [1, 3, 2] :=
  ⟨by decide, by simp⟩

/-- C4. Whenever `get_pins` returns a pin list `[X,Y]`, `X` and `Y` have equal length and
every pin `(X[k],Y[k])` is 1-based and names one alignment column on both axes:
`1 <= X[k] <= |seq1|`, `1 <= Y[k] <= |seq2|`, `seq1[X[k]-1] = seq2[Y[k]-1]`, and that
column is a pinned column (the column of an enforced constraint) occurring in `seq12`.
Neither the assertions of the third loop fail nor is its exception `Did not already bail
out on un-pinnable column?!?` thrown, for any input. -/
theorem C4_get_pins_pins_name_columns (column_lookup : alignment → List (List Int))
    (constraint : IntMatrix) (A : alignment) (group1 group2 : List Bool)
    (seq1 seq2 seq12 : List Int) :
    get_pins column_lookup constraint A group1 group2 seq1 seq2 seq12
      ≠ .error .assertion_failed ∧
    get_pins column_lookup constraint A group1 group2 seq1 seq2 seq12
      ≠ .error (.exception unpinnable_msg) ∧
    ∀ X Y : List Int,
      get_pins column_lookup constraint A group1 group2 seq1 seq2 seq12 = .ok [X, Y] →
      X.length = Y.length ∧
      ∃ sat, get_pins_satisfied column_lookup constraint A group1 group2 = .ok sat ∧
        List.Forall₂ (pin_names_column seq1 seq2 seq12 sat) X Y := by
  have key : ∀ e, get_pins column_lookup constraint A group1 group2 seq1 seq2 seq12 = .error e →
      e = .out_of_range ∨ e = .exception not_increasing_msg := by
    intro e h
    unfold get_pins at h
    rcases (bind_eq_error _ _ _).mp h with hs | ⟨sat, _, h⟩
    · exact Or.inl (get_pins_satisfied_error _ _ _ _ _ _ hs)
    · rcases (bind_eq_error _ _ _).mp h with hm | ⟨marked, hm, h⟩
      · exact Or.inl (get_pins_mark_error _ _ _ _ _ hm)
      · cases marked with
        | none => exact absurd h (pure_ne_error _ _)
        | some pinned =>
          simp only at h
          refine get_pins_collect_error seq1 seq2 pinned ?_ _ _ _ _ h
          intro column p hp hp0
          rcases get_pins_mark_some _ _ _ _ _ hm column p hp hp0 with h0 | ⟨_, _, h1, h2⟩
          · exact absurd (vget_replicate_zero _ _ _ h0) hp0
          · exact ⟨h1, h2⟩
  refine ⟨?_, ?_, ?_⟩
  · intro h
    rcases key _ h with h | h
    · exact absurd h (by decide)
    · exact absurd h (by decide)
  · intro h
    rcases key _ h with h | h
    · exact absurd h (by decide)
    · exact absurd h (by decide)
  · intro X Y h
    unfold get_pins at h
    obtain ⟨sat, hs, h⟩ := (bind_eq_ok _ _ _).mp h
    obtain ⟨marked, hm, h⟩ := (bind_eq_ok _ _ _).mp h
    cases marked with
    | none =>
      simp only [pure_eq_ok, impossible] at h
      simp at h
    | some pinned =>
      simp only at h
      have hpin : ∀ (column p : Int), vget pinned column = .ok p → p ≠ 0 →
          column ∈ sat ∧ column ≠ -1 ∧ column ∈ seq1 ∧ column ∈ seq2 := by
        intro column p hp hp0
        rcases get_pins_mark_some _ _ _ _ _ hm column p hp hp0 with h0 | hr
        · exact absurd (vget_replicate_zero _ _ _ h0) hp0
        · exact hr
      obtain ⟨X', Y', hr, hf⟩ := get_pins_collect_ok seq1 seq2 pinned sat seq12 hpin
        seq12 [] [] _ (fun _ hc => hc) List.Forall₂.nil h
      simp only [List.cons.injEq, and_true] at hr
      obtain ⟨rfl, rfl⟩ := hr
      exact ⟨hf.length_eq, sat, hs, hf⟩

/-- A run that returns the pin list `X = Y = (1,2,3)`: the hypothesis of C4 holds there. -/
theorem C4_get_pins_pins_name_columns_witness :
    get_pins run3_column_lookup run3_constraint run3_A [true, false] [false, true]
        [0, 1, 2] [0, 1, 2] [0, 1, 2] = .ok [[1, 2, 3], [1, 2, 3]] ∧
    ([1, 2, 3] : List Int).length = ([1, 2, 3] : List Int).length ∧
    ∃ sat, get_pins_satisfied run3_column_lookup run3_constraint run3_A [true, false]
        [false, true] = .ok sat ∧
      List.Forall₂ (pin_names_column [0, 1, 2] [0, 1, 2] [0, 1, 2] sat) [1, 2, 3] [1, 2, 3] :=
  ⟨by decide,
   (C4_get_pins_pins_name_columns run3_column_lookup run3_constraint run3_A [true, false]
      [false, true] [0, 1, 2] [0, 1, 2] [0, 1, 2]).2.2 [1, 2, 3] [1, 2, 3] (by decide)⟩

/-- C5. In a run of `get_pins` without an access outside a vector, the result is exactly
the one-element list `[[-1,-1]]` if and only if some constraint `i` that is satisfied
(`constraint_columns` gives it a column other than `-1`) and has constrained residues in
both `group1` and `group2` lies in a column that is absent from `seq1` or absent from
`seq2`; every other returned value is a two-element list `[X,Y]`. -/
theorem C5_get_pins_infeasible_marker (column_lookup : alignment → List (List Int))
    (constraint : IntMatrix) (A : alignment) (group1 group2 : List Bool)
    (seq1 seq2 seq12 : List Int)
    (hdef : get_pins column_lookup constraint A group1 group2 seq1 seq2 seq12
      ≠ .error .out_of_range) :
    impossible = [[-1, -1]] ∧
    (get_pins column_lookup constraint A group1 group2 seq1 seq2 seq12 = .ok impossible ↔
      ∃ cols, constraint_columns column_lookup constraint A = .ok cols ∧
        ∃ (i : Nat) (column : Int), cols[i]? = some column ∧ column ≠ -1 ∧
          constrained group1 constraint i = .ok true ∧
          constrained group2 constraint i = .ok true ∧
          (column ∉ seq1 ∨ column ∉ seq2)) ∧
    (∀ r, get_pins column_lookup constraint A group1 group2 seq1 seq2 seq12 = .ok r →
      r ≠ impossible → ∃ X Y, r = [X, Y]) := by
  refine ⟨rfl, ⟨?_, ?_⟩, ?_⟩
  · intro h
    unfold get_pins at h
    obtain ⟨sat, hs, h⟩ := (bind_eq_ok _ _ _).mp h
    obtain ⟨marked, hm, h⟩ := (bind_eq_ok _ _ _).mp h
    cases marked with
    | some pinned =>
      simp only at h
      obtain ⟨X, Y, hr⟩ := get_pins_collect_shape _ _ _ _ _ _ _ h
      simp [impossible] at hr
    | none =>
      obtain ⟨column, hmem, hne, habs⟩ := get_pins_mark_none _ _ _ _ hm
      unfold get_pins_satisfied at hs
      obtain ⟨cols, hc, hf⟩ := (bind_eq_ok _ _ _).mp hs
      obtain ⟨_, hk⟩ := get_pins_filter_ok _ _ _ _ _ _ hf
      obtain ⟨k, hk1⟩ := List.getElem?_of_mem hmem
      obtain ⟨c, both, h1, h2, h3⟩ := hk k column hk1
      have hb : both = true := by
        by_contra hb
        simp only [hb] at h3
        exact hne (by simpa using h3)
      subst hb
      simp only [if_true] at h3
      subst h3
      rw [Nat.zero_add] at h2
      obtain ⟨g1, g2⟩ := (constrained_both_eq_true _ _ _ _).mp h2
      exact ⟨cols, hc, k, column, h1, hne, g1, g2, habs⟩
  · rintro ⟨cols, hc, i, column, hi, hne, g1, g2, habs⟩
    have hb := (constrained_both_eq_true constraint group1 group2 i).mpr ⟨g1, g2⟩
    cases hf : get_pins_filter constraint group1 group2 cols 0 with
    | error e =>
      exfalso
      apply hdef
      have he := get_pins_filter_error _ _ _ _ _ _ hf
      subst he
      unfold get_pins get_pins_satisfied
      rw [hc]
      simp only [bind, Except.bind]
      rw [hf]
    | ok sat =>
      have hs : get_pins_satisfied column_lookup constraint A group1 group2 = .ok sat := by
        unfold get_pins_satisfied
        rw [hc]
        simp only [bind, Except.bind]
        rw [hf]
      obtain ⟨hlen, hk⟩ := get_pins_filter_ok _ _ _ _ _ _ hf
      have hilt : i < sat.length := by
        rw [hlen]; exact (List.getElem?_eq_some_iff.mp hi).1
      obtain ⟨c, both, h1, h2, h3⟩ := hk i sat[i] (List.getElem?_eq_getElem hilt)
      rw [Nat.zero_add, hb] at h2
      simp only [Except.ok.injEq] at h2
      subst h2
      rw [hi] at h1
      simp only [Option.some.injEq] at h1
      subst h1
      simp only [if_true] at h3
      have hmem : column ∈ sat := by rw [← h3]; exact List.getElem_mem hilt
      have hmark := get_pins_mark_unreachable seq1 seq2 sat (List.replicate A.length 0)
        (fun col p hp hp0 => absurd (vget_replicate_zero _ _ _ hp) hp0)
        ⟨column, hmem, hne, habs⟩
      rcases hmark with hm | hm
      · unfold get_pins
        rw [hs]
        simp only [bind, Except.bind]
        rw [hm]
        rfl
      · exfalso
        apply hdef
        unfold get_pins
        rw [hs]
        simp only [bind, Except.bind]
        rw [hm]
  · intro r h hne
    unfold get_pins at h
    obtain ⟨sat, hs, h⟩ := (bind_eq_ok _ _ _).mp h
    obtain ⟨marked, hm, h⟩ := (bind_eq_ok _ _ _).mp h
    cases marked with
    | none =>
      simp only [pure_eq_ok] at h
      exact absurd h.symm hne
    | some pinned =>
      simp only at h
      exact get_pins_collect_shape _ _ _ _ _ _ _ h

/-- A run in which the column of the second constraint is absent from `seq2`: the
hypothesis of C5 holds and the result is the marker. -/
theorem C5_get_pins_infeasible_marker_witness :
    get_pins run3_column_lookup run3_constraint run3_A [true, false] [false, true]
        [0, 1, 2] [0, 2] [0, 1, 2] ≠ .error .out_of_range ∧
    (get_pins run3_column_lookup run3_constraint run3_A [true, false] [false, true]
        [0, 1, 2] [0, 2] [0, 1, 2] = .ok impossible ↔
      ∃ cols, constraint_columns run3_column_lookup run3_constraint run3_A = .ok cols ∧
        ∃ (i : Nat) (column : Int), cols[i]? = some column ∧ column ≠ -1 ∧
          constrained [true, false] run3_constraint i = .ok true ∧
          constrained [false, true] run3_constraint i = .ok true ∧
          (column ∉ ([0, 1, 2] : List Int) ∨ column ∉ ([0, 2] : List Int))) :=
  ⟨by decide,
   (C5_get_pins_infeasible_marker run3_column_lookup run3_constraint run3_A [true, false]
      [false, true] [0, 1, 2] [0, 2] [0, 1, 2] (by decide)).2.1⟩

/-! ## More facts about vector access -/

theorem vget_bounds {α : Type} (v : List α) (i : Int) (x : α) (h : vget v i = .ok x) :
    0 ≤ i ∧ i < (v.length : Int) := by
  obtain ⟨h0, hx⟩ := (vget_eq_ok _ _ _).mp h
  have := (List.getElem?_eq_some_iff.mp hx).1
  omega

theorem vget_error_iff {α : Type} (v : List α) (i : Int) :
    vget v i = .error .out_of_range ↔ ¬ (0 ≤ i ∧ i < (v.length : Int)) := by
  constructor
  · intro h hb
    obtain ⟨x, hx⟩ := vget_of_lt v i hb.1 hb.2
    rw [hx] at h
    simp at h
  · intro h
    cases hx : vget v i with
    | ok x => exact absurd (vget_bounds _ _ _ hx) h
    | error e => rw [vget_eq_error _ _ _ hx]

theorem vget_append_left {α : Type} (v w : List α) (i : Int) (h : i < (v.length : Int)) :
    vget (v ++ w) i = vget v i := by
  unfold vget
  by_cases h0 : 0 ≤ i
  · have : i.toNat < v.length := by omega
    simp only [h0, if_true]
    rw [List.getElem?_append_left this]
  · simp [h0]

theorem vget_append_length {α : Type} (v : List α) (a : α) :
    vget (v ++ [a]) (v.length : Int) = .ok a := by
  rw [vget_eq_ok]
  refine ⟨by omega, ?_⟩
  simp

theorem vget_append_other {α : Type} (v : List α) (a : α) (i : Int)
    (h : i ≠ (v.length : Int)) : vget (v ++ [a]) i = vget v i := by
  by_cases hlt : i < (v.length : Int)
  · exact vget_append_left _ _ _ hlt
  · have h1 : vget v i = .error .out_of_range := (vget_error_iff _ _).mpr (by omega)
    have h2 : vget (v ++ [a]) i = .error .out_of_range :=
      (vget_error_iff _ _).mpr (by simp only [List.length_append, List.length_singleton]; omega)
    rw [h1, h2]

theorem vset_ok_of_lt {α : Type} (v : List α) (i : Int) (x : α) (h0 : 0 ≤ i)
    (h1 : i < (v.length : Int)) : vset v i x = .ok (v.set i.toNat x) :=
  (vset_eq_ok _ _ _ _).mpr ⟨⟨h0, h1⟩, rfl⟩

theorem vset_error {α : Type} (v : List α) (i : Int) (x : α) (e : Fault)
    (h : vset v i x = .error e) : e = .out_of_range ∧ ¬ (0 ≤ i ∧ i < (v.length : Int)) := by
  unfold vset at h
  by_cases hb : 0 ≤ i ∧ i < (v.length : Int)
  · rw [if_pos hb] at h; simp at h
  · rw [if_neg hb] at h
    simp only [Except.error.injEq] at h
    exact ⟨h.symm, hb⟩

namespace Multi_Likelihood_Cache

variable {Matrix : Type}

/-! ## The primitive steps of the pool keep the bookkeeping consistent -/

theorem Inv.congr {c : Multi_Likelihood_Cache Matrix} {g g' : Int → Nat} (h : Inv c g)
    (hg : ∀ v, g v = g' v) : Inv c g' := by
  have : g = g' := funext hg
  rw [← this]; exact h

theorem Inv.free_count {c : Multi_Likelihood_Cache Matrix} {g : Int → Nat} (h : Inv c g)
    (loc : Int) (hm : loc ∈ c.unused_locations) :
    g loc = 0 ∧ 0 ≤ loc ∧ loc < (c.n_uses.length : Int) := by
  have hz := h.free_zero loc hm
  have hb := vget_bounds _ _ _ hz
  have hc := h.counts loc hb.1 hb.2
  rw [hz] at hc
  simp only [Except.ok.injEq] at hc
  exact ⟨by omega, hb⟩

theorem allocate_one_inv [Inhabited Matrix] (c : Multi_Likelihood_Cache Matrix)
    (g : Int → Nat) (h : Inv c g) : Inv (allocate_one c) g := by
  have hnew : g (c.store.length : Int) = 0 := by
    by_contra hne
    rcases h.g_range _ (Nat.pos_of_ne_zero hne) with hu | hr
    · simp only [unmapped] at hu; omega
    · rw [h.len_store] at hr; omega
  refine ⟨?_, ?_, h.len_active, h.len_length, ?_, ?_, ?_, ?_⟩
  · simp [allocate_one, h.len_flags]
  · simp [allocate_one, h.len_store]
  · simp only [allocate_one, List.nodup_cons]
    refine ⟨?_, h.free_nodup⟩
    intro hm
    have := (h.free_count _ hm).2.2
    rw [h.len_store] at this
    omega
  · intro loc hm
    simp only [allocate_one, List.mem_cons] at hm ⊢
    rcases hm with rfl | hm
    · rw [h.len_store]; exact vget_append_length _ _
    · have hz := h.free_zero loc hm
      rw [vget_append_left _ _ _ (vget_bounds _ _ _ hz).2]
      exact hz
  · intro v hv
    rcases h.g_range v hv with hu | hr
    · exact Or.inl hu
    · right
      simp only [allocate_one, List.length_append, List.length_singleton]
      omega
  · intro v h0 h1
    simp only [allocate_one, List.length_append, List.length_singleton] at h1 ⊢
    by_cases hlt : v < (c.n_uses.length : Int)
    · rw [vget_append_left _ _ _ hlt]
      exact h.counts v h0 hlt
    · have hv : v = (c.n_uses.length : Int) := by omega
      subst hv
      rw [vget_append_length]
      rw [← h.len_store, hnew]
      rfl

/-- The effect of `get_unused_location` on a consistent pool: it returns a Location of the
arena that had no user, which now has one user and is not up to date; the mapping, the
tokens, and the count, the flag and the stored matrices of every other Location are
untouched. -/
theorem get_unused_location_spec [Inhabited Matrix] (c : Multi_Likelihood_Cache Matrix)
    (g : Int → Nat) (h : Inv c g) :
    ∃ loc c', get_unused_location c = .ok (loc, c') ∧ Inv c' (bump g loc) ∧ g loc = 0 ∧
      (0 ≤ loc ∧ loc < (c'.n_uses.length : Int)) ∧
      c'.mapping = c.mapping ∧ c'.active = c.active ∧ c'.length = c.length ∧
      c'.cv_up_to_date_ = c.cv_up_to_date_ ∧
      (c.n_uses.length : Int) ≤ (c'.n_uses.length : Int) ∧
      vget c'.up_to_date_ loc = .ok 0 ∧
      (∀ v, v ≠ loc → vget c'.up_to_date_ v = vget c.up_to_date_ v) ∧
      (∀ v, v ≠ loc → vget c'.store v = vget c.store v) ∧
      (∀ v, v ≠ loc → vget c'.n_uses v = vget c.n_uses v) := by
  -- the state after the optional growth of the arena
  obtain ⟨c1, hc1, h1, hne, hmap, hact, hlen, hcv, hle, hfl, hst, hnu⟩ :
      ∃ c1, c1 = (if c.unused_locations.isEmpty then allocate c 1 else c) ∧ Inv c1 g ∧
        c1.unused_locations ≠ [] ∧ c1.mapping = c.mapping ∧ c1.active = c.active ∧
        c1.length = c.length ∧ c1.cv_up_to_date_ = c.cv_up_to_date_ ∧
        (c.n_uses.length : Int) ≤ (c1.n_uses.length : Int) ∧
        (∀ v, v ∈ c1.unused_locations → ∀ w, w ≠ v →
          vget c1.up_to_date_ w = vget c.up_to_date_ w) ∧
        (∀ v, v ∈ c1.unused_locations → ∀ w, w ≠ v → vget c1.store w = vget c.store w) ∧
        (∀ v, v ∈ c1.unused_locations → ∀ w, w ≠ v → vget c1.n_uses w = vget c.n_uses w) := by
    by_cases he : c.unused_locations.isEmpty = true
    · have hnil : c.unused_locations = [] := by simpa using he
      refine ⟨allocate_one c, by simp [he, allocate], allocate_one_inv c g h, by
        simp [allocate_one], rfl, rfl, rfl, rfl, by simp [allocate_one], ?_, ?_, ?_⟩
      · intro v hv w hw
        simp only [allocate_one, hnil, List.mem_singleton] at hv
        subst hv
        simp only [allocate_one]
        exact vget_append_other _ _ _ (by rw [h.len_flags, ← h.len_store]; exact hw)
      · intro v hv w hw
        simp only [allocate_one, hnil, List.mem_singleton] at hv
        subst hv
        simp only [allocate_one]
        exact vget_append_other _ _ _ hw
      · intro v hv w hw
        simp only [allocate_one, hnil, List.mem_singleton] at hv
        subst hv
        simp only [allocate_one]
        exact vget_append_other _ _ _ (by rw [← h.len_store]; exact hw)
    · refine ⟨c, by simp [he], h, ?_, rfl, rfl, rfl, rfl, le_refl _, fun _ _ _ _ => rfl,
        fun _ _ _ _ => rfl, fun _ _ _ _ => rfl⟩
      intro hnil
      rw [hnil] at he
      simp at he
  unfold get_unused_location
  rw [← hc1]
  cases hu : c1.unused_locations with
  | nil => exact absurd hu hne
  | cons loc rest =>
    have hmem : loc ∈ c1.unused_locations := by rw [hu]; exact List.mem_cons_self _ _
    obtain ⟨hg0, hb0, hb1⟩ := h1.free_count loc hmem
    have hnd : (loc :: rest).Nodup := by rw [← hu]; exact h1.free_nodup
    have hs1 := vset_ok_of_lt c1.n_uses loc 1 hb0 hb1
    have hs2 := vset_ok_of_lt c1.up_to_date_ loc 0 hb0 (by rw [h1.len_flags]; exact hb1)
    refine ⟨loc,
      { c1 with unused_locations := rest
                n_uses := c1.n_uses.set loc.toNat 1
                up_to_date_ := c1.up_to_date_.set loc.toNat 0 },
      ?_, ?_, hg0, ?_, hmap, hact, hlen, hcv, ?_, ?_, ?_, ?_, ?_⟩
    · simp only [hu, hs1, hs2, bind, Except.bind, pure, Except.pure]
    · refine ⟨?_, ?_, h1.len_active, h1.len_length, ?_, ?_, ?_, ?_⟩
      · simp [h1.len_flags]
      · simp [h1.len_store]
      · exact (List.nodup_cons.mp hnd).2
      · intro l hl
        simp only
        have hne' : loc ≠ l := by
          intro heq; subst heq
          exact (List.nodup_cons.mp hnd).1 hl
        rw [vget_set_other _ _ _ _ hb0 hne']
        exact h1.free_zero l (by rw [hu]; exact List.mem_cons_of_mem _ hl)
      · intro v hv
        simp only [List.length_set]
        by_cases hvl : v = loc
        · subst hvl; exact Or.inr ⟨hb0, hb1⟩
        · simp only [bump, hvl, if_false, add_zero] at hv
          exact h1.g_range v hv
      · intro v h0 hlt
        simp only [List.length_set] at hlt ⊢
        by_cases hvl : v = loc
        · subst hvl
          rw [vget_set_self _ _ _ hb0 hb1]
          simp [bump, hg0]
        · rw [vget_set_other _ _ _ _ hb0 (Ne.symm hvl)]
          simp only [bump, hvl, if_false, add_zero]
          exact h1.counts v h0 hlt
    · simp only [List.length_set]; exact ⟨hb0, hb1⟩
    · simp only [List.length_set]; exact hle
    · exact vget_set_self _ _ _ hb0 (by rw [h1.len_flags]; exact hb1)
    · intro v hvl
      simp only
      rw [vget_set_other _ _ _ _ hb0 (Ne.symm hvl)]
      exact hfl loc hmem v hvl
    · intro v hvl
      exact hst loc hmem v hvl
    · intro v hvl
      simp only
      rw [vget_set_other _ _ _ _ hb0 (Ne.symm hvl)]
      exact hnu loc hmem v hvl

/-- The effect of `release_location` on a consistent pool, for a Location that has a
user. -/
theorem release_location_spec (c : Multi_Likelihood_Cache Matrix) (g : Int → Nat)
    (h : Inv c g) (loc : Int) (hpos : 0 < g loc) (hloc : 0 ≤ loc) :
    ∃ c', release_location c loc = .ok c' ∧ Inv c' (unbump g loc) ∧
      c'.mapping = c.mapping ∧ c'.active = c.active ∧ c'.length = c.length ∧
      c'.cv_up_to_date_ = c.cv_up_to_date_ ∧
      c'.up_to_date_ = c.up_to_date_ ∧ c'.store = c.store ∧
      c'.n_uses = c.n_uses.set loc.toNat ((g loc : Int) - 1) := by
  have hr : 0 ≤ loc ∧ loc < (c.n_uses.length : Int) := by
    rcases h.g_range loc hpos with hu | hr
    · simp only [unmapped] at hu; omega
    · exact hr
  have hn := h.counts loc hr.1 hr.2
  have hs := vset_ok_of_lt c.n_uses loc ((g loc : Int) - 1) hr.1 hr.2
  have hnot : loc ∉ c.unused_locations := by
    intro hm
    have := (h.free_count loc hm).1
    omega
  refine ⟨
    { c with n_uses := c.n_uses.set loc.toNat ((g loc : Int) - 1)
             unused_locations :=
               if (g loc : Int) - 1 = 0 then loc :: c.unused_locations
               else c.unused_locations },
    ?_, ?_, rfl, rfl, rfl, rfl, rfl, rfl, rfl⟩
  · unfold release_location
    simp only [hn, hs, bind, Except.bind, pure, Except.pure]
  · refine ⟨?_, ?_, h.len_active, h.len_length, ?_, ?_, ?_, ?_⟩
    · simp [h.len_flags]
    · simp [h.len_store]
    · simp only
      split_ifs
      · exact List.nodup_cons.mpr ⟨hnot, h.free_nodup⟩
      · exact h.free_nodup
    · intro l hl
      simp only at hl ⊢
      by_cases hll : l = loc
      · subst hll
        rw [vget_set_self _ _ _ hr.1 hr.2]
        split_ifs at hl with hz
        · rw [hz]
        · exact absurd hl hnot
      · rw [vget_set_other _ _ _ _ hr.1 (Ne.symm hll)]
        apply h.free_zero
        split_ifs at hl
        · rcases List.mem_cons.mp hl with h1 | h1
          · exact absurd h1 hll
          · exact h1
        · exact hl
    · intro v hv
      simp only [List.length_set]
      apply h.g_range
      simp only [unbump] at hv
      omega
    · intro v h0 hlt
      simp only [List.length_set] at hlt ⊢
      by_cases hvl : v = loc
      · subst hvl
        rw [vget_set_self _ _ _ hr.1 hr.2]
        simp only [unbump, if_true]
        congr 1
        omega
      · rw [vget_set_other _ _ _ _ hr.1 (Ne.symm hvl)]
        simp only [unbump, hvl, if_false, Nat.sub_zero]
        exact h.counts v h0 hlt

end Multi_Likelihood_Cache

/-! ## Counting the pairs of the active tokens -/

theorem ite_eq_comm (a b : Int) :
    (if a = b then 1 else 0 : Nat) = (if b = a then 1 else 0) := by
  by_cases h : a = b
  · subst h; simp
  · have : ¬ b = a := fun h' => h h'.symm
    simp [h, this]

theorem count_set (l : List Int) (i : Nat) (old new x : Int) (h : l[i]? = some old) :
    (l.set i new).count x + (if x = old then 1 else 0)
      = l.count x + (if x = new then 1 else 0) := by
  rw [ite_eq_comm x old, ite_eq_comm x new]
  induction l generalizing i with
  | nil => simp at h
  | cons a rest ih =>
    cases i with
    | zero =>
      simp only [List.getElem?_cons_zero, Option.some.injEq] at h
      subst h
      simp only [List.set_cons_zero, List.count_cons, beq_iff_eq]
      omega
    | succ i =>
      simp only [List.getElem?_cons_succ] at h
      have := ih i h
      simp only [List.set_cons_succ, List.count_cons, beq_iff_eq]
      omega

namespace Multi_Likelihood_Cache

variable {Matrix : Type}

theorem live_count_set (x : Int) (row' : List Int) (a' : Bool) :
    ∀ (rows : List (List Int)) (as : List Bool) (t : Nat) (row : List Int) (a : Bool),
      rows[t]? = some row → as[t]? = some a →
      (live_entries (rows.set t row') (as.set t a')).count x + (if a then row.count x else 0)
        = (live_entries rows as).count x + (if a' then row'.count x else 0) := by
  intro rows
  induction rows with
  | nil => intro as t row a hr; simp at hr
  | cons r rest ih =>
    intro as t row a hr ha
    cases as with
    | nil => simp at ha
    | cons b bs =>
      cases t with
      | zero =>
        simp only [List.getElem?_cons_zero, Option.some.injEq] at hr ha
        subst hr; subst ha
        simp only [List.set_cons_zero, live_entries, List.count_append]
        cases a' <;> cases b <;> simp <;> omega
      | succ t =>
        simp only [List.getElem?_cons_succ] at hr ha
        have := ih bs t row a hr ha
        simp only [List.set_cons_succ, live_entries, List.count_append]
        omega

theorem live_entries_append (row : List Int) :
    ∀ (rows : List (List Int)) (as : List Bool), as.length = rows.length →
      live_entries (rows ++ [row]) (as ++ [false]) = live_entries rows as := by
  intro rows
  induction rows with
  | nil =>
    intro as h
    cases as with
    | nil => simp [live_entries]
    | cons b bs => simp at h
  | cons r rest ih =>
    intro as h
    cases as with
    | nil => simp at h
    | cons b bs =>
      simp only [List.length_cons, add_left_inj] at h
      have := ih bs h
      show (if b = true then r else []) ++ live_entries (rest ++ [row]) (bs ++ [false])
        = (if b = true then r else []) ++ live_entries rest bs
      rw [this]

theorem live_count_ge (x : Int) :
    ∀ (rows : List (List Int)) (as : List Bool) (t : Nat) (row : List Int),
      rows[t]? = some row → as[t]? = some true →
      row.count x ≤ (live_entries rows as).count x := by
  intro rows
  induction rows with
  | nil => intro as t row hr; simp at hr
  | cons r rest ih =>
    intro as t row hr ha
    cases as with
    | nil => simp at ha
    | cons b bs =>
      cases t with
      | zero =>
        simp only [List.getElem?_cons_zero, Option.some.injEq] at hr ha
        subst hr; subst ha
        simp [live_entries, List.count_append]
      | succ t =>
        simp only [List.getElem?_cons_succ] at hr ha
        have := ih bs t row hr ha
        simp only [live_entries, List.count_append]
        omega

/-- Two different pairs of active tokens that hold the same value give it a count of at
least two. -/
theorem live_count_two (x : Int) (rows : List (List Int)) (as : List Bool)
    (t b t' b' : Nat) (row row' : List Int)
    (hr : rows[t]? = some row) (ha : as[t]? = some true) (hb : row[b]? = some x)
    (hr' : rows[t']? = some row') (ha' : as[t']? = some true) (hb' : row'[b']? = some x)
    (hne : ¬ (t = t' ∧ b = b')) : 2 ≤ (live_entries rows as).count x := by
  -- overwrite the slot `(t,b)` with a value other than `x`
  have h1 := live_count_set x (row.set b (x + 1)) true rows as t row true hr ha
  have h2 := count_set row b x (x + 1) x hb
  simp only [if_true, self_eq_add_right, one_ne_zero, if_false, add_zero] at h1 h2
  have hset : (as.set t true) = as := by
    apply List.ext_getElem?
    intro i
    by_cases hi : t = i
    · subst hi
      rw [List.getElem?_set_self (List.getElem?_eq_some_iff.mp ha).1, ha]
    · rw [List.getElem?_set_ne hi]
  rw [hset] at h1
  have h3 : 1 ≤ (live_entries (rows.set t (row.set b (x + 1))) as).count x := by
    by_cases htt : t = t'
    · subst htt
      have hbb : b ≠ b' := fun h => hne ⟨rfl, h⟩
      rw [hr] at hr'
      simp only [Option.some.injEq] at hr'
      subst hr'
      have hrow : (rows.set t (row.set b (x + 1)))[t]? = some (row.set b (x + 1)) := by
        rw [List.getElem?_set_self (List.getElem?_eq_some_iff.mp hr).1]
      have hge := live_count_ge x _ as t _ hrow ha
      have hmem : x ∈ row.set b (x + 1) := by
        have : (row.set b (x + 1))[b']? = some x := by
          rw [List.getElem?_set_ne hbb]; exact hb'
        exact List.getElem?_mem this
      have := List.count_pos_iff.mpr hmem
      omega
    · have hrow : (rows.set t (row.set b (x + 1)))[t']? = some row' := by
        rw [List.getElem?_set_ne htt]; exact hr'
      have hge := live_count_ge x _ as t' _ hrow ha'
      have := List.count_pos_iff.mpr (List.getElem?_mem hb')
      omega
  omega

end Multi_Likelihood_Cache

namespace Multi_Likelihood_Cache

variable {Matrix : Type}

/-! ## Changes of the token tables -/

theorem Inv.of_bookkeeping {c c' : Multi_Likelihood_Cache Matrix} {g : Int → Nat}
    (h : Inv c g) (h1 : c'.n_uses = c.n_uses)
    (h2 : c'.unused_locations = c.unused_locations)
    (h3 : c'.up_to_date_.length = c.up_to_date_.length)
    (h4 : c'.store.length = c.store.length)
    (h5 : c'.active.length = c'.mapping.length)
    (h6 : c'.length.length = c'.mapping.length) : Inv c' g := by
  refine ⟨?_, ?_, h5, h6, ?_, ?_, ?_, ?_⟩
  · rw [h3, h1]; exact h.len_flags
  · rw [h4, h1]; exact h.len_store
  · rw [h2]; exact h.free_nodup
  · rw [h2, h1]; exact h.free_zero
  · rw [h1]; exact h.g_range
  · rw [h1]; exact h.counts

theorem Inv.congr_nonneg {c : Multi_Likelihood_Cache Matrix} {g g' : Int → Nat}
    (h : Inv c g) (h1 : ∀ v, 0 ≤ v → g' v = g v)
    (h2 : ∀ v, v < 0 → 0 < g' v → v = unmapped) : Inv c g' := by
  refine ⟨h.len_flags, h.len_store, h.len_active, h.len_length, h.free_nodup, h.free_zero,
    ?_, ?_⟩
  · intro v hv
    by_cases h0 : 0 ≤ v
    · rw [h1 v h0] at hv
      exact h.g_range v hv
    · exact Or.inl (h2 v (by omega) hv)
  · intro v h0 hlt
    rw [h1 v h0]
    exact h.counts v h0 hlt

theorem n_live_pairs_congr (c c' : Multi_Likelihood_Cache Matrix)
    (h1 : c'.mapping = c.mapping) (h2 : c'.active = c.active) (x : Int) :
    n_live_pairs c' x = n_live_pairs c x := by
  simp only [n_live_pairs, h1, h2]

theorem location_eq_ok (c : Multi_Likelihood_Cache Matrix) (t b v : Int) :
    location c t b = .ok v ↔ ∃ row, vget c.mapping t = .ok row ∧ vget row b = .ok v := by
  unfold location
  exact bind_eq_ok _ _ _

theorem set_true_self (as : List Bool) (t : Nat) (h : as[t]? = some true) :
    as.set t true = as := by
  apply List.ext_getElem?
  intro i
  by_cases hi : t = i
  · subst hi
    rw [List.getElem?_set_self (List.getElem?_eq_some_iff.mp h).1, h]
  · rw [List.getElem?_set_ne hi]

/-- A pair of an active token counts as a user of its Location. -/
theorem n_live_pairs_pos (c : Multi_Likelihood_Cache Matrix) (token b loc : Int)
    (ha : is_active c token) (hl : location c token b = .ok loc) :
    0 < n_live_pairs c loc := by
  obtain ⟨row, hrow, hb⟩ := (location_eq_ok _ _ _ _).mp hl
  obtain ⟨_, hr⟩ := (vget_eq_ok _ _ _).mp hrow
  obtain ⟨_, ha'⟩ := (vget_eq_ok _ _ _).mp ha
  obtain ⟨_, hb'⟩ := (vget_eq_ok _ _ _).mp hb
  have h1 := live_count_ge loc c.mapping c.active token.toNat row hr ha'
  have h2 := List.count_pos_iff.mpr (List.getElem?_mem hb')
  unfold n_live_pairs
  omega

/-- A Location held by a pair of an active token lies in the arena, and its count is the
number of such pairs. -/
theorem PoolInv.location_count {c : Multi_Likelihood_Cache Matrix} (hinv : PoolInv c)
    (token b loc : Int) (ha : is_active c token) (hl : location c token b = .ok loc)
    (h0 : 0 ≤ loc) :
    loc < (c.n_uses.length : Int) ∧ vget c.n_uses loc = .ok (n_live_pairs c loc : Int) := by
  have hpos := n_live_pairs_pos c token b loc ha hl
  rcases hinv.g_range loc hpos with hu | hr
  · simp only [unmapped] at hu; omega
  · exact ⟨hr.2, hinv.counts loc hr.1 hr.2⟩

theorem set_mapping_eq (c : Multi_Likelihood_Cache Matrix) (token b v old : Int)
    (row : List Int) (hrow : vget c.mapping token = .ok row) (hold : vget row b = .ok old) :
    set_mapping c token b v
      = .ok { c with mapping := c.mapping.set token.toNat (row.set b.toNat v) } := by
  have hb := vget_bounds _ _ _ hold
  have ht := vget_bounds _ _ _ hrow
  unfold set_mapping
  simp only [hrow, vset_ok_of_lt row b v hb.1 hb.2,
    vset_ok_of_lt c.mapping token _ ht.1 ht.2, bind, Except.bind, pure, Except.pure]

theorem n_live_pairs_set_mapping (c : Multi_Likelihood_Cache Matrix) (token b v old : Int)
    (row : List Int) (hrow : vget c.mapping token = .ok row) (hold : vget row b = .ok old)
    (ha : is_active c token) (x : Int) :
    n_live_pairs { c with mapping := c.mapping.set token.toNat (row.set b.toNat v) } x
        + (if x = old then 1 else 0)
      = n_live_pairs c x + (if x = v then 1 else 0) := by
  obtain ⟨_, hr⟩ := (vget_eq_ok _ _ _).mp hrow
  obtain ⟨_, ha'⟩ := (vget_eq_ok _ _ _).mp ha
  obtain ⟨_, hb'⟩ := (vget_eq_ok _ _ _).mp hold
  have h1 := live_count_set x (row.set b.toNat v) true c.mapping c.active token.toNat row true
    hr ha'
  rw [set_true_self _ _ ha'] at h1
  have h2 := count_set row b.toNat old v x hb'
  simp only [if_true] at h1
  simp only [n_live_pairs]
  omega

theorem location_set_mapping_self (c : Multi_Likelihood_Cache Matrix) (token b v old : Int)
    (row : List Int) (hrow : vget c.mapping token = .ok row) (hold : vget row b = .ok old) :
    location { c with mapping := c.mapping.set token.toNat (row.set b.toNat v) } token b
      = .ok v := by
  have hb := vget_bounds _ _ _ hold
  have ht := vget_bounds _ _ _ hrow
  rw [location_eq_ok]
  exact ⟨row.set b.toNat v, vget_set_self _ _ _ ht.1 ht.2, vget_set_self _ _ _ hb.1 hb.2⟩

theorem location_set_mapping_other (c : Multi_Likelihood_Cache Matrix) (token b v old : Int)
    (row : List Int) (hrow : vget c.mapping token = .ok row) (hold : vget row b = .ok old)
    (t' b' : Int) (hne : ¬ (t' = token ∧ b' = b)) :
    location { c with mapping := c.mapping.set token.toNat (row.set b.toNat v) } t' b'
      = location c t' b' := by
  have hb := vget_bounds _ _ _ hold
  have ht := vget_bounds _ _ _ hrow
  unfold location
  simp only
  by_cases htt : t' = token
  · subst htt
    have hbb : b ≠ b' := fun h => hne ⟨rfl, h.symm⟩
    rw [vget_set_self _ _ _ ht.1 ht.2, hrow]
    simp only [bind, Except.bind]
    exact vget_set_other _ _ _ _ hb.1 hbb
  · rw [vget_set_other _ _ _ _ ht.1 (Ne.symm htt)]

/-! ## `ensure_exclusive` -/

/-- The effect of `ensure_exclusive` on a consistent pool, for a mapped branch of an
active token: the branch ends on a Location with exactly one user.  Either nothing
changes, or the branch moves to a Location that no pair of an active token held. -/
theorem ensure_exclusive_spec [Inhabited Matrix] (c : Multi_Likelihood_Cache Matrix)
    (hinv : PoolInv c) (token b loc : Int) (ha : is_active c token)
    (hl : location c token b = .ok loc) (h0 : 0 ≤ loc) :
    ∃ c' loc', ensure_exclusive c token b = .ok c' ∧ PoolInv c' ∧
      c'.active = c.active ∧ c'.length = c.length ∧
      c'.cv_up_to_date_ = c.cv_up_to_date_ ∧
      location c' token b = .ok loc' ∧
      (∀ t' b', ¬ (t' = token ∧ b' = b) → location c' t' b' = location c t' b') ∧
      vget c'.n_uses loc' = .ok 1 ∧
      ((loc' = loc ∧ c' = c) ∨
       (loc' ≠ loc ∧ n_live_pairs c loc' = 0 ∧ 2 ≤ n_live_pairs c loc ∧
         vget c'.up_to_date_ loc' = .ok 0 ∧
         (∀ v, v ≠ loc' → vget c'.up_to_date_ v = vget c.up_to_date_ v) ∧
         (∀ v, v ≠ loc' → vget c'.store v = vget c.store v) ∧
         (∀ v, v ≠ loc' → v ≠ loc → vget c'.n_uses v = vget c.n_uses v) ∧
         vget c'.n_uses loc = .ok ((n_live_pairs c loc : Int) - 1))) := by
  obtain ⟨hlt, hn⟩ := hinv.location_count token b loc ha hl h0
  have hpos := n_live_pairs_pos c token b loc ha hl
  obtain ⟨row, hrow, hb⟩ := (location_eq_ok _ _ _ _).mp hl
  unfold ensure_exclusive
  rw [hl]
  simp only [bind, Except.bind]
  rw [hn]
  simp only
  by_cases hgt : (n_live_pairs c loc : Int) > 1
  · rw [if_pos hgt]
    obtain ⟨c1, hc1, hinv1, hm1, ha1, hlen1, hcv1, hf1, hs1, hn1⟩ :=
      release_location_spec c _ hinv loc hpos h0
    obtain ⟨newloc, c2, hc2, hinv2, hg2, hr2, hm2, ha2, hlen2, hcv2, hle2, hfz2, hf2, hs2, hn2⟩ :=
      get_unused_location_spec c1 _ hinv1
    have hrow2 : vget c2.mapping token = .ok row := by rw [hm2, hm1]; exact hrow
    have hact2 : is_active c2 token := by
      unfold is_active; rw [ha2, ha1]; exact ha
    have hne : newloc ≠ loc := by
      intro heq
      rw [heq] at hg2
      simp only [unbump, if_true] at hg2
      omega
    have hg0 : n_live_pairs c newloc = 0 := by
      simpa [unbump, hne] using hg2
    rw [hc1]
    simp only
    rw [hc2]
    simp only
    rw [set_mapping_eq c2 token b newloc loc row hrow2 hb]
    refine ⟨_, newloc, rfl, ?_, ?_, ?_, ?_, ?_, ?_, ?_, Or.inr ⟨hne, hg0, by omega, ?_, ?_, ?_, ?_, ?_⟩⟩
    · have hI : Inv { c2 with mapping := c2.mapping.set token.toNat (row.set b.toNat newloc) }
          (bump (unbump (n_live_pairs c) loc) newloc) := by
        refine hinv2.of_bookkeeping rfl rfl rfl rfl ?_ ?_
        · simp only [List.length_set]; exact hinv2.len_active
        · simp only [List.length_set]; exact hinv2.len_length
      refine hI.congr ?_
      intro x
      have h1 := n_live_pairs_set_mapping c2 token b newloc loc row hrow2 hb hact2 x
      rw [n_live_pairs_congr c c2 (by rw [hm2, hm1]) (by rw [ha2, ha1])] at h1
      simp only [bump, unbump]
      by_cases hx1 : x = loc
      · have hx2 : ¬ x = newloc := fun h => hne (h.symm.trans hx1)
        simp only [hx1, hx2, if_true, if_false] at h1 ⊢
        rw [← hx1] at hpos
        omega
      · by_cases hx2 : x = newloc
        · rw [hx2] at h1 ⊢
          simp only [hne, if_true, if_false] at h1 ⊢
          omega
        · simp only [hx1, hx2, if_false] at h1 ⊢
          omega
    · simp only; rw [ha2, ha1]
    · simp only; rw [hlen2, hlen1]
    · simp only; rw [hcv2, hcv1]
    · exact location_set_mapping_self c2 token b newloc loc row hrow2 hb
    · intro t' b' hne'
      rw [location_set_mapping_other c2 token b newloc loc row hrow2 hb t' b' hne']
      unfold location
      rw [hm2, hm1]
    · simp only
      have := hinv2.counts newloc hr2.1 hr2.2
      simpa [bump, hg2] using this
    · simp only; exact hfz2
    · intro v hv
      simp only
      rw [hf2 v hv, hf1]
    · intro v hv
      simp only
      rw [hs2 v hv, hs1]
    · intro v hv hv'
      simp only
      rw [hn2 v hv, hn1, vget_set_other _ _ _ _ h0 (Ne.symm hv')]
    · simp only
      rw [hn2 loc (Ne.symm hne), hn1]
      exact vget_set_self _ _ _ h0 hlt
  · rw [if_neg hgt]
    have h1 : (n_live_pairs c loc : Int) = 1 := by omega
    refine ⟨c, loc, rfl, hinv, rfl, rfl, rfl, hl, fun _ _ _ => rfl, ?_, Or.inl ⟨rfl, rfl⟩⟩
    rw [hn, h1]

end Multi_Likelihood_Cache

namespace Multi_Likelihood_Cache

variable {Matrix : Type}

/-! ## `validate_branch` and `invalidate_one_branch` -/

theorem up_to_date_eq (c : Multi_Likelihood_Cache Matrix) (token b loc : Int)
    (hl : location c token b = .ok loc) :
    up_to_date c token b = (vget c.up_to_date_ loc >>= fun flag => pure (flag != 0)) := by
  unfold up_to_date
  rw [hl]
  rfl

theorem up_to_date_of_flag (c : Multi_Likelihood_Cache Matrix) (token b loc flag : Int)
    (hl : location c token b = .ok loc) (hf : vget c.up_to_date_ loc = .ok flag) :
    up_to_date c token b = .ok (flag != 0) := by
  rw [up_to_date_eq c token b loc hl, hf]
  rfl

/-- The answer of `up_to_date` is the same in two pools when the pair has the same
location and that location has the same flag. -/
theorem up_to_date_congr (c c' : Multi_Likelihood_Cache Matrix) (token b : Int)
    (hl : location c' token b = location c token b)
    (hf : ∀ loc, location c token b = .ok loc →
      vget c'.up_to_date_ loc = vget c.up_to_date_ loc) :
    up_to_date c' token b = up_to_date c token b := by
  cases h : location c token b with
  | error e =>
    unfold up_to_date
    rw [hl, h]
    rfl
  | ok loc =>
    rw [up_to_date_eq c token b loc h, up_to_date_eq c' token b loc (by rw [hl, h]), hf loc h]

theorem PoolInv.flags {c c' : Multi_Likelihood_Cache Matrix} (h : PoolInv c)
    (u : List Int) (hu : u.length = c.up_to_date_.length)
    (hc : c' = { c with up_to_date_ := u }) : PoolInv c' := by
  subst hc
  have : Inv { c with up_to_date_ := u } (n_live_pairs c) :=
    Inv.of_bookkeeping h rfl rfl hu rfl h.len_active h.len_length
  exact this.congr (fun x => (n_live_pairs_congr c _ rfl rfl x).symm)

theorem PoolInv.stored {c c' : Multi_Likelihood_Cache Matrix} (h : PoolInv c)
    (s : List (List Matrix)) (hs : s.length = c.store.length)
    (hc : c' = { c with store := s }) : PoolInv c' := by
  subst hc
  have : Inv { c with store := s } (n_live_pairs c) :=
    Inv.of_bookkeeping h rfl rfl rfl hs h.len_active h.len_length
  exact this.congr (fun x => (n_live_pairs_congr c _ rfl rfl x).symm)

theorem validate_branch_eq (c : Multi_Likelihood_Cache Matrix) (token b loc : Int)
    (hl : location c token b = .ok loc) (h0 : 0 ≤ loc)
    (h1 : loc < (c.up_to_date_.length : Int)) :
    validate_branch c token b
      = .ok { c with up_to_date_ := c.up_to_date_.set loc.toNat 1 } := by
  unfold validate_branch
  rw [hl]
  simp only [bind, Except.bind, vset_ok_of_lt _ _ _ h0 h1, pure, Except.pure]

theorem invalidate_one_branch_eq [Inhabited Matrix] (c c1 : Multi_Likelihood_Cache Matrix)
    (token b loc : Int) (he : ensure_exclusive c token b = .ok c1)
    (hl : location c1 token b = .ok loc) (h0 : 0 ≤ loc)
    (h1 : loc < (c1.up_to_date_.length : Int)) :
    invalidate_one_branch c token b
      = .ok { c1 with up_to_date_ := c1.up_to_date_.set loc.toNat 0 } := by
  unfold invalidate_one_branch
  rw [he]
  simp only [bind, Except.bind]
  rw [hl]
  simp only [vset_ok_of_lt _ _ _ h0 h1, pure, Except.pure]

/-- The effect of `invalidate_one_branch` on a consistent pool, for a mapped branch of an
active token: the pool stays consistent, the branch is not up to date, and every other
pair of an active token keeps its location and its answer of `up_to_date`. -/
theorem invalidate_one_branch_spec [Inhabited Matrix] (c : Multi_Likelihood_Cache Matrix)
    (hinv : PoolInv c) (token b loc : Int) (ha : is_active c token)
    (hl : location c token b = .ok loc) (h0 : 0 ≤ loc) :
    ∃ c1 c' loc', ensure_exclusive c token b = .ok c1 ∧
      location c1 token b = .ok loc' ∧
      c' = { c1 with up_to_date_ := c1.up_to_date_.set loc'.toNat 0 } ∧
      invalidate_one_branch c token b = .ok c' ∧ PoolInv c' ∧
      up_to_date c' token b = .ok false ∧
      (∀ t' b', is_active c t' → ¬ (t' = token ∧ b' = b) →
        up_to_date c' t' b' = up_to_date c t' b') := by
  obtain ⟨c1, loc', he, hinv1, hact, _, _, hl1, hloc, hn1, hcase⟩ :=
    ensure_exclusive_spec c hinv token b loc ha hl h0
  have hb1 := vget_bounds _ _ _ hn1
  have hfl : loc' < (c1.up_to_date_.length : Int) := by rw [hinv1.len_flags]; exact hb1.2
  have heq := invalidate_one_branch_eq c c1 token b loc' he hl1 hb1.1 hfl
  refine ⟨c1, _, loc', he, hl1, rfl, heq, hinv1.flags _ (by simp) rfl, ?_, ?_⟩
  · exact up_to_date_of_flag _ token b loc' 0 hl1 (vget_set_self _ _ _ hb1.1 hfl)
  · intro t' b' ha' hne
    apply up_to_date_congr
    · exact hloc t' b' hne
    · intro v hv
      have hpos := n_live_pairs_pos c t' b' v ha' hv
      simp only
      rcases hcase with ⟨h1, h2⟩ | ⟨h1, h2, _, _, h5, _⟩
      · rw [h2] at hn1 ⊢
        have hvne : loc' ≠ v := by
          intro heq
          subst heq
          rw [h1] at hn1
          -- two pairs of active tokens on a Location with one user
          obtain ⟨row, hrow, hb⟩ := (location_eq_ok _ _ _ _).mp hl
          obtain ⟨row', hrow', hb'⟩ := (location_eq_ok _ _ _ _).mp hv
          obtain ⟨t0, hr⟩ := (vget_eq_ok _ _ _).mp hrow
          obtain ⟨t0', hr'⟩ := (vget_eq_ok _ _ _).mp hrow'
          obtain ⟨b0, hbb⟩ := (vget_eq_ok _ _ _).mp hb
          obtain ⟨b0', hbb'⟩ := (vget_eq_ok _ _ _).mp hb'
          obtain ⟨_, hact0⟩ := (vget_eq_ok _ _ _).mp ha
          obtain ⟨_, hact0'⟩ := (vget_eq_ok _ _ _).mp ha'
          rw [h1] at hbb'
          have h2 := live_count_two loc c.mapping c.active token.toNat b.toNat t'.toNat
            b'.toNat row row' hr hact0 hbb hr' hact0' hbb' (by
              rintro ⟨e1, e2⟩
              exact hne ⟨by omega, by omega⟩)
          have h3 := (hinv.location_count token b loc ha hl h0).2
          rw [h3] at hn1
          simp only [Except.ok.injEq] at hn1
          unfold n_live_pairs at hn1
          omega
        exact vget_set_other _ _ _ _ hb1.1 hvne
      · have hvne : loc' ≠ v := by
          intro heq
          subst heq
          omega
        rw [vget_set_other _ _ _ _ hb1.1 hvne]
        exact h5 v (Ne.symm hvne)

/-- The effect of `validate_branch` on a consistent pool, for a mapped branch of an
active token. -/
theorem validate_branch_spec (c : Multi_Likelihood_Cache Matrix) (hinv : PoolInv c)
    (token b loc : Int) (ha : is_active c token) (hl : location c token b = .ok loc)
    (h0 : 0 ≤ loc) :
    ∃ c', validate_branch c token b = .ok c' ∧ PoolInv c' ∧
      c' = { c with up_to_date_ := c.up_to_date_.set loc.toNat 1 } ∧
      up_to_date c' token b = .ok true := by
  have hlt := (hinv.location_count token b loc ha hl h0).1
  have hfl : loc < (c.up_to_date_.length : Int) := by rw [hinv.len_flags]; exact hlt
  refine ⟨_, validate_branch_eq c token b loc hl h0 hfl, hinv.flags _ (by simp) rfl, rfl, ?_⟩
  exact up_to_date_of_flag _ token b loc 1 hl (vget_set_self _ _ _ h0 hfl)

end Multi_Likelihood_Cache

namespace Multi_Likelihood_Cache

variable {Matrix : Type}

/-! ## A Location of its own for every slot of a token -/

/-- One round of the loop of `allocate_slots` on a consistent pool, for an unmapped branch
of an active token. -/
theorem assign_fresh_spec [Inhabited Matrix] (c : Multi_Likelihood_Cache Matrix)
    (hinv : PoolInv c) (token b : Int) (ha : is_active c token)
    (hl : location c token b = .ok unmapped) :
    ∃ loc c1 c2, get_unused_location c = .ok (loc, c1) ∧
      set_mapping c1 token b loc = .ok c2 ∧ PoolInv c2 ∧ c2.active = c.active ∧ 0 ≤ loc ∧
      location c2 token b = .ok loc ∧ up_to_date c2 token b = .ok false ∧
      (∀ t' b', ¬ (t' = token ∧ b' = b) → location c2 t' b' = location c t' b') ∧
      (∀ t' b', is_active c t' → ¬ (t' = token ∧ b' = b) →
        up_to_date c2 t' b' = up_to_date c t' b') := by
  obtain ⟨loc, c1, hc1, hinv1, hg, hr, hm, hact, _, _, _, hfz, hf, _, _⟩ :=
    get_unused_location_spec c _ hinv
  obtain ⟨row, hrow, hb⟩ := (location_eq_ok _ _ _ _).mp hl
  have hrow1 : vget c1.mapping token = .ok row := by rw [hm]; exact hrow
  have hact1 : is_active c1 token := by unfold is_active; rw [hact]; exact ha
  have hloc : ∀ t' b', ¬ (t' = token ∧ b' = b) →
      location { c1 with mapping := c1.mapping.set token.toNat (row.set b.toNat loc) } t' b'
        = location c t' b' := by
    intro t' b' hne
    rw [location_set_mapping_other c1 token b loc unmapped row hrow1 hb t' b' hne]
    unfold location
    rw [hm]
  refine ⟨loc, c1, _, hc1, set_mapping_eq c1 token b loc unmapped row hrow1 hb, ?_, hact,
    hr.1, location_set_mapping_self c1 token b loc unmapped row hrow1 hb, ?_, hloc, ?_⟩
  · have hI : Inv { c1 with mapping := c1.mapping.set token.toNat (row.set b.toNat loc) }
        (bump (n_live_pairs c) loc) := by
      refine hinv1.of_bookkeeping rfl rfl rfl rfl ?_ ?_
      · simp only [List.length_set]; exact hinv1.len_active
      · simp only [List.length_set]; exact hinv1.len_length
    have heq : ∀ x, n_live_pairs
        { c1 with mapping := c1.mapping.set token.toNat (row.set b.toNat loc) } x
        + (if x = unmapped then 1 else 0) = n_live_pairs c x + (if x = loc then 1 else 0) := by
      intro x
      have h1 := n_live_pairs_set_mapping c1 token b loc unmapped row hrow1 hb hact1 x
      rw [n_live_pairs_congr c c1 hm hact] at h1
      exact h1
    refine hI.congr_nonneg ?_ ?_
    · intro v hv
      have := heq v
      have hvu : ¬ v = unmapped := by simp only [unmapped]; omega
      simp only [hvu, if_false, add_zero] at this
      simp only [bump, this]
    · intro v hv hpos
      have := heq v
      have hvl : ¬ v = loc := by omega
      simp only [hvl, if_false, add_zero] at this
      have hp : 0 < n_live_pairs c v := by omega
      rcases hinv.g_range v hp with h1 | h1
      · exact h1
      · omega
  · exact up_to_date_of_flag _ token b loc 0
      (location_set_mapping_self c1 token b loc unmapped row hrow1 hb) hfz
  · intro t' b' ha' hne
    apply up_to_date_congr
    · exact hloc t' b' hne
    · intro v hv
      have hpos := n_live_pairs_pos c t' b' v ha' hv
      have hvl : v ≠ loc := by
        intro heq
        subst heq
        omega
      exact hf v hvl

theorem init_token_loop_spec [Inhabited Matrix] (token : Int) :
    ∀ (bs : List Nat) (c : Multi_Likelihood_Cache Matrix), PoolInv c → is_active c token →
      bs.Nodup → (∀ b ∈ bs, location c token (b : Int) = .ok unmapped) →
      ∃ c', init_token_loop token bs c = .ok c' ∧ PoolInv c' ∧ c'.active = c.active ∧
        (∀ b ∈ bs, up_to_date c' token (b : Int) = .ok false ∧
          ∃ loc, location c' token (b : Int) = .ok loc ∧ 0 ≤ loc) ∧
        (∀ t' b', (t' ≠ token ∨ ∀ b ∈ bs, (b : Int) ≠ b') →
          location c' t' b' = location c t' b') ∧
        (∀ t' b', is_active c t' → (t' ≠ token ∨ ∀ b ∈ bs, (b : Int) ≠ b') →
          up_to_date c' t' b' = up_to_date c t' b') := by
  intro bs
  induction bs with
  | nil =>
    intro c hinv _ _ _
    exact ⟨c, rfl, hinv, rfl, by simp, fun _ _ _ => rfl, fun _ _ _ _ => rfl⟩
  | cons b rest ih =>
    intro c hinv ha hnd hun
    obtain ⟨hbr, hnd'⟩ := List.nodup_cons.mp hnd
    obtain ⟨loc, c1, c2, hg, hs, hinv2, hact2, hl0, hl2, hu2, hloc2, hup2⟩ :=
      assign_fresh_spec c hinv token b ha (hun b (List.mem_cons_self _ _))
    have ha2 : is_active c2 token := by unfold is_active; rw [hact2]; exact ha
    have hother : ∀ b' ∈ rest, ¬ (token = token ∧ (b' : Int) = (b : Int)) := by
      rintro b' hb' ⟨_, h⟩
      have : b' = b := by omega
      subst this
      exact hbr hb'
    obtain ⟨c', hc', hinv', hact', hflags, hloc', hup'⟩ := ih c2 hinv2 ha2 hnd' (by
      intro b' hb'
      rw [hloc2 token b' (hother b' hb')]
      exact hun b' (List.mem_cons_of_mem _ hb'))
    refine ⟨c', ?_, hinv', by rw [hact', hact2], ?_, ?_, ?_⟩
    · unfold init_token_loop
      rw [hg]
      simp only [bind, Except.bind]
      rw [hs]
      exact hc'
    · intro b' hb'
      rcases List.mem_cons.mp hb' with heq | hmem
      · subst heq
        have hfr : token ≠ token ∨ ∀ b ∈ rest, (b : Int) ≠ (b' : Int) := by
          right
          intro b hb heq
          have : b = b' := by omega
          subst this
          exact hbr hb
        refine ⟨?_, loc, ?_, hl0⟩
        · rw [hup' token b' ha2 hfr]; exact hu2
        · rw [hloc' token b' hfr]; exact hl2
      · exact hflags b' hmem
    · intro t' b' hne
      have h1 : t' ≠ token ∨ ∀ b ∈ rest, (b : Int) ≠ b' := by
        rcases hne with h | h
        · exact Or.inl h
        · exact Or.inr (fun b hb => h b (List.mem_cons_of_mem _ hb))
      have h2 : ¬ (t' = token ∧ b' = (b : Int)) := by
        rintro ⟨e1, e2⟩
        rcases hne with h | h
        · exact h e1
        · exact h b (List.mem_cons_self _ _) e2.symm
      rw [hloc' t' b' h1, hloc2 t' b' h2]
    · intro t' b' ha' hne
      have h1 : t' ≠ token ∨ ∀ b ∈ rest, (b : Int) ≠ b' := by
        rcases hne with h | h
        · exact Or.inl h
        · exact Or.inr (fun b hb => h b (List.mem_cons_of_mem _ hb))
      have h2 : ¬ (t' = token ∧ b' = (b : Int)) := by
        rintro ⟨e1, e2⟩
        rcases hne with h | h
        · exact h e1
        · exact h b (List.mem_cons_self _ _) e2.symm
      have ha2' : is_active c2 t' := by unfold is_active; rw [hact2]; exact ha'
      rw [hup' t' b' ha2' h1, hup2 t' b' ha' h2]

/-- The effect of `allocate_slots` on a consistent pool, for an active token whose slots
are all unmapped: every slot gets a Location and no branch is up to date. -/
theorem allocate_slots_spec [Inhabited Matrix] (c : Multi_Likelihood_Cache Matrix)
    (hinv : PoolInv c) (token : Int) (row : List Int) (ha : is_active c token)
    (hrow : vget c.mapping token = .ok row) (hun : ∀ v ∈ row, v = unmapped) :
    ∃ c', allocate_slots c token = .ok c' ∧ PoolInv c' ∧ c'.active = c.active ∧
      (∀ b : Int, 0 ≤ b → b < (row.length : Int) → up_to_date c' token b = .ok false ∧
        ∃ loc, location c' token b = .ok loc ∧ 0 ≤ loc) ∧
      (∀ t' b', t' ≠ token → location c' t' b' = location c t' b') ∧
      (∀ t' b', is_active c t' → t' ≠ token → up_to_date c' t' b' = up_to_date c t' b') ∧
      (∀ b loc, location c' token b = .ok loc → 0 ≤ b ∧ b < (row.length : Int)) := by
  obtain ⟨c', hc', hinv', hact', hflags, hloc', hup'⟩ :=
    init_token_loop_spec token (List.range row.length) c hinv ha (List.nodup_range _) (by
      intro b hb
      have hlt : b < row.length := List.mem_range.mp hb
      rw [location_eq_ok]
      refine ⟨row, hrow, ?_⟩
      rw [vget_eq_ok]
      refine ⟨by omega, ?_⟩
      simp only [Int.toNat_ofNat]
      rw [List.getElem?_eq_getElem hlt]
      congr 1
      exact hun _ (List.getElem_mem hlt))
  refine ⟨c', ?_, hinv', hact', ?_, fun t' b' h => hloc' t' b' (Or.inl h),
    fun t' b' h1 h2 => hup' t' b' h1 (Or.inl h2), ?_⟩
  · unfold allocate_slots
    rw [hrow]
    exact hc'
  · intro b h0 h1
    have hmem : b.toNat ∈ List.range row.length := List.mem_range.mpr (by omega)
    have := hflags b.toNat hmem
    rw [Int.toNat_of_nonneg h0] at this
    exact this
  · intro b loc hl
    by_contra hout
    have hfr : token ≠ token ∨ ∀ b0 ∈ List.range row.length, (b0 : Int) ≠ b := by
      right
      intro b0 hb0 heq
      have := List.mem_range.mp hb0
      exact hout ⟨by omega, by omega⟩
    rw [hloc' token b hfr] at hl
    obtain ⟨row2, hrow2, hb⟩ := (location_eq_ok _ _ _ _).mp hl
    rw [hrow] at hrow2
    simp only [Except.ok.injEq] at hrow2
    subst hrow2
    exact hout (vget_bounds _ _ _ hb)

/-! ## `add_token` and `acquire_token` -/

theorem list_set_self {α : Type} (l : List α) (t : Nat) (a : α) (h : l[t]? = some a) :
    l.set t a = l := by
  apply List.ext_getElem?
  intro i
  by_cases hi : t = i
  · subst hi
    rw [List.getElem?_set_self (List.getElem?_eq_some_iff.mp h).1, h]
  · rw [List.getElem?_set_ne hi]

theorem add_token_inv (c : Multi_Likelihood_Cache Matrix) (hinv : PoolInv c) (B : Int) :
    PoolInv (add_token c B).2 := by
  have hI : Inv (add_token c B).2 (n_live_pairs c) := by
    refine Inv.of_bookkeeping hinv rfl rfl rfl rfl ?_ ?_
    · simp [add_token, hinv.len_active]
    · simp [add_token, hinv.len_length]
  refine hI.congr ?_
  intro x
  simp only [n_live_pairs, add_token]
  rw [live_entries_append _ _ _ hinv.len_active]

theorem claimed_eq (c1 : Multi_Likelihood_Cache Matrix) (t C B : Int) (h0 : 0 ≤ t)
    (h1 : t < (c1.mapping.length : Int)) (h2 : c1.active.length = c1.mapping.length)
    (h3 : c1.length.length = c1.mapping.length) :
    (do
      let c2 ← c1.set_length t C
      let m ← vset c2.mapping t (List.replicate B.toNat unmapped)
      let a ← vset c2.active t true
      pure (t, { c2 with mapping := m, active := a }))
      = (Except.ok (t, claimed c1 t C B) :
          Except Fault (Int × Multi_Likelihood_Cache Matrix)) := by
  unfold set_length
  simp only [bind, Except.bind, vset_ok_of_lt c1.length t C h0 (by rw [h3]; exact h1),
    vset_ok_of_lt c1.mapping t _ h0 h1, vset_ok_of_lt c1.active t true h0 (by rw [h2]; exact h1),
    pure, Except.pure, claimed]

theorem claimed_inv (c1 : Multi_Likelihood_Cache Matrix) (hinv : PoolInv c1) (t C B : Int)
    (hf : vget c1.active t = .ok false) : PoolInv (claimed c1 t C B) := by
  obtain ⟨h0, ha⟩ := (vget_eq_ok _ _ _).mp hf
  have hb := vget_bounds _ _ _ hf
  have hlt : t.toNat < c1.mapping.length := by rw [← hinv.len_active]; omega
  have hI : Inv (claimed c1 t C B) (n_live_pairs c1) := by
    refine Inv.of_bookkeeping hinv rfl rfl rfl rfl ?_ ?_
    · simp [claimed, hinv.len_active]
    · simp [claimed, hinv.len_length]
  have heq : ∀ x, n_live_pairs (claimed c1 t C B) x
      = n_live_pairs c1 x + (List.replicate B.toNat unmapped).count x := by
    intro x
    have := live_count_set x (List.replicate B.toNat unmapped) true c1.mapping c1.active
      t.toNat c1.mapping[t.toNat] false (List.getElem?_eq_getElem hlt) ha
    simpa [n_live_pairs, claimed] using this
  refine hI.congr_nonneg ?_ ?_
  · intro v hv
    rw [heq v, List.count_replicate]
    have : ¬ (unmapped == v) = true := by simp [unmapped]; omega
    simp [this]
  · intro v hv hpos
    rw [heq v] at hpos
    by_contra hne
    have h1 : (List.replicate B.toNat unmapped).count v = 0 := by
      rw [List.count_replicate]
      have : ¬ (unmapped == v) = true := by simpa using fun h => hne h.symm
      simp [this]
    rw [h1, add_zero] at hpos
    rcases hinv.g_range v hpos with h | h
    · exact hne h
    · omega

/-- The token tables of the other tokens after `claimed`. -/
theorem claimed_frame (c1 : Multi_Likelihood_Cache Matrix) (t C B : Int) (h0 : 0 ≤ t)
    (t' : Int) (hne : t' ≠ t) :
    vget (claimed c1 t C B).mapping t' = vget c1.mapping t' ∧
    vget (claimed c1 t C B).active t' = vget c1.active t' := by
  simp only [claimed]
  exact ⟨vget_set_other _ _ _ _ h0 (Ne.symm hne), vget_set_other _ _ _ _ h0 (Ne.symm hne)⟩

/-- The effect of `acquire_token` on a consistent pool: it returns a token that was not
in use, now active with `B` unmapped slots; the Locations and the other tokens are
untouched. -/
theorem acquire_token_spec (c : Multi_Likelihood_Cache Matrix) (hinv : PoolInv c) (C B : Int) :
    ∃ token c', acquire_token c C B = .ok (token, c') ∧ PoolInv c' ∧ is_active c' token ∧
      vget c'.mapping token = .ok (List.replicate B.toNat unmapped) ∧
      c'.n_uses = c.n_uses ∧ c'.up_to_date_ = c.up_to_date_ ∧ c'.store = c.store ∧
      c'.unused_locations = c.unused_locations ∧
      (∀ t', t' ≠ token → vget c'.mapping t' = vget c.mapping t' ∧
        vget c'.active t' = vget c.active t') := by
  unfold acquire_token
  by_cases hfree : c.find_free_token = -1
  · rw [if_pos hfree]
    have hinv1 := add_token_inv c hinv B
    have hlen : ((add_token c B).2.mapping.length : Int) = (c.active.length : Int) + 1 := by
      simp [add_token, hinv.len_active]
    have hf : vget (add_token c B).2.active (c.active.length : Int) = .ok false := by
      simp only [add_token]
      exact vget_append_length _ _
    have h0 : (0 : Int) ≤ (c.active.length : Int) := by omega
    have := claimed_eq (add_token c B).2 (c.active.length : Int) C B h0 (by omega)
      hinv1.len_active hinv1.len_length
    refine ⟨(c.active.length : Int), claimed (add_token c B).2 (c.active.length : Int) C B,
      this, claimed_inv _ hinv1 _ C B hf, ?_, ?_, rfl, rfl, rfl, rfl, ?_⟩
    · unfold is_active
      simp only [claimed]
      exact vget_set_self _ _ _ h0 (by rw [hinv1.len_active]; omega)
    · simp only [claimed]
      exact vget_set_self _ _ _ h0 (by omega)
    · intro t' hne
      obtain ⟨h1, h2⟩ := claimed_frame (add_token c B).2 (c.active.length : Int) C B h0 t' hne
      rw [h1, h2]
      simp only [add_token]
      exact ⟨vget_append_other _ _ _ (by rw [← hinv.len_active]; exact hne),
        vget_append_other _ _ _ hne⟩
  · rw [if_neg hfree]
    have hmem : false ∈ c.active := by
      by_contra hn
      exact hfree ((find_index_eq_neg_one _ _).mpr hn)
    obtain ⟨h0, h1, h2⟩ := find_index_of_mem c.active false hmem
    have hf : vget c.active c.find_free_token = .ok false :=
      (vget_eq_ok _ _ _).mpr ⟨h0, h2⟩
    have hlt : c.find_free_token < (c.mapping.length : Int) := by
      rw [← hinv.len_active]; exact h1
    have := claimed_eq c c.find_free_token C B h0 hlt hinv.len_active hinv.len_length
    refine ⟨c.find_free_token, claimed c c.find_free_token C B, this,
      claimed_inv _ hinv _ C B hf, ?_, ?_, rfl, rfl, rfl, rfl, ?_⟩
    · unfold is_active
      simp only [claimed]
      exact vget_set_self _ _ _ h0 h1
    · simp only [claimed]
      exact vget_set_self _ _ _ h0 hlt
    · intro t' hne
      exact claimed_frame c c.find_free_token C B h0 t' hne

end Multi_Likelihood_Cache

namespace Multi_Likelihood_Cache

variable {Matrix : Type}

/-! ## Sharing and giving up Locations -/

theorem add_use_spec (c : Multi_Likelihood_Cache Matrix) (g : Int → Nat) (h : Inv c g)
    (loc : Int) (h0 : 0 ≤ loc) (hpos : 0 < g loc) :
    ∃ c', add_use c loc = .ok c' ∧ Inv c' (bump g loc) ∧ c'.mapping = c.mapping ∧
      c'.active = c.active ∧ c'.up_to_date_ = c.up_to_date_ ∧ c'.store = c.store := by
  have hr : 0 ≤ loc ∧ loc < (c.n_uses.length : Int) := by
    rcases h.g_range loc hpos with hu | hr
    · simp only [unmapped] at hu; omega
    · exact hr
  have hn := h.counts loc hr.1 hr.2
  have hnot : loc ∉ c.unused_locations := by
    intro hm
    have := (h.free_count loc hm).1
    omega
  refine ⟨{ c with n_uses := c.n_uses.set loc.toNat ((g loc : Int) + 1) }, ?_, ?_,
    rfl, rfl, rfl, rfl⟩
  · unfold add_use
    simp only [hn, vset_ok_of_lt _ _ _ hr.1 hr.2, bind, Except.bind, pure, Except.pure]
  · refine ⟨?_, ?_, h.len_active, h.len_length, h.free_nodup, ?_, ?_, ?_⟩
    · simp [h.len_flags]
    · simp [h.len_store]
    · intro l hl
      simp only
      have hne : loc ≠ l := by
        intro heq; subst heq; exact hnot hl
      rw [vget_set_other _ _ _ _ hr.1 hne]
      exact h.free_zero l hl
    · intro v hv
      simp only [List.length_set]
      by_cases hvl : v = loc
      · subst hvl; exact Or.inr hr
      · simp only [bump, hvl, if_false, add_zero] at hv
        exact h.g_range v hv
    · intro v hv0 hlt
      simp only [List.length_set] at hlt ⊢
      by_cases hvl : v = loc
      · subst hvl
        rw [vget_set_self _ _ _ hr.1 hr.2]
        simp [bump]
      · rw [vget_set_other _ _ _ _ hr.1 (Ne.symm hvl)]
        simp only [bump, hvl, if_false, add_zero]
        exact h.counts v hv0 hlt

theorem add_uses_spec : ∀ (l : List Int) (c : Multi_Likelihood_Cache Matrix) (g : Int → Nat),
    Inv c g → (∀ v ∈ l, 0 ≤ v ∧ 0 < g v) →
    ∃ c', add_uses l c = .ok c' ∧ Inv c' (fun x => g x + l.count x) ∧
      c'.mapping = c.mapping ∧ c'.active = c.active ∧ c'.up_to_date_ = c.up_to_date_ ∧
      c'.store = c.store := by
  intro l
  induction l with
  | nil =>
    intro c g h _
    exact ⟨c, rfl, h.congr (by simp), rfl, rfl, rfl, rfl⟩
  | cons loc rest ih =>
    intro c g h hl
    obtain ⟨h0, hpos⟩ := hl loc (List.mem_cons_self _ _)
    obtain ⟨c1, hc1, hinv1, hm1, ha1, hf1, hs1⟩ := add_use_spec c g h loc h0 hpos
    obtain ⟨c', hc', hinv', hm', ha', hf', hs'⟩ := ih c1 (bump g loc) hinv1 (by
      intro v hv
      have := hl v (List.mem_cons_of_mem _ hv)
      refine ⟨this.1, ?_⟩
      simp only [bump]
      omega)
    refine ⟨c', ?_, ?_, by rw [hm', hm1], by rw [ha', ha1], by rw [hf', hf1],
      by rw [hs', hs1]⟩
    · unfold add_uses
      rw [hc1]
      exact hc'
    · refine hinv'.congr ?_
      intro x
      simp only [bump, List.count_cons, beq_iff_eq]
      rw [ite_eq_comm loc x]
      omega

/-- The effect of `share_slots` on a consistent pool, from an active token whose slots are
all mapped to an active token whose slots are all unmapped. -/
theorem share_slots_spec (c : Multi_Likelihood_Cache Matrix) (hinv : PoolInv c)
    (t1 t2 : Int) (row1 : List Int) (ha1 : is_active c t1) (ha2 : is_active c t2)
    (hrow1 : vget c.mapping t1 = .ok row1) (hm : ∀ v ∈ row1, 0 ≤ v)
    (hun : all_unmapped c t2) :
    ∃ c', share_slots c t1 t2 = .ok c' ∧ PoolInv c' ∧
      c'.mapping = c.mapping.set t2.toNat row1 ∧ c'.active = c.active ∧
      c'.up_to_date_ = c.up_to_date_ ∧ c'.store = c.store := by
  obtain ⟨row2, hrow2, hun2⟩ := hun
  have hb2 := vget_bounds _ _ _ hrow2
  obtain ⟨_, hr1⟩ := (vget_eq_ok _ _ _).mp hrow1
  obtain ⟨_, hr2⟩ := (vget_eq_ok _ _ _).mp hrow2
  obtain ⟨_, hact1⟩ := (vget_eq_ok _ _ _).mp ha1
  obtain ⟨_, hact2⟩ := (vget_eq_ok _ _ _).mp ha2
  have hI : Inv { c with mapping := c.mapping.set t2.toNat row1 } (n_live_pairs c) := by
    refine Inv.of_bookkeeping hinv rfl rfl rfl rfl ?_ ?_
    · simp only [List.length_set]; exact hinv.len_active
    · simp only [List.length_set]; exact hinv.len_length
  obtain ⟨c', hc', hinv', hm', ha', hf', hs'⟩ :=
    add_uses_spec row1 _ (n_live_pairs c) hI (by
      intro v hv
      refine ⟨hm v hv, ?_⟩
      have h1 := live_count_ge v c.mapping c.active t1.toNat row1 hr1 hact1
      have h2 := List.count_pos_iff.mpr hv
      unfold n_live_pairs
      omega)
  refine ⟨c', ?_, ?_, hm', ha', hf', hs'⟩
  · unfold share_slots
    rw [hrow1]
    simp only [bind, Except.bind, vset_ok_of_lt _ _ _ hb2.1 hb2.2]
    exact hc'
  · have heq : ∀ x, n_live_pairs c' x + row2.count x = n_live_pairs c x + row1.count x := by
      intro x
      have := live_count_set x row1 true c.mapping c.active t2.toNat row2 true hr2 hact2
      rw [set_true_self _ _ hact2] at this
      simp only [if_true] at this
      simp only [n_live_pairs, hm', ha']
      exact this
    refine hinv'.congr_nonneg ?_ ?_
    · intro v hv
      have h0 : row2.count v = 0 := by
        apply List.count_eq_zero_of_not_mem
        intro hmem
        have := hun2 v hmem
        simp only [unmapped] at this
        omega
      have := heq v
      omega
    · intro v hv hpos
      have h1 : row1.count v = 0 := by
        apply List.count_eq_zero_of_not_mem
        intro hmem
        have := hm v hmem
        omega
      have := heq v
      have hp : 0 < n_live_pairs c v := by omega
      rcases hinv.g_range v hp with h | h
      · exact h
      · omega

theorem release_locations_spec : ∀ (l : List Int) (c : Multi_Likelihood_Cache Matrix)
    (g : Int → Nat), Inv c g → (∀ x, l.count x ≤ g x) → (∀ v ∈ l, 0 ≤ v) →
    ∃ c', release_locations l c = .ok c' ∧ Inv c' (fun x => g x - l.count x) ∧
      c'.mapping = c.mapping ∧ c'.active = c.active ∧ c'.length = c.length ∧
      c'.up_to_date_ = c.up_to_date_ ∧ c'.store = c.store := by
  intro l
  induction l with
  | nil =>
    intro c g h _ _
    exact ⟨c, rfl, h.congr (by simp), rfl, rfl, rfl, rfl, rfl⟩
  | cons loc rest ih =>
    intro c g h hle hl
    have hpos : 0 < g loc := by
      have := hle loc
      simp only [List.count_cons_self] at this
      omega
    obtain ⟨c1, hc1, hinv1, hm1, ha1, hl1, _, hf1, hs1, _⟩ :=
      release_location_spec c g h loc hpos (hl loc (List.mem_cons_self _ _))
    obtain ⟨c', hc', hinv', hm', ha', hl', hf', hs'⟩ := ih c1 (unbump g loc) hinv1 (by
      intro x
      have := hle x
      simp only [List.count_cons, beq_iff_eq] at this
      rw [ite_eq_comm loc x] at this
      simp only [unbump]
      omega) (fun v hv => hl v (List.mem_cons_of_mem _ hv))
    refine ⟨c', ?_, ?_, by rw [hm', hm1], by rw [ha', ha1], by rw [hl', hl1],
      by rw [hf', hf1], by rw [hs', hs1]⟩
    · unfold release_locations
      rw [hc1]
      exact hc'
    · refine hinv'.congr ?_
      intro x
      simp only [unbump, List.count_cons, beq_iff_eq]
      rw [ite_eq_comm loc x]
      omega

theorem count_replicate_unmapped (k : Nat) (v : Int) (hv : v ≠ unmapped) :
    (List.replicate k unmapped).count v = 0 := by
  apply List.count_eq_zero_of_not_mem
  intro hmem
  exact hv (List.eq_of_mem_replicate hmem)

/-- The effect of `unmap_token` on a consistent pool, for an active token whose slots are
all mapped: the counts of its Locations drop and its slots are left unmapped. -/
theorem unmap_token_spec (c : Multi_Likelihood_Cache Matrix) (hinv : PoolInv c)
    (token : Int) (row : List Int) (ha : is_active c token)
    (hrow : vget c.mapping token = .ok row) (hm : ∀ v ∈ row, 0 ≤ v) :
    ∃ c', unmap_token c token = .ok c' ∧ PoolInv c' ∧
      c'.mapping = c.mapping.set token.toNat (List.replicate row.length unmapped) ∧
      c'.active = c.active ∧ c'.length = c.length ∧ c'.up_to_date_ = c.up_to_date_ ∧
      c'.store = c.store := by
  obtain ⟨h0, hr⟩ := (vget_eq_ok _ _ _).mp hrow
  obtain ⟨_, hact⟩ := (vget_eq_ok _ _ _).mp ha
  have hb := vget_bounds _ _ _ hrow
  obtain ⟨c1, hc1, hinv1, hm1, ha1, hl1, hf1, hs1⟩ :=
    release_locations_spec row c (n_live_pairs c) hinv (by
      intro x
      exact live_count_ge x c.mapping c.active token.toNat row hr hact) hm
  have hb1 : token < (c1.mapping.length : Int) := by rw [hm1]; exact hb.2
  obtain ⟨u, hu⟩ : ∃ u, u = List.replicate row.length unmapped := ⟨_, rfl⟩
  rw [← hu]
  refine ⟨{ c1 with mapping := c1.mapping.set token.toNat u }, ?_, ?_, by rw [hm1], ha1, hl1,
    hf1, hs1⟩
  · unfold unmap_token
    rw [hrow]
    simp only [bind, Except.bind]
    rw [hc1]
    simp only [← hu, vset_ok_of_lt _ _ _ h0 hb1, pure, Except.pure]
  · have hI : Inv { c1 with mapping := c1.mapping.set token.toNat u }
        (fun x => n_live_pairs c x - row.count x) := by
      refine Inv.of_bookkeeping hinv1 rfl rfl rfl rfl ?_ ?_
      · simp only [List.length_set]; exact hinv1.len_active
      · simp only [List.length_set]; exact hinv1.len_length
    have heq : ∀ x, n_live_pairs { c1 with mapping := c1.mapping.set token.toNat u } x
        + row.count x = n_live_pairs c x + u.count x := by
      intro x
      have := live_count_set x u true c.mapping c.active token.toNat row true hr hact
      rw [set_true_self _ _ hact] at this
      simp only [if_true] at this
      simp only [n_live_pairs, hm1, ha1]
      exact this
    refine hI.congr_nonneg ?_ ?_
    · intro v hv
      have h1 := count_replicate_unmapped row.length v (by simp only [unmapped]; omega)
      rw [← hu] at h1
      have := heq v
      omega
    · intro v hv hpos
      by_contra hne
      have h1 := count_replicate_unmapped row.length v hne
      rw [← hu] at h1
      have h2 : row.count v = 0 := by
        apply List.count_eq_zero_of_not_mem
        intro hmem
        have := hm v hmem
        omega
      have := heq v
      have hp : 0 < n_live_pairs c v := by omega
      rcases hinv.g_range v hp with h | h
      · exact hne h
      · omega

/-! ## The token operations -/

/-- The rows of an active token on a pool with settled slots hold Locations. -/
theorem slots_settled.row_mapped {c : Multi_Likelihood_Cache Matrix} (hset : slots_settled c)
    (token : Int) (row : List Int) (ha : is_active c token)
    (hrow : vget c.mapping token = .ok row) : ∀ v ∈ row, 0 ≤ v := by
  intro v hv
  obtain ⟨i, hi, hiv⟩ := List.getElem_of_mem hv
  have hl : location c token (i : Int) = .ok v := by
    rw [location_eq_ok]
    refine ⟨row, hrow, ?_⟩
    rw [vget_eq_ok]
    refine ⟨by omega, ?_⟩
    simp only [Int.toNat_ofNat]
    rw [List.getElem?_eq_getElem hi, hiv]
  exact (hset token i v hl).1 ha

theorem PoolInv.active_row {c : Multi_Likelihood_Cache Matrix} (hinv : PoolInv c)
    (token : Int) (a : Bool) (ha : vget c.active token = .ok a) :
    ∃ row, vget c.mapping token = .ok row := by
  have hb := vget_bounds _ _ _ ha
  exact vget_of_lt _ _ hb.1 (by rw [← hinv.len_active]; exact hb.2)

/-- The effect of `claim_token` on a consistent pool: it returns a token that was not in
use, now active, each of whose `B` slots holds a Location that is not up to date; the
slots and the state of the other tokens are untouched. -/
theorem claim_token_spec [Inhabited Matrix] (c : Multi_Likelihood_Cache Matrix)
    (hinv : PoolInv c) (C B : Int) :
    ∃ token c', claim_token c C B = .ok (token, c') ∧ PoolInv c' ∧ is_active c' token ∧
      (∀ b : Int, 0 ≤ b → b < B → up_to_date c' token b = .ok false ∧
        ∃ loc, location c' token b = .ok loc ∧ 0 ≤ loc) ∧
      (∀ b loc, location c' token b = .ok loc → 0 ≤ b ∧ b < B) ∧
      (∀ t', t' ≠ token → vget c'.active t' = vget c.active t' ∧
        ∀ b', location c' t' b' = location c t' b') := by
  obtain ⟨token, c1, hc1, hinv1, ha1, hrow1, _, _, _, _, hfr1⟩ := acquire_token_spec c hinv C B
  obtain ⟨c2, hc2, hinv2, hact2, hflags, hloc2, _, hin2⟩ :=
    allocate_slots_spec c1 hinv1 token _ ha1 hrow1 (fun v hv => List.eq_of_mem_replicate hv)
  simp only [List.length_replicate] at hflags hin2
  refine ⟨token, c2, ?_, hinv2, by unfold is_active; rw [hact2]; exact ha1, ?_, ?_, ?_⟩
  · unfold claim_token
    rw [hc1]
    simp only [bind, Except.bind]
    rw [hc2]
    rfl
  · intro b h0 h1
    exact hflags b h0 (by omega)
  · intro b loc hl
    have := hin2 b loc hl
    omega
  · intro t' hne
    refine ⟨by rw [hact2]; exact (hfr1 t' hne).2, ?_⟩
    intro b'
    rw [hloc2 t' b' hne]
    unfold location
    rw [(hfr1 t' hne).1]

theorem location_set_row (c c' : Multi_Likelihood_Cache Matrix) (token : Int)
    (row row' : List Int) (hrow : vget c.mapping token = .ok row)
    (hm : c'.mapping = c.mapping.set token.toNat row') :
    (∀ b, location c' token b = vget row' b) ∧
    (∀ t' b', t' ≠ token → location c' t' b' = location c t' b') := by
  have hb := vget_bounds _ _ _ hrow
  constructor
  · intro b
    unfold location
    rw [hm, vget_set_self _ _ _ hb.1 hb.2]
    rfl
  · intro t' b' hne
    unfold location
    rw [hm, vget_set_other _ _ _ _ hb.1 (Ne.symm hne)]

/-- The effect of `init_token` on a consistent pool, for an active token whose slots are
all mapped: every slot gets a Location and no branch is up to date. -/
theorem init_token_spec [Inhabited Matrix] (c : Multi_Likelihood_Cache Matrix)
    (hinv : PoolInv c) (token : Int) (row : List Int) (ha : is_active c token)
    (hrow : vget c.mapping token = .ok row) (hm : ∀ v ∈ row, 0 ≤ v) :
    ∃ c', init_token c token = .ok c' ∧ PoolInv c' ∧ c'.active = c.active ∧
      (∀ b : Int, 0 ≤ b → b < (row.length : Int) → up_to_date c' token b = .ok false ∧
        ∃ loc, location c' token b = .ok loc ∧ 0 ≤ loc) ∧
      (∀ t' b', t' ≠ token → location c' t' b' = location c t' b') ∧
      (∀ b loc, location c' token b = .ok loc → 0 ≤ b ∧ b < (row.length : Int)) := by
  obtain ⟨c1, hc1, hinv1, hm1, ha1, _, _, _⟩ := unmap_token_spec c hinv token row ha hrow hm
  have hb := vget_bounds _ _ _ hrow
  have hrow1 : vget c1.mapping token = .ok (List.replicate row.length unmapped) := by
    rw [hm1]; exact vget_set_self _ _ _ hb.1 hb.2
  obtain ⟨c2, hc2, hinv2, hact2, hflags, hloc2, _, hin2⟩ :=
    allocate_slots_spec c1 hinv1 token _ (by unfold is_active; rw [ha1]; exact ha) hrow1
      (fun v hv => List.eq_of_mem_replicate hv)
  simp only [List.length_replicate] at hflags hin2
  refine ⟨c2, ?_, hinv2, by rw [hact2, ha1], hflags, ?_, hin2⟩
  · unfold init_token
    rw [hc1]
    exact hc2
  · intro t' b' hne
    rw [hloc2 t' b' hne]
    exact (location_set_row c c1 token row _ hrow hm1).2 t' b' hne

/-- The effect of `copy_token` on a consistent pool, from an active token to another
active token, the slots of both being mapped: the second token gets the row of the
first. -/
theorem copy_token_spec (c : Multi_Likelihood_Cache Matrix) (hinv : PoolInv c)
    (t1 t2 : Int) (row1 row2 : List Int) (ha1 : is_active c t1) (ha2 : is_active c t2)
    (hne : t1 ≠ t2) (hrow1 : vget c.mapping t1 = .ok row1) (hm1 : ∀ v ∈ row1, 0 ≤ v)
    (hrow2 : vget c.mapping t2 = .ok row2) (hm2 : ∀ v ∈ row2, 0 ≤ v) :
    ∃ c', copy_token c t1 t2 = .ok c' ∧ PoolInv c' ∧
      c'.mapping = c.mapping.set t2.toNat row1 ∧ c'.active = c.active ∧
      c'.up_to_date_ = c.up_to_date_ ∧ c'.store = c.store := by
  obtain ⟨c1, hc1, hinv1, hmap1, hact1, _, hf1, hs1⟩ :=
    unmap_token_spec c hinv t2 row2 ha2 hrow2 hm2
  have hb := vget_bounds _ _ _ hrow2
  have hr1 : vget c1.mapping t1 = .ok row1 := by
    rw [hmap1, vget_set_other _ _ _ _ hb.1 (Ne.symm hne)]; exact hrow1
  have hun : all_unmapped c1 t2 :=
    ⟨_, by rw [hmap1]; exact vget_set_self _ _ _ hb.1 hb.2,
      fun v hv => List.eq_of_mem_replicate hv⟩
  obtain ⟨c2, hc2, hinv2, hmap2, hact2, hf2, hs2⟩ :=
    share_slots_spec c1 hinv1 t1 t2 row1 (by unfold is_active; rw [hact1]; exact ha1)
      (by unfold is_active; rw [hact1]; exact ha2) hr1 hm1 hun
  refine ⟨c2, ?_, hinv2, ?_, by rw [hact2, hact1], by rw [hf2, hf1], by rw [hs2, hs1]⟩
  · unfold copy_token
    rw [hc1]
    exact hc2
  · rw [hmap2, hmap1, List.set_set]

/-- The effect of `release_token` on a consistent pool, for an active token whose slots
are all mapped: its slots are left unmapped and it is inactive. -/
theorem release_token_spec (c : Multi_Likelihood_Cache Matrix) (hinv : PoolInv c)
    (token : Int) (row : List Int) (ha : is_active c token)
    (hrow : vget c.mapping token = .ok row) (hm : ∀ v ∈ row, 0 ≤ v) :
    ∃ c', release_token c token = .ok c' ∧ PoolInv c' ∧
      c'.mapping = c.mapping.set token.toNat (List.replicate row.length unmapped) ∧
      c'.active = c.active.set token.toNat false ∧
      c'.up_to_date_ = c.up_to_date_ ∧ c'.store = c.store := by
  obtain ⟨c1, hc1, hinv1, hmap1, hact1, _, hf1, hs1⟩ :=
    unmap_token_spec c hinv token row ha hrow hm
  have hb := vget_bounds _ _ _ hrow
  have hba := vget_bounds _ _ _ ha
  have hb1 : token < (c1.active.length : Int) := by rw [hact1]; exact hba.2
  have hr1 : c1.mapping[token.toNat]? = some (List.replicate row.length unmapped) := by
    have : vget c1.mapping token = .ok (List.replicate row.length unmapped) := by
      rw [hmap1]; exact vget_set_self _ _ _ hb.1 hb.2
    exact ((vget_eq_ok _ _ _).mp this).2
  have ha1' : c1.active[token.toNat]? = some true := by
    rw [hact1]; exact ((vget_eq_ok _ _ _).mp ha).2
  refine ⟨{ c1 with active := c1.active.set token.toNat false }, ?_, ?_, hmap1,
    by rw [hact1], hf1, hs1⟩
  · unfold release_token
    rw [hc1]
    simp only [bind, Except.bind, vset_ok_of_lt _ _ _ hb.1 hb1, pure, Except.pure]
  · have hI : Inv { c1 with active := c1.active.set token.toNat false } (n_live_pairs c1) := by
      refine Inv.of_bookkeeping hinv1 rfl rfl rfl rfl ?_ ?_
      · simp only [List.length_set]; exact hinv1.len_active
      · exact hinv1.len_length
    have heq : ∀ x, n_live_pairs { c1 with active := c1.active.set token.toNat false } x
        + (List.replicate row.length unmapped).count x = n_live_pairs c1 x := by
      intro x
      have := live_count_set x (List.replicate row.length unmapped) false c1.mapping
        c1.active token.toNat _ true hr1 ha1'
      rw [list_set_self _ _ _ hr1] at this
      simp only [if_true, Bool.false_eq_true, if_false, add_zero] at this
      simp only [n_live_pairs]
      exact this
    refine hI.congr_nonneg ?_ ?_
    · intro v hv
      have h1 := count_replicate_unmapped row.length v (by simp only [unmapped]; omega)
      have := heq v
      omega
    · intro v hv hpos
      have := heq v
      have hp : 0 < n_live_pairs c1 v := by omega
      rcases hinv1.g_range v hp with h | h
      · exact h
      · omega

end Multi_Likelihood_Cache

namespace Multi_Likelihood_Cache

variable {Matrix : Type}

/-! ## Every step keeps the pool consistent -/

theorem empty_inv (M S : Int) : PoolInv (empty M S : Multi_Likelihood_Cache Matrix) := by
  refine ⟨rfl, rfl, rfl, rfl, List.nodup_nil, ?_, ?_, ?_⟩
  · intro loc h; simp [empty] at h
  · intro v hv; simp [n_live_pairs, empty, live_entries] at hv
  · intro v h0 h1
    simp only [empty, List.length_nil, Int.ofNat_zero] at h1
    omega

theorem ensure_exclusive_mapped [Inhabited Matrix] (c c' : Multi_Likelihood_Cache Matrix)
    (token b : Int) (h : ensure_exclusive c token b = .ok c') :
    ∃ loc, location c token b = .ok loc ∧ 0 ≤ loc := by
  unfold ensure_exclusive at h
  obtain ⟨loc, hl, h⟩ := (bind_eq_ok _ _ _).mp h
  obtain ⟨n, hn, _⟩ := (bind_eq_ok _ _ _).mp h
  exact ⟨loc, hl, (vget_bounds _ _ _ hn).1⟩

theorem ensure_exclusive_ok [Inhabited Matrix] (c c' : Multi_Likelihood_Cache Matrix)
    (hinv : PoolInv c) (token b : Int) (ha : is_active c token)
    (h : ensure_exclusive c token b = .ok c') : PoolInv c' ∧ c'.active = c.active := by
  obtain ⟨loc, hl, h0⟩ := ensure_exclusive_mapped c c' token b h
  obtain ⟨c1, _, he, hinv1, hact, _⟩ := ensure_exclusive_spec c hinv token b loc ha hl h0
  rw [he] at h
  simp only [Except.ok.injEq] at h
  subst h
  exact ⟨hinv1, hact⟩

theorem invalidate_one_branch_ok [Inhabited Matrix] (c c' : Multi_Likelihood_Cache Matrix)
    (hinv : PoolInv c) (token b : Int) (ha : is_active c token)
    (h : invalidate_one_branch c token b = .ok c') : PoolInv c' ∧ c'.active = c.active := by
  have h' := h
  unfold invalidate_one_branch at h'
  obtain ⟨c1, he, _⟩ := (bind_eq_ok _ _ _).mp h'
  obtain ⟨loc, hl, h0⟩ := ensure_exclusive_mapped c c1 token b he
  obtain ⟨c1', c'', loc', he', _, hc'', hi, hinv', _, _⟩ :=
    invalidate_one_branch_spec c hinv token b loc ha hl h0
  rw [hi] at h
  simp only [Except.ok.injEq] at h
  subst h
  refine ⟨hinv', ?_⟩
  rw [hc'']
  exact (ensure_exclusive_ok c c1' hinv token b ha he').2

theorem invalidate_all_loop_ok [Inhabited Matrix] (token : Int) :
    ∀ (bs : List Nat) (c c' : Multi_Likelihood_Cache Matrix), PoolInv c →
      is_active c token → invalidate_all_loop token bs c = .ok c' → PoolInv c' := by
  intro bs
  induction bs with
  | nil =>
    intro c c' hinv _ h
    simp only [invalidate_all_loop, Except.ok.injEq] at h
    subst h
    exact hinv
  | cons b rest ih =>
    intro c c' hinv ha h
    unfold invalidate_all_loop at h
    obtain ⟨c1, h1, h⟩ := (bind_eq_ok _ _ _).mp h
    obtain ⟨hinv1, hact1⟩ := invalidate_one_branch_ok c c1 hinv token b ha h1
    exact ih c1 c' hinv1 (by unfold is_active; rw [hact1]; exact ha) h

theorem validate_branch_ok (c c' : Multi_Likelihood_Cache Matrix) (hinv : PoolInv c)
    (token b : Int) (h : validate_branch c token b = .ok c') : PoolInv c' := by
  unfold validate_branch at h
  obtain ⟨loc, _, h⟩ := (bind_eq_ok _ _ _).mp h
  obtain ⟨u, hu, h⟩ := (bind_eq_ok _ _ _).mp h
  rw [pure_eq_ok] at h
  obtain ⟨_, rfl⟩ := (vset_eq_ok _ _ _ _).mp hu
  exact hinv.flags _ (by simp) h.symm

theorem set_branch_ok (v : Likelihood_Cache) (c c' : Multi_Likelihood_Cache Matrix)
    (hinv : PoolInv c) (b : Int) (ms : List Matrix)
    (h : v.set_branch c b ms = .ok c') : PoolInv c' := by
  unfold Likelihood_Cache.set_branch at h
  obtain ⟨loc, _, h⟩ := (bind_eq_ok _ _ _).mp h
  obtain ⟨s, hs, h⟩ := (bind_eq_ok _ _ _).mp h
  rw [pure_eq_ok] at h
  obtain ⟨_, rfl⟩ := (vset_eq_ok _ _ _ _).mp hs
  exact hinv.stored _ (by simp) h.symm

/-! ## Every step keeps the slots settled -/

theorem slots_settled.of_tables {c c' : Multi_Likelihood_Cache Matrix}
    (hset : slots_settled c) (hm : c'.mapping = c.mapping) (ha : c'.active = c.active) :
    slots_settled c' := by
  intro t b loc hl
  have hl' : location c t b = .ok loc := by
    unfold location at hl ⊢
    rw [← hm]
    exact hl
  unfold is_active
  rw [ha]
  exact hset t b loc hl'

theorem empty_settled (M S : Int) :
    slots_settled (empty M S : Multi_Likelihood_Cache Matrix) := by
  intro t b loc hl
  obtain ⟨row, hrow, _⟩ := (location_eq_ok _ _ _ _).mp hl
  have := vget_bounds _ _ _ hrow
  simp only [empty, List.length_nil, Int.ofNat_zero] at this
  omega

theorem add_token_settled (c : Multi_Likelihood_Cache Matrix) (hinv : PoolInv c)
    (hset : slots_settled c) (B : Int) : slots_settled (add_token c B).2 := by
  intro t b loc hl
  obtain ⟨row, hrow, hb⟩ := (location_eq_ok _ _ _ _).mp hl
  simp only [add_token] at hrow
  unfold is_active
  simp only [add_token]
  by_cases ht : t = (c.mapping.length : Int)
  · subst ht
    rw [vget_append_length] at hrow
    simp only [Except.ok.injEq] at hrow
    subst hrow
    rw [← hinv.len_active, vget_append_length]
    refine ⟨fun h => by simp at h, fun _ => ?_⟩
    exact List.eq_of_mem_replicate (List.getElem?_mem ((vget_eq_ok _ _ _).mp hb).2)
  · rw [vget_append_other _ _ _ ht] at hrow
    rw [vget_append_other _ _ _ (by rw [hinv.len_active]; exact ht)]
    exact hset t b loc ((location_eq_ok _ _ _ _).mpr ⟨row, hrow, hb⟩)

theorem claim_token_ok [Inhabited Matrix] (c c' : Multi_Likelihood_Cache Matrix)
    (hinv : PoolInv c) (hset : slots_settled c) (C B token : Int)
    (h : claim_token c C B = .ok (token, c')) : PoolInv c' ∧ slots_settled c' := by
  obtain ⟨t1, c1, hc1, hinv1, ha1, hflags, hin, hfr⟩ := claim_token_spec c hinv C B
  rw [hc1] at h
  simp only [Except.ok.injEq, Prod.mk.injEq] at h
  obtain ⟨rfl, rfl⟩ := h
  refine ⟨hinv1, ?_⟩
  intro t b loc hl
  by_cases ht : t = t1
  · subst ht
    refine ⟨fun _ => ?_, fun hn => absurd ha1 hn⟩
    obtain ⟨hb0, hb1⟩ := hin b loc hl
    obtain ⟨_, loc', hl', h0⟩ := hflags b hb0 hb1
    rw [hl] at hl'
    simp only [Except.ok.injEq] at hl'
    omega
  · obtain ⟨hact, hloc⟩ := hfr t ht
    rw [hloc b] at hl
    unfold is_active
    rw [hact]
    exact hset t b loc hl

theorem init_token_ok [Inhabited Matrix] (c c' : Multi_Likelihood_Cache Matrix)
    (hinv : PoolInv c) (hset : slots_settled c) (token : Int) (ha : is_active c token)
    (h : init_token c token = .ok c') : PoolInv c' ∧ slots_settled c' := by
  obtain ⟨row, hrow⟩ := hinv.active_row token true ha
  obtain ⟨c1, hc1, hinv1, hact1, hflags, hloc1, hin1⟩ :=
    init_token_spec c hinv token row ha hrow (hset.row_mapped token row ha hrow)
  rw [hc1] at h
  simp only [Except.ok.injEq] at h
  subst h
  refine ⟨hinv1, ?_⟩
  intro t b loc hl
  unfold is_active
  rw [hact1]
  by_cases ht : t = token
  · subst ht
    refine ⟨fun _ => ?_, fun hn => absurd ha hn⟩
    obtain ⟨hb0, hb1⟩ := hin1 b loc hl
    obtain ⟨_, loc', hl', h0⟩ := hflags b hb0 hb1
    rw [hl] at hl'
    simp only [Except.ok.injEq] at hl'
    omega
  · rw [hloc1 t b ht] at hl
    exact hset t b loc hl

theorem copy_token_ok (c c' : Multi_Likelihood_Cache Matrix) (hinv : PoolInv c)
    (hset : slots_settled c) (t1 t2 : Int) (ha1 : is_active c t1) (ha2 : is_active c t2)
    (hne : t1 ≠ t2) (h : copy_token c t1 t2 = .ok c') : PoolInv c' ∧ slots_settled c' := by
  obtain ⟨row1, hrow1⟩ := hinv.active_row t1 true ha1
  obtain ⟨row2, hrow2⟩ := hinv.active_row t2 true ha2
  obtain ⟨c1, hc1, hinv1, hmap1, hact1, _, _⟩ :=
    copy_token_spec c hinv t1 t2 row1 row2 ha1 ha2 hne hrow1
      (hset.row_mapped t1 row1 ha1 hrow1) hrow2 (hset.row_mapped t2 row2 ha2 hrow2)
  rw [hc1] at h
  simp only [Except.ok.injEq] at h
  subst h
  refine ⟨hinv1, ?_⟩
  obtain ⟨hself, hother⟩ := location_set_row c c1 t2 row2 row1 hrow2 hmap1
  intro t b loc hl
  unfold is_active
  rw [hact1]
  by_cases ht : t = t2
  · subst ht
    refine ⟨fun _ => ?_, fun hn => absurd ha2 hn⟩
    rw [hself b] at hl
    exact (hset t1 b loc ((location_eq_ok _ _ _ _).mpr ⟨row1, hrow1, hl⟩)).1 ha1
  · rw [hother t b ht] at hl
    exact hset t b loc hl

theorem release_token_ok (c c' : Multi_Likelihood_Cache Matrix) (hinv : PoolInv c)
    (hset : slots_settled c) (token : Int) (ha : is_active c token)
    (h : release_token c token = .ok c') : PoolInv c' ∧ slots_settled c' := by
  obtain ⟨row, hrow⟩ := hinv.active_row token true ha
  obtain ⟨c1, hc1, hinv1, hmap1, hact1, _, _⟩ :=
    release_token_spec c hinv token row ha hrow (hset.row_mapped token row ha hrow)
  rw [hc1] at h
  simp only [Except.ok.injEq] at h
  subst h
  refine ⟨hinv1, ?_⟩
  obtain ⟨hself, hother⟩ := location_set_row c c1 token row _ hrow hmap1
  have hba := vget_bounds _ _ _ ha
  intro t b loc hl
  unfold is_active
  rw [hact1]
  by_cases ht : t = token
  · subst ht
    rw [vget_set_self _ _ _ hba.1 hba.2]
    refine ⟨fun h => by simp at h, fun _ => ?_⟩
    rw [hself b] at hl
    exact List.eq_of_mem_replicate (List.getElem?_mem ((vget_eq_ok _ _ _).mp hl).2)
  · rw [hother t b ht] at hl
    rw [vget_set_other _ _ _ _ hba.1 (Ne.symm ht)]
    exact hset t b loc hl

theorem validate_branch_settled (c c' : Multi_Likelihood_Cache Matrix)
    (hset : slots_settled c) (token b : Int) (h : validate_branch c token b = .ok c') :
    slots_settled c' := by
  unfold validate_branch at h
  obtain ⟨loc, _, h⟩ := (bind_eq_ok _ _ _).mp h
  obtain ⟨u, hu, h⟩ := (bind_eq_ok _ _ _).mp h
  rw [pure_eq_ok] at h
  subst h
  exact hset.of_tables rfl rfl

theorem set_branch_settled (v : Likelihood_Cache) (c c' : Multi_Likelihood_Cache Matrix)
    (hset : slots_settled c) (b : Int) (ms : List Matrix)
    (h : v.set_branch c b ms = .ok c') : slots_settled c' := by
  unfold Likelihood_Cache.set_branch at h
  obtain ⟨loc, _, h⟩ := (bind_eq_ok _ _ _).mp h
  obtain ⟨s, hs, h⟩ := (bind_eq_ok _ _ _).mp h
  rw [pure_eq_ok] at h
  subst h
  exact hset.of_tables rfl rfl

theorem invalidate_one_branch_settled [Inhabited Matrix]
    (c c' : Multi_Likelihood_Cache Matrix) (hinv : PoolInv c) (hset : slots_settled c)
    (token b : Int) (ha : is_active c token)
    (h : invalidate_one_branch c token b = .ok c') : slots_settled c' := by
  have h' := h
  unfold invalidate_one_branch at h'
  obtain ⟨c1, he, h'⟩ := (bind_eq_ok _ _ _).mp h'
  obtain ⟨l1, _, h'⟩ := (bind_eq_ok _ _ _).mp h'
  obtain ⟨u, _, h'⟩ := (bind_eq_ok _ _ _).mp h'
  rw [pure_eq_ok] at h'
  obtain ⟨loc, hl, h0⟩ := ensure_exclusive_mapped c c1 token b he
  obtain ⟨c1', loc', he', _, hact, _, _, hl1, hfr, hn1, _⟩ :=
    ensure_exclusive_spec c hinv token b loc ha hl h0
  rw [he] at he'
  simp only [Except.ok.injEq] at he'
  subst he'
  have hset1 : slots_settled c1 := by
    intro t b' v hv
    unfold is_active
    rw [hact]
    by_cases hp : t = token ∧ b' = b
    · obtain ⟨rfl, rfl⟩ := hp
      rw [hl1] at hv
      simp only [Except.ok.injEq] at hv
      subst hv
      exact ⟨fun _ => (vget_bounds _ _ _ hn1).1, fun hn => absurd ha hn⟩
    · rw [hfr t b' hp] at hv
      exact hset t b' v hv
  subst h'
  exact hset1.of_tables rfl rfl

theorem invalidate_all_loop_settled [Inhabited Matrix] (token : Int) :
    ∀ (bs : List Nat) (c c' : Multi_Likelihood_Cache Matrix), PoolInv c → slots_settled c →
      is_active c token → invalidate_all_loop token bs c = .ok c' → slots_settled c' := by
  intro bs
  induction bs with
  | nil =>
    intro c c' _ hset _ h
    simp only [invalidate_all_loop, Except.ok.injEq] at h
    subst h
    exact hset
  | cons b rest ih =>
    intro c c' hinv hset ha h
    unfold invalidate_all_loop at h
    obtain ⟨c1, h1, h⟩ := (bind_eq_ok _ _ _).mp h
    obtain ⟨hinv1, hact1⟩ := invalidate_one_branch_ok c c1 hinv token b ha h1
    exact ih c1 c' hinv1 (invalidate_one_branch_settled c c1 hinv hset token b ha h1)
      (by unfold is_active; rw [hact1]; exact ha) h

/-- Every state of the token operations satisfies the pool invariant and has its slots
settled. -/
theorem Reachable.inv [Inhabited Matrix] {c : Multi_Likelihood_Cache Matrix}
    (h : Reachable c) : PoolInv c ∧ slots_settled c := by
  induction h with
  | empty M S => exact ⟨empty_inv M S, empty_settled M S⟩
  | add_token B _ ih => exact ⟨add_token_inv _ ih.1 B, add_token_settled _ ih.1 ih.2 B⟩
  | claim_token C B token _ h ih => exact claim_token_ok _ _ ih.1 ih.2 C B token h
  | init_token token _ ha h ih => exact init_token_ok _ _ ih.1 ih.2 token ha h
  | copy_token t1 t2 _ ha1 ha2 hne h ih => exact copy_token_ok _ _ ih.1 ih.2 t1 t2 ha1 ha2 hne h
  | validate_branch token b _ h ih =>
    exact ⟨validate_branch_ok _ _ ih.1 token b h, validate_branch_settled _ _ ih.2 token b h⟩
  | invalidate_one_branch token b _ ha h ih =>
    exact ⟨(invalidate_one_branch_ok _ _ ih.1 token b ha h).1,
      invalidate_one_branch_settled _ _ ih.1 ih.2 token b ha h⟩
  | invalidate_all token _ ha h ih =>
    unfold invalidate_all at h
    obtain ⟨row, _, h⟩ := (bind_eq_ok _ _ _).mp h
    exact ⟨invalidate_all_loop_ok token _ _ _ ih.1 ha h,
      invalidate_all_loop_settled token _ _ _ ih.1 ih.2 ha h⟩
  | set_branch v b ms _ h ih =>
    exact ⟨set_branch_ok v _ _ ih.1 b ms h, set_branch_settled v _ _ ih.2 b ms h⟩
  | release_token token _ ha h ih => exact release_token_ok _ _ ih.1 ih.2 token ha h

/-! ## The pairs of all tokens and the pairs of the active tokens -/

end Multi_Likelihood_Cache

namespace Multi_Likelihood_Cache

variable {Matrix : Type}

/-! ## The flags and the matrices of a branch of a token in use -/

/-- On a consistent pool, `validate_branch` on a mapped branch of an active token makes
the branch up to date, and `invalidate_one_branch` right after it makes it not up to
date. -/
theorem validate_invalidate_spec [Inhabited Matrix] (c : Multi_Likelihood_Cache Matrix)
    (hinv : PoolInv c) (token b loc : Int) (ha : is_active c token)
    (hl : location c token b = .ok loc) (h0 : 0 ≤ loc) :
    ∃ c1 c2, validate_branch c token b = .ok c1 ∧ up_to_date c1 token b = .ok true ∧
      invalidate_one_branch c1 token b = .ok c2 ∧ up_to_date c2 token b = .ok false := by
  obtain ⟨c1, hv, hinv1, hc1, hu1⟩ := validate_branch_spec c hinv token b loc ha hl h0
  have ha1 : is_active c1 token := by rw [hc1]; exact ha
  have hl1 : location c1 token b = .ok loc := by rw [hc1]; exact hl
  obtain ⟨_, c2, _, _, _, _, hi, _, hu2, _⟩ :=
    invalidate_one_branch_spec c1 hinv1 token b loc ha1 hl1 h0
  exact ⟨c1, c2, hv, hu1, hi, hu2⟩

/-- On a consistent pool with settled slots, `invalidate_one_branch` on a branch of an
active token leaves the branch not up to date, and the answer of `up_to_date` for every
other pair is the one before the call. -/
theorem invalidate_one_branch_frame [Inhabited Matrix] (c : Multi_Likelihood_Cache Matrix)
    (hinv : PoolInv c) (hset : slots_settled c) (token b loc : Int)
    (ha : is_active c token) (hl : location c token b = .ok loc) :
    ∃ c', invalidate_one_branch c token b = .ok c' ∧ up_to_date c' token b = .ok false ∧
      ∀ t' b', ¬ (t' = token ∧ b' = b) → up_to_date c' t' b' = up_to_date c t' b' := by
  have h0 : 0 ≤ loc := (hset token b loc hl).1 ha
  obtain ⟨c1, c', loc', he, _, hc', hi, _, hu, hframe⟩ :=
    invalidate_one_branch_spec c hinv token b loc ha hl h0
  obtain ⟨c1', _, he', _, _, _, _, _, hloc, _⟩ :=
    ensure_exclusive_spec c hinv token b loc ha hl h0
  rw [he] at he'
  simp only [Except.ok.injEq] at he'
  subst he'
  refine ⟨c', hi, hu, ?_⟩
  intro t' b' hne
  by_cases ha' : is_active c t'
  · exact hframe t' b' ha' hne
  · have hloc' : location c' t' b' = location c t' b' := by
      rw [← hloc t' b' hne, hc']
      rfl
    apply up_to_date_congr c c' t' b' hloc'
    intro v hv
    have hvu : v = unmapped := (hset t' b' v hv).2 ha'
    have hout : ∀ u : List Int, vget u v = .error .out_of_range := by
      intro u
      rw [vget_error_iff]
      simp only [hvu, unmapped]
      omega
    rw [hout, hout]

/-- A store through `operator[]` on a mapped branch of an active token, on a consistent
pool: the matrices of the Location of the branch are replaced, and the view reads them
back. -/
theorem set_branch_spec (v : Likelihood_Cache) (c : Multi_Likelihood_Cache Matrix)
    (hinv : PoolInv c) (b loc : Int) (ms : List Matrix) (ha : is_active c v.token)
    (hl : location c v.token b = .ok loc) (h0 : 0 ≤ loc) :
    v.set_branch c b ms = .ok { c with store := c.store.set loc.toNat ms } ∧
    v.get_branch { c with store := c.store.set loc.toNat ms } b = .ok ms ∧
    PoolInv { c with store := c.store.set loc.toNat ms } := by
  have hlt : loc < (c.store.length : Int) := by
    rw [hinv.len_store]
    exact (hinv.location_count v.token b loc ha hl h0).1
  refine ⟨?_, ?_, hinv.stored _ (by simp) rfl⟩
  · unfold Likelihood_Cache.set_branch
    rw [hl]
    simp only [bind, Except.bind, vset_ok_of_lt _ _ _ h0 hlt, pure, Except.pure]
  · unfold Likelihood_Cache.get_branch
    have hl' : location { c with store := c.store.set loc.toNat ms } v.token b = .ok loc := hl
    rw [hl']
    exact vget_set_self _ _ _ h0 hlt

end Multi_Likelihood_Cache

/-! ## C6 to C10: the likelihood cache -/

open Multi_Likelihood_Cache

theorem pool_init_reachable : Reachable pool_init :=
  Reachable.claim_token 1 2 0 (Reachable.empty 1 4) (by decide)

theorem pool_two_reachable : Reachable pool_two :=
  Reachable.claim_token 1 2 1 pool_init_reachable (by decide)

theorem pool_copied_reachable : Reachable pool_copied :=
  Reachable.copy_token 0 1 pool_two_reachable (by decide) (by decide) (by decide) (by decide)

/-- C6 (as stated, refuted). No pool has two `(token,branch)` pairs that map to the same
Location and get different answers from `up_to_date`: the flag is `up_to_date_[loc]`, one
per Location. -/
theorem C6_no_flag_per_pair :
    ¬ ∃ (Matrix : Type) (c : Multi_Likelihood_Cache Matrix) (t1 b1 t2 b2 loc : Int),
      location c t1 b1 = .ok loc ∧ location c t2 b2 = .ok loc ∧
      up_to_date c t1 b1 ≠ up_to_date c t2 b2 := by
  rintro ⟨Matrix, c, t1, b1, t2, b2, loc, h1, h2, hne⟩
  apply hne
  rw [up_to_date_eq c t1 b1 loc h1, up_to_date_eq c t2 b2 loc h2]

/-- C6 (amended). `Multi_Likelihood_Cache` keeps one up-to-date flag for each Location,
in `up_to_date_`: the answer of `up_to_date(token,branch)` is the flag of the Location
`mapping[token][branch]` and is determined by that Location alone, so two pairs that map
to the same Location always get the same answer. -/
theorem C6_up_to_date_flag_per_location {Matrix : Type} (c : Multi_Likelihood_Cache Matrix)
    (t1 b1 t2 b2 loc : Int) (h1 : location c t1 b1 = .ok loc)
    (h2 : location c t2 b2 = .ok loc) :
    up_to_date c t1 b1 = (vget c.up_to_date_ loc >>= fun flag => pure (flag != 0)) ∧
    up_to_date c t1 b1 = up_to_date c t2 b2 := by
  rw [up_to_date_eq c t1 b1 loc h1, up_to_date_eq c t2 b2 loc h2]
  exact ⟨rfl, rfl⟩

/-- Two tokens on one Location: the hypotheses of C6 (amended) hold there. -/
theorem C6_up_to_date_flag_per_location_witness :
    (location pool_shared 0 0 = .ok 0 ∧ location pool_shared 1 0 = .ok 0) ∧
    up_to_date pool_shared 0 0 = up_to_date pool_shared 1 0 :=
  ⟨by decide,
   (C6_up_to_date_flag_per_location pool_shared 0 0 1 0 0 (by decide) (by decide)).2⟩
/-- C9. On every reachable state of the pool: `claim_token` returns a token in use, none
of whose branches is up to date; and for every token in use, that is, obtained from
`claim_token` and not released, and every branch `b` of it, `validate_branch(token,b)`
makes `up_to_date(token,b)` true and `invalidate_one_branch(token,b)` immediately after
makes it false.  The same holds directly after `claim_token`, also with a store to the
branch through `operator[]` before the `validate_branch`. -/
theorem C9_validate_then_invalidate {Matrix : Type} [Inhabited Matrix]
    (c : Multi_Likelihood_Cache Matrix) (h : Reachable c) :
    (∀ token b loc : Int, is_active c token → location c token b = .ok loc →
      ∃ c1 c2, validate_branch c token b = .ok c1 ∧ up_to_date c1 token b = .ok true ∧
        invalidate_one_branch c1 token b = .ok c2 ∧ up_to_date c2 token b = .ok false) ∧
    (∀ C B : Int, ∃ token c0, claim_token c C B = .ok (token, c0) ∧ is_active c0 token ∧
      ∀ b : Int, 0 ≤ b → b < B →
        up_to_date c0 token b = .ok false ∧
        (∃ c1 c2, validate_branch c0 token b = .ok c1 ∧ up_to_date c1 token b = .ok true ∧
          invalidate_one_branch c1 token b = .ok c2 ∧ up_to_date c2 token b = .ok false) ∧
        ∀ (v : Likelihood_Cache) (ms : List Matrix), v.token = token →
          ∃ cw c1 c2, v.set_branch c0 b ms = .ok cw ∧ v.get_branch cw b = .ok ms ∧
            validate_branch cw token b = .ok c1 ∧ up_to_date c1 token b = .ok true ∧
            invalidate_one_branch c1 token b = .ok c2 ∧
            up_to_date c2 token b = .ok false) := by
  obtain ⟨hinv, hset⟩ := h.inv
  constructor
  · intro token b loc ha hl
    exact validate_invalidate_spec c hinv token b loc ha hl ((hset token b loc hl).1 ha)
  · intro C B
    obtain ⟨token, c0, hc, hinv0, ha0, hflags, _, _⟩ := claim_token_spec c hinv C B
    refine ⟨token, c0, hc, ha0, ?_⟩
    intro b hb0 hb1
    obtain ⟨hu, loc, hl, h0⟩ := hflags b hb0 hb1
    refine ⟨hu, validate_invalidate_spec c0 hinv0 token b loc ha0 hl h0, ?_⟩
    intro v ms hv
    subst hv
    obtain ⟨hw, hr, hinvw⟩ := set_branch_spec v c0 hinv0 b loc ms ha0 hl h0
    obtain ⟨c1, c2, h1, h2, h3, h4⟩ :=
      validate_invalidate_spec _ hinvw v.token b loc ha0 hl h0
    exact ⟨_, c1, c2, hw, hr, h1, h2, h3, h4⟩

/-- The pool after two calls of `claim_token` is a reachable state in which token 1 is in
use and holds branch 1 on Location 3: the hypotheses of C9 hold there. -/
theorem C9_validate_then_invalidate_witness :
    (Reachable pool_two ∧ is_active pool_two 1 ∧ location pool_two 1 1 = .ok 3) ∧
    ∃ c1 c2, validate_branch pool_two 1 1 = .ok c1 ∧ up_to_date c1 1 1 = .ok true ∧
      invalidate_one_branch c1 1 1 = .ok c2 ∧ up_to_date c2 1 1 = .ok false :=
  ⟨⟨pool_two_reachable, by decide, by decide⟩,
   (C9_validate_then_invalidate pool_two pool_two_reachable).1 1 1 3 (by decide) (by decide)⟩

/-- C10. On every reachable state of the pool, `invalidate_one_branch(token,b)` on a
branch of a token in use returns normally, leaves `up_to_date(token,b)` false, and for
every other pair `(token',b')`, also one of another token that shared the Location of
`(token,b)` before the call, `up_to_date(token',b')` has the same value after the call as
before. -/
theorem C10_invalidate_one_branch_clears_one_bit {Matrix : Type} [Inhabited Matrix]
    (c : Multi_Likelihood_Cache Matrix) (h : Reachable c) (token b loc : Int)
    (ha : is_active c token) (hl : location c token b = .ok loc) :
    ∃ c', invalidate_one_branch c token b = .ok c' ∧ up_to_date c' token b = .ok false ∧
      ∀ token' b' : Int, (token', b') ≠ (token, b) →
        up_to_date c' token' b' = up_to_date c token' b' := by
  obtain ⟨hinv, hset⟩ := h.inv
  obtain ⟨c', hi, hu, hframe⟩ := invalidate_one_branch_frame c hinv hset token b loc ha hl
  refine ⟨c', hi, hu, ?_⟩
  intro t' b' hne
  apply hframe t' b'
  rintro ⟨e1, e2⟩
  exact hne (by rw [e1, e2])


/-- The pool after `claim_token`, `claim_token`, `copy_token(0,1)`, in which both tokens
hold their branches on the Locations 0 and 1: the hypotheses of C10 hold there for token 1
and branch 0, and the pair `(0,0)` of the other token shares the Location. -/
theorem C10_invalidate_one_branch_clears_one_bit_witness :
    (Reachable pool_copied ∧ is_active pool_copied 1 ∧ location pool_copied 1 0 = .ok 0 ∧
      location pool_copied 0 0 = .ok 0) ∧
    ∃ c', invalidate_one_branch pool_copied 1 0 = .ok c' ∧ up_to_date c' 1 0 = .ok false ∧
      ∀ token' b' : Int, (token', b') ≠ (1, 0) →
        up_to_date c' token' b' = up_to_date pool_copied token' b' :=
  ⟨⟨pool_copied_reachable, by decide, by decide, by decide⟩,
   C10_invalidate_one_branch_clears_one_bit pool_copied pool_copied_reachable 1 0 0
     (by decide) (by decide)⟩

namespace Multi_Likelihood_Cache

variable {Matrix : Type}

theorem get_branch_eq (v : Likelihood_Cache) (c : Multi_Likelihood_Cache Matrix)
    (b loc : Int) (hl : location c v.token b = .ok loc) :
    v.get_branch c b = vget c.store loc := by
  unfold Likelihood_Cache.get_branch
  rw [hl]
  rfl

/-- Isolation after the fork of branch `b` of view `vB`, in any pool `c3` that has the
mapping and the counts of the forked pool `c2` and its matrices outside the new
Location. -/
theorem cow_isolated_of_fork (vA vB : Likelihood_Cache) (rowA : List Int) (b locb loc' : Int)
    (c1 c2 c3 : Multi_Likelihood_Cache Matrix) (hinv2 : PoolInv c2)
    (hne : vA.token ≠ vB.token)
    (hA2 : is_active c2 vA.token) (hB2 : is_active c2 vB.token)
    (hlA : ∀ b', location c1 vA.token b' = vget rowA b')
    (hlB : ∀ b', location c1 vB.token b' = vget rowA b')
    (hmapped : ∀ v ∈ rowA, 0 ≤ v)
    (hb : vget rowA b = .ok locb)
    (hloc : ∀ t' b', ¬ (t' = vB.token ∧ b' = b) → location c2 t' b' = location c1 t' b')
    (hl2 : location c2 vB.token b = .ok loc') (hnl : loc' ≠ locb)
    (hs12 : ∀ v, v ≠ loc' → vget c2.store v = vget c1.store v)
    (hm3 : c3.mapping = c2.mapping) (hn3 : c3.n_uses = c2.n_uses)
    (hs23 : ∀ v, v ≠ loc' → vget c3.store v = vget c2.store v) :
    cow_isolated vA vB rowA.length b c1 c3 := by
  have hloc3 : ∀ t' b', location c3 t' b' = location c2 t' b' := by
    intro t' b'
    unfold location
    rw [hm3]
  have hA3 : ∀ b', location c3 vA.token b' = vget rowA b' := by
    intro b'
    rw [hloc3, hloc vA.token b' (fun h => hne h.1), hlA]
  refine ⟨?_, ⟨locb, loc', ?_, ?_, Ne.symm hnl⟩, ?_⟩
  · rw [get_branch_eq vA c3 b locb (by rw [hA3]; exact hb),
      get_branch_eq vA c1 b locb (by rw [hlA]; exact hb),
      hs23 locb (Ne.symm hnl), hs12 locb (Ne.symm hnl)]
  · rw [hA3]; exact hb
  · rw [hloc3]; exact hl2
  · intro b' h0 h1 hbb
    obtain ⟨l, hl⟩ := vget_of_lt rowA b' h0 h1
    have hl0 : 0 ≤ l := hmapped l (List.getElem?_mem ((vget_eq_ok _ _ _).mp hl).2)
    have hA2' : location c2 vA.token b' = .ok l := by
      rw [hloc vA.token b' (fun h => hne h.1), hlA]; exact hl
    have hB2' : location c2 vB.token b' = .ok l := by
      rw [hloc vB.token b' (fun h => hbb h.2), hlB]; exact hl
    obtain ⟨_, hcount⟩ := hinv2.location_count vA.token b' l hA2 hA2' hl0
    refine ⟨l, (n_live_pairs c2 l : Int), by rw [hloc3]; exact hA2', by rw [hloc3]; exact hB2',
      by rw [hn3]; exact hcount, ?_⟩
    obtain ⟨rA, hrA, hbA⟩ := (location_eq_ok _ _ _ _).mp hA2'
    obtain ⟨rB, hrB, hbB⟩ := (location_eq_ok _ _ _ _).mp hB2'
    obtain ⟨_, hrA'⟩ := (vget_eq_ok _ _ _).mp hrA
    obtain ⟨_, hrB'⟩ := (vget_eq_ok _ _ _).mp hrB
    obtain ⟨_, hbA'⟩ := (vget_eq_ok _ _ _).mp hbA
    obtain ⟨_, hbB'⟩ := (vget_eq_ok _ _ _).mp hbB
    obtain ⟨_, haA⟩ := (vget_eq_ok _ _ _).mp hA2
    obtain ⟨_, haB⟩ := (vget_eq_ok _ _ _).mp hB2
    have := live_count_two l c2.mapping c2.active vA.token.toNat b'.toNat vB.token.toNat
      b'.toNat rA rB hrA' haA hbA' hrB' haB hbB' (by
        rintro ⟨e1, _⟩
        exact hne (by omega))
    unfold n_live_pairs
    omega

end Multi_Likelihood_Cache

/-- C8 (as stated, refuted). After `claim_token`, `claim_token`, `copy_token(0,1)`, a
rewrite of branch 0 through token 1 by `operator[]` stores in place: token 0, which read
no matrix for branch 0 before, reads the written matrix, and both tokens still hold
branch 0 on Location 0. -/
theorem C8_rewrite_stores_in_place :
    copy_token pool_two 0 1 = .ok pool_copied ∧
    Likelihood_Cache.get_branch ⟨2, 0, 0⟩ pool_copied 0 = .ok [] ∧
    (Likelihood_Cache.set_branch ⟨2, 1, 0⟩ pool_copied 0 [7] >>= fun c =>
      pure (Likelihood_Cache.get_branch ⟨2, 0, 0⟩ c 0, location c 0 0, location c 1 0))
      = (.ok (.ok [7], .ok 0, .ok 0) :
          Except Fault (Except Fault (List Nat) × Except Fault Int × Except Fault Int)) := by
  decide

/-- C8 (amended). On every reachable state of the pool, for two different tokens `A` and
`B` in use and a branch `b` of `A`: `copy_token(A,B)` returns normally and leaves the
matrices read through `A` unchanged.  After it, `invalidate_one_branch(B,b)`, also when a
rewrite of branch `b` through `B` follows it, leaves the matrices read through `A` for
branch `b` unchanged, makes `location(A,b)` and `location(B,b)` different, and leaves
`location(A,b') = location(B,b')` with use-count at least 2 for every other branch `b'`;
after the rewrite `B` reads the written matrices.  A rewrite of branch `b` through
`operator[]` of `B` without the invalidation stores in place: `A` reads the written
matrices, and the mapping and the counts are those before the rewrite. -/
theorem C8_isolation_by_invalidation {Matrix : Type} [Inhabited Matrix]
    (c : Multi_Likelihood_Cache Matrix) (h : Reachable c) (vA vB : Likelihood_Cache)
    (rowA : List Int) (b : Int) (ms : List Matrix)
    (hA : is_active c vA.token) (hB : is_active c vB.token) (hne : vA.token ≠ vB.token)
    (hrowA : vget c.mapping vA.token = .ok rowA) (hb : 0 ≤ b ∧ b < (rowA.length : Int)) :
    ∃ c1, copy_token c vA.token vB.token = .ok c1 ∧
      vA.get_branch c1 b = vA.get_branch c b ∧ (∃ old, vA.get_branch c b = .ok old) ∧
      (∃ c2, invalidate_one_branch c1 vB.token b = .ok c2 ∧
        cow_isolated vA vB rowA.length b c1 c2 ∧
        ∃ c3, vB.set_branch c2 b ms = .ok c3 ∧ vB.get_branch c3 b = .ok ms ∧
          cow_isolated vA vB rowA.length b c1 c3) ∧
      (∃ c2, vB.set_branch c1 b ms = .ok c2 ∧ stored_in_place vA vB b ms c1 c2) := by
  obtain ⟨hinv, hset⟩ := h.inv
  have hmapped : ∀ v ∈ rowA, 0 ≤ v := hset.row_mapped vA.token rowA hA hrowA
  obtain ⟨rowB, hrowB⟩ := hinv.active_row vB.token true hB
  obtain ⟨locb, hlocb⟩ := vget_of_lt rowA b hb.1 hb.2
  have hlocb0 : 0 ≤ locb := hmapped locb (List.getElem?_mem ((vget_eq_ok _ _ _).mp hlocb).2)
  obtain ⟨c1, hc1, hinv1, hm1, ha1, hf1, hs1⟩ :=
    copy_token_spec c hinv vA.token vB.token rowA rowB hA hB hne hrowA hmapped hrowB
      (hset.row_mapped vB.token rowB hB hrowB)
  have hbB := vget_bounds _ _ _ hB
  have hbB' : vB.token < (c.mapping.length : Int) := by rw [← hinv.len_active]; exact hbB.2
  have hA1 : is_active c1 vA.token := by unfold is_active; rw [ha1]; exact hA
  have hB1 : is_active c1 vB.token := by unfold is_active; rw [ha1]; exact hB
  have hrA1 : vget c1.mapping vA.token = .ok rowA := by
    rw [hm1, vget_set_other _ _ _ _ hbB.1 (Ne.symm hne)]; exact hrowA
  have hrB1 : vget c1.mapping vB.token = .ok rowA := by
    rw [hm1]; exact vget_set_self _ _ _ hbB.1 hbB'
  have hlA : ∀ b', location c1 vA.token b' = vget rowA b' := by
    intro b'; unfold location; rw [hrA1]; rfl
  have hlB : ∀ b', location c1 vB.token b' = vget rowA b' := by
    intro b'; unfold location; rw [hrB1]; rfl
  have hlA0 : location c vA.token b = .ok locb := by
    unfold location; rw [hrowA]; exact hlocb
  have hlt := (hinv.location_count vA.token b locb hA hlA0 hlocb0).1
  have hgA : vA.get_branch c1 b = vA.get_branch c b := by
    rw [get_branch_eq vA c1 b locb (by rw [hlA]; exact hlocb), get_branch_eq vA c b locb hlA0,
      hs1]
  obtain ⟨old, hold⟩ := vget_of_lt c.store locb hlocb0 (by rw [hinv.len_store]; exact hlt)
  -- the Location of branch `b` has two users after the copy
  have htwo : 2 ≤ n_live_pairs c1 locb := by
    obtain ⟨_, hrA'⟩ := (vget_eq_ok _ _ _).mp hrA1
    obtain ⟨_, hrB'⟩ := (vget_eq_ok _ _ _).mp hrB1
    obtain ⟨_, hb'⟩ := (vget_eq_ok _ _ _).mp hlocb
    obtain ⟨_, haA⟩ := (vget_eq_ok _ _ _).mp hA1
    obtain ⟨_, haB⟩ := (vget_eq_ok _ _ _).mp hB1
    have hbA := vget_bounds _ _ _ hA
    exact live_count_two locb c1.mapping c1.active vA.token.toNat b.toNat vB.token.toNat
      b.toNat rowA rowA hrA' haA hb' hrB' haB hb' (by
        rintro ⟨e1, _⟩
        exact hne (by omega))
  obtain ⟨c2, loc', he, hinv2, hact2, _, _, hl2, hloc2, hn2, hcase⟩ :=
    ensure_exclusive_spec c1 hinv1 vB.token b locb hB1 (by rw [hlB]; exact hlocb) hlocb0
  have hfork : loc' ≠ locb ∧ (∀ v, v ≠ loc' → vget c2.store v = vget c1.store v) := by
    rcases hcase with ⟨h1, h2⟩ | ⟨h1, _, _, _, _, h6, _⟩
    · exfalso
      rw [h1, h2, (hinv1.location_count vB.token b locb hB1 (by rw [hlB]; exact hlocb)
        hlocb0).2] at hn2
      simp only [Except.ok.injEq] at hn2
      omega
    · exact ⟨h1, h6⟩
  have hA2 : is_active c2 vA.token := by unfold is_active; rw [hact2]; exact hA1
  have hB2 : is_active c2 vB.token := by unfold is_active; rw [hact2]; exact hB1
  have hb2 := vget_bounds _ _ _ hn2
  have hst2 : loc' < (c2.store.length : Int) := by rw [hinv2.len_store]; exact hb2.2
  have hfl2 : loc' < (c2.up_to_date_.length : Int) := by rw [hinv2.len_flags]; exact hb2.2
  have iso := fun c3 h1 h2 h3 => cow_isolated_of_fork vA vB rowA b locb loc' c1 c2 c3 hinv2 hne
    hA2 hB2 hlA hlB hmapped hlocb hloc2 hl2 hfork.1 hfork.2 h1 h2 h3
  -- a rewrite of branch `b` through `B`, in a pool with the mapping of `c2`
  have hwrite : ∀ c2' : Multi_Likelihood_Cache Matrix, c2'.mapping = c2.mapping →
      c2'.store = c2.store →
      vB.set_branch c2' b ms = .ok { c2' with store := c2.store.set loc'.toNat ms } ∧
      vB.get_branch { c2' with store := c2.store.set loc'.toNat ms } b = .ok ms := by
    intro c2' hm hs
    have hl' : location c2' vB.token b = .ok loc' := by
      unfold location; rw [hm]; exact hl2
    constructor
    · unfold Likelihood_Cache.set_branch
      rw [hl']
      simp only [bind, Except.bind, hs, vset_ok_of_lt _ _ _ hb2.1 hst2, pure, Except.pure]
    · rw [get_branch_eq vB _ b loc' (by unfold location; simp only; rw [hm]; exact hl2)]
      exact vget_set_self _ _ _ hb2.1 hst2
  refine ⟨c1, hc1, hgA, ⟨old, by rw [get_branch_eq vA c b locb hlA0]; exact hold⟩, ?_, ?_⟩
  · have hi := invalidate_one_branch_eq c1 c2 vB.token b loc' he hl2 hb2.1 hfl2
    refine ⟨_, hi, iso _ rfl rfl (fun _ _ => rfl), ?_⟩
    obtain ⟨hw1, hw2⟩ := hwrite { c2 with up_to_date_ := c2.up_to_date_.set loc'.toNat 0 }
      rfl rfl
    refine ⟨_, hw1, hw2, iso _ rfl rfl ?_⟩
    intro v hv
    exact vget_set_other _ _ _ _ hb2.1 (Ne.symm hv)
  · have hlB1 : location c1 vB.token b = .ok locb := by rw [hlB]; exact hlocb
    have hlA1 : location c1 vA.token b = .ok locb := by rw [hlA]; exact hlocb
    obtain ⟨hw, _, _⟩ := set_branch_spec vB c1 hinv1 b locb ms hB1 hlB1 hlocb0
    have hst1 : locb < (c1.store.length : Int) := by
      rw [hs1, hinv.len_store]; exact hlt
    refine ⟨_, hw, ?_, rfl, rfl, locb, hlA1, hlB1⟩
    have hl' : location { c1 with store := c1.store.set locb.toNat ms } vA.token b
        = .ok locb := hlA1
    rw [get_branch_eq vA _ b locb hl']
    exact vget_set_self _ _ _ hlocb0 hst1

/-- The pool after two calls of `claim_token` is a reachable state in which the tokens 0
and 1 are in use: the hypotheses of C8 (amended) hold there for branch 0. -/
theorem C8_isolation_by_invalidation_witness :
    (Reachable pool_two ∧ is_active pool_two 0 ∧ is_active pool_two 1 ∧
      vget pool_two.mapping 0 = .ok [0, 1]) ∧
    ∃ c1, copy_token pool_two 0 1 = .ok c1 ∧
      (∃ c2, invalidate_one_branch c1 1 0 = .ok c2 ∧
        cow_isolated ⟨2, 0, 0⟩ ⟨2, 1, 0⟩ 2 0 c1 c2) ∧
      ∃ c2, Likelihood_Cache.set_branch ⟨2, 1, 0⟩ c1 0 [7] = .ok c2 ∧
        stored_in_place ⟨2, 0, 0⟩ ⟨2, 1, 0⟩ 0 [7] c1 c2 :=
  ⟨⟨pool_two_reachable, by decide, by decide, by decide⟩,
   let ⟨c1, h1, _, _, ⟨c2, h2, h3, _⟩, h4⟩ :=
     C8_isolation_by_invalidation pool_two pool_two_reachable ⟨2, 0, 0⟩ ⟨2, 1, 0⟩ [0, 1] 0 [7]
       (by decide) (by decide) (by decide) (by decide) (by decide)
   ⟨c1, h1, ⟨c2, h2, h3⟩, h4⟩⟩

/-! ## C12, C13: the accessors of `Likelihood_Cache` -/

/-- C12. For a view over a tree with `n` undirected branches, `B = 2n+1`: `n_branches()`
returns `n`, `scratch()` returns `2n`, the scratch slot is a valid slot (`0 <= 2n < B`)
and it differs from every directed-branch index in `[0,2n)`. -/
theorem C12_scratch_and_n_branches (v : Likelihood_Cache) (n : Nat)
    (hB : v.B = 2 * (n : Int) + 1) :
    v.n_branches = n ∧ v.scratch = 2 * (n : Int) ∧
    0 ≤ v.scratch ∧ v.scratch < v.B ∧
    ∀ b : Int, 0 ≤ b → b < 2 * (n : Int) → v.scratch ≠ b := by
  unfold Likelihood_Cache.n_branches Likelihood_Cache.scratch
  rw [hB]
  refine ⟨?_, by omega, by omega, by omega, fun b _ hb => by omega⟩
  rw [Int.tdiv_eq_ediv (by omega) (by omega)]
  omega

/-- A view over a tree with three undirected branches, `B = 7`. -/
theorem C12_scratch_and_n_branches_witness :
    (⟨7, 0, 0⟩ : Likelihood_Cache).B = 2 * ((3 : Nat) : Int) + 1 ∧
    (⟨7, 0, 0⟩ : Likelihood_Cache).n_branches = (3 : Nat) ∧
    (⟨7, 0, 0⟩ : Likelihood_Cache).scratch = 2 * ((3 : Nat) : Int) :=
  ⟨by decide,
   (C12_scratch_and_n_branches ⟨7, 0, 0⟩ 3 (by decide)).1,
   (C12_scratch_and_n_branches ⟨7, 0, 0⟩ 3 (by decide)).2.1⟩

theorem vget_out_of_range {α : Type} (v : List α) (i : Int)
    (h : ¬ (0 ≤ i ∧ i < (v.length : Int))) : vget v i = .error .out_of_range := by
  unfold vget
  by_cases h0 : 0 ≤ i
  · have hlen : v.length ≤ i.toNat := by omega
    rw [if_pos h0, List.getElem?_eq_none hlen]
  · rw [if_neg h0]

theorem location_out_of_range {Matrix : Type} (c : Multi_Likelihood_Cache Matrix)
    (token branch : Int) (h : slot_out_of_range c token branch) :
    c.location token branch = .error .out_of_range := by
  unfold Multi_Likelihood_Cache.location
  rcases h with h | ⟨row, hrow, hb⟩
  · rw [vget_out_of_range _ _ h]; rfl
  · rw [hrow]
    exact vget_out_of_range _ _ hb

/-- C13 (as stated, refuted). In the pool in which token 0 holds two branch slots, the
branch index 2 and the token index 1 are out of range; `location`, `up_to_date`,
`operator[]` and `operator()` do not end in a failing assertion there: each reads the
vector outside its bounds.  The column index 5 of a token of one column does end in a
failing assertion. -/
theorem C13_out_of_range_branch_not_asserted :
    pool_init.location 0 2 = .error .out_of_range ∧
    pool_init.location 1 0 = .error .out_of_range ∧
    pool_init.up_to_date 0 2 = .error .out_of_range ∧
    Likelihood_Cache.up_to_date ⟨3, 0, 0⟩ pool_init 2 = .error .out_of_range ∧
    Likelihood_Cache.get_branch ⟨3, 0, 0⟩ pool_init 2 = .error .out_of_range ∧
    Likelihood_Cache.get_matrix ⟨3, 0, 0⟩ pool_init 0 2 = .error .out_of_range ∧
    Likelihood_Cache.get_matrix ⟨3, 0, 0⟩ pool_init 5 0 = .error .assertion_failed ∧
    Fault.out_of_range ≠ Fault.assertion_failed := by
  decide

/-- C13 (amended). Only an out-of-range column index `i` is signalled by a failing
assertion: `operator()(i,b)` and `scratch(i)` end in one when the slot of the branch can
be read and `i` is outside `[0, get_length())`.  An out-of-range branch index or token
index is not checked by any accessor: `location`, `up_to_date`, `operator[]` and
`operator()` index `mapping` directly, an access outside the vector. -/
theorem C13_only_column_index_asserted {Matrix : Type} (c : Multi_Likelihood_Cache Matrix)
    (v : Likelihood_Cache) (token b i : Int) :
    (slot_out_of_range c token b →
      c.location token b = .error .out_of_range ∧
      c.up_to_date token b = .error .out_of_range) ∧
    (slot_out_of_range c v.token b →
      v.up_to_date c b = .error .out_of_range ∧
      v.get_branch c b = .error .out_of_range ∧
      v.get_matrix c i b = .error .out_of_range) ∧
    (∀ loc len : Int, c.location v.token b = .ok loc → v.get_length c = .ok len →
      ¬ (0 ≤ i ∧ i < len) → v.get_matrix c i b = .error .assertion_failed) ∧
    (∀ loc len : Int, c.location v.token (v.B - 1) = .ok loc → v.get_length c = .ok len →
      ¬ (0 ≤ i ∧ i < len) → v.scratch_matrix c i = .error .assertion_failed) := by
  refine ⟨?_, ?_, ?_, ?_⟩
  · intro h
    have hl := location_out_of_range c token b h
    refine ⟨hl, ?_⟩
    unfold Multi_Likelihood_Cache.up_to_date
    rw [hl]; rfl
  · intro h
    have hl := location_out_of_range c v.token b h
    refine ⟨?_, ?_, ?_⟩
    · unfold Likelihood_Cache.up_to_date Multi_Likelihood_Cache.up_to_date
      rw [hl]; rfl
    · unfold Likelihood_Cache.get_branch
      rw [hl]; rfl
    · unfold Likelihood_Cache.get_matrix
      rw [hl]; rfl
  · intro loc len hl hlen hi
    unfold Likelihood_Cache.get_matrix
    rw [hl, hlen]
    simp only [bind, Except.bind]
    rw [if_pos hi]; rfl
  · intro loc len hl hlen hi
    unfold Likelihood_Cache.scratch_matrix
    rw [hl, hlen]
    simp only [bind, Except.bind]
    rw [if_pos hi]; rfl

/-- The pool in which token 0 holds two slots and one column: branch 2 is out of range,
and column 5 of branch 0 is out of range. -/
theorem C13_only_column_index_asserted_witness :
    slot_out_of_range pool_init 0 2 ∧
    pool_init.location 0 2 = .error .out_of_range ∧
    pool_init.up_to_date 0 2 = .error .out_of_range ∧
    Likelihood_Cache.get_matrix ⟨3, 0, 0⟩ pool_init 5 0 = .error .assertion_failed :=
  have h : slot_out_of_range pool_init 0 2 := Or.inr ⟨[0, 1], by decide, by decide⟩
  ⟨h,
   ((C13_only_column_index_asserted pool_init ⟨3, 0, 0⟩ 0 2 5).1 h).1,
   ((C13_only_column_index_asserted pool_init ⟨3, 0, 0⟩ 0 2 5).1 h).2,
   (C13_only_column_index_asserted pool_init ⟨3, 0, 0⟩ 0 0 5).2.2.1 0 1 (by decide) (by decide)
     (by decide)⟩

/-! ## C14, C15: `get_path` -/

theorem get_path_loop_eq (gap : alignment → Nat → Int → Bool) (A : alignment)
    (node1 node2 : Int) :
    ∀ (cols : List Nat) (state : List Int),
      get_path_loop gap A node1 node2 cols state =
        state ++ cols.filterMap (column_state gap A node1 node2) := by
  intro cols
  induction cols with
  | nil => intro state; simp [get_path_loop]
  | cons column rest ih =>
    intro state
    unfold get_path_loop
    by_cases h1 : gap A column node1 = true <;> by_cases h2 : gap A column node2 = true <;>
      simp [h1, h2, ih, column_state, List.filterMap_cons]

theorem get_path_eq (gap : alignment → Nat → Int → Bool) (A : alignment) (node1 node2 : Int) :
    get_path gap A node1 node2 =
      (List.range A.length).filterMap (column_state gap A node1 node2) ++ [3] := by
  unfold get_path
  rw [get_path_loop_eq]
  simp

theorem column_state_mem (gap : alignment → Nat → Int → Bool) (A : alignment)
    (node1 node2 : Int) (cols : List Nat) (s : Int)
    (h : s ∈ cols.filterMap (column_state gap A node1 node2)) : s = 0 ∨ s = 1 ∨ s = 2 := by
  rw [List.mem_filterMap] at h
  obtain ⟨column, _, hc⟩ := h
  unfold column_state at hc
  by_cases h1 : gap A column node1 = true <;> by_cases h2 : gap A column node2 = true <;>
    simp [h1, h2] at hc <;> omega

theorem column_state_length (gap : alignment → Nat → Int → Bool) (A : alignment)
    (node1 node2 : Int) (cols : List Nat) :
    (cols.filterMap (column_state gap A node1 node2)).length =
      (cols.filter (fun c => !(gap A c node1 && gap A c node2))).length := by
  induction cols with
  | nil => rfl
  | cons column rest ih =>
    by_cases h1 : gap A column node1 = true <;> by_cases h2 : gap A column node2 = true <;>
      simp [h1, h2, ih, column_state, List.filterMap_cons, List.filter_cons]

theorem column_state_count1 (gap : alignment → Nat → Int → Bool) (A : alignment)
    (node1 node2 : Int) (cols : List Nat) :
    (cols.filterMap (column_state gap A node1 node2)).countP (fun s => s == 0 || s == 2) =
      (cols.filter (fun c => !gap A c node1)).length := by
  induction cols with
  | nil => rfl
  | cons column rest ih =>
    by_cases h1 : gap A column node1 = true <;> by_cases h2 : gap A column node2 = true <;>
      simp [h1, h2, ih, column_state, List.filterMap_cons, List.filter_cons, List.countP_cons]

theorem column_state_count2 (gap : alignment → Nat → Int → Bool) (A : alignment)
    (node1 node2 : Int) (cols : List Nat) :
    (cols.filterMap (column_state gap A node1 node2)).countP (fun s => s == 0 || s == 1) =
      (cols.filter (fun c => !gap A c node2)).length := by
  induction cols with
  | nil => rfl
  | cons column rest ih =>
    by_cases h1 : gap A column node1 = true <;> by_cases h2 : gap A column node2 = true <;>
      simp [h1, h2, ih, column_state, List.filterMap_cons, List.filter_cons, List.countP_cons]

/-- C14. For every alignment `A` and nodes `n1`, `n2`, `get_path(A,n1,n2)` is a non-empty
sequence whose last element is the terminal marker `3` and whose other elements are all
in `{0,1,2}`; its length is 1 plus the number of columns in which `n1` and `n2` are not
both gaps. -/
theorem C14_get_path_shape (gap : alignment → Nat → Int → Bool) (A : alignment)
    (n1 n2 : Int) :
    get_path gap A n1 n2 ≠ [] ∧
    (get_path gap A n1 n2).getLast? = some 3 ∧
    (∀ s ∈ (get_path gap A n1 n2).dropLast, s = 0 ∨ s = 1 ∨ s = 2) ∧
    (get_path gap A n1 n2).length =
      1 + count_columns A (fun c => !(gap A c n1 && gap A c n2)) := by
  rw [get_path_eq]
  refine ⟨by simp, by simp, ?_, ?_⟩
  · intro s hs
    rw [List.dropLast_concat] at hs
    exact column_state_mem gap A n1 n2 _ s hs
  · rw [List.length_append, column_state_length]
    simp [count_columns, Nat.add_comm]

/-- C15. For every alignment `A` and nodes `n1`, `n2`, the number of entries of
`get_path(A,n1,n2)` equal to 0 or 2 (the steps that advance the first axis) is the number
of columns where `n1` is not a gap, and the number of entries equal to 0 or 1 (the steps
that advance the second axis) is the number of columns where `n2` is not a gap. -/
theorem C15_get_path_axis_advances (gap : alignment → Nat → Int → Bool) (A : alignment)
    (n1 n2 : Int) :
    (get_path gap A n1 n2).countP (fun s => s == 0 || s == 2) =
      count_columns A (fun c => !gap A c n1) ∧
    (get_path gap A n1 n2).countP (fun s => s == 0 || s == 1) =
      count_columns A (fun c => !gap A c n2) := by
  rw [get_path_eq]
  constructor
  · rw [List.countP_append, column_state_count1]
    simp [count_columns, List.countP_cons]
  · rw [List.countP_append, column_state_count2]
    simp [count_columns, List.countP_cons]

/-- A run of `get_path`: a column with both characters, one with only the second, one
with only the first, and one with two gaps. -/
theorem get_path_path4 : get_path path4_gap path4_A 0 1 = [0, 1, 2, 3] := by
  decide

/-! ## C19: `report_constraints` -/

theorem report_constraints_loop_spec (s1 s2 : List Bool) (hlen : s1.length = s2.length) :
    ∀ (cols : List Nat) (log : List String), (∀ i ∈ cols, i < s1.length) →
      ((∃ i ∈ cols, s1[i]? = some true ∧ s2[i]? = some false) →
        ∃ msg, report_constraints_loop s1 s2 cols log = .error (.exception msg)) ∧
      ((¬ ∃ i ∈ cols, s1[i]? = some true ∧ s2[i]? = some false) →
        ∃ log', report_constraints_loop s1 s2 cols log = .ok log') := by
  intro cols
  induction cols with
  | nil =>
    intro log _
    exact ⟨fun ⟨i, hi, _⟩ => absurd hi (List.not_mem_nil i), fun _ => ⟨log, rfl⟩⟩
  | cons i rest ih =>
    intro log hcols
    have hi1 : i < s1.length := hcols i (List.mem_cons_self i rest)
    have hi2 : i < s2.length := hlen ▸ hi1
    have ha : vget s1 (i : Int) = .ok s1[i] := by
      rw [vget_eq_ok]; exact ⟨by omega, by simp [List.getElem?_eq_getElem hi1]⟩
    have hb : vget s2 (i : Int) = .ok s2[i] := by
      rw [vget_eq_ok]; exact ⟨by omega, by simp [List.getElem?_eq_getElem hi2]⟩
    have hrest : ∀ k ∈ rest, k < s1.length := fun k hk => hcols k (List.mem_cons_of_mem i hk)
    unfold report_constraints_loop
    rw [ha, hb]
    simp only [bind, Except.bind]
    by_cases hc : (s1[i] && !s2[i]) = true
    · rw [if_pos hc]
      refine ⟨fun _ => ⟨unsatisfied_msg i, rfl⟩, fun hno => absurd ?_ hno⟩
      have hc1 : s1[i] = true := by
        cases h1 : s1[i] <;> simp [h1] at hc ⊢
      have hc2 : s2[i] = false := by
        cases h2 : s2[i] <;> simp [h2] at hc ⊢
      exact ⟨i, List.mem_cons_self i rest, by rw [List.getElem?_eq_getElem hi1, hc1],
        by rw [List.getElem?_eq_getElem hi2, hc2]⟩
    · rw [if_neg hc]
      obtain ⟨ih1, ih2⟩ := ih
        (if (s2[i] && !s1[i]) = true
          then log ++ ["Constraint " ++ toString i ++ " satisfied.\n"] else log) hrest
      constructor
      · rintro ⟨k, hk, hk1, hk2⟩
        rcases List.mem_cons.mp hk with rfl | hk'
        · exfalso
          apply hc
          rw [List.getElem?_eq_getElem hi1] at hk1
          rw [List.getElem?_eq_getElem hi2] at hk2
          simp only [Option.some.injEq] at hk1 hk2
          simp [hk1, hk2]
        · exact ih1 ⟨k, hk', hk1, hk2⟩
      · intro hno
        exact ih2 (fun ⟨k, hk, hk12⟩ => hno ⟨k, List.mem_cons_of_mem i hk, hk12⟩)

/-- C19. For satisfaction bitsets `s1` (before) and `s2` (after) of equal size,
`report_constraints(s1,s2)` throws if and only if there is a constraint `i` with `s1[i]`
set and `s2[i]` clear; otherwise it returns normally, also for empty bitsets. -/
theorem C19_report_constraints_throws_iff (s1 s2 : List Bool) (hlen : s1.length = s2.length) :
    ((∃ msg, report_constraints s1 s2 = .error (.exception msg)) ↔ went_unsatisfied s1 s2) ∧
    ((∃ log, report_constraints s1 s2 = .ok log) ↔ ¬ went_unsatisfied s1 s2) ∧
    (s1 = [] → report_constraints s1 s2 = .ok []) := by
  have hmem : went_unsatisfied s1 s2 ↔
      ∃ i ∈ List.range s1.length, s1[i]? = some true ∧ s2[i]? = some false := by
    constructor
    · rintro ⟨i, h1, h2⟩
      exact ⟨i, List.mem_range.mpr (List.getElem?_eq_some_iff.mp h1).1, h1, h2⟩
    · rintro ⟨i, _, h1, h2⟩
      exact ⟨i, h1, h2⟩
  have key : (went_unsatisfied s1 s2 →
        ∃ msg, report_constraints s1 s2 = .error (.exception msg)) ∧
      (¬ went_unsatisfied s1 s2 → ∃ log, report_constraints s1 s2 = .ok log) := by
    unfold report_constraints
    rw [if_neg (not_not.mpr hlen)]
    by_cases h0 : s1.length = 0
    · rw [if_pos h0]
      refine ⟨?_, fun _ => ⟨[], rfl⟩⟩
      rintro ⟨i, h1, _⟩
      have := (List.getElem?_eq_some_iff.mp h1).1
      omega
    · rw [if_neg h0]
      obtain ⟨k1, k2⟩ := report_constraints_loop_spec s1 s2 hlen (List.range s1.length) []
        (fun i hi => List.mem_range.mp hi)
      constructor
      · intro hw
        obtain ⟨msg, hm⟩ := k1 (hmem.mp hw)
        exact ⟨msg, by rw [hm]; rfl⟩
      · intro hw
        obtain ⟨log, hm⟩ := k2 (fun h => hw (hmem.mpr h))
        exact ⟨_, by rw [hm]; rfl⟩
  refine ⟨⟨?_, key.1⟩, ⟨?_, key.2⟩, ?_⟩
  · rintro ⟨msg, hm⟩
    by_contra hw
    obtain ⟨log, hl⟩ := key.2 hw
    rw [hl] at hm
    exact Except.noConfusion hm
  · rintro ⟨log, hl⟩ hw
    obtain ⟨msg, hm⟩ := key.1 hw
    rw [hl] at hm
    exact Except.noConfusion hm
  · intro h
    subst h
    have : s2 = [] := List.length_eq_zero.mp hlen.symm
    subst this
    rfl

/-- Three constraints, the second of which goes from satisfied to unsatisfied: the call
throws. -/
theorem C19_report_constraints_throws_iff_witness :
    ([true, true, false] : List Bool).length = ([true, false, true] : List Bool).length ∧
    went_unsatisfied [true, true, false] [true, false, true] ∧
    ∃ msg, report_constraints [true, true, false] [true, false, true]
      = .error (.exception msg) :=
  ⟨rfl, ⟨1, rfl, rfl⟩,
   (C19_report_constraints_throws_iff [true, true, false] [true, false, true] rfl).1.mpr
     ⟨1, rfl, rfl⟩⟩

/-! ## C20: `compute_mapping` -/

theorem compute_mapping_target_spec {T : Type} [DecidableEq T] (x : T) :
    ∀ (l : List T) (j : Nat),
      (compute_mapping_target x l j = -1 ∧ x ∉ l) ∨
      ∃ k : Nat, compute_mapping_target x l j = ((j + k : Nat) : Int) ∧ l[k]? = some x ∧
        ∀ k' : Nat, k' < k → l[k']? ≠ some x := by
  intro l
  induction l with
  | nil => intro j; exact Or.inl ⟨rfl, List.not_mem_nil x⟩
  | cons y rest ih =>
    intro j
    unfold compute_mapping_target
    by_cases hxy : x = y
    · rw [if_pos hxy]
      exact Or.inr ⟨0, rfl, by simp [hxy], fun k' hk' => absurd hk' (Nat.not_lt_zero k')⟩
    · rw [if_neg hxy]
      rcases ih (j + 1) with ⟨h1, h2⟩ | ⟨k, h1, h2, h3⟩
      · exact Or.inl ⟨h1, by simp [hxy, h2]⟩
      · refine Or.inr ⟨k + 1, ?_, by simpa using h2, ?_⟩
        · rw [h1]; congr 1; omega
        · intro k' hk'
          cases k' with
          | zero =>
            simp only [List.getElem?_cons_zero, ne_eq, Option.some.injEq]
            exact fun h => hxy h.symm
          | succ k' =>
            simp only [List.getElem?_cons_succ]
            exact h3 k' (by omega)

theorem compute_mapping_loop_ok {T : Type} [DecidableEq T] (v2 : List T) :
    ∀ (v1 : List T) (m : List Int), compute_mapping_loop v2 v1 = .ok m →
      m.length = v1.length ∧
      ∀ (i : Nat) (x : T), v1[i]? = some x →
        ∃ j : Nat, m[i]? = some (j : Int) ∧ v2[j]? = some x ∧
          ∀ j' : Nat, j' < j → v2[j']? ≠ some x := by
  intro v1
  induction v1 with
  | nil =>
    intro m h
    simp only [compute_mapping_loop, Except.ok.injEq] at h
    subst h
    simp
  | cons x rest ih =>
    intro m h
    unfold compute_mapping_loop at h
    by_cases ht : compute_mapping_target x v2 0 = -1
    · rw [if_pos ht] at h
      exact Except.noConfusion h
    · rw [if_neg ht] at h
      obtain ⟨m', hm', h⟩ := (bind_eq_ok _ _ _).mp h
      rw [pure_eq_ok] at h
      subst h
      obtain ⟨hlen, hi⟩ := ih m' hm'
      refine ⟨by simp [hlen], ?_⟩
      intro i y hy
      cases i with
      | zero =>
        simp only [List.getElem?_cons_zero, Option.some.injEq] at hy
        subst hy
        rcases compute_mapping_target_spec x v2 0 with ⟨h1, _⟩ | ⟨k, h1, h2, h3⟩
        · exact absurd h1 ht
        · refine ⟨k, ?_, h2, h3⟩
          rw [List.getElem?_cons_zero, h1, Nat.zero_add]
      | succ i =>
        simp only [List.getElem?_cons_succ] at hy ⊢
        exact hi i y hy

theorem compute_mapping_loop_returns {T : Type} [DecidableEq T] (v2 : List T) :
    ∀ v1 : List T, (∃ m, compute_mapping_loop v2 v1 = .ok m) ↔ ∀ x ∈ v1, x ∈ v2 := by
  intro v1
  induction v1 with
  | nil => simp [compute_mapping_loop]
  | cons x rest ih =>
    unfold compute_mapping_loop
    rcases compute_mapping_target_spec x v2 0 with ⟨h1, h2⟩ | ⟨k, h1, h2, _⟩
    · rw [if_pos h1]
      constructor
      · rintro ⟨m, hm⟩
        exact Except.noConfusion hm
      · intro h
        exact absurd (h x (List.mem_cons_self x rest)) h2
    · have ht : compute_mapping_target x v2 0 ≠ -1 := by rw [h1]; omega
      have hx : x ∈ v2 := List.getElem?_mem h2
      rw [if_neg ht]
      constructor
      · rintro ⟨m, hm⟩
        obtain ⟨m', hm', _⟩ := (bind_eq_ok _ _ _).mp hm
        intro y hy
        rcases List.mem_cons.mp hy with rfl | hy'
        · exact hx
        · exact ih.mp ⟨m', hm'⟩ y hy'
      · intro h
        obtain ⟨m', hm'⟩ := ih.mpr (fun y hy => h y (List.mem_cons_of_mem x hy))
        exact ⟨_, by rw [hm']; rfl⟩

theorem compute_mapping_eq_ok {T : Type} [DecidableEq T] (v1 v2 : List T) (m : List Int) :
    compute_mapping v1 v2 = .ok m ↔
      compute_mapping_loop v2 v1 = .ok m ∧
      (v1.length < v2.length → ∃ m', compute_mapping_loop v1 v2 = .ok m') := by
  rw [compute_mapping]
  cases h1 : compute_mapping_loop v2 v1 with
  | error b => simp
  | ok mapping =>
    simp only
    by_cases hlt : v1.length < v2.length
    · rw [if_pos hlt, compute_mapping]
      cases h2 : compute_mapping_loop v1 v2 with
      | error b => simp [hlt]
      | ok mapping2 =>
        simp only
        rw [if_neg (by omega)]
        simp [hlt]
    · rw [if_neg hlt]
      simp [hlt]

/-- C20. Whenever `compute_mapping(v1,v2)` returns, the result has length `|v1|` and for
every `i`, `mapping[i]` is the smallest index `j` with `v2[j] = v1[i]` (so
`0 <= mapping[i] < |v2|` and `v2[mapping[i]] = v1[i]`).  It returns exactly when every
element of `v1` occurs in `v2` and, if `v1` is the shorter vector, every element of `v2`
occurs in `v1`. -/
theorem C20_compute_mapping_smallest_index {T : Type} [DecidableEq T] (v1 v2 : List T) :
    (∀ mapping : List Int, compute_mapping v1 v2 = .ok mapping →
      mapping.length = v1.length ∧
      ∀ (i : Nat) (x : T), v1[i]? = some x →
        ∃ j : Nat, mapping[i]? = some (j : Int) ∧ j < v2.length ∧ v2[j]? = some x ∧
          ∀ j' : Nat, j' < j → v2[j']? ≠ some x) ∧
    ((∃ mapping, compute_mapping v1 v2 = .ok mapping) ↔
      (∀ x ∈ v1, x ∈ v2) ∧ (v1.length < v2.length → ∀ y ∈ v2, y ∈ v1)) := by
  constructor
  · intro mapping h
    obtain ⟨hlen, hi⟩ := compute_mapping_loop_ok v2 v1 mapping
      ((compute_mapping_eq_ok v1 v2 mapping).mp h).1
    refine ⟨hlen, fun i x hx => ?_⟩
    obtain ⟨j, h1, h2, h3⟩ := hi i x hx
    exact ⟨j, h1, (List.getElem?_eq_some_iff.mp h2).1, h2, h3⟩
  · constructor
    · rintro ⟨mapping, h⟩
      obtain ⟨h1, h2⟩ := (compute_mapping_eq_ok v1 v2 mapping).mp h
      exact ⟨(compute_mapping_loop_returns v2 v1).mp ⟨mapping, h1⟩,
        fun hlt => (compute_mapping_loop_returns v1 v2).mp (h2 hlt)⟩
    · rintro ⟨h1, h2⟩
      obtain ⟨mapping, hm⟩ := (compute_mapping_loop_returns v2 v1).mpr h1
      exact ⟨mapping, (compute_mapping_eq_ok v1 v2 mapping).mpr
        ⟨hm, fun hlt => (compute_mapping_loop_returns v1 v2).mpr (h2 hlt)⟩⟩

/-- The names `a, b` mapped into `b, a`: the call returns the mapping `1, 0`. -/
theorem C20_compute_mapping_smallest_index_witness :
    compute_mapping ["a", "b"] ["b", "a"] = .ok [1, 0] ∧
    ([1, 0] : List Int).length = ["a", "b"].length ∧
    ∀ (i : Nat) (x : String), ["a", "b"][i]? = some x →
      ∃ j : Nat, ([1, 0] : List Int)[i]? = some (j : Int) ∧ j < ["b", "a"].length ∧
        ["b", "a"][j]? = some x ∧ ∀ j' : Nat, j' < j → ["b", "a"][j']? ≠ some x :=
  have h : compute_mapping ["a", "b"] ["b", "a"] = .ok [1, 0] := by
    rw [compute_mapping]; decide
  ⟨h, (C20_compute_mapping_smallest_index ["a", "b"] ["b", "a"]).1 [1, 0] h⟩

/-! ## C16: `constraint_columns` and `constraint_satisfied` -/

theorem residue_column_eq_ok (ci : List (List Int)) (j : Nat) (r c : Int) :
    residue_column ci j r = .ok c ↔
      ∃ residues, vget ci (j : Int) = .ok residues ∧ vget residues r = .ok c := by
  unfold residue_column
  exact bind_eq_ok _ _ _

theorem constraint_columns_row_spec (ci : List (List Int)) (constraint : IntMatrix) (i : Nat) :
    ∀ (js : List Nat) (cur : Int),
      (∀ j ∈ js, constraint.elem i j ≠ -1 →
        ∃ c, residue_column ci j (constraint.elem i j) = .ok c ∧ 0 ≤ c) →
      (cur = -1 ∨ 0 ≤ cur) →
      ∃ v, constraint_columns_row ci constraint i js cur = .ok v ∧ (v = -1 ∨ 0 ≤ v) ∧
        ∀ c, 0 ≤ c →
          (v = c ↔ (cur = c ∨ (cur = -1 ∧ ∃ j ∈ js, constraint.elem i j ≠ -1)) ∧
            ∀ j ∈ js, constraint.elem i j ≠ -1 →
              residue_column ci j (constraint.elem i j) = .ok c) := by
  intro js
  induction js with
  | nil =>
    intro cur _ hcur
    refine ⟨cur, rfl, hcur, fun c hc => ?_⟩
    constructor
    · intro h
      exact ⟨Or.inl h, fun j hj => absurd hj (List.not_mem_nil j)⟩
    · rintro ⟨h | ⟨_, j, hj, _⟩, _⟩
      · exact h
      · exact absurd hj (List.not_mem_nil j)
  | cons j rest ih =>
    intro cur hvalid hcur
    have hrest : ∀ j' ∈ rest, constraint.elem i j' ≠ -1 →
        ∃ c, residue_column ci j' (constraint.elem i j') = .ok c ∧ 0 ≤ c :=
      fun j' hj' => hvalid j' (List.mem_cons_of_mem j hj')
    unfold constraint_columns_row
    by_cases hcon : constraint.elem i j = -1
    · have hb : ¬ ((constraint.elem i j != -1) = true) := by simp [hcon]
      rw [if_neg hb]
      obtain ⟨v, hv, hv0, hvc⟩ := ih cur hrest hcur
      refine ⟨v, hv, hv0, fun c hc => ?_⟩
      rw [hvc c hc]
      constructor
      · rintro ⟨h1, h2⟩
        refine ⟨?_, ?_⟩
        · rcases h1 with h1 | ⟨h1, j', hj', hne⟩
          · exact Or.inl h1
          · exact Or.inr ⟨h1, j', List.mem_cons_of_mem j hj', hne⟩
        · intro j' hj' hne
          rcases List.mem_cons.mp hj' with rfl | hj''
          · exact absurd hcon hne
          · exact h2 j' hj'' hne
      · rintro ⟨h1, h2⟩
        refine ⟨?_, fun j' hj' hne => h2 j' (List.mem_cons_of_mem j hj') hne⟩
        rcases h1 with h1 | ⟨h1, j', hj', hne⟩
        · exact Or.inl h1
        · rcases List.mem_cons.mp hj' with rfl | hj''
          · exact absurd hcon hne
          · exact Or.inr ⟨h1, j', hj'', hne⟩
    · have hb : (constraint.elem i j != -1) = true := by simpa using hcon
      rw [if_pos hb]
      obtain ⟨cj, hcj, hcj0⟩ := hvalid j (List.mem_cons_self j rest) hcon
      obtain ⟨residues, hres, hcol⟩ := (residue_column_eq_ok _ _ _ _).mp hcj
      rw [hres]
      simp only [bind, Except.bind]
      rw [hcol]
      simp only
      by_cases hc1 : cur = -1
      · rw [if_pos hc1]
        obtain ⟨v, hv, hv0, hvc⟩ := ih cj hrest (Or.inr hcj0)
        refine ⟨v, hv, hv0, fun c hc => ?_⟩
        rw [hvc c hc]
        constructor
        · rintro ⟨h1, h2⟩
          have hcc : cj = c := by
            rcases h1 with h1 | ⟨h1, _⟩
            · exact h1
            · omega
          refine ⟨Or.inr ⟨hc1, j, List.mem_cons_self j rest, hcon⟩, ?_⟩
          intro j' hj' hne
          rcases List.mem_cons.mp hj' with rfl | hj''
          · rw [hcj, hcc]
          · exact h2 j' hj'' hne
        · rintro ⟨_, h2⟩
          have hcc : cj = c := by
            have := h2 j (List.mem_cons_self j rest) hcon
            rw [hcj] at this
            exact Except.ok.inj this
          exact ⟨Or.inl hcc, fun j' hj' hne => h2 j' (List.mem_cons_of_mem j hj') hne⟩
      · rw [if_neg hc1]
        have hcur0 : 0 ≤ cur := by rcases hcur with h | h; exact absurd h hc1; exact h
        by_cases hc2 : cur ≠ cj
        · rw [if_pos hc2]
          refine ⟨-1, rfl, Or.inl rfl, fun c hc => ?_⟩
          constructor
          · intro h; omega
          · rintro ⟨h1, h2⟩
            exfalso
            have hcc : cj = c := by
              have := h2 j (List.mem_cons_self j rest) hcon
              rw [hcj] at this
              exact Except.ok.inj this
            rcases h1 with h1 | ⟨h1, _⟩
            · exact hc2 (by rw [h1, hcc])
            · exact hc1 h1
        · rw [if_neg hc2]
          have hcc : cur = cj := not_not.mp hc2
          obtain ⟨v, hv, hv0, hvc⟩ := ih cur hrest hcur
          refine ⟨v, hv, hv0, fun c hc => ?_⟩
          rw [hvc c hc]
          constructor
          · rintro ⟨h1, h2⟩
            have hc' : cur = c := by
              rcases h1 with h1 | ⟨h1, _⟩
              · exact h1
              · exact absurd h1 hc1
            refine ⟨Or.inl hc', ?_⟩
            intro j' hj' hne
            rcases List.mem_cons.mp hj' with rfl | hj''
            · rw [hcj, ← hcc, hc']
            · exact h2 j' hj'' hne
          · rintro ⟨h1, h2⟩
            refine ⟨?_, fun j' hj' hne => h2 j' (List.mem_cons_of_mem j hj') hne⟩
            rcases h1 with h1 | ⟨h1, _⟩
            · exact Or.inl h1
            · exact absurd h1 hc1

theorem constraint_columns_row_full (ci : List (List Int)) (constraint : IntMatrix) (i : Nat)
    (hi : i < constraint.size1) (hvalid : residues_exist ci constraint) :
    ∃ v, constraint_columns_row ci constraint i (List.range constraint.size2) (-1) = .ok v ∧
      (v = -1 ∨ 0 ≤ v) ∧ ∀ c, 0 ≤ c → (v = c ↔ all_in_column ci constraint i c) := by
  obtain ⟨v, hv, hv0, hvc⟩ := constraint_columns_row_spec ci constraint i
    (List.range constraint.size2) (-1)
    (fun j hj hne => hvalid i j hi (List.mem_range.mp hj) hne) (Or.inl rfl)
  refine ⟨v, hv, hv0, fun c hc => ?_⟩
  rw [hvc c hc]
  unfold all_in_column
  constructor
  · rintro ⟨h1, h2⟩
    refine ⟨?_, fun j hj hne => h2 j (List.mem_range.mpr hj) hne⟩
    rcases h1 with h1 | ⟨_, j, hj, hne⟩
    · omega
    · exact ⟨j, List.mem_range.mp hj, hne⟩
  · rintro ⟨⟨j, hj, hne⟩, h2⟩
    exact ⟨Or.inr ⟨rfl, j, List.mem_range.mpr hj, hne⟩,
      fun j' hj' hne' => h2 j' (List.mem_range.mp hj') hne'⟩

theorem constraint_columns_rows_spec (ci : List (List Int)) (constraint : IntMatrix)
    (hvalid : residues_exist ci constraint) :
    ∀ rows : List Nat, (∀ i ∈ rows, i < constraint.size1) →
      ∃ cols, constraint_columns_rows ci constraint rows = .ok cols ∧
        cols.length = rows.length ∧
        ∀ (k i : Nat), rows[k]? = some i →
          ∃ v, cols[k]? = some v ∧ (v = -1 ∨ 0 ≤ v) ∧
            ∀ c, 0 ≤ c → (v = c ↔ all_in_column ci constraint i c) := by
  intro rows
  induction rows with
  | nil =>
    intro _
    exact ⟨[], rfl, rfl, fun k i h => by simp at h⟩
  | cons i rest ih =>
    intro hrows
    obtain ⟨v, hv, hv0, hvc⟩ := constraint_columns_row_full ci constraint i
      (hrows i (List.mem_cons_self i rest)) hvalid
    obtain ⟨cols, hcols, hlen, hk⟩ := ih (fun i' hi' => hrows i' (List.mem_cons_of_mem i hi'))
    refine ⟨v :: cols, ?_, by simp [hlen], ?_⟩
    · unfold constraint_columns_rows
      rw [hv]
      simp only [bind, Except.bind]
      rw [hcols]
      rfl
    · intro k i' hk'
      cases k with
      | zero =>
        simp only [List.getElem?_cons_zero, Option.some.injEq] at hk'
        subst hk'
        exact ⟨v, by simp, hv0, hvc⟩
      | succ k =>
        simp only [List.getElem?_cons_succ] at hk' ⊢
        exact hk k i' hk'

/-- C16. When every constrained residue is a residue of its sequence, `constraint_columns`
returns one value per constraint row and `constraint_satisfied` one bit per row; for every
row `i` the value is a column `c >= 0` exactly when row `i` has at least one constrained
residue and all its constrained residues lie in alignment column `c`, it is `-1`
otherwise, and bit `i` of `constraint_satisfied` is set exactly when the value is not
`-1`. -/
theorem C16_constraint_columns_satisfied (column_lookup : alignment → List (List Int))
    (constraint : IntMatrix) (A : alignment)
    (hvalid : residues_exist (column_lookup A) constraint) :
    ∃ (columns : List Int) (satisfied : List Bool),
      constraint_columns column_lookup constraint A = .ok columns ∧
      constraint_satisfied column_lookup constraint A = .ok satisfied ∧
      columns.length = constraint.size1 ∧ satisfied.length = constraint.size1 ∧
      ∀ i, i < constraint.size1 →
        ∃ (v : Int) (bit : Bool), columns[i]? = some v ∧ satisfied[i]? = some bit ∧
          (∀ c, 0 ≤ c → (v = c ↔ all_in_column (column_lookup A) constraint i c)) ∧
          ((¬ ∃ c, 0 ≤ c ∧ all_in_column (column_lookup A) constraint i c) → v = -1) ∧
          (bit = true ↔ v ≠ -1) := by
  obtain ⟨cols, hcols, hlen, hk⟩ := constraint_columns_rows_spec (column_lookup A) constraint
    hvalid (List.range constraint.size1) (fun i hi => List.mem_range.mp hi)
  rw [List.length_range] at hlen
  refine ⟨cols, cols.map (fun c => c != -1), hcols, ?_, hlen, by simp [hlen], ?_⟩
  · unfold constraint_satisfied constraint_columns
    rw [hcols]
    rfl
  · intro i hi
    obtain ⟨v, hv, hv0, hvc⟩ := hk i i (by simp [List.getElem?_range hi])
    refine ⟨v, v != -1, hv, by simp [hv], hvc, ?_, by simp⟩
    intro hno
    rcases hv0 with h | h
    · exact h
    · exact absurd ⟨v, h, (hvc v h).mp rfl⟩ hno

/-- Three constraints on two sequences aligned residue by residue: every constraint is
satisfied, constraint `i` in column `i`. -/
theorem C16_constraint_columns_satisfied_witness :
    residues_exist (run3_column_lookup run3_A) run3_constraint ∧
    constraint_columns run3_column_lookup run3_constraint run3_A = .ok [0, 1, 2] ∧
    constraint_satisfied run3_column_lookup run3_constraint run3_A = .ok [true, true, true] ∧
    ∃ (columns : List Int) (satisfied : List Bool),
      constraint_columns run3_column_lookup run3_constraint run3_A = .ok columns ∧
      constraint_satisfied run3_column_lookup run3_constraint run3_A = .ok satisfied ∧
      columns.length = run3_constraint.size1 ∧ satisfied.length = run3_constraint.size1 ∧
      ∀ i, i < run3_constraint.size1 →
        ∃ (v : Int) (bit : Bool), columns[i]? = some v ∧ satisfied[i]? = some bit ∧
          (∀ c, 0 ≤ c →
            (v = c ↔ all_in_column (run3_column_lookup run3_A) run3_constraint i c)) ∧
          ((¬ ∃ c, 0 ≤ c ∧ all_in_column (run3_column_lookup run3_A) run3_constraint i c) →
            v = -1) ∧
          (bit = true ↔ v ≠ -1) :=
  have h : residues_exist (run3_column_lookup run3_A) run3_constraint := by
    intro i j hi hj _
    have hi3 : i < 3 := hi
    have hj2 : j < 2 := hj
    refine ⟨(i : Int), ?_, by omega⟩
    interval_cases i <;> interval_cases j <;> decide
  ⟨h, by decide, by decide,
   C16_constraint_columns_satisfied run3_column_lookup run3_constraint run3_A h⟩

/-! ## C17: the constraints that `get_pins` enforces -/

theorem constrained_loop_spec (group : List Bool) (constraint : IntMatrix) (c : Nat) :
    ∀ (js : List Nat) (present r : Bool),
      constrained_loop group constraint c js present = .ok r →
      (r = true ↔ present = true ∨
        ∃ j ∈ js, group[j]? = some true ∧ constraint.elem c j ≠ -1) := by
  intro js
  induction js with
  | nil =>
    intro present r h
    simp only [constrained_loop, Except.ok.injEq] at h
    subst h
    simp
  | cons j rest ih =>
    intro present r h
    unfold constrained_loop at h
    obtain ⟨g, hg, h⟩ := (bind_eq_ok _ _ _).mp h
    have hgj : group[j]? = some g := by
      have := ((vget_eq_ok _ _ _).mp hg).2
      simpa using this
    rw [ih _ _ h]
    by_cases hc : (g && constraint.elem c j != -1) = true
    · rw [if_pos hc]
      simp only [Bool.and_eq_true, bne_iff_ne, ne_eq] at hc
      have hex : ∃ j' ∈ j :: rest, group[j']? = some true ∧ constraint.elem c j' ≠ -1 :=
        ⟨j, List.mem_cons_self j rest, by rw [hgj, hc.1], hc.2⟩
      exact ⟨fun _ => Or.inr hex, fun _ => Or.inl rfl⟩
    · rw [if_neg hc]
      constructor
      · rintro (h1 | ⟨j', hj', h2⟩)
        · exact Or.inl h1
        · exact Or.inr ⟨j', List.mem_cons_of_mem j hj', h2⟩
      · rintro (h1 | ⟨j', hj', h2, h3⟩)
        · exact Or.inl h1
        · rcases List.mem_cons.mp hj' with rfl | hj''
          · exfalso
            apply hc
            rw [hgj] at h2
            simp only [Option.some.injEq] at h2
            simp [h2, h3]
          · exact Or.inr ⟨j', hj'', h2, h3⟩

theorem constrained_eq_ok (group : List Bool) (constraint : IntMatrix) (i : Nat) (r : Bool)
    (h : constrained group constraint i = .ok r) :
    r = true ↔ has_residue_in group constraint i := by
  unfold constrained at h
  rw [constrained_loop_spec group constraint i _ _ _ h]
  unfold has_residue_in
  constructor
  · rintro (h1 | ⟨j, hj, h2⟩)
    · exact absurd h1 (by decide)
    · exact ⟨j, List.mem_range.mp hj, h2⟩
  · rintro ⟨j, hj, h2⟩
    exact Or.inr ⟨j, List.mem_range.mpr hj, h2⟩

/-- An entry other than `-1` of the list that `get_pins` enforces is the column of a row
with constrained residues in both groups. -/
theorem get_pins_satisfied_entry (cl : alignment → List (List Int)) (constraint : IntMatrix)
    (A : alignment) (group1 group2 : List Bool) (sat : List Int)
    (hs : get_pins_satisfied cl constraint A group1 group2 = .ok sat) :
    ∃ columns, constraint_columns cl constraint A = .ok columns ∧
      sat.length = columns.length ∧
      (∀ (i : Nat) (column : Int), sat[i]? = some column → column ≠ -1 →
        enforced_row columns constraint group1 group2 i column) ∧
      (∀ i : Nat, i < sat.length →
        ¬ has_residue_in group1 constraint i ∨ ¬ has_residue_in group2 constraint i →
        sat[i]? = some (-1)) := by
  unfold get_pins_satisfied at hs
  obtain ⟨columns, hc, hf⟩ := (bind_eq_ok _ _ _).mp hs
  obtain ⟨hlen, hk⟩ := get_pins_filter_ok _ _ _ _ _ _ hf
  refine ⟨columns, hc, hlen, ?_, ?_⟩
  · intro i column hi hne
    obtain ⟨c, both, h1, h2, h3⟩ := hk i column hi
    have hb : both = true := by
      by_contra hb
      simp only [hb] at h3
      exact hne (by simpa using h3)
    subst hb
    simp only [if_true] at h3
    subst h3
    rw [Nat.zero_add] at h2
    obtain ⟨g1, g2⟩ := (constrained_both_eq_true _ _ _ _).mp h2
    exact ⟨h1, hne, (constrained_eq_ok _ _ _ _ g1).mp rfl, (constrained_eq_ok _ _ _ _ g2).mp rfl⟩
  · intro i hi hno
    obtain ⟨c, both, h1, h2, h3⟩ := hk i sat[i] (List.getElem?_eq_getElem hi)
    rw [List.getElem?_eq_getElem hi, h3]
    have hb : both = false := by
      cases both with
      | false => rfl
      | true =>
        rw [Nat.zero_add] at h2
        obtain ⟨g1, g2⟩ := (constrained_both_eq_true _ _ _ _).mp h2
        rcases hno with hno | hno
        · exact absurd ((constrained_eq_ok _ _ _ _ g1).mp rfl) hno
        · exact absurd ((constrained_eq_ok _ _ _ _ g2).mp rfl) hno
    simp [hb]

theorem constrained_loop_congr (group : List Bool) (c c' : IntMatrix) (i : Nat)
    (h : ∀ j, c'.elem i j = c.elem i j) :
    ∀ (js : List Nat) (present : Bool),
      constrained_loop group c' i js present = constrained_loop group c i js present := by
  intro js
  induction js with
  | nil => intro present; rfl
  | cons j rest ih =>
    intro present
    unfold constrained_loop
    simp only [h j, ih]

theorem constrained_loop_blank (group : List Bool) (c : IntMatrix) (i : Nat) :
    ∀ (js : List Nat) (present present0 r : Bool),
      constrained_loop group c i js present0 = .ok r →
      constrained_loop group (blank_row c i) i js present = .ok present := by
  intro js
  induction js with
  | nil => intro present _ r _; rfl
  | cons j rest ih =>
    intro present present0 r h
    unfold constrained_loop at h ⊢
    obtain ⟨g, hg, h⟩ := (bind_eq_ok _ _ _).mp h
    rw [hg]
    simp only [bind, Except.bind]
    have hb : ¬ ((g && (blank_row c i).elem i j != -1) = true) := by
      simp [blank_row]
    rw [if_neg hb]
    exact ih _ _ _ h

theorem constrained_both_blank_other (c : IntMatrix) (group1 group2 : List Bool) (i k : Nat)
    (hk : k ≠ i) :
    constrained_both (blank_row c i) group1 group2 k = constrained_both c group1 group2 k := by
  have h : ∀ j, (blank_row c i).elem k j = c.elem k j := by
    intro j; simp [blank_row, hk]
  unfold constrained_both constrained
  rw [constrained_loop_congr group1 c (blank_row c i) k h,
    constrained_loop_congr group2 c (blank_row c i) k h]
  rfl

theorem constrained_both_blank_self (c : IntMatrix) (group1 group2 : List Bool) (i : Nat)
    (both : Bool) (h : constrained_both c group1 group2 i = .ok both) :
    constrained_both (blank_row c i) group1 group2 i = .ok false := by
  unfold constrained_both at h ⊢
  obtain ⟨c1, h1, _⟩ := (bind_eq_ok _ _ _).mp h
  have hb : constrained group1 (blank_row c i) i = .ok false :=
    constrained_loop_blank group1 c i _ _ _ _ h1
  rw [hb]
  rfl

theorem get_pins_filter_blank (c : IntMatrix) (group1 group2 : List Bool) (i : Nat)
    (hrow : ¬ has_residue_in group1 c i ∨ ¬ has_residue_in group2 c i) :
    ∀ (l l' : List Int) (k : Nat) (sat : List Int), l.length = l'.length →
      (∀ p, k + p ≠ i → l[p]? = l'[p]?) →
      get_pins_filter c group1 group2 l k = .ok sat →
      get_pins_filter (blank_row c i) group1 group2 l' k = .ok sat := by
  intro l
  induction l with
  | nil =>
    intro l' k sat hlen _ h
    have : l' = [] := List.length_eq_zero.mp hlen.symm
    subst this
    simpa [get_pins_filter] using h
  | cons s rest ih =>
    intro l' k sat hlen hagree h
    cases l' with
    | nil => simp at hlen
    | cons s' rest' =>
      unfold get_pins_filter at h ⊢
      obtain ⟨both, hb, h⟩ := (bind_eq_ok _ _ _).mp h
      obtain ⟨r, hr, h⟩ := (bind_eq_ok _ _ _).mp h
      have hrest := ih rest' (k + 1) r (by simpa using hlen)
        (fun p hp => by
          have := hagree (p + 1) (by omega)
          simpa using this) hr
      rw [pure_eq_ok] at h
      by_cases hki : k = i
      · subst hki
        have hbf : both = false := by
          cases both with
          | false => rfl
          | true =>
            obtain ⟨g1, g2⟩ := (constrained_both_eq_true _ _ _ _).mp hb
            rcases hrow with hno | hno
            · exact absurd ((constrained_eq_ok _ _ _ _ g1).mp rfl) hno
            · exact absurd ((constrained_eq_ok _ _ _ _ g2).mp rfl) hno
        subst hbf
        rw [constrained_both_blank_self c group1 group2 k false hb]
        simp only [bind, Except.bind]
        rw [hrest]
        simp only [pure, Except.pure]
        rw [← h]
        rfl
      · rw [constrained_both_blank_other c group1 group2 i k hki, hb]
        simp only [bind, Except.bind]
        rw [hrest]
        simp only [pure, Except.pure]
        have hs : s = s' := by
          have := hagree 0 (by omega)
          simpa using this
        rw [← h, hs]

theorem constraint_columns_row_congr (ci : List (List Int)) (c c' : IntMatrix) (i : Nat)
    (h : ∀ j, c'.elem i j = c.elem i j) :
    ∀ (js : List Nat) (cur : Int),
      constraint_columns_row ci c' i js cur = constraint_columns_row ci c i js cur := by
  intro js
  induction js with
  | nil => intro cur; rfl
  | cons j rest ih =>
    intro cur
    unfold constraint_columns_row
    simp only [h j, ih]

theorem constraint_columns_row_blank (ci : List (List Int)) (c : IntMatrix) (i : Nat) :
    ∀ (js : List Nat) (cur : Int),
      constraint_columns_row ci (blank_row c i) i js cur = .ok cur := by
  intro js
  induction js with
  | nil => intro cur; rfl
  | cons j rest ih =>
    intro cur
    unfold constraint_columns_row
    have hb : ¬ (((blank_row c i).elem i j != -1) = true) := by simp [blank_row]
    rw [if_neg hb]
    exact ih cur

theorem constraint_columns_rows_length (ci : List (List Int)) (c : IntMatrix) :
    ∀ (rows : List Nat) (cols : List Int), constraint_columns_rows ci c rows = .ok cols →
      cols.length = rows.length := by
  intro rows
  induction rows with
  | nil =>
    intro cols h
    simp only [constraint_columns_rows, Except.ok.injEq] at h
    subst h
    rfl
  | cons r rest ih =>
    intro cols h
    unfold constraint_columns_rows at h
    obtain ⟨v, _, h⟩ := (bind_eq_ok _ _ _).mp h
    obtain ⟨cs, hcs, h⟩ := (bind_eq_ok _ _ _).mp h
    rw [pure_eq_ok] at h
    subst h
    simp [ih cs hcs]

theorem constraint_columns_rows_blank (ci : List (List Int)) (c : IntMatrix) (i : Nat) :
    ∀ (rows : List Nat) (cols : List Int), constraint_columns_rows ci c rows = .ok cols →
      ∃ cols' : List Int, constraint_columns_rows ci (blank_row c i) rows = .ok cols' ∧
        cols.length = cols'.length ∧
        ∀ p : Nat, rows[p]? ≠ some i → cols[p]? = cols'[p]? := by
  intro rows
  induction rows with
  | nil =>
    intro cols h
    simp only [constraint_columns_rows, Except.ok.injEq] at h
    subst h
    exact ⟨[], rfl, rfl, fun _ _ => rfl⟩
  | cons r rest ih =>
    intro cols h
    unfold constraint_columns_rows at h ⊢
    obtain ⟨v, hv, h⟩ := (bind_eq_ok _ _ _).mp h
    obtain ⟨cs, hcs, h⟩ := (bind_eq_ok _ _ _).mp h
    rw [pure_eq_ok] at h
    subst h
    obtain ⟨cs', hcs', hlen, hp⟩ := ih cs hcs
    by_cases hri : r = i
    · subst hri
      rw [show (blank_row c r).size2 = c.size2 from rfl, constraint_columns_row_blank]
      simp only [bind, Except.bind]
      rw [hcs']
      refine ⟨-1 :: cs', rfl, by simp [hlen], ?_⟩
      intro p hne
      cases p with
      | zero => simp at hne
      | succ p =>
        simp only [List.getElem?_cons_succ] at hne ⊢
        exact hp p hne
    · have hcongr : ∀ j, (blank_row c i).elem r j = c.elem r j := by
        intro j; simp [blank_row, hri]
      rw [show (blank_row c i).size2 = c.size2 from rfl,
        constraint_columns_row_congr ci c (blank_row c i) r hcongr, hv]
      simp only [bind, Except.bind]
      rw [hcs']
      refine ⟨v :: cs', rfl, by simp [hlen], ?_⟩
      intro p hne
      cases p with
      | zero => simp
      | succ p =>
        simp only [List.getElem?_cons_succ] at hne ⊢
        exact hp p hne

/-- A row without a constrained residue in one of the groups has no part in what
`get_pins` enforces: blanking the row leaves the enforced list as it is. -/
theorem get_pins_satisfied_blank (cl : alignment → List (List Int)) (c : IntMatrix)
    (A : alignment) (group1 group2 : List Bool) (i : Nat)
    (hrow : ¬ has_residue_in group1 c i ∨ ¬ has_residue_in group2 c i) (sat : List Int)
    (hs : get_pins_satisfied cl c A group1 group2 = .ok sat) :
    get_pins_satisfied cl (blank_row c i) A group1 group2 = .ok sat := by
  unfold get_pins_satisfied constraint_columns at hs ⊢
  obtain ⟨cols, hc, hf⟩ := (bind_eq_ok _ _ _).mp hs
  obtain ⟨cols', hc', hlen, hp⟩ := constraint_columns_rows_blank (cl A) c i _ cols hc
  rw [show (blank_row c i).size1 = c.size1 from rfl, hc']
  simp only [bind, Except.bind]
  refine get_pins_filter_blank c group1 group2 i hrow cols cols' 0 sat hlen ?_ hf
  intro p hpi
  rw [Nat.zero_add] at hpi
  by_cases hlt : p < c.size1
  · apply hp
    rw [List.getElem?_range hlt]
    simpa using hpi
  · have h1 : cols.length = c.size1 := by
      rw [constraint_columns_rows_length (cl A) c _ _ hc, List.length_range]
    rw [List.getElem?_eq_none (by omega), List.getElem?_eq_none (by omega)]

theorem no_residue_of_all_in_other (group1 group2 : List Bool) (constraint : IntMatrix)
    (i : Nat) (hdisj : groups_disjoint group1 group2)
    (h : all_residues_in group1 constraint i ∨ all_residues_in group2 constraint i) :
    ¬ has_residue_in group1 constraint i ∨ ¬ has_residue_in group2 constraint i := by
  rcases h with h | h
  · right
    rintro ⟨j, hj, hg, hne⟩
    exact hdisj j ⟨h j hj hne, hg⟩
  · left
    rintro ⟨j, hj, hg, hne⟩
    exact hdisj j ⟨hg, h j hj hne⟩

/-- C17. Every pin `(X[k],Y[k])` returned by `get_pins` names the column of a constraint
row that is satisfied (`constraint_columns` gives it a column other than `-1`) and has at
least one constrained residue in `group1` and at least one in `group2`, and the
infeasible marker is returned only for such a row.  A row without a constrained residue
in `group1`, or without one in `group2` (so, for the disjoint groups of a split, a row
whose constrained residues all lie in `group1`, or all in `group2`) is not enforced: its
entry of the enforced list is `-1`, and the value returned by `get_pins`, pins or marker,
is the one returned when the row constrains nothing. -/
theorem C17_get_pins_rows_in_both_groups (column_lookup : alignment → List (List Int))
    (constraint : IntMatrix) (A : alignment) (group1 group2 : List Bool)
    (seq1 seq2 seq12 : List Int) :
    (∀ X Y : List Int,
      get_pins column_lookup constraint A group1 group2 seq1 seq2 seq12 = .ok [X, Y] →
      ∃ columns, constraint_columns column_lookup constraint A = .ok columns ∧
        List.Forall₂ (fun x y => ∃ (i : Nat) (column : Int),
          enforced_row columns constraint group1 group2 i column ∧
          seq1[(x - 1).toNat]? = some column ∧ seq2[(y - 1).toNat]? = some column) X Y) ∧
    (get_pins column_lookup constraint A group1 group2 seq1 seq2 seq12 = .ok impossible →
      ∃ columns, constraint_columns column_lookup constraint A = .ok columns ∧
        ∃ (i : Nat) (column : Int), enforced_row columns constraint group1 group2 i column ∧
          (column ∉ seq1 ∨ column ∉ seq2)) ∧
    (∀ i : Nat,
      (¬ has_residue_in group1 constraint i ∨ ¬ has_residue_in group2 constraint i) ∨
      (groups_disjoint group1 group2 ∧
        (all_residues_in group1 constraint i ∨ all_residues_in group2 constraint i)) →
      (∀ sat, get_pins_satisfied column_lookup constraint A group1 group2 = .ok sat →
        i < constraint.size1 → sat[i]? = some (-1)) ∧
      (∀ r, get_pins column_lookup constraint A group1 group2 seq1 seq2 seq12 = .ok r →
        get_pins column_lookup (blank_row constraint i) A group1 group2 seq1 seq2 seq12
          = .ok r)) := by
  refine ⟨?_, ?_, ?_⟩
  · intro X Y h
    unfold get_pins at h
    obtain ⟨sat, hs, h⟩ := (bind_eq_ok _ _ _).mp h
    obtain ⟨marked, hm, h⟩ := (bind_eq_ok _ _ _).mp h
    cases marked with
    | none =>
      simp only [pure_eq_ok, impossible] at h
      simp at h
    | some pinned =>
      simp only at h
      have hpin : ∀ (column p : Int), vget pinned column = .ok p → p ≠ 0 →
          column ∈ sat ∧ column ≠ -1 ∧ column ∈ seq1 ∧ column ∈ seq2 := by
        intro column p hp hp0
        rcases get_pins_mark_some _ _ _ _ _ hm column p hp hp0 with h0 | hr
        · exact absurd (vget_replicate_zero _ _ _ h0) hp0
        · exact hr
      obtain ⟨X', Y', hr, hf⟩ := get_pins_collect_ok seq1 seq2 pinned sat seq12 hpin
        seq12 [] [] _ (fun _ hc => hc) List.Forall₂.nil h
      simp only [List.cons.injEq, and_true] at hr
      obtain ⟨rfl, rfl⟩ := hr
      obtain ⟨columns, hc, _, hrow, _⟩ := get_pins_satisfied_entry _ _ _ _ _ _ hs
      refine ⟨columns, hc, hf.imp ?_⟩
      rintro x y ⟨_, _, _, _, column, _, hmem, hne, h1, h2⟩
      obtain ⟨i, hi⟩ := List.getElem?_of_mem hmem
      exact ⟨i, column, hrow i column hi hne, h1, h2⟩
  · intro h
    unfold get_pins at h
    obtain ⟨sat, hs, h⟩ := (bind_eq_ok _ _ _).mp h
    obtain ⟨marked, hm, h⟩ := (bind_eq_ok _ _ _).mp h
    cases marked with
    | some pinned =>
      simp only at h
      obtain ⟨X, Y, hr⟩ := get_pins_collect_shape _ _ _ _ _ _ _ h
      simp [impossible] at hr
    | none =>
      obtain ⟨column, hmem, hne, habs⟩ := get_pins_mark_none _ _ _ _ hm
      obtain ⟨columns, hc, _, hrow, _⟩ := get_pins_satisfied_entry _ _ _ _ _ _ hs
      obtain ⟨i, hi⟩ := List.getElem?_of_mem hmem
      exact ⟨columns, hc, i, column, hrow i column hi hne, habs⟩
  · intro i hi
    have hrow : ¬ has_residue_in group1 constraint i ∨ ¬ has_residue_in group2 constraint i := by
      rcases hi with h | ⟨hdisj, h⟩
      · exact h
      · exact no_residue_of_all_in_other group1 group2 constraint i hdisj h
    constructor
    · intro sat hs hlt
      obtain ⟨columns, hc, hlen, _, hno⟩ := get_pins_satisfied_entry _ _ _ _ _ _ hs
      have hcl : columns.length = constraint.size1 := by
        unfold constraint_columns at hc
        rw [constraint_columns_rows_length _ _ _ _ hc, List.length_range]
      exact hno i (by omega) hrow
    · intro r h
      unfold get_pins at h ⊢
      obtain ⟨sat, hs, h⟩ := (bind_eq_ok _ _ _).mp h
      rw [get_pins_satisfied_blank column_lookup constraint A group1 group2 i hrow sat hs]
      exact h

/-- Three constraints across the two groups, the third with its residue of the second
sequence removed: the rows 0 and 1 make the pins, and row 2, whose constrained residues
all lie in `group1`, has the entry `-1` in the enforced list. -/
theorem C17_get_pins_rows_in_both_groups_witness :
    get_pins run3_column_lookup run3_one_sided
      run3_A [true, false] [false, true] [0, 1, 2] [0, 1, 2] [0, 1, 2]
      = .ok [[1, 2], [1, 2]] ∧
    groups_disjoint [true, false] [false, true] ∧
    all_residues_in [true, false] run3_one_sided 2 ∧
    get_pins run3_column_lookup (blank_row run3_one_sided 2)
      run3_A [true, false] [false, true] [0, 1, 2] [0, 1, 2] [0, 1, 2]
      = .ok [[1, 2], [1, 2]] :=
  have hd : groups_disjoint [true, false] [false, true] := by
    intro j
    match j with
    | 0 => decide
    | 1 => decide
    | (j + 2) => simp
  have ha : all_residues_in [true, false] run3_one_sided 2 := by
    intro j hj hne
    have hj2 : j < 2 := hj
    interval_cases j
    · rfl
    · exact absurd rfl hne
  ⟨by decide, hd, ha,
   ((C17_get_pins_rows_in_both_groups run3_column_lookup run3_one_sided run3_A [true, false]
      [false, true] [0, 1, 2] [0, 1, 2] [0, 1, 2]).2.2 2 (Or.inr ⟨hd, Or.inl ha⟩)).2
      [[1, 2], [1, 2]] (by decide)⟩

/-! ## C18: `load_alignment_constraint` -/

theorem vget_nat_eq_ok {α : Type} (v : List α) (i : Nat) (x : α) :
    vget v (i : Int) = .ok x ↔ v[i]? = some x := by
  rw [vget_eq_ok]
  simp

theorem convertTo_int_eq_ok (read_int : List Char → Option Int) (s : List Char) (t : Int) :
    convertTo_int read_int s = .ok t ↔ read_int s = some t := by
  unfold convertTo_int
  cases h : read_int s with
  | none => simp
  | some v => simp

theorem count_gap_set_le (l : List Int) (m : Int) (x : Int) (h0 : 0 ≤ m)
    (h1 : m < (l.length : Int)) :
    (l.set m.toNat x).count (-1) ≤ l.count (-1) + 1 ∧
    (x ≠ -1 → (l.set m.toNat x).count (-1) ≤ l.count (-1)) := by
  have hlt : m.toNat < l.length := by omega
  have h := count_set l m.toNat l[m.toNat] x (-1) (List.getElem?_eq_getElem hlt)
  constructor
  · split_ifs at h <;> omega
  · intro hx
    have hx2 : ¬ (-1 = x) := fun h => hx h.symm
    rw [if_neg hx2] at h
    split_ifs at h <;> omega

theorem mem_set_cases (l : List Int) (i : Nat) (x y : Int) (h : y ∈ l.set i x) :
    y ∈ l ∨ y = x := by
  rcases List.mem_or_eq_of_mem_set h with h | h
  · exact Or.inl h
  · exact Or.inr h

theorem parse_entries_ok (read_int : List Char → Option Int) (names : List (List Char))
    (mapping : List Int) (line_no : Int) :
    ∀ (es : List (List Char)) (i : Nat) (c : List Int) (n : Int) (c2 : List Int) (n2 : Int),
      parse_entries read_int names mapping line_no es i c n = .ok (c2, n2) →
      c2.length = c.length ∧
      n2 = n + (es.countP (fun e => e != ['-']) : Nat) ∧
      (∀ e ∈ es, ∃ v, entry_value read_int e = some v) ∧
      ((∀ x ∈ c, x = -1 ∨ 0 ≤ x) → ∀ x ∈ c2, x = -1 ∨ 0 ≤ x) ∧
      c2.count (-1) ≤ c.count (-1) + es.count ['-'] ∧
      (∀ (k : Nat) (e : List Char) (m : Int), es[k]? = some e → mapping[i + k]? = some m →
        (∀ k2, k < k2 → k2 < es.length → mapping[i + k2]? ≠ some m) →
        ∃ v, entry_value read_int e = some v ∧ vget c2 m = .ok v) ∧
      (∀ p : Int, (∀ k, k < es.length → mapping[i + k]? ≠ some p) →
        vget c2 p = vget c p) := by
  intro es
  induction es with
  | nil =>
    intro i c n c2 n2 h
    simp only [parse_entries, Except.ok.injEq, Prod.mk.injEq] at h
    obtain ⟨rfl, rfl⟩ := h
    refine ⟨rfl, by simp, by simp, fun h => h, by simp, ?_, fun _ _ => rfl⟩
    intro k e m hk
    simp at hk
  | cons e rest ih =>
    intro i c n c2 n2 h
    unfold parse_entries at h
    have step : ∀ (x : Int) (m : Int) (c1 : List Int) (n1 : Int),
        entry_value read_int e = some x → (x = -1 ∨ 0 ≤ x) →
        vget mapping (i : Int) = .ok m → vset c m x = .ok c1 →
        n1 = n + ((if (e != ['-']) = true then 1 else 0 : Nat) : Int) →
        (c1.count (-1) ≤ c.count (-1) + (if e = ['-'] then 1 else 0)) →
        parse_entries read_int names mapping line_no rest (i + 1) c1 n1 = .ok (c2, n2) →
        c2.length = c.length ∧
        n2 = n + ((e :: rest).countP (fun e => e != ['-']) : Nat) ∧
        (∀ e2 ∈ e :: rest, ∃ v, entry_value read_int e2 = some v) ∧
        ((∀ x ∈ c, x = -1 ∨ 0 ≤ x) → ∀ x ∈ c2, x = -1 ∨ 0 ≤ x) ∧
        c2.count (-1) ≤ c.count (-1) + (e :: rest).count ['-'] ∧
        (∀ (k : Nat) (e2 : List Char) (m2 : Int), (e :: rest)[k]? = some e2 →
          mapping[i + k]? = some m2 →
          (∀ k2, k < k2 → k2 < (e :: rest).length → mapping[i + k2]? ≠ some m2) →
          ∃ v, entry_value read_int e2 = some v ∧ vget c2 m2 = .ok v) ∧
        (∀ p : Int, (∀ k, k < (e :: rest).length → mapping[i + k]? ≠ some p) →
          vget c2 p = vget c p) := by
      intro x m c1 n1 hval hx hm hset hn1 hcount hrest
      obtain ⟨hin, rfl⟩ := (vset_eq_ok _ _ _ _).mp hset
      have hmi : mapping[i]? = some m := (vget_nat_eq_ok _ _ _).mp hm
      obtain ⟨a1, a2, a3, a4, a5, a6, a7⟩ := ih (i + 1) _ n1 c2 n2 hrest
      refine ⟨by rw [a1, List.length_set], ?_, ?_, ?_, ?_, ?_, ?_⟩
      · rw [a2, hn1, List.countP_cons]
        push_cast
        omega
      · intro e2 he2
        rcases List.mem_cons.mp he2 with rfl | he2
        · exact ⟨x, hval⟩
        · exact a3 e2 he2
      · intro hc
        apply a4
        intro y hy
        rcases mem_set_cases _ _ _ _ hy with hy | hy
        · exact hc y hy
        · rw [hy]; exact hx
      · rw [List.count_cons]
        have : (if (e == ['-']) = true then 1 else 0) = (if e = ['-'] then 1 else 0 : Nat) := by
          by_cases he : e = ['-'] <;> simp [he]
        omega
      · intro k e2 m2 hk hm2 hlater
        cases k with
        | zero =>
          simp only [List.getElem?_cons_zero, Option.some.injEq] at hk
          subst hk
          rw [Nat.add_zero, hmi] at hm2
          simp only [Option.some.injEq] at hm2
          subst hm2
          refine ⟨x, hval, ?_⟩
          rw [a7 m ?_]
          · exact vget_set_self _ _ _ hin.1 hin.2
          · intro k hk
            have := hlater (k + 1) (by omega) (by simp; omega)
            rw [show i + 1 + k = i + (k + 1) by omega]
            exact this
        | succ k =>
          simp only [List.getElem?_cons_succ] at hk
          refine a6 k e2 m2 hk (by rw [show i + 1 + k = i + (k + 1) by omega]; exact hm2) ?_
          intro k2 hk2 hlen
          have := hlater (k2 + 1) (by omega) (by simp; omega)
          rw [show i + 1 + k2 = i + (k2 + 1) by omega]
          exact this
      · intro p hp
        have hmp : m ≠ p := by
          intro hmp
          have := hp 0 (by simp)
          rw [Nat.add_zero, hmi, hmp] at this
          exact this rfl
        rw [a7 p ?_, vget_set_other _ _ _ _ hin.1 hmp]
        intro k hk
        have := hp (k + 1) (by simp; omega)
        rw [show i + 1 + k = i + (k + 1) by omega]
        exact this
    by_cases he : e = ['-']
    · rw [if_pos he] at h
      obtain ⟨m, hm, h⟩ := (bind_eq_ok _ _ _).mp h
      obtain ⟨c1, hset, h⟩ := (bind_eq_ok _ _ _).mp h
      have hin := ((vset_eq_ok _ _ _ _).mp hset).1
      have hc1 := ((vset_eq_ok _ _ _ _).mp hset).2
      refine step alphabet_gap m c1 n (by simp [entry_value, he]) (Or.inl rfl) hm hset
        (by simp [he]) ?_ h
      rw [hc1, if_pos he]
      exact (count_gap_set_le c m alphabet_gap hin.1 hin.2).1
    · rw [if_neg he] at h
      obtain ⟨index, hidx, h⟩ := (bind_eq_ok _ _ _).mp h
      rw [convertTo_int_eq_ok] at hidx
      by_cases hneg : index < 0
      · rw [if_pos hneg] at h
        rcases (bind_eq_ok _ _ _).mp h with ⟨_, _, h⟩
        exact absurd h (throw_ne_ok _ _)
      · rw [if_neg hneg] at h
        obtain ⟨m, hm, h⟩ := (bind_eq_ok _ _ _).mp h
        obtain ⟨c1, hset, h⟩ := (bind_eq_ok _ _ _).mp h
        have hin := ((vset_eq_ok _ _ _ _).mp hset).1
        have hc1 := ((vset_eq_ok _ _ _ _).mp hset).2
        refine step index m c1 (n + 1) (by simp [entry_value, he, hidx, hneg])
          (Or.inr (by omega)) hm hset (by simp [he]) ?_ h
        rw [hc1, if_neg he]
        exact (count_gap_set_le c m index hin.1 hin.2).2 (by omega)

theorem countP_ne_add_count {α : Type} [BEq α] [LawfulBEq α] (a : α) (l : List α) :
    l.countP (fun x => x != a) + l.count a = l.length := by
  induction l with
  | nil => rfl
  | cons x rest ih =>
    rw [List.countP_cons, List.count_cons, List.length_cons]
    by_cases h : (x == a) = true
    · have h1 : ¬ ((x != a) = true) := by simp [bne, h]
      rw [if_neg h1, if_pos h]
      omega
    · have h1 : (x != a) = true := by simp [bne, h]
      rw [if_pos h1, if_neg h]
      omega

theorem parse_line_some (split : List Char → Char → List (List Char))
    (read_int : List Char → Option Int) (n_leaves : Nat) (names : List (List Char))
    (mapping : List Int) (line_no : Int) (line : List Char) (row : List Int)
    (h : parse_line split read_int n_leaves names mapping line_no line = .ok (some row)) :
    line_kept split line = true ∧ line_well_formed split read_int n_leaves line ∧
    row_from_line split read_int n_leaves mapping row line := by
  unfold parse_line at h
  by_cases h0 : (strip_comment line).length = 0
  · rw [if_pos h0] at h
    simp at h
  · rw [if_neg h0] at h
    by_cases h1 : (split (clean (strip_comment line)) ' ').length ≠ n_leaves
    · rw [if_pos h1] at h
      exact Except.noConfusion h
    · rw [if_neg h1] at h
      have hlen : (line_entries split line).length = n_leaves := not_not.mp h1
      obtain ⟨⟨c2, n2⟩, hp, h⟩ := (bind_eq_ok _ _ _).mp h
      obtain ⟨a1, a2, a3, a4, a5, a6, _⟩ := parse_entries_ok read_int names mapping line_no
        _ _ _ _ _ _ hp
      by_cases h2 : n2 ≥ 2
      · simp only [h2, if_true, pure_eq_ok, Option.some.injEq] at h
        subst h
        have hn : 2 ≤ n_characters split line := by
          unfold n_characters line_entries
          omega
        have hne : strip_comment line ≠ [] := fun hnil => h0 (by rw [hnil]; rfl)
        refine ⟨by simp [line_kept, hne, hn], ⟨hlen, a3⟩, ?_, ?_, ?_, ?_⟩
        · rw [a1, List.length_replicate]
        · apply a4
          intro x hx
          rw [List.eq_of_mem_replicate hx]
          exact Or.inr (le_refl 0)
        · have hc0 : (List.replicate n_leaves (0 : Int)).count (-1) = 0 := by
            rw [List.count_eq_zero]
            intro hmem
            have := List.eq_of_mem_replicate hmem
            omega
          have e1 := countP_ne_add_count (-1 : Int) c2
          have e2 := countP_ne_add_count ['-'] (split (clean (strip_comment line)) ' ')
          rw [a1, List.length_replicate] at e1
          rw [hc0] at a5
          unfold line_entries at hlen
          have hn2 : 2 ≤ (split (clean (strip_comment line)) ' ').countP (fun e => e != ['-']) := hn
          omega
        · intro k e m hk hm hlater
          exact a6 k e m hk (by rw [Nat.zero_add]; exact hm)
            (fun k2 h1 h2 => by rw [Nat.zero_add]; exact hlater k2 h1 h2)
      · simp only [h2, if_false, pure_eq_ok] at h
        exact Option.noConfusion h

theorem parse_line_none (split : List Char → Char → List (List Char))
    (read_int : List Char → Option Int) (n_leaves : Nat) (names : List (List Char))
    (mapping : List Int) (line_no : Int) (line : List Char)
    (h : parse_line split read_int n_leaves names mapping line_no line = .ok none) :
    line_kept split line = false ∧
    (line_ignored line ∨ line_well_formed split read_int n_leaves line) := by
  unfold parse_line at h
  by_cases h0 : (strip_comment line).length = 0
  · have hnil : strip_comment line = [] := List.length_eq_zero.mp h0
    exact ⟨by simp [line_kept, hnil], Or.inl hnil⟩
  · rw [if_neg h0] at h
    by_cases h1 : (split (clean (strip_comment line)) ' ').length ≠ n_leaves
    · rw [if_pos h1] at h
      exact Except.noConfusion h
    · rw [if_neg h1] at h
      have hlen : (line_entries split line).length = n_leaves := not_not.mp h1
      obtain ⟨⟨c2, n2⟩, hp, h⟩ := (bind_eq_ok _ _ _).mp h
      obtain ⟨_, a2, a3, _⟩ := parse_entries_ok read_int names mapping line_no
        _ _ _ _ _ _ hp
      by_cases h2 : n2 ≥ 2
      · simp only [h2, if_true, pure_eq_ok] at h
        exact Option.noConfusion h
      · have hn : ¬ 2 ≤ n_characters split line := by
          unfold n_characters line_entries
          omega
        exact ⟨by simp [line_kept, hn], Or.inr ⟨hlen, a3⟩⟩

theorem load_lines_ok (split : List Char → Char → List (List Char))
    (read_int : List Char → Option Int) (n_leaves : Nat) (names : List (List Char))
    (mapping : List Int) :
    ∀ (lines : List (List Char)) (line_no : Int) (cs rows : List (List Int)),
      load_lines split read_int n_leaves names mapping lines line_no cs = .ok rows →
      ∃ new, rows = cs ++ new ∧
        List.Forall₂ (row_from_line split read_int n_leaves mapping) new
          (lines.filter (line_kept split)) ∧
        ∀ line ∈ lines, line_ignored line ∨ line_well_formed split read_int n_leaves line := by
  intro lines
  induction lines with
  | nil =>
    intro line_no cs rows h
    simp only [load_lines, Except.ok.injEq] at h
    exact ⟨[], by simp [h], List.Forall₂.nil, fun _ hl => absurd hl (List.not_mem_nil _)⟩
  | cons line rest ih =>
    intro line_no cs rows h
    unfold load_lines at h
    obtain ⟨r, hr, h⟩ := (bind_eq_ok _ _ _).mp h
    cases r with
    | some c_line =>
      simp only at h
      obtain ⟨hk, hw, hrow⟩ := parse_line_some _ _ _ _ _ _ _ _ hr
      obtain ⟨new, hnew, hf, hall⟩ := ih _ _ _ h
      refine ⟨c_line :: new, by rw [hnew]; simp, ?_, ?_⟩
      · rw [List.filter_cons_of_pos hk]
        exact List.Forall₂.cons hrow hf
      · intro l hl
        rcases List.mem_cons.mp hl with rfl | hl
        · exact Or.inr hw
        · exact hall l hl
    | none =>
      simp only at h
      obtain ⟨hk, hw⟩ := parse_line_none _ _ _ _ _ _ _ hr
      obtain ⟨new, hnew, hf, hall⟩ := ih _ _ _ h
      refine ⟨new, hnew, ?_, ?_⟩
      · rw [List.filter_cons_of_neg (by simp [hk])]
        exact hf
      · intro l hl
        rcases List.mem_cons.mp hl with rfl | hl
        · exact hw
        · exact hall l hl

theorem strip_trailing_le (text : List Char) : ∀ loc : Nat, strip_trailing text loc ≤ loc := by
  intro loc
  induction loc with
  | zero => exact Nat.le_refl 0
  | succ loc ih =>
    unfold strip_trailing
    by_cases h : text[loc]? = some ' '
    · rw [if_pos h]; omega
    · rw [if_neg h]

theorem strip_trailing_congr (text1 text2 : List Char) :
    ∀ loc : Nat, (∀ k, k < loc → text1[k]? = text2[k]?) →
      strip_trailing text1 loc = strip_trailing text2 loc := by
  intro loc
  induction loc with
  | zero => intro _; rfl
  | succ loc ih =>
    intro h
    unfold strip_trailing
    rw [h loc (Nat.lt_succ_self loc), ih (fun k hk => h k (by omega))]

theorem strip_trailing_spaces (text : List Char) :
    ∀ loc : Nat, (∀ k, k < loc → text[k]? = some ' ') → strip_trailing text loc = 0 := by
  intro loc
  induction loc with
  | zero => intro _; rfl
  | succ loc ih =>
    intro h
    unfold strip_trailing
    rw [if_pos (h loc (Nat.lt_succ_self loc))]
    exact ih (fun k hk => h k (by omega))

/-- A line of spaces only, the empty line included, is ignored. -/
theorem strip_comment_blank (line : List Char) (h : ∀ ch ∈ line, ch = ' ') :
    strip_comment line = [] := by
  have hno : '#' ∉ line := fun hm => absurd (h _ hm) (by decide)
  unfold strip_comment
  rw [if_pos ((find_index_eq_neg_one line '#').mpr hno), strip_trailing_spaces]
  · rfl
  · intro k hk
    rw [List.getElem?_eq_getElem hk, h _ (List.getElem_mem hk)]

/-- The text from the first `#` on has no part in what is kept of a line. -/
theorem strip_comment_marker (pre post : List Char) (h : '#' ∉ pre) :
    strip_comment (pre ++ '#' :: post) = strip_comment pre := by
  have hidx : List.indexOf '#' (pre ++ '#' :: post) = pre.length := by
    rw [List.indexOf_append_of_not_mem h, List.indexOf_cons_self, Nat.add_zero]
  have hfind : find_index (pre ++ '#' :: post) '#' = (pre.length : Int) := by
    unfold find_index
    rw [hidx, if_neg (by simp)]
  unfold strip_comment
  rw [hfind, if_neg (by omega), if_pos ((find_index_eq_neg_one pre '#').mpr h),
    Int.toNat_ofNat]
  rw [strip_trailing_congr (pre ++ '#' :: post) pre pre.length
    (fun k hk => List.getElem?_append_left hk)]
  exact List.take_append_of_le_length (strip_trailing_le pre pre.length)

theorem getD_range_map (row : List Int) (n : Nat) (h : row.length = n) :
    (List.range n).map (fun j => row.getD j 0) = row := by
  apply List.ext_getElem
  · simp [h]
  · intro k h1 h2
    simp [List.getD_eq_getElem?_getD, List.getElem?_eq_getElem h2]

theorem matrix_of_rows_rows (rows : List (List Int)) (n : Nat)
    (h : ∀ row ∈ rows, row.length = n) :
    (List.range (matrix_of_rows rows n).size1).map (matrix_of_rows rows n).row = rows := by
  apply List.ext_getElem
  · simp [matrix_of_rows]
  · intro i h1 h2
    have hrow : rows.getD i [] = rows[i] := by
      simp [List.getD_eq_getElem?_getD, List.getElem?_eq_getElem h2]
    simp only [List.getElem_map, List.getElem_range, IntMatrix.row, matrix_of_rows]
    rw [hrow]
    exact getD_range_map _ _ (h _ (List.getElem_mem h2))

theorem forall2_left {α β : Type} (R : α → β → Prop) (P : α → Prop)
    (h : ∀ a b, R a b → P a) {l1 : List α} {l2 : List β} (hf : List.Forall₂ R l1 l2) :
    ∀ a ∈ l1, P a := by
  induction hf with
  | nil => intro a ha; exact absurd ha (List.not_mem_nil a)
  | cons hhead _ ih =>
    intro a ha
    rcases List.mem_cons.mp ha with rfl | ha
    · exact h _ _ hhead
    · exact ih a ha

theorem compute_mapping_injective {T : Type} [DecidableEq T] (v1 v2 : List T)
    (mapping : List Int) (h : compute_mapping v1 v2 = .ok mapping) (hnodup : v1.Nodup)
    (k k2 : Nat) (m : Int) (hk : mapping[k]? = some m) (hk2 : mapping[k2]? = some m) :
    k = k2 := by
  obtain ⟨hlen, hi⟩ := compute_mapping_loop_ok _ _ _ ((compute_mapping_eq_ok _ _ _).mp h).1
  have h1 : k < v1.length := hlen ▸ (List.getElem?_eq_some_iff.mp hk).1
  have h2 : k2 < v1.length := hlen ▸ (List.getElem?_eq_some_iff.mp hk2).1
  obtain ⟨j, a1, a2, _⟩ := hi k v1[k] (List.getElem?_eq_getElem h1)
  obtain ⟨j2, b1, b2, _⟩ := hi k2 v1[k2] (List.getElem?_eq_getElem h2)
  rw [hk] at a1
  rw [hk2] at b1
  simp only [Option.some.injEq] at a1 b1
  have hj : j = j2 := by omega
  subst hj
  rw [a2] at b2
  simp only [Option.some.injEq] at b2
  exact (hnodup.getElem_inj_iff).mp b2

theorem load_alignment_constraint_ok (split : List Char → Char → List (List Char))
    (read_int : List Char → Option Int) (open_file : List Char → Option (List (List Char)))
    (filename : List Char) (T : SequenceTree) (M : IntMatrix)
    (h : load_alignment_constraint split read_int open_file filename T = .ok M) :
    M.size2 = T.n_leaves ∧
    (filename = [] → M.size1 = 0) ∧
    (filename ≠ [] → ∃ lines mapping, open_file filename = some lines ∧
      compute_mapping (split (clean (lines.headD [])) ' ') T.sequences = .ok mapping ∧
      (∀ (k : Nat) (name : List Char), (split (clean (lines.headD [])) ' ')[k]? = some name →
        ∃ j : Nat, mapping[k]? = some (j : Int) ∧ T.sequences[j]? = some name) ∧
      ((split (clean (lines.headD [])) ' ').Nodup → ∀ (k k2 : Nat) (m : Int),
        mapping[k]? = some m → mapping[k2]? = some m → k = k2) ∧
      (∀ line ∈ lines.tail,
        line_ignored line ∨ line_well_formed split read_int T.n_leaves line) ∧
      List.Forall₂ (row_from_line split read_int T.n_leaves mapping)
        ((List.range M.size1).map M.row) (lines.tail.filter (line_kept split))) := by
  unfold load_alignment_constraint at h
  by_cases h0 : filename.length = 0
  · rw [if_pos h0] at h
    simp only [Except.ok.injEq] at h
    subst h
    exact ⟨rfl, fun _ => rfl, fun hne => absurd (List.length_eq_zero.mp h0) hne⟩
  · rw [if_neg h0] at h
    cases hopen : open_file filename with
    | none =>
      rw [hopen] at h
      exact Except.noConfusion h
    | some lines =>
      rw [hopen] at h
      simp only at h
      cases hmap : compute_mapping (split (clean (lines.headD [])) ' ') T.sequences with
      | error b =>
        rw [hmap] at h
        exact Except.noConfusion h
      | ok mapping =>
        rw [hmap] at h
        simp only at h
        obtain ⟨rows, hrows, h⟩ := (bind_eq_ok _ _ _).mp h
        rw [pure_eq_ok] at h
        subst h
        obtain ⟨new, hnew, hf, hall⟩ := load_lines_ok _ _ _ _ _ _ _ _ _ hrows
        rw [List.nil_append] at hnew
        subst hnew
        refine ⟨rfl, fun hnil => absurd (by rw [hnil]; rfl) h0, fun _ =>
          ⟨lines, mapping, rfl, hmap, ?_,
            fun hnodup k k2 m => compute_mapping_injective _ _ _ hmap hnodup k k2 m, hall, ?_⟩⟩
        · intro k name hk
          obtain ⟨_, hi⟩ := compute_mapping_loop_ok _ _ _
            ((compute_mapping_eq_ok _ _ _).mp hmap).1
          obtain ⟨j, h1, h2, _⟩ := hi k name hk
          exact ⟨j, h1, h2⟩
        · rw [matrix_of_rows_rows]
          · exact hf
          · exact forall2_left _ (fun row => row.length = T.n_leaves)
              (fun _ _ hr => hr.1) hf

/-- C18. Every row of the matrix returned by `load_alignment_constraint` has one entry
per leaf, each entry `-1` (gap) or a non-negative residue index, stored in the column of
the species that the header names for it (distinct header names get distinct columns),
and at least two entries other than `-1`; the rows are, in order, those of the lines of the file after the header that are not ignored
and constrain at least two characters, so a line constraining fewer than two characters
is dropped.  Text from `#` on and blank lines are ignored.  A line that is not ignored and
has a negative index, or a number of entries different from the number of leaves, makes
the call end in an error. -/
theorem C18_load_alignment_constraint_rows (split : List Char → Char → List (List Char))
    (read_int : List Char → Option Int) (open_file : List Char → Option (List (List Char)))
    (filename : List Char) (T : SequenceTree) :
    (∀ M, load_alignment_constraint split read_int open_file filename T = .ok M →
      M.size2 = T.n_leaves ∧
      (filename = [] → M.size1 = 0) ∧
      (filename ≠ [] → ∃ lines mapping, open_file filename = some lines ∧
        compute_mapping (split (clean (lines.headD [])) ' ') T.sequences = .ok mapping ∧
        (∀ (k : Nat) (name : List Char),
          (split (clean (lines.headD [])) ' ')[k]? = some name →
          ∃ j : Nat, mapping[k]? = some (j : Int) ∧ T.sequences[j]? = some name) ∧
        ((split (clean (lines.headD [])) ' ').Nodup → ∀ (k k2 : Nat) (m : Int),
          mapping[k]? = some m → mapping[k2]? = some m → k = k2) ∧
        (∀ line ∈ lines.tail,
          line_ignored line ∨ line_well_formed split read_int T.n_leaves line) ∧
        List.Forall₂ (row_from_line split read_int T.n_leaves mapping)
          ((List.range M.size1).map M.row) (lines.tail.filter (line_kept split)))) ∧
    (∀ lines, filename ≠ [] → open_file filename = some lines →
      (∃ line ∈ lines.tail, ¬ line_ignored line ∧
        ((line_entries split line).length ≠ T.n_leaves ∨
          ∃ e ∈ line_entries split line, e ≠ ['-'] ∧ ∃ v, read_int e = some v ∧ v < 0)) →
      ∃ e, load_alignment_constraint split read_int open_file filename T = .error e) ∧
    (∀ pre post : List Char, '#' ∉ pre →
      strip_comment (pre ++ '#' :: post) = strip_comment pre) ∧
    (∀ line : List Char, (∀ ch ∈ line, ch = ' ') → line_ignored line) := by
  refine ⟨fun M h => load_alignment_constraint_ok _ _ _ _ _ M h, ?_,
    strip_comment_marker, strip_comment_blank⟩
  rintro lines hne hopen ⟨line, hline, hnot, hbad⟩
  cases hload : load_alignment_constraint split read_int open_file filename T with
  | error e => exact ⟨e, rfl⟩
  | ok M =>
    exfalso
    obtain ⟨_, _, hfile⟩ := load_alignment_constraint_ok _ _ _ _ _ M hload
    obtain ⟨lines2, mapping, hopen2, _, _, _, hall, _⟩ := hfile hne
    rw [hopen] at hopen2
    simp only [Option.some.injEq] at hopen2
    subst hopen2
    rcases hall line hline with hig | ⟨hlen, hval⟩
    · exact hnot hig
    · rcases hbad with hbad | ⟨e, he, hdash, v, hv, hneg⟩
      · exact hbad hlen
      · obtain ⟨w, hw⟩ := hval e he
        simp [entry_value, hdash, hv, hneg] at hw

/-- The file of four lines is loaded as the two rows `2 1` and `5 4`: the comment and the
blank line are ignored and the line `3 -` is dropped.  The file whose line holds the index
`-2` ends in an error. -/
theorem C18_load_alignment_constraint_rows_witness :
    load_alignment_constraint (fun s c => split_on c s []) read_decimal file4_open file4_name
      file4_T = .ok (matrix_of_rows [[2, 1], [5, 4]] 2) ∧
    (matrix_of_rows [[2, 1], [5, 4]] 2).size2 = file4_T.n_leaves ∧
    (∃ e, load_alignment_constraint (fun s c => split_on c s []) read_decimal file5_open
      file4_name file4_T = .error e) :=
  have h : load_alignment_constraint (fun s c => split_on c s []) read_decimal file4_open
      file4_name file4_T = .ok (matrix_of_rows [[2, 1], [5, 4]] 2) := by
    have hmap : compute_mapping (split_on ' ' (clean (file4_lines.headD [])) [])
        file4_T.sequences = .ok [1, 0] :=
      (compute_mapping_eq_ok _ _ _).mpr ⟨by decide, fun hlt => absurd hlt (by decide)⟩
    have hopen : file4_open file4_name = some file4_lines := by decide
    have hl : load_lines (fun s c => split_on c s []) read_decimal file4_T.n_leaves
        (split_on ' ' (clean (file4_lines.headD [])) []) [1, 0] file4_lines.tail 0 []
        = .ok [[2, 1], [5, 4]] := by decide
    unfold load_alignment_constraint
    rw [if_neg (by decide), hopen]
    simp only
    rw [hmap]
    simp only
    rw [hl]
    rfl
  ⟨h,
   ((C18_load_alignment_constraint_rows (fun s c => split_on c s []) read_decimal file4_open
      file4_name file4_T).1 _ h).1,
   (C18_load_alignment_constraint_rows (fun s c => split_on c s []) read_decimal file5_open
      file4_name file4_T).2.1 file5_lines (by decide) (by decide)
      ⟨['1', ' ', '-', '2'], by decide, by unfold line_ignored; decide,
        Or.inr ⟨['-', '2'], by decide, by decide, -2, by decide, by decide⟩⟩⟩

/-! ## C26: `wrap` -/

theorem wrap_reduce_bounds (x max : Int) (hx : 0 ≤ x) (hmax : 0 < max) :
    0 ≤ wrap_reduce x max ∧ wrap_reduce x max < 2 * max := by
  unfold wrap_reduce
  rw [Int.tdiv_eq_ediv hx (by omega)]
  have h1 : x - x / (2 * max) * 2 * max = x % (2 * max) := by
    rw [Int.emod_def]
    ring
  rw [h1]
  exact ⟨Int.emod_nonneg x (by omega), Int.emod_lt_of_pos x (by omega)⟩

theorem wrap_value (x max : Int) (hmax : 0 < max) :
    0 ≤ wrap_reflect (wrap_reduce (wrap_flip x) max) max ∧
    wrap_reflect (wrap_reduce (wrap_flip x) max) max ≤ max := by
  have hf : 0 ≤ wrap_flip x := by
    unfold wrap_flip
    split_ifs <;> omega
  obtain ⟨h1, h2⟩ := wrap_reduce_bounds (wrap_flip x) max hf hmax
  unfold wrap_reflect
  split_ifs <;> omega

/-- C26. For all integers `x` and `max` with `max >= 0`, in the executions without
overflow, `wrap(x,max)` passes its closing assertion and returns a number in `[0,max]`;
and `wrap(x,min,max)` returns a number in `[min,max]` whenever `min <= max`. -/
theorem C26_wrap_in_range :
    (∀ x max : Int, 0 ≤ max → ∃ r, wrap x max = .ok r ∧ 0 ≤ r ∧ r ≤ max) ∧
    (∀ x min max : Int, min ≤ max →
      ∃ r, wrap_min_max x min max = .ok r ∧ min ≤ r ∧ r ≤ max) := by
  have key : ∀ x max : Int, 0 ≤ max → ∃ r, wrap x max = .ok r ∧ 0 ≤ r ∧ r ≤ max := by
    intro x max hmax
    unfold wrap
    by_cases h0 : max = 0
    · rw [if_pos h0]
      exact ⟨0, rfl, le_refl 0, hmax⟩
    · rw [if_neg h0]
      have hv := wrap_value x max (by omega)
      rw [if_neg (not_not.mpr hv)]
      exact ⟨_, rfl, hv.1, hv.2⟩
  refine ⟨key, ?_⟩
  intro x min max h
  obtain ⟨r, hr, h1, h2⟩ := key (x - min) (max - min) (by omega)
  refine ⟨r + min, ?_, by omega, by omega⟩
  unfold wrap_min_max
  rw [hr]
  rfl

/-- Some values: `wrap(-7,3) = 1`, `wrap(11,4) = 3` and `wrap(12,10,13) = 12`. -/
theorem C26_wrap_in_range_witness :
    wrap (-7) 3 = .ok 1 ∧ wrap 11 4 = .ok 3 ∧ wrap_min_max 12 10 13 = .ok 12 ∧
    (∃ r, wrap (-7) 3 = .ok r ∧ 0 ≤ r ∧ r ≤ 3) ∧
    (∃ r, wrap_min_max 12 10 13 = .ok r ∧ 10 ≤ r ∧ r ≤ 13) :=
  ⟨by decide, by decide, by decide, C26_wrap_in_range.1 (-7) 3 (by decide),
   C26_wrap_in_range.2 12 10 13 (by decide)⟩

/-! ## C24: `parse_partitions_and_model` -/

theorem split_int_loop_ok (read_int : List Char → Option Int) :
    ∀ (pieces : List (List Char)) (vT r : List Int),
      split_int_loop read_int pieces vT = .ok r ↔
        ∃ ints, r = vT ++ ints ∧
          List.Forall₂ (fun piece v => read_int piece = some v) pieces ints := by
  intro pieces
  induction pieces with
  | nil =>
    intro vT r
    simp only [split_int_loop, Except.ok.injEq]
    constructor
    · intro h; exact ⟨[], by simp [h], List.Forall₂.nil⟩
    · rintro ⟨ints, h, hf⟩
      cases hf
      simp [h]
  | cons piece rest ih =>
    intro vT r
    unfold split_int_loop
    rw [bind_eq_ok]
    constructor
    · rintro ⟨t, ht, h⟩
      obtain ⟨ints, hr, hf⟩ := (ih _ _).mp h
      exact ⟨t :: ints, by simp [hr], List.Forall₂.cons ((convertTo_int_eq_ok _ _ _).mp ht) hf⟩
    · rintro ⟨ints, hr, hf⟩
      cases hf with
      | cons hhead htail =>
        rename_i v vs
        exact ⟨v, (convertTo_int_eq_ok _ _ _).mpr hhead, (ih _ _).mpr ⟨vs, by simp [hr], htail⟩⟩

theorem split_int_loop_error (read_int : List Char → Option Int) :
    ∀ (pieces : List (List Char)) (vT : List Int) (e : Fault),
      split_int_loop read_int pieces vT = .error e → ∃ msg, e = .exception msg := by
  intro pieces
  induction pieces with
  | nil => intro vT e h; simp [split_int_loop] at h
  | cons piece rest ih =>
    intro vT e h
    unfold split_int_loop at h
    rcases (bind_eq_error _ _ _).mp h with h1 | ⟨t, _, h1⟩
    · unfold convertTo_int at h1
      cases hr : read_int piece with
      | none => rw [hr] at h1; simp at h1; exact ⟨_, h1.symm⟩
      | some v => rw [hr] at h1; simp at h1
    · exact ih _ _ h1

theorem find_index_append_cons (pre post : List Char) (c : Char) (h : c ∉ pre) :
    find_index (pre ++ c :: post) c = (pre.length : Int) := by
  have hidx : List.indexOf c (pre ++ c :: post) = pre.length := by
    rw [List.indexOf_append_of_not_mem h, List.indexOf_cons_self, Nat.add_zero]
  unfold find_index
  rw [hidx, if_neg (by simp)]

/-- C24. `parse_partitions_and_model` splits its input at the first `:`.  An input
without `:` is returned unchanged and `partitions` is left empty, whatever it held
before.  For an input `pre:post` in which `pre` holds no `:` and is a comma-separated
list of integers, it returns `post` unchanged, further colons included, and sets
`partitions` to the integers of `pre` in order; when a piece of `pre` is no integer the
call throws. -/
theorem C24_parse_partitions_and_model (split : List Char → Char → List (List Char))
    (read_int : List Char → Option Int) :
    (∀ (model : List Char) (partitions : List Int), ':' ∉ model →
      parse_partitions_and_model split read_int model partitions = .ok (model, [])) ∧
    (∀ (pre post : List Char) (partitions ints : List Int), ':' ∉ pre →
      List.Forall₂ (fun piece v => read_int piece = some v) (split pre ',') ints →
      parse_partitions_and_model split read_int (pre ++ ':' :: post) partitions
        = .ok (post, ints)) ∧
    (∀ (pre post : List Char) (partitions : List Int), ':' ∉ pre →
      (∃ piece ∈ split pre ',', read_int piece = none) →
      ∃ msg, parse_partitions_and_model split read_int (pre ++ ':' :: post) partitions
        = .error (.exception msg)) := by
  have hsplit : ∀ (pre post : List Char) (partitions : List Int), ':' ∉ pre →
      parse_partitions_and_model split read_int (pre ++ ':' :: post) partitions =
        (split_int split read_int pre ',' >>= fun ps => pure (post, ps)) := by
    intro pre post partitions hpre
    have hne : ¬ ((pre.length : Int) = -1) := by omega
    have htake : (pre ++ ':' :: post).take pre.length = pre := List.take_left _ _
    have hdrop : (pre ++ ':' :: post).drop (pre.length + 1) = post := by
      rw [← List.drop_drop, List.drop_left _ _]
      rfl
    unfold parse_partitions_and_model
    rw [find_index_append_cons pre post ':' hpre, if_neg hne, Int.toNat_ofNat, htake, hdrop]
  refine ⟨?_, ?_, ?_⟩
  · intro model partitions h
    unfold parse_partitions_and_model
    rw [if_pos ((find_index_eq_neg_one _ _).mpr h)]
  · intro pre post partitions ints hpre hf
    rw [hsplit pre post partitions hpre]
    have : split_int split read_int pre ',' = .ok ints := by
      unfold split_int
      exact (split_int_loop_ok read_int _ _ _).mpr ⟨ints, by simp, hf⟩
    rw [this]
    rfl
  · rintro pre post partitions hpre ⟨piece, hmem, hnone⟩
    rw [hsplit pre post partitions hpre]
    cases hs : split_int split read_int pre ',' with
    | error e =>
      obtain ⟨msg, hmsg⟩ := split_int_loop_error read_int _ _ _ hs
      exact ⟨msg, by rw [hmsg]; rfl⟩
    | ok ints =>
      exfalso
      unfold split_int at hs
      obtain ⟨ints2, _, hf⟩ := (split_int_loop_ok read_int _ _ _).mp hs
      obtain ⟨v, hv⟩ := forall2_left _ (fun piece => ∃ v, read_int piece = some v)
        (fun _ b hr => ⟨b, hr⟩) hf piece hmem
      rw [hnone] at hv
      exact Option.noConfusion hv

/-- The input `1,2:a:b`, read when `partitions` holds `7`: the returned string is `a:b` and
`partitions` becomes `1, 2`; the input `ab` is returned unchanged with `partitions`
empty. -/
theorem C24_parse_partitions_and_model_witness :
    ':' ∉ ['1', ',', '2'] ∧
    List.Forall₂ (fun piece v => read_decimal piece = some v)
      (split_on ',' ['1', ',', '2'] []) [1, 2] ∧
    parse_partitions_and_model (fun s c => split_on c s []) read_decimal
      (['1', ',', '2'] ++ ':' :: ['a', ':', 'b']) [7] = .ok (['a', ':', 'b'], [1, 2]) ∧
    parse_partitions_and_model (fun s c => split_on c s []) read_decimal ['a', 'b'] [7]
      = .ok (['a', 'b'], []) :=
  have hf : List.Forall₂ (fun piece v => read_decimal piece = some v)
      (split_on ',' ['1', ',', '2'] []) [1, 2] :=
    List.Forall₂.cons (by decide) (List.Forall₂.cons (by decide) List.Forall₂.nil)
  ⟨by decide, hf,
   (C24_parse_partitions_and_model (fun s c => split_on c s []) read_decimal).2.1
     ['1', ',', '2'] ['a', ':', 'b'] [7] [1, 2] (by decide) hf,
   (C24_parse_partitions_and_model (fun s c => split_on c s []) read_decimal).1
     ['a', 'b'] [7] (by decide)⟩

/-! ## C21: when `compute_mapping` throws -/

theorem first_missing_eq_none {T : Type} [DecidableEq T] (v1 v2 : List T) :
    first_missing v1 v2 = none ↔ ∀ x ∈ v1, x ∈ v2 := by
  unfold first_missing
  rw [List.find?_eq_none]
  simp

theorem first_missing_eq_some {T : Type} [DecidableEq T] (v1 v2 : List T) (x : T)
    (h : first_missing v1 v2 = some x) :
    x ∉ v2 ∧ ∃ i : Nat, v1[i]? = some x ∧ ∀ j : Nat, j < i → ∀ y, v1[j]? = some y → y ∈ v2 := by
  unfold first_missing at h
  induction v1 with
  | nil => simp at h
  | cons a rest ih =>
    rw [List.find?_cons] at h
    by_cases ha : a ∈ v2
    · simp only [ha, not_true_eq_false, decide_False] at h
      obtain ⟨h1, i, h2, h3⟩ := ih h
      refine ⟨h1, i + 1, by simpa using h2, ?_⟩
      intro j hj y hy
      cases j with
      | zero =>
        simp only [List.getElem?_cons_zero, Option.some.injEq] at hy
        rw [← hy]; exact ha
      | succ j =>
        simp only [List.getElem?_cons_succ] at hy
        exact h3 j (by omega) y hy
    · simp only [ha, not_false_eq_true, decide_True, Option.some.injEq] at h
      subst h
      exact ⟨ha, 0, by simp, fun j hj => absurd hj (Nat.not_lt_zero j)⟩

theorem compute_mapping_loop_result {T : Type} [DecidableEq T] (v2 : List T) :
    ∀ v1 : List T,
      (∀ x, first_missing v1 v2 = some x →
        compute_mapping_loop v2 v1 = .error ⟨x, 0, missing_in_v2_msg⟩) ∧
      (first_missing v1 v2 = none → ∃ mapping, compute_mapping_loop v2 v1 = .ok mapping) := by
  intro v1
  induction v1 with
  | nil =>
    refine ⟨fun x h => ?_, fun _ => ⟨[], rfl⟩⟩
    simp [first_missing] at h
  | cons a rest ih =>
    unfold compute_mapping_loop first_missing
    rw [List.find?_cons]
    rcases compute_mapping_target_spec a v2 0 with ⟨h1, h2⟩ | ⟨k, h1, h2, _⟩
    · rw [if_pos h1]
      simp only [h2, not_false_eq_true, decide_True, Option.some.injEq]
      refine ⟨fun x hx => by rw [← hx]; rfl, fun h => Option.noConfusion h⟩
    · have ht : compute_mapping_target a v2 0 ≠ -1 := by rw [h1]; omega
      have ha : a ∈ v2 := List.getElem?_mem h2
      rw [if_neg ht]
      simp only [ha, not_true_eq_false, decide_False]
      constructor
      · intro x hx
        rw [ih.1 x hx]
        rfl
      · intro hn
        obtain ⟨mapping, hm⟩ := ih.2 hn
        exact ⟨_, by rw [hm]; rfl⟩

theorem compute_mapping_eq_error {T : Type} [DecidableEq T] (v1 v2 : List T)
    (b : bad_mapping T) :
    compute_mapping v1 v2 = .error b ↔
      compute_mapping_loop v2 v1 = .error b ∨
      ((∃ mapping, compute_mapping_loop v2 v1 = .ok mapping) ∧ v1.length < v2.length ∧
        ∃ b2, compute_mapping_loop v1 v2 = .error b2 ∧
          b = ⟨b2.missing, 1, missing_in_v1_msg⟩) := by
  rw [compute_mapping]
  cases h1 : compute_mapping_loop v2 v1 with
  | error b1 => simp
  | ok mapping =>
    simp only
    by_cases hlt : v1.length < v2.length
    · rw [if_pos hlt, compute_mapping]
      cases h2 : compute_mapping_loop v1 v2 with
      | error b2 =>
        simp only [Except.error.injEq, false_or, hlt, true_and, exists_eq_left', Except.ok.injEq,
          exists_eq', reduceCtorEq]
        constructor
        · intro h; exact h.symm
        · intro h; exact h.symm
      | ok mapping2 =>
        simp only
        rw [if_neg (by omega)]
        simp
    · rw [if_neg hlt]
      simp [hlt]

/-- C21. `compute_mapping(v1,v2)` throws `bad_mapping` if and only if some element of
`v1` does not occur in `v2`, or every element of `v1` occurs in `v2` but `|v1| < |v2|` and
some element of `v2` does not occur in `v1`.  In the first case `from = 0` and `missing` is
the first element of `v1` that `v2` lacks; in the second `from = 1` and `missing` is the
first element of `v2` that `v1` lacks. -/
theorem C21_compute_mapping_throws_iff {T : Type} [DecidableEq T] (v1 v2 : List T) :
    ((∃ b, compute_mapping v1 v2 = .error b) ↔
      (∃ x ∈ v1, x ∉ v2) ∨
      ((∀ x ∈ v1, x ∈ v2) ∧ v1.length < v2.length ∧ ∃ y ∈ v2, y ∉ v1)) ∧
    (∀ x, first_missing v1 v2 = some x →
      compute_mapping v1 v2 = .error ⟨x, 0, missing_in_v2_msg⟩) ∧
    ((∀ x ∈ v1, x ∈ v2) → v1.length < v2.length → ∀ y, first_missing v2 v1 = some y →
      compute_mapping v1 v2 = .error ⟨y, 1, missing_in_v1_msg⟩) ∧
    (∀ (l1 l2 : List T) (x : T), first_missing l1 l2 = some x →
      x ∉ l2 ∧ ∃ i : Nat, l1[i]? = some x ∧
        ∀ j : Nat, j < i → ∀ y, l1[j]? = some y → y ∈ l2) ∧
    (∀ l1 l2 : List T, first_missing l1 l2 = none ↔ ∀ x ∈ l1, x ∈ l2) := by
  have hsome : ∀ l1 l2 : List T, (∃ x ∈ l1, x ∉ l2) → ∃ x, first_missing l1 l2 = some x := by
    intro l1 l2 h
    cases hf : first_missing l1 l2 with
    | some x => exact ⟨x, rfl⟩
    | none =>
      obtain ⟨x, hx, hn⟩ := h
      exact absurd ((first_missing_eq_none l1 l2).mp hf x hx) hn
  have part2 : ∀ x, first_missing v1 v2 = some x →
      compute_mapping v1 v2 = .error ⟨x, 0, missing_in_v2_msg⟩ := by
    intro x hx
    exact (compute_mapping_eq_error _ _ _).mpr (Or.inl ((compute_mapping_loop_result v2 v1).1 x hx))
  have part3 : (∀ x ∈ v1, x ∈ v2) → v1.length < v2.length → ∀ y, first_missing v2 v1 = some y →
      compute_mapping v1 v2 = .error ⟨y, 1, missing_in_v1_msg⟩ := by
    intro hall hlt y hy
    refine (compute_mapping_eq_error _ _ _).mpr (Or.inr
      ⟨(compute_mapping_loop_result v2 v1).2 ((first_missing_eq_none v1 v2).mpr hall), hlt,
        ⟨y, 0, missing_in_v2_msg⟩, (compute_mapping_loop_result v1 v2).1 y hy, rfl⟩)
  refine ⟨⟨?_, ?_⟩, part2, part3, first_missing_eq_some, first_missing_eq_none⟩
  · rintro ⟨b, hb⟩
    rcases (compute_mapping_eq_error _ _ _).mp hb with h | ⟨⟨mapping, hm⟩, hlt, b2, hb2, _⟩
    · left
      by_contra hno
      push_neg at hno
      obtain ⟨m, hm⟩ := (compute_mapping_loop_returns v2 v1).mpr hno
      rw [hm] at h
      exact Except.noConfusion h
    · right
      refine ⟨(compute_mapping_loop_returns v2 v1).mp ⟨mapping, hm⟩, hlt, ?_⟩
      by_contra hno
      push_neg at hno
      obtain ⟨m, hm2⟩ := (compute_mapping_loop_returns v1 v2).mpr hno
      rw [hm2] at hb2
      exact Except.noConfusion hb2
  · rintro (h | ⟨hall, hlt, h⟩)
    · obtain ⟨x, hx⟩ := hsome v1 v2 h
      exact ⟨_, part2 x hx⟩
    · obtain ⟨y, hy⟩ := hsome v2 v1 h
      exact ⟨_, part3 hall hlt y hy⟩

/-- Two runs: `a, c, d` mapped into `a, b` lacks `c` first (`from = 0`); `a` mapped into
`a, b` finds every element but `b` is extra (`from = 1`). -/
theorem C21_compute_mapping_throws_iff_witness :
    first_missing ['a', 'c', 'd'] ['a', 'b'] = some 'c' ∧
    compute_mapping ['a', 'c', 'd'] ['a', 'b'] = .error ⟨'c', 0, missing_in_v2_msg⟩ ∧
    first_missing ['a', 'b'] ['a'] = some 'b' ∧
    compute_mapping ['a'] ['a', 'b'] = .error ⟨'b', 1, missing_in_v1_msg⟩ :=
  ⟨by decide,
   (C21_compute_mapping_throws_iff ['a', 'c', 'd'] ['a', 'b']).2.1 'c' (by decide),
   by decide,
   (C21_compute_mapping_throws_iff ['a'] ['a', 'b']).2.2.1 (by decide) (by decide) 'b'
     (by decide)⟩

/-! ## C27: `concatenate` -/

namespace alignment_cat

theorem get_mapping_eq_ok (S1 S2 : List sequence) (mapping : List Int) :
    get_mapping S1 S2 = .ok mapping ↔
      compute_mapping (S1.map (fun s => s.name)) (S2.map (fun s => s.name)) = .ok mapping := by
  unfold get_mapping
  cases h : compute_mapping (S1.map (fun s => s.name)) (S2.map (fun s => s.name)) with
  | error b => simp
  | ok m => simp

/-- The sequence that position `i` of the result holds: `S1[i]` with the letters of the
first sequence of `S2` of that name appended. -/
theorem concatenate_loop_ok (S1 S2 : List sequence) (mapping : List Int)
    (hm : get_mapping S1 S2 = .ok mapping) (hlen : S1.length = S2.length) :
    ∀ (rows : List Nat) (S : List sequence), S.length = S1.length →
      (∀ i ∈ rows, i < S1.length) →
      ∃ R, concatenate_loop S1 S2 rows S = .ok R ∧ R.length = S1.length ∧
        (∀ i, i ∉ rows → R[i]? = S[i]?) ∧
        (∀ i, i ∈ rows → rows.Nodup → ∀ s1 s, S1[i]? = some s1 → S[i]? = some s →
          ∃ t, S2.find? (fun t => decide (t.name = s1.name)) = some t ∧
            R[i]? = some { s with letters := s1.letters ++ t.letters }) := by
  have hcm := (compute_mapping_eq_ok _ _ _).mp ((get_mapping_eq_ok _ _ _).mp hm)
  obtain ⟨hmlen, hmi⟩ := compute_mapping_loop_ok _ _ _ hcm.1
  rw [List.length_map] at hmlen
  have hfind : ∀ (i : Nat) (s1 : sequence), S1[i]? = some s1 →
      ∃ (j : Nat) (t : sequence), mapping[i]? = some (j : Int) ∧ S2[j]? = some t ∧
        S2.find? (fun t => decide (t.name = s1.name)) = some t := by
    intro i s1 hs1
    obtain ⟨j, h1, h2, h3⟩ := hmi i s1.name (by simp [hs1])
    rw [List.getElem?_map] at h2
    cases ht : S2[j]? with
    | none => rw [ht] at h2; simp at h2
    | some t =>
      rw [ht] at h2
      simp only [Option.map_some', Option.some.injEq] at h2
      refine ⟨j, t, h1, ht, ?_⟩
      rw [List.find?_eq_some_iff_getElem]
      have hj : j < S2.length := (List.getElem?_eq_some_iff.mp ht).1
      refine ⟨by simp [h2], j, hj, ?_, ?_⟩
      · exact ((List.getElem?_eq_some_iff.mp ht).2).symm ▸ rfl
      · intro k hk
        have hk2 : k < S2.length := by omega
        have := h3 k hk
        rw [List.getElem?_map, List.getElem?_eq_getElem hk2] at this
        simpa using this
  intro rows
  induction rows with
  | nil =>
    intro S hS _
    exact ⟨S, rfl, hS, fun _ _ => rfl, fun i hi => absurd hi (List.not_mem_nil i)⟩
  | cons i rest ih =>
    intro S hS hrows
    have hi : i < S1.length := hrows i (List.mem_cons_self i rest)
    obtain ⟨j, t, hj1, hj2, hj3⟩ := hfind i S1[i] (List.getElem?_eq_getElem hi)
    have hiS : i < S.length := by omega
    have e1 : vget S1 (i : Int) = .ok S1[i] :=
      (vget_nat_eq_ok _ _ _).mpr (List.getElem?_eq_getElem hi)
    have e2 : vget mapping (i : Int) = .ok (j : Int) := (vget_nat_eq_ok _ _ _).mpr hj1
    have e3 : vget S2 (j : Int) = .ok t := (vget_nat_eq_ok _ _ _).mpr hj2
    have e4 : vget S (i : Int) = .ok S[i] :=
      (vget_nat_eq_ok _ _ _).mpr (List.getElem?_eq_getElem hiS)
    have e5 : vset S (i : Int) { S[i] with letters := S1[i].letters ++ t.letters }
        = .ok (S.set i { S[i] with letters := S1[i].letters ++ t.letters }) := by
      rw [vset_eq_ok]
      exact ⟨⟨by omega, by omega⟩, by simp⟩
    obtain ⟨R, hR, hRlen, hframe, hval⟩ :=
      ih (S.set i { S[i] with letters := S1[i].letters ++ t.letters })
        (by rw [List.length_set]; exact hS)
        (fun k hk => hrows k (List.mem_cons_of_mem i hk))
    refine ⟨R, ?_, hRlen, ?_, ?_⟩
    · unfold concatenate_loop
      rw [hm]
      simp only [e1, e2, e3, e4, e5, bind, Except.bind]
      exact hR
    · intro k hk
      have hki : k ≠ i := fun h => hk (h ▸ List.mem_cons_self i rest)
      rw [hframe k (fun h => hk (List.mem_cons_of_mem i h)), List.getElem?_set_ne (Ne.symm hki)]
    · intro k hk hnodup s1 s hs1 hs
      rcases List.mem_cons.mp hk with rfl | hk2
      · have hnot : k ∉ rest := (List.nodup_cons.mp hnodup).1
        rw [List.getElem?_eq_getElem hi] at hs1
        rw [List.getElem?_eq_getElem hiS] at hs
        simp only [Option.some.injEq] at hs1 hs
        subst hs1 hs
        refine ⟨t, hj3, ?_⟩
        rw [hframe k hnot, List.getElem?_set_self (by omega)]
      · have hki : k ≠ i := fun h => (List.nodup_cons.mp hnodup).1 (h ▸ hk2)
        exact hval k hk2 (List.nodup_cons.mp hnodup).2 s1 s hs1
          (by rw [List.getElem?_set_ne (Ne.symm hki)]; exact hs)

end alignment_cat

/-- C27. `concatenate` joins alignments end to end by sequence name: for non-empty `S1`
and `S2` of equal size in which every name of `S1` occurs in `S2`, it returns as many
sequences as `S1` has, with the names of `S1` in the order of `S1`, and `result[i]` is
`S1[i]` with its letters followed by the letters of the first sequence of `S2` whose name
equals `S1[i].name` (so the lengths add); for empty `S1` the result is `S2`. -/
theorem C27_concatenate_by_name (S1 S2 : List sequence) :
    (S1 = [] → alignment_cat.concatenate S1 S2 = .ok S2) ∧
    (S1 ≠ [] → S1.length = S2.length → (∀ s ∈ S1, ∃ t ∈ S2, t.name = s.name) →
      ∃ S, alignment_cat.concatenate S1 S2 = .ok S ∧ S.length = S1.length ∧
        S.map (fun s => s.name) = S1.map (fun s => s.name) ∧
        ∀ (i : Nat) (s1 : sequence), S1[i]? = some s1 →
          ∃ t, S2.find? (fun t => decide (t.name = s1.name)) = some t ∧
            S[i]? = some { s1 with letters := s1.letters ++ t.letters } ∧
            (s1.letters ++ t.letters).length = s1.letters.length + t.letters.length) := by
  constructor
  · intro h
    subst h
    rfl
  · intro hne hlen hall
    have hmap : ∃ mapping, alignment_cat.get_mapping S1 S2 = .ok mapping := by
      have h1 : ∀ x ∈ S1.map (fun s => s.name), x ∈ S2.map (fun s => s.name) := by
        intro x hx
        obtain ⟨s, hs, rfl⟩ := List.mem_map.mp hx
        obtain ⟨t, ht, hts⟩ := hall s hs
        exact List.mem_map.mpr ⟨t, ht, hts⟩
      obtain ⟨mapping, hm⟩ := (compute_mapping_loop_returns _ _).mpr h1
      refine ⟨mapping, (alignment_cat.get_mapping_eq_ok _ _ _).mpr
        ((compute_mapping_eq_ok _ _ _).mpr ⟨hm, fun hlt => ?_⟩)⟩
      simp only [List.length_map] at hlt
      omega
    obtain ⟨mapping, hm⟩ := hmap
    obtain ⟨R, hR, hRlen, _, hval⟩ := alignment_cat.concatenate_loop_ok S1 S2 mapping hm hlen
      (List.range S1.length) S1 rfl (fun i hi => List.mem_range.mp hi)
    have hpoint : ∀ (i : Nat) (s1 : sequence), S1[i]? = some s1 →
        ∃ t, S2.find? (fun t => decide (t.name = s1.name)) = some t ∧
          R[i]? = some { s1 with letters := s1.letters ++ t.letters } := by
      intro i s1 hs1
      have hi : i < S1.length := (List.getElem?_eq_some_iff.mp hs1).1
      exact hval i (List.mem_range.mpr hi) (List.nodup_range _) s1 s1 hs1 hs1
    refine ⟨R, ?_, hRlen, ?_, ?_⟩
    · unfold alignment_cat.concatenate
      rw [if_neg (fun h => hne (List.length_eq_zero.mp h)), if_neg (not_not.mpr hlen)]
      exact hR
    · apply List.ext_getElem?
      intro i
      rw [List.getElem?_map, List.getElem?_map]
      by_cases hi : i < S1.length
      · obtain ⟨t, _, ht⟩ := hpoint i S1[i] (List.getElem?_eq_getElem hi)
        rw [ht, List.getElem?_eq_getElem hi]
        rfl
      · rw [List.getElem?_eq_none (by omega), List.getElem?_eq_none (by omega)]
    · intro i s1 hs1
      obtain ⟨t, h1, h2⟩ := hpoint i s1 hs1
      exact ⟨t, h1, h2, List.length_append _ _⟩

/-- The two alignments of the example: `a` gets `AC` then `C`, and `b` gets `GT` then
`T`. -/
theorem C27_concatenate_by_name_witness :
    cat_S1 ≠ [] ∧ cat_S1.length = cat_S2.length ∧
    (∀ s ∈ cat_S1, ∃ t ∈ cat_S2, t.name = s.name) ∧
    ∃ S, alignment_cat.concatenate cat_S1 cat_S2 = .ok S ∧ S.length = cat_S1.length ∧
      S.map (fun s => s.name) = cat_S1.map (fun s => s.name) ∧
      ∀ (i : Nat) (s1 : sequence), cat_S1[i]? = some s1 →
        ∃ t, cat_S2.find? (fun t => decide (t.name = s1.name)) = some t ∧
          S[i]? = some { s1 with letters := s1.letters ++ t.letters } ∧
          (s1.letters ++ t.letters).length = s1.letters.length + t.letters.length :=
  have h : ∀ s ∈ cat_S1, ∃ t ∈ cat_S2, t.name = s.name := by decide
  ⟨by decide, by decide, h,
   (C27_concatenate_by_name cat_S1 cat_S2).2 (by decide) (by decide) h⟩

/-! ## C25: `letter_count` and `letter_counts` -/

theorem letter_count_row_eq (A : alignment) (l : Int) (i : Nat) :
    ∀ (js : List Nat) (count : Int),
      letter_count_row A l i js count =
        count + ((js.map (fun j => A.cell i j)).count l : Nat) := by
  intro js
  induction js with
  | nil => intro count; simp [letter_count_row]
  | cons j rest ih =>
    intro count
    unfold letter_count_row
    rw [ih, List.map_cons, List.count_cons]
    by_cases h : A.cell i j = l
    · simp only [h, if_true, beq_self_eq_true]
      push_cast
      omega
    · have h2 : ¬ ((A.cell i j == l) = true) := by simpa using h
      rw [if_neg h, if_neg h2]
      simp

theorem letter_count_loop_eq (A : alignment) (l : Int) :
    ∀ (rows : List Nat) (count : Int),
      letter_count_loop A l rows count = count + ((cells_of A rows).count l : Nat) := by
  intro rows
  induction rows with
  | nil => intro count; simp [letter_count_loop, cells_of]
  | cons i rest ih =>
    intro count
    unfold letter_count_loop
    rw [ih, letter_count_row_eq]
    unfold cells_of
    rw [List.flatMap_cons, List.count_append]
    push_cast
    omega

theorem sum_set_succ : ∀ (l : List Int) (i : Nat) (c : Int), l[i]? = some c →
    (l.set i (c + 1)).sum = l.sum + 1 := by
  intro l
  induction l with
  | nil => intro i c h; simp at h
  | cons a rest ih =>
    intro i c h
    cases i with
    | zero =>
      simp only [List.getElem?_cons_zero, Option.some.injEq] at h
      subst h
      simp only [List.set_cons_zero, List.sum_cons]
      omega
    | succ i =>
      simp only [List.getElem?_cons_succ] at h
      simp only [List.set_cons_succ, List.sum_cons, ih i c h]
      omega

/-- The tally of a list of cell values into `counts`: entry `l` grows by the number of
cells equal to `l`, and the sum by the number of cells holding a letter. -/
theorem letter_counts_row_spec (a : alphabet) (A : alignment) (i : Nat) :
    ∀ (js : List Nat) (counts : List Int), (counts.length : Int) = a.n_letters →
      ∃ counts2, letter_counts_row a A i js counts = .ok counts2 ∧
        counts2.length = counts.length ∧
        (∀ (l c : Int), vget counts l = .ok c →
          vget counts2 l = .ok (c + ((js.map (fun j => A.cell i j)).count l : Nat))) ∧
        counts2.sum = counts.sum +
          ((js.map (fun j => A.cell i j)).countP (fun v => a.is_letter v) : Nat) := by
  intro js
  induction js with
  | nil =>
    intro counts _
    exact ⟨counts, rfl, rfl, fun l c h => by simpa using h, by simp⟩
  | cons j rest ih =>
    intro counts hlen
    unfold letter_counts_row
    by_cases hl : a.is_letter (A.cell i j) = true
    · rw [if_pos hl]
      have hr : A.cell i j ≥ 0 ∧ A.cell i j < a.n_letters := by
        simpa [alphabet.is_letter] using hl
      obtain ⟨c0, hc0⟩ := vget_of_lt counts (A.cell i j) hr.1 (by omega)
      have hset : vset counts (A.cell i j) (c0 + 1)
          = .ok (counts.set (A.cell i j).toNat (c0 + 1)) :=
        (vset_eq_ok _ _ _ _).mpr ⟨⟨hr.1, by omega⟩, rfl⟩
      obtain ⟨counts2, h2, hlen2, hval, hsum⟩ := ih (counts.set (A.cell i j).toNat (c0 + 1))
        (by rw [List.length_set]; exact hlen)
      refine ⟨counts2, ?_, by rw [hlen2, List.length_set], ?_, ?_⟩
      · rw [hc0]
        simp only [bind, Except.bind]
        rw [hset]
        exact h2
      · intro l c hc
        rw [List.map_cons, List.count_cons]
        by_cases hll : A.cell i j = l
        · subst hll
          rw [hc0] at hc
          simp only [Except.ok.injEq] at hc
          subst hc
          rw [hval _ (c0 + 1) (vget_set_self _ _ _ hr.1 (by omega))]
          simp only [beq_self_eq_true, if_true]
          push_cast
          congr 1
          omega
        · have hb : ¬ ((A.cell i j == l) = true) := by simpa using hll
          rw [if_neg hb, hval l c (by rw [vget_set_other _ _ _ _ hr.1 hll]; exact hc)]
          simp
      · rw [hsum, sum_set_succ counts (A.cell i j).toNat c0 ((vget_eq_ok _ _ _).mp hc0).2,
          List.map_cons, List.countP_cons, if_pos hl]
        push_cast
        omega
    · rw [if_neg hl]
      obtain ⟨counts2, h2, hlen2, hval, hsum⟩ := ih counts hlen
      refine ⟨counts2, h2, hlen2, ?_, ?_⟩
      · intro l c hc
        rw [hval l c hc, List.map_cons, List.count_cons]
        by_cases hll : A.cell i j = l
        · exfalso
          apply hl
          have := (vget_eq_ok _ _ _).mp hc
          have hlt : l.toNat < counts.length := (List.getElem?_eq_some_iff.mp this.2).1
          rw [hll]
          simp only [alphabet.is_letter, decide_eq_true_eq]
          omega
        · have hb : ¬ ((A.cell i j == l) = true) := by simpa using hll
          rw [if_neg hb]
          simp
      · rw [hsum, List.map_cons, List.countP_cons, if_neg hl]
        simp

theorem letter_counts_loop_spec (a : alphabet) (A : alignment) :
    ∀ (rows : List Nat) (counts : List Int), (counts.length : Int) = a.n_letters →
      ∃ counts2, letter_counts_loop a A rows counts = .ok counts2 ∧
        counts2.length = counts.length ∧
        (∀ (l c : Int), vget counts l = .ok c →
          vget counts2 l = .ok (c + ((cells_of A rows).count l : Nat))) ∧
        counts2.sum = counts.sum +
          ((cells_of A rows).countP (fun v => a.is_letter v) : Nat) := by
  intro rows
  induction rows with
  | nil =>
    intro counts _
    exact ⟨counts, rfl, rfl, fun l c h => by simpa [cells_of] using h, by simp [cells_of]⟩
  | cons i rest ih =>
    intro counts hlen
    obtain ⟨c1, h1, hlen1, hval1, hsum1⟩ :=
      letter_counts_row_spec a A i (List.range A.n_sequences) counts hlen
    obtain ⟨c2, h2, hlen2, hval2, hsum2⟩ := ih c1 (by rw [hlen1]; exact hlen)
    refine ⟨c2, ?_, by rw [hlen2, hlen1], ?_, ?_⟩
    · unfold letter_counts_loop
      rw [h1]
      exact h2
    · intro l c hc
      rw [hval2 l _ (hval1 l c hc)]
      unfold cells_of
      rw [List.flatMap_cons, List.count_append]
      push_cast
      congr 1
      omega
    · rw [hsum2, hsum1]
      unfold cells_of
      rw [List.flatMap_cons, List.countP_append]
      push_cast
      omega

/-- C25. For every alignment `A`, `letter_counts(A)` returns one entry for each letter of
the alphabet, and for every letter index `l` with `0 <= l < alphabet size` the entry
`letter_counts(A)[l]` equals `letter_count(A,l)`, the number of cells equal to `l`.  The
entries sum to the number of cells holding a letter: a cell holding a gap, a wildcard,
unknown or a letter-class index `>= alphabet size` adds to no entry. -/
theorem C25_letter_counts_agree (get_alphabet : alignment → alphabet) (A : alignment) :
    ∃ counts, letter_counts get_alphabet A = .ok counts ∧
      (counts.length : Int) = (get_alphabet A).size ∧
      (∀ l : Int, 0 ≤ l → l < (get_alphabet A).size →
        vget counts l = .ok (letter_count A l)) ∧
      (∀ l : Int, letter_count A l = ((cells A).count l : Nat)) ∧
      counts.sum = ((cells A).countP (fun v => (get_alphabet A).is_letter v) : Nat) := by
  have hsize : (get_alphabet A).size = ((get_alphabet A).letters_.length : Int) := rfl
  have hlen0 : ((List.replicate (get_alphabet A).size.toNat (0 : Int)).length : Int)
      = (get_alphabet A).n_letters := by
    rw [List.length_replicate]
    unfold alphabet.size alphabet.n_letters
    omega
  obtain ⟨counts, h, hlen, hval, hsum⟩ := letter_counts_loop_spec (get_alphabet A) A
    (List.range A.length) _ hlen0
  have hcount : ∀ l : Int, letter_count A l = ((cells A).count l : Nat) := by
    intro l
    unfold letter_count cells
    rw [letter_count_loop_eq]
    omega
  refine ⟨counts, h, ?_, ?_, hcount, ?_⟩
  · rw [hlen]
    exact hlen0
  · intro l h0 h1
    have hz : vget (List.replicate (get_alphabet A).size.toNat (0 : Int)) l = .ok 0 := by
      rw [vget_eq_ok]
      refine ⟨h0, ?_⟩
      rw [List.getElem?_replicate, if_pos (by omega)]
    rw [hval l 0 hz, hcount l]
    simp [cells]
  · rw [hsum]
    have : (List.replicate (get_alphabet A).size.toNat (0 : Int)).sum = 0 := by simp
    rw [this]
    simp [cells]

/-- The example alignment over four letters: the counts are `2, 0, 1, 0`; the letter
class `4`, the gap and the wildcard add to no entry. -/
theorem letter_counts_count_A :
    letter_counts count_alphabet count_A = .ok [2, 0, 1, 0] ∧
    letter_count count_A 0 = 2 ∧ letter_count count_A 2 = 1 ∧
    cells count_A = [0, 4, -1, 2, 0, -2] := by
  decide

/-- C25 at the example alignment: the entries of `letter_counts` there sum to 3, the
number of cells holding a letter. -/
theorem C25_letter_counts_agree_witness :
    ((cells count_A).countP (fun v => (count_alphabet count_A).is_letter v) = 3) ∧
    ∃ counts, letter_counts count_alphabet count_A = .ok counts ∧
      (counts.length : Int) = (count_alphabet count_A).size ∧
      (∀ l : Int, 0 ≤ l → l < (count_alphabet count_A).size →
        vget counts l = .ok (letter_count count_A l)) ∧
      (∀ l : Int, letter_count count_A l = ((cells count_A).count l : Nat)) ∧
      counts.sum =
        ((cells count_A).countP (fun v => (count_alphabet count_A).is_letter v) : Nat) :=
  ⟨by decide, C25_letter_counts_agree count_alphabet count_A⟩

/-! ## C28: the pins of `get_pins` increase along `seq12` -/

theorem find_index_eq_indexOf (v : List Int) (t : Int) (h : t ∈ v) :
    find_index v t = (v.indexOf t : Int) := by
  have hlt : v.indexOf t < v.length := List.indexOf_lt_length.mpr h
  unfold find_index
  rw [if_neg (by omega)]

/-- In a list without repetition, a sublist keeps the order of the elements. -/
theorem sublist_comes_before {l1 l : List Int} (hs : l1.Sublist l) :
    l.Nodup → l.Pairwise (comes_before l1) := by
  induction hs with
  | slnil => intro _; exact List.Pairwise.nil
  | @cons l1 l y hs ih =>
    intro hn
    obtain ⟨hy, hn2⟩ := List.nodup_cons.mp hn
    refine List.Pairwise.cons ?_ (ih hn2)
    intro b _ hy1 _
    exact absurd (hs.subset hy1) hy
  | @cons₂ l1 l y hs ih =>
    intro hn
    obtain ⟨hy, hn2⟩ := List.nodup_cons.mp hn
    refine List.Pairwise.cons ?_ ((ih hn2).imp_of_mem ?_)
    · intro b hb hy1 hb1
      have hby : b ≠ y := fun h => hy (h ▸ hb)
      rw [find_index_eq_indexOf _ _ hy1, find_index_eq_indexOf _ _ hb1,
        List.indexOf_cons_self, List.indexOf_cons_ne _ (Ne.symm hby)]
      omega
    · intro a b ha hb hab ha1 hb1
      have hay : a ≠ y := fun h => hy (h ▸ ha)
      have hby : b ≠ y := fun h => hy (h ▸ hb)
      have ha2 : a ∈ l1 := by
        rcases List.mem_cons.mp ha1 with h | h
        · exact absurd h hay
        · exact h
      have hb2 : b ∈ l1 := by
        rcases List.mem_cons.mp hb1 with h | h
        · exact absurd h hby
        · exact h
      have := hab ha2 hb2
      rw [find_index_eq_indexOf _ _ ha2, find_index_eq_indexOf _ _ hb2] at this
      rw [find_index_eq_indexOf _ _ ha1, find_index_eq_indexOf _ _ hb1,
        List.indexOf_cons_ne _ (Ne.symm hay), List.indexOf_cons_ne _ (Ne.symm hby)]
      omega

/-- On a strictly increasing vector the order check passes, whichever two entries it
compares. -/
theorem pins_order_check_increasing (P Q V : List Int) (hV : V.Pairwise (fun a b => a < b)) :
    pins_order_check [P, Q] V = .ok () := by
  unfold pins_order_check
  by_cases h2 : V.length ≥ 2
  · rw [if_pos h2]
    match V, hV, h2 with
    | a :: b :: rest, hV, _ =>
      have hab : a < b := (List.pairwise_cons.mp hV).1 b (List.mem_cons_self b rest)
      have e0 : ((([P, Q] : List (List Int)).length : Int) - 2) = 0 := by simp
      have e1 : ((([P, Q] : List (List Int)).length : Int) - 1) = 1 := by simp
      have ha : vget (a :: b :: rest) 0 = .ok a := by rw [vget_eq_ok]; simp
      have hb : vget (a :: b :: rest) 1 = .ok b := by rw [vget_eq_ok]; simp
      rw [e0, e1, ha, hb]
      simp only [bind, Except.bind]
      rw [if_neg (by omega)]
      rfl
  · rw [if_neg h2]
    rfl

theorem get_pins_collect_increasing (seq1 seq2 pinned : List Int)
    (hpin : ∀ (column p : Int), vget pinned column = .ok p → p ≠ 0 →
      column ∈ seq1 ∧ column ∈ seq2) :
    ∀ (rest X Y : List Int), rest.Pairwise (comes_before seq1) →
      rest.Pairwise (comes_before seq2) →
      X.Pairwise (fun a b => a < b) → Y.Pairwise (fun a b => a < b) →
      (∀ x ∈ X, ∀ c ∈ rest, c ∈ seq1 → x < find_index seq1 c + 1) →
      (∀ y ∈ Y, ∀ c ∈ rest, c ∈ seq2 → y < find_index seq2 c + 1) →
      get_pins_collect seq1 seq2 pinned rest X Y ≠ .error (.exception not_increasing_msg) ∧
      ∀ r, get_pins_collect seq1 seq2 pinned rest X Y = .ok r →
        ∃ X2 Y2, r = [X2, Y2] ∧ X2.Pairwise (fun a b => a < b) ∧
          Y2.Pairwise (fun a b => a < b) := by
  intro rest
  induction rest with
  | nil =>
    intro X Y _ _ hX hY _ _
    refine ⟨by simp [get_pins_collect], ?_⟩
    intro r h
    simp only [get_pins_collect, Except.ok.injEq] at h
    exact ⟨X, Y, h.symm, hX, hY⟩
  | cons column rest ih =>
    intro X Y h1 h2 hX hY hbX hbY
    obtain ⟨h1h, h1t⟩ := List.pairwise_cons.mp h1
    obtain ⟨h2h, h2t⟩ := List.pairwise_cons.mp h2
    cases hp : vget pinned column with
    | error e =>
      rw [get_pins_collect_fault _ _ _ _ _ _ _ e hp]
      exact ⟨by simp, fun r h => Except.noConfusion h⟩
    | ok p =>
      by_cases hp0 : p = 0
      · subst hp0
        rw [get_pins_collect_skip _ _ _ _ _ _ _ hp]
        exact ih X Y h1t h2t hX hY
          (fun x hx c hc => hbX x hx c (List.mem_cons_of_mem _ hc))
          (fun y hy c hc => hbY y hy c (List.mem_cons_of_mem _ hc))
      · obtain ⟨m1, m2⟩ := hpin column p hp hp0
        rw [get_pins_collect_step _ _ _ _ _ _ _ p hp hp0 m1 m2]
        have hX2 : (X ++ [find_index seq1 column + 1]).Pairwise (fun a b => a < b) := by
          rw [List.pairwise_append]
          refine ⟨hX, List.pairwise_singleton _ _, ?_⟩
          intro a ha b hb
          rw [List.mem_singleton.mp hb]
          exact hbX a ha column (List.mem_cons_self _ _) m1
        have hY2 : (Y ++ [find_index seq2 column + 1]).Pairwise (fun a b => a < b) := by
          rw [List.pairwise_append]
          refine ⟨hY, List.pairwise_singleton _ _, ?_⟩
          intro a ha b hb
          rw [List.mem_singleton.mp hb]
          exact hbY a ha column (List.mem_cons_self _ _) m2
        rw [pins_order_check_increasing _ _ _ hX2, pins_order_check_increasing _ _ _ hY2]
        simp only [bind, Except.bind]
        apply ih _ _ h1t h2t hX2 hY2
        · intro x hx c hc hc1
          rcases List.mem_append.mp hx with hx | hx
          · exact hbX x hx c (List.mem_cons_of_mem _ hc) hc1
          · rw [List.mem_singleton.mp hx]
            have := h1h c hc m1 hc1
            omega
        · intro y hy c hc hc2
          rcases List.mem_append.mp hy with hy | hy
          · exact hbY y hy c (List.mem_cons_of_mem _ hc) hc2
          · rw [List.mem_singleton.mp hy]
            have := h2h c hc m2 hc2
            omega

/-- C28. If `seq12` has no repeated column and `seq1` and `seq2` are subsequences of
`seq12` (the same relative order, hence without repetition), then the exception `X pins
not always increasing!` is never thrown, and whenever `get_pins` returns a pin list
`[X,Y]`, `X` and `Y` are each strictly increasing. -/
theorem C28_get_pins_strictly_increasing (column_lookup : alignment → List (List Int))
    (constraint : IntMatrix) (A : alignment) (group1 group2 : List Bool)
    (seq1 seq2 seq12 : List Int) (hnodup : seq12.Nodup)
    (hsub1 : seq1.Sublist seq12) (hsub2 : seq2.Sublist seq12) :
    get_pins column_lookup constraint A group1 group2 seq1 seq2 seq12
      ≠ .error (.exception not_increasing_msg) ∧
    ∀ X Y : List Int,
      get_pins column_lookup constraint A group1 group2 seq1 seq2 seq12 = .ok [X, Y] →
      X.Pairwise (fun a b => a < b) ∧ Y.Pairwise (fun a b => a < b) := by
  have hcollect : ∀ (sat : List Int) (pinned : List Int),
      get_pins_mark seq1 seq2 sat (List.replicate A.length 0) = .ok (some pinned) →
      get_pins_collect seq1 seq2 pinned seq12 [] [] ≠ .error (.exception not_increasing_msg) ∧
      ∀ r, get_pins_collect seq1 seq2 pinned seq12 [] [] = .ok r →
        ∃ X2 Y2, r = [X2, Y2] ∧ X2.Pairwise (fun a b => a < b) ∧
          Y2.Pairwise (fun a b => a < b) := by
    intro sat pinned hm
    apply get_pins_collect_increasing seq1 seq2 pinned ?_ seq12 [] []
      (sublist_comes_before hsub1 hnodup) (sublist_comes_before hsub2 hnodup)
      List.Pairwise.nil List.Pairwise.nil
      (fun x hx => absurd hx (List.not_mem_nil x)) (fun y hy => absurd hy (List.not_mem_nil y))
    intro column p hp hp0
    rcases get_pins_mark_some _ _ _ _ _ hm column p hp hp0 with h0 | ⟨_, _, h1, h2⟩
    · exact absurd (vget_replicate_zero _ _ _ h0) hp0
    · exact ⟨h1, h2⟩
  constructor
  · intro h
    unfold get_pins at h
    rcases (bind_eq_error _ _ _).mp h with hs | ⟨sat, _, h⟩
    · exact absurd (get_pins_satisfied_error _ _ _ _ _ _ hs) (by decide)
    · rcases (bind_eq_error _ _ _).mp h with hm | ⟨marked, hm, h⟩
      · exact absurd (get_pins_mark_error _ _ _ _ _ hm) (by decide)
      · cases marked with
        | none => exact absurd h (pure_ne_error _ _)
        | some pinned => exact (hcollect sat pinned hm).1 h
  · intro X Y h
    unfold get_pins at h
    obtain ⟨sat, _, h⟩ := (bind_eq_ok _ _ _).mp h
    obtain ⟨marked, hm, h⟩ := (bind_eq_ok _ _ _).mp h
    cases marked with
    | none =>
      simp only [pure_eq_ok, impossible] at h
      simp at h
    | some pinned =>
      obtain ⟨X2, Y2, hr, hX, hY⟩ := (hcollect sat pinned hm).2 _ h
      simp only [List.cons.injEq, and_true] at hr
      obtain ⟨rfl, rfl⟩ := hr
      exact ⟨hX, hY⟩

/-- Three pinned columns visited in the order of the sequences: `seq12 = 0,1,2` and
`seq1 = seq2 = 0,1,2`; the pins are `X = Y = (1,2,3)`. -/
theorem C28_get_pins_strictly_increasing_witness :
    ([0, 1, 2] : List Int).Nodup ∧ ([0, 1, 2] : List Int).Sublist [0, 1, 2] ∧
    get_pins run3_column_lookup run3_constraint run3_A [true, false] [false, true]
        [0, 1, 2] [0, 1, 2] [0, 1, 2] = .ok [[1, 2, 3], [1, 2, 3]] ∧
    ([1, 2, 3] : List Int).Pairwise (fun a b => a < b) :=
  ⟨by decide, List.Sublist.refl _, by decide,
   ((C28_get_pins_strictly_increasing run3_column_lookup run3_constraint run3_A [true, false]
      [false, true] [0, 1, 2] [0, 1, 2] [0, 1, 2] (by decide) (List.Sublist.refl _)
      (List.Sublist.refl _)).2 [1, 2, 3] [1, 2, 3] (by decide)).1⟩

/-! ## C22, C23: `get_mapping` of `setup.C` -/

theorem mapping_inv_mono {n : Int} {mapping : List Int} {L L2 : Nat} {done : List Int}
    (h : mapping_inv n mapping L done) (hL : L ≤ L2) : mapping_inv n mapping L2 done := by
  obtain ⟨h1, h2, h3, h4, h5⟩ := h
  refine ⟨h1, h2, ?_, h4, h5⟩
  intro v hv
  rcases h3 v hv with h | h | h
  · exact Or.inl h
  · exact Or.inr (Or.inl h)
  · exact Or.inr (Or.inr ⟨h.1, by omega⟩)

theorem get_mapping_partitions_ok (key : List Char) (n index : Int) (L : Nat)
    (hindex : index = -1 ∨ (0 ≤ index ∧ index < (L : Int))) :
    ∀ (ps mapping m2 done : List Int),
      get_mapping_partitions key n index ps mapping = .ok m2 →
      mapping_inv n mapping L done → mapping_inv n m2 L (done ++ ps) := by
  intro ps
  induction ps with
  | nil =>
    intro mapping m2 done h hinv
    simp only [get_mapping_partitions, Except.ok.injEq] at h
    subst h
    simpa using hinv
  | cons p rest ih =>
    intro mapping m2 done h hinv
    unfold get_mapping_partitions at h
    by_cases hr : p < 1 ∨ p > n
    · rw [if_pos hr] at h
      exact Except.noConfusion h
    · rw [if_neg hr] at h
      obtain ⟨cur, hcur, h⟩ := (bind_eq_ok _ _ _).mp h
      by_cases hc : cur ≠ -2
      · rw [if_pos hc] at h
        exact absurd h (throw_ne_ok _ _)
      · rw [if_neg hc] at h
        have hcur2 : cur = -2 := not_not.mp hc
        subst hcur2
        obtain ⟨m1, hset, h⟩ := (bind_eq_ok _ _ _).mp h
        obtain ⟨hin, rfl⟩ := (vset_eq_ok _ _ _ _).mp hset
        obtain ⟨h1, h2, h3, h4, h5⟩ := hinv
        have hp : p ∉ done := (h2 p (by omega) (by omega)).mp hcur
        have hinv1 : mapping_inv n (mapping.set (p - 1).toNat index) L (done ++ [p]) := by
          refine ⟨by rw [List.length_set]; exact h1, ?_, ?_, ?_, ?_⟩
          · intro q hq1 hq2
            by_cases hqp : q = p
            · subst hqp
              rw [vget_set_self _ _ _ hin.1 hin.2]
              constructor
              · intro he
                simp only [Except.ok.injEq] at he
                omega
              · intro hn
                exact absurd (List.mem_append_right _ (List.mem_singleton_self q)) hn
            · rw [vget_set_other _ _ _ _ hin.1 (by omega), h2 q hq1 hq2]
              simp [hqp]
          · intro v hv
            rcases mem_set_cases _ _ _ _ hv with hv | hv
            · exact h3 v hv
            · rw [hv]
              rcases hindex with hi | hi
              · exact Or.inr (Or.inl hi)
              · exact Or.inr (Or.inr hi)
          · rw [List.nodup_append]
            refine ⟨h4, List.nodup_singleton p, ?_⟩
            intro a ha hb
            rw [List.mem_singleton.mp hb] at ha
            exact hp ha
          · intro q hq
            rcases List.mem_append.mp hq with hq | hq
            · exact h5 q hq
            · rw [List.mem_singleton.mp hq]; omega
        have := ih _ _ _ h hinv1
        simpa using this

theorem get_mapping_partitions_error (key : List Char) (n index : Int) :
    ∀ (ps mapping : List Int) (e : Fault), (mapping.length : Int) = n →
      get_mapping_partitions key n index ps mapping = .error e → ∃ msg, e = .exception msg := by
  intro ps
  induction ps with
  | nil => intro mapping e _ h; simp [get_mapping_partitions] at h
  | cons p rest ih =>
    intro mapping e hlen h
    unfold get_mapping_partitions at h
    by_cases hr : p < 1 ∨ p > n
    · rw [if_pos hr] at h
      simp only [Except.error.injEq] at h
      exact ⟨_, h.symm⟩
    · rw [if_neg hr] at h
      obtain ⟨cur, hcur⟩ := vget_of_lt mapping (p - 1) (by omega) (by omega)
      rw [hcur] at h
      simp only [bind, Except.bind] at h
      by_cases hc : cur ≠ -2
      · rw [if_pos hc] at h
        exact ⟨_, ((throw_eq_error _ _).mp h).symm⟩
      · rw [if_neg hc] at h
        have hset : vset mapping (p - 1) index = .ok (mapping.set (p - 1).toNat index) :=
          (vset_eq_ok _ _ _ _).mpr ⟨⟨by omega, by omega⟩, rfl⟩
        rw [hset] at h
        exact ih _ e (by rw [List.length_set]; exact hlen) h

theorem parse_partitions_and_model_error (split : List Char → Char → List (List Char))
    (read_int : List Char → Option Int) (model : List Char) (ps : List Int) (e : Fault)
    (h : parse_partitions_and_model split read_int model ps = .error e) :
    ∃ msg, e = .exception msg := by
  unfold parse_partitions_and_model at h
  by_cases hc : find_index model ':' = -1
  · rw [if_pos hc] at h
    exact Except.noConfusion h
  · rw [if_neg hc] at h
    rcases (bind_eq_error _ _ _).mp h with h1 | ⟨_, _, h1⟩
    · exact split_int_loop_error read_int _ _ _ h1
    · exact absurd h1 (pure_ne_error _ _)

theorem get_mapping_check_ok (key model : List Char) (n : Int) (n_models : Nat)
    (ps eff : List Int) (h : get_mapping_check key model n n_models ps = .ok eff) :
    (ps ≠ [] ∧ eff = ps) ∨ (ps = [] ∧ n = 1 ∧ eff = [1]) := by
  unfold get_mapping_check at h
  by_cases h0 : ps.length = 0
  · rw [if_pos h0] at h
    by_cases h1 : n = 1
    · rw [if_pos h1] at h
      simp only [Except.ok.injEq] at h
      exact Or.inr ⟨List.length_eq_zero.mp h0, h1, h.symm⟩
    · rw [if_neg h1] at h
      split_ifs at h
  · rw [if_neg h0] at h
    simp only [Except.ok.injEq] at h
    exact Or.inl ⟨fun hn => h0 (by rw [hn]; rfl), h.symm⟩

theorem get_mapping_check_error (key model : List Char) (n : Int) (n_models : Nat)
    (ps : List Int) (e : Fault) (h : get_mapping_check key model n n_models ps = .error e) :
    ps = [] ∧ (n_models > 1 → ∃ msg, e = .exception msg) := by
  unfold get_mapping_check at h
  by_cases h0 : ps.length = 0
  · rw [if_pos h0] at h
    refine ⟨List.length_eq_zero.mp h0, fun hm => ?_⟩
    by_cases h1 : n = 1
    · rw [if_pos h1] at h
      exact Except.noConfusion h
    · rw [if_neg h1, if_neg (not_not.mpr hm)] at h
      simp only [Except.error.injEq] at h
      exact ⟨_, h.symm⟩
  · rw [if_neg h0] at h
    exact Except.noConfusion h

theorem get_mapping_models_ok (split : List Char → Char → List (List Char))
    (read_int : List Char → Option Int) (key : List Char) (n : Int) (n_models : Nat) :
    ∀ (ms : List (List Char)) (mapping : List Int) (names names2 : List (List Char))
      (m2 done : List Int),
      get_mapping_models split read_int key n n_models ms mapping names = .ok (names2, m2) →
      mapping_inv n mapping names.length done →
      ∃ effs : List (List Int),
        List.Forall₂ (fun model eff => ∃ r,
          parse_partitions_and_model split read_int model [] = .ok r ∧
          get_mapping_check key model n n_models r.2 = .ok eff) ms effs ∧
        mapping_inv n m2 names2.length (done ++ effs.flatten) ∧
        names.length ≤ names2.length := by
  intro ms
  induction ms with
  | nil =>
    intro mapping names names2 m2 done h hinv
    simp only [get_mapping_models, Except.ok.injEq, Prod.mk.injEq] at h
    obtain ⟨rfl, rfl⟩ := h
    exact ⟨[], List.Forall₂.nil, by simpa using hinv, le_refl _⟩
  | cons model rest ih =>
    intro mapping names names2 m2 done h hinv
    unfold get_mapping_models at h
    obtain ⟨r, hr, h⟩ := (bind_eq_ok _ _ _).mp h
    obtain ⟨eff, heff, h⟩ := (bind_eq_ok _ _ _).mp h
    obtain ⟨m1, hm1, h⟩ := (bind_eq_ok _ _ _).mp h
    by_cases hnone : r.1 = none_name
    · rw [if_pos hnone] at hm1 h
      have hinv1 := get_mapping_partitions_ok key n (-1) names.length (Or.inl rfl)
        _ _ _ _ hm1 hinv
      obtain ⟨effs, hf, hinv2, hlen⟩ := ih _ _ _ _ _ h hinv1
      refine ⟨eff :: effs, List.Forall₂.cons ⟨r, hr, heff⟩ hf, ?_, hlen⟩
      simpa [List.append_assoc] using hinv2
    · rw [if_neg hnone] at hm1 h
      have hinv0 : mapping_inv n mapping (names ++ [r.1]).length done :=
        mapping_inv_mono hinv (by simp)
      have hinv1 := get_mapping_partitions_ok key n (names.length : Int)
        (names ++ [r.1]).length (Or.inr ⟨by omega, by simp⟩) _ _ _ _ hm1 hinv0
      obtain ⟨effs, hf, hinv2, hlen⟩ := ih _ _ _ _ _ h hinv1
      refine ⟨eff :: effs, List.Forall₂.cons ⟨r, hr, heff⟩ hf, ?_, ?_⟩
      · simpa [List.append_assoc] using hinv2
      · simp only [List.length_append, List.length_singleton] at hlen
        omega

theorem get_mapping_partitions_length (key : List Char) (n index : Int) :
    ∀ (ps mapping m2 : List Int),
      get_mapping_partitions key n index ps mapping = .ok m2 → m2.length = mapping.length := by
  intro ps
  induction ps with
  | nil =>
    intro mapping m2 h
    simp only [get_mapping_partitions, Except.ok.injEq] at h
    rw [h]
  | cons p rest ih =>
    intro mapping m2 h
    unfold get_mapping_partitions at h
    by_cases hr : p < 1 ∨ p > n
    · rw [if_pos hr] at h
      exact Except.noConfusion h
    · rw [if_neg hr] at h
      obtain ⟨cur, _, h⟩ := (bind_eq_ok _ _ _).mp h
      by_cases hc : cur ≠ -2
      · rw [if_pos hc] at h
        exact absurd h (throw_ne_ok _ _)
      · rw [if_neg hc] at h
        obtain ⟨m1, hset, h⟩ := (bind_eq_ok _ _ _).mp h
        obtain ⟨_, rfl⟩ := (vset_eq_ok _ _ _ _).mp hset
        rw [ih _ _ h, List.length_set]

theorem get_mapping_models_error (split : List Char → Char → List (List Char))
    (read_int : List Char → Option Int) (key : List Char) (n : Int) (n_models : Nat) :
    ∀ (ms : List (List Char)) (mapping : List Int) (names : List (List Char)) (e : Fault),
      (mapping.length : Int) = n →
      (n_models > 1 ∨ ∀ model ∈ ms, ∀ r,
        parse_partitions_and_model split read_int model [] = .ok r → r.2 ≠ []) →
      get_mapping_models split read_int key n n_models ms mapping names = .error e →
      ∃ msg, e = .exception msg := by
  intro ms
  induction ms with
  | nil => intro mapping names e _ _ h; simp [get_mapping_models] at h
  | cons model rest ih =>
    intro mapping names e hlen hassert h
    unfold get_mapping_models at h
    rcases (bind_eq_error _ _ _).mp h with h1 | ⟨r, hr, h⟩
    · exact parse_partitions_and_model_error _ _ _ _ _ h1
    · rcases (bind_eq_error _ _ _).mp h with h1 | ⟨eff, _, h⟩
      · obtain ⟨hnil, hex⟩ := get_mapping_check_error _ _ _ _ _ _ h1
        rcases hassert with hm | hm
        · exact hex hm
        · exact absurd hnil (hm model (List.mem_cons_self _ _) r hr)
      · rcases (bind_eq_error _ _ _).mp h with h1 | ⟨m1, hm1, h⟩
        · exact get_mapping_partitions_error _ _ _ _ _ _ hlen h1
        · refine ih _ _ e ?_ ?_ h
          · rw [get_mapping_partitions_length _ _ _ _ _ _ hm1]
            exact hlen
          · rcases hassert with hm | hm
            · exact Or.inl hm
            · exact Or.inr (fun model2 h2 => hm model2 (List.mem_cons_of_mem _ h2))

theorem get_mapping_fill_spec :
    ∀ (entries : List Int) (names : List (List Char)),
      (∀ v ∈ entries, v = -2 ∨ v < (names.length : Int)) →
      (get_mapping_fill entries names).1.length = entries.length ∧
      names.length ≤ (get_mapping_fill entries names).2.length ∧
      (∀ w : Nat, w < names.length → (get_mapping_fill entries names).2[w]? = names[w]?) ∧
      (∀ w : Nat, names.length ≤ w → w < (get_mapping_fill entries names).2.length →
        (get_mapping_fill entries names).2[w]? = some []) ∧
      (∀ (i : Nat) (x : Int), entries[i]? = some x →
        (x ≠ -2 → (get_mapping_fill entries names).1[i]? = some x) ∧
        (x = -2 → ∃ w : Nat, (get_mapping_fill entries names).1[i]? = some (w : Int) ∧
          names.length ≤ w ∧ w < (get_mapping_fill entries names).2.length ∧
          ∀ j : Nat, j ≠ i → (get_mapping_fill entries names).1[j]? ≠ some (w : Int))) := by
  intro entries
  induction entries with
  | nil =>
    intro names _
    refine ⟨rfl, le_refl _, fun _ _ => rfl, fun w h1 h2 => ?_, fun i x hi => ?_⟩
    · exact absurd h2 (by simp only [get_mapping_fill]; omega)
    · simp at hi
  | cons v rest ih =>
    intro names hv
    have hrest : ∀ x ∈ rest, x = -2 ∨ x < (names.length : Int) :=
      fun x hx => hv x (List.mem_cons_of_mem _ hx)
    by_cases h2 : v = -2
    · have hrest1 : ∀ x ∈ rest, x = -2 ∨ x < ((names ++ [[]]).length : Int) := by
        intro x hx
        rcases hrest x hx with h | h
        · exact Or.inl h
        · right
          simp only [List.length_append, List.length_singleton]
          omega
      obtain ⟨ih1, ih2, ih3, ih4, ih5⟩ := ih (names ++ [[]]) hrest1
      have hfst : (get_mapping_fill (v :: rest) names).1 =
          (names.length : Int) :: (get_mapping_fill rest (names ++ [[]])).1 := by
        simp [get_mapping_fill, h2]
      have hsnd : (get_mapping_fill (v :: rest) names).2 =
          (get_mapping_fill rest (names ++ [[]])).2 := by
        simp [get_mapping_fill, h2]
      rw [hfst, hsnd]
      simp only [List.length_append, List.length_singleton] at ih2 ih3 ih4 ih5
      have hfresh : ∀ j : Nat,
          (get_mapping_fill rest (names ++ [[]])).1[j]? ≠ some (names.length : Int) := by
        intro j hj
        cases hx : rest[j]? with
        | none =>
          have hlen : rest.length ≤ j := by
            by_contra hlt
            rw [List.getElem?_eq_getElem (by omega)] at hx
            exact Option.noConfusion hx
          rw [List.getElem?_eq_none (by omega)] at hj
          exact Option.noConfusion hj
        | some x =>
          obtain ⟨ha, hb⟩ := ih5 j x hx
          by_cases hx2 : x = -2
          · obtain ⟨w, hw, hw1, _, _⟩ := hb hx2
            rw [hw] at hj
            simp only [Option.some.injEq] at hj
            omega
          · rw [ha hx2] at hj
            simp only [Option.some.injEq] at hj
            rcases hrest x (List.getElem?_mem hx) with h | h
            · exact hx2 h
            · omega
      refine ⟨by simp [ih1], by omega, ?_, ?_, ?_⟩
      · intro w hw
        rw [ih3 w (by omega), List.getElem?_append_left hw]
      · intro w hw1 hw2
        by_cases hw : w = names.length
        · rw [ih3 w (by omega), hw]
          simp
        · exact ih4 w (by omega) hw2
      · intro i x hi
        cases i with
        | zero =>
          simp only [List.getElem?_cons_zero, Option.some.injEq] at hi
          subst hi
          refine ⟨fun hne => absurd h2 hne, fun _ => ⟨names.length, by simp, le_refl _,
            by omega, ?_⟩⟩
          intro j hj
          cases j with
          | zero => exact absurd rfl hj
          | succ j =>
            simp only [List.getElem?_cons_succ]
            exact hfresh j
        | succ i =>
          simp only [List.getElem?_cons_succ] at hi
          obtain ⟨ha, hb⟩ := ih5 i x hi
          refine ⟨fun hne => by simpa using ha hne, fun he => ?_⟩
          obtain ⟨w, hw, hw1, hw2, hw3⟩ := hb he
          refine ⟨w, by simpa using hw, by omega, hw2, ?_⟩
          intro j hj
          cases j with
          | zero =>
            simp only [List.getElem?_cons_zero, ne_eq, Option.some.injEq]
            omega
          | succ j =>
            simp only [List.getElem?_cons_succ]
            exact hw3 j (by omega)
    · obtain ⟨ih1, ih2, ih3, ih4, ih5⟩ := ih names hrest
      have hfst : (get_mapping_fill (v :: rest) names).1 =
          v :: (get_mapping_fill rest names).1 := by
        simp [get_mapping_fill, h2]
      have hsnd : (get_mapping_fill (v :: rest) names).2 =
          (get_mapping_fill rest names).2 := by
        simp [get_mapping_fill, h2]
      rw [hfst, hsnd]
      have hvlt : v < (names.length : Int) := by
        rcases hv v (List.mem_cons_self _ _) with h | h
        · exact absurd h h2
        · exact h
      refine ⟨by simp [ih1], ih2, ih3, ih4, ?_⟩
      intro i x hi
      cases i with
      | zero =>
        simp only [List.getElem?_cons_zero, Option.some.injEq] at hi
        subst hi
        exact ⟨fun _ => by simp, fun he => absurd he h2⟩
      | succ i =>
        simp only [List.getElem?_cons_succ] at hi
        obtain ⟨ha, hb⟩ := ih5 i x hi
        refine ⟨fun hne => by simpa using ha hne, fun he => ?_⟩
        obtain ⟨w, hw, hw1, hw2, hw3⟩ := hb he
        refine ⟨w, by simpa using hw, hw1, hw2, ?_⟩
        intro j hj
        cases j with
        | zero =>
          simp only [List.getElem?_cons_zero, ne_eq, Option.some.injEq]
          omega
        | succ j =>
          simp only [List.getElem?_cons_succ]
          exact hw3 j (by omega)

theorem given_partitions_cons (split : List Char → Char → List (List Char))
    (read_int : List Char → Option Int) (model : List Char) (rest : List (List Char)) :
    given_partitions split read_int (model :: rest) =
      (match parse_partitions_and_model split read_int model [] with
        | .ok r => r.2
        | .error _ => []) ++ given_partitions split read_int rest := by
  simp [given_partitions, List.flatMap_cons]

theorem effs_flatten_eq_given (split : List Char → Char → List (List Char))
    (read_int : List Char → Option Int) (key : List Char) (n : Int) (n_models : Nat)
    (ms : List (List Char)) (effs : List (List Int))
    (h : List.Forall₂ (fun model eff => ∃ r,
      parse_partitions_and_model split read_int model [] = .ok r ∧
      get_mapping_check key model n n_models r.2 = .ok eff) ms effs)
    (hne : ∀ model ∈ ms, ∀ r,
      parse_partitions_and_model split read_int model [] = .ok r → r.2 ≠ []) :
    effs.flatten = given_partitions split read_int ms := by
  induction h with
  | nil => rfl
  | @cons model eff rest effs_rest hhead _ ih =>
    obtain ⟨r, hr, hcheck⟩ := hhead
    rw [given_partitions_cons, hr, List.flatten_cons,
      ih (fun m hm => hne m (List.mem_cons_of_mem _ hm))]
    rcases get_mapping_check_ok _ _ _ _ _ _ hcheck with ⟨_, he⟩ | ⟨hnil, _, _⟩
    · rw [he]
    · exact absurd hnil (hne model (List.mem_cons_self _ _) r hr)

theorem effs_nonempty (split : List Char → Char → List (List Char))
    (read_int : List Char → Option Int) (key : List Char) (n : Int) (n_models : Nat)
    (ms : List (List Char)) (effs : List (List Int))
    (h : List.Forall₂ (fun model eff => ∃ r,
      parse_partitions_and_model split read_int model [] = .ok r ∧
      get_mapping_check key model n n_models r.2 = .ok eff) ms effs) :
    (∀ eff ∈ effs, eff ≠ []) ∧
    ((∃ model ∈ ms, ∃ r,
      parse_partitions_and_model split read_int model [] = .ok r ∧ r.2 = []) → n = 1) := by
  induction h with
  | nil =>
    refine ⟨fun eff he => absurd he (List.not_mem_nil _), ?_⟩
    rintro ⟨model, hm, _⟩
    exact absurd hm (List.not_mem_nil _)
  | @cons model eff rest effs_rest hhead _ ih =>
    obtain ⟨r, hr, hcheck⟩ := hhead
    have hc := get_mapping_check_ok _ _ _ _ _ _ hcheck
    refine ⟨?_, ?_⟩
    · intro e he
      rcases List.mem_cons.mp he with rfl | he
      · rcases hc with ⟨h1, h2⟩ | ⟨_, _, h2⟩
        · rw [h2]; exact h1
        · rw [h2]; exact List.cons_ne_nil _ _
      · exact ih.1 e he
    · rintro ⟨m, hm, r2, hr2, hnil⟩
      rcases List.mem_cons.mp hm with rfl | hm
      · rw [hr] at hr2
        simp only [Except.ok.injEq] at hr2
        subst hr2
        rcases hc with ⟨h1, _⟩ | ⟨_, h2, _⟩
        · exact absurd hnil h1
        · exact h2
      · exact ih.2 ⟨m, hm, r2, hr2, hnil⟩

theorem flatten_not_nodup (effs : List (List Int)) (h2 : 2 ≤ effs.length)
    (hne : ∀ eff ∈ effs, eff ≠ []) (hall : ∀ p ∈ effs.flatten, p = 1) :
    ¬ effs.flatten.Nodup := by
  match effs, h2, hne, hall with
  | a :: b :: rest, _, hne, hall =>
    intro hnd
    cases a with
    | nil => exact hne [] (List.mem_cons_self _ _) rfl
    | cons x a2 =>
      cases b with
      | nil => exact hne [] (List.mem_cons_of_mem _ (List.mem_cons_self _ _)) rfl
      | cons y b2 =>
        have hx : x = 1 := hall x (by simp)
        have hy : y = 1 := hall y (by simp)
        subst hx
        subst hy
        simp only [List.flatten_cons, List.cons_append, List.nodup_cons, List.mem_append,
          List.mem_cons, true_or, or_true, not_true_eq_false, false_and] at hnd

theorem vget_replicate (k : Nat) (a : Int) (i : Int) (h0 : 0 ≤ i) (h1 : i < (k : Int)) :
    vget (List.replicate k a) i = .ok a := by
  rw [vget_eq_ok]
  refine ⟨h0, ?_⟩
  rw [List.getElem?_replicate, if_pos (by omega)]

theorem mapping_inv_init (n : Int) (hn : 0 ≤ n) :
    mapping_inv n (List.replicate n.toNat (-2)) ([] : List (List Char)).length [] := by
  refine ⟨by rw [List.length_replicate]; omega, ?_, ?_, List.nodup_nil, ?_⟩
  · intro p hp1 hp2
    rw [vget_replicate _ _ _ (by omega) (by omega)]
    simp
  · intro v hv
    exact Or.inl (List.eq_of_mem_replicate hv)
  · intro p hp
    exact absurd hp (List.not_mem_nil _)

theorem get_mapping_main_ok (split : List Char → Char → List (List Char))
    (read_int : List Char → Option Int) (models : List (List Char)) (key : List Char)
    (n : Int) (hn : 0 ≤ n)
    (hmain : models.length ≠ 1 ∨ ∀ model ∈ models, ∀ r,
      parse_partitions_and_model split read_int model [] = .ok r → r.2 ≠ [])
    (names : List (List Char)) (mapping : List Int)
    (h : get_mapping_main split read_int models key n = .ok (names, mapping)) :
    ∃ (names1 : List (List Char)) (m1 : List Int),
      mapping_inv n m1 names1.length (given_partitions split read_int models) ∧
      names = (get_mapping_fill m1 names1).2 ∧ mapping = (get_mapping_fill m1 names1).1 := by
  unfold get_mapping_main at h
  obtain ⟨r, hr, h⟩ := (bind_eq_ok _ _ _).mp h
  obtain ⟨names1, m1⟩ := r
  have hp := (pure_eq_ok _ _).mp h
  simp only [Prod.mk.injEq] at hp
  obtain ⟨effs, hf, hinv, _⟩ := get_mapping_models_ok split read_int key n models.length
    models _ _ _ _ [] hr (mapping_inv_init n hn)
  rw [List.nil_append] at hinv
  refine ⟨names1, m1, ?_, hp.1.symm, hp.2.symm⟩
  by_cases hall : ∀ model ∈ models, ∀ r,
      parse_partitions_and_model split read_int model [] = .ok r → r.2 ≠ []
  · rw [← effs_flatten_eq_given split read_int key n models.length models effs hf hall]
    exact hinv
  · exfalso
    have hlen : models.length ≠ 1 := by
      rcases hmain with h1 | h1
      · exact h1
      · exact absurd h1 hall
    have hex : ∃ model ∈ models, ∃ r,
        parse_partitions_and_model split read_int model [] = .ok r ∧ r.2 = [] := by
      by_contra hcon
      apply hall
      intro model hm r hr2 hnil
      exact hcon ⟨model, hm, r, hr2, hnil⟩
    obtain ⟨hne, hn1⟩ := effs_nonempty split read_int key n models.length models effs hf
    have hn1 := hn1 hex
    obtain ⟨model, hm, _⟩ := hex
    have hpos : 0 < models.length := List.length_pos_of_mem hm
    have h2 : 2 ≤ effs.length := by
      rw [← hf.length_eq]
      omega
    obtain ⟨_, _, _, hnd, hrange⟩ := hinv
    refine flatten_not_nodup effs h2 hne ?_ hnd
    intro p hp
    have := hrange p hp
    omega

theorem get_mapping_main_error (split : List Char → Char → List (List Char))
    (read_int : List Char → Option Int) (models : List (List Char)) (key : List Char)
    (n : Int) (hn : 0 ≤ n)
    (hmain : models.length ≠ 1 ∨ ∀ model ∈ models, ∀ r,
      parse_partitions_and_model split read_int model [] = .ok r → r.2 ≠ [])
    (e : Fault) (h : get_mapping_main split read_int models key n = .error e) :
    ∃ msg, e = .exception msg := by
  unfold get_mapping_main at h
  rcases (bind_eq_error _ _ _).mp h with h1 | ⟨_, _, h1⟩
  · refine get_mapping_models_error split read_int key n models.length models _ _ e
      (by rw [List.length_replicate]; omega) ?_ h1
    rcases hmain with hm | hm
    · cases models with
      | nil => exact Or.inr (fun model hmem => absurd hmem (List.not_mem_nil _))
      | cons a rest =>
        left
        simp only [List.length_cons] at hm ⊢
        omega
    · exact Or.inr hm
  · exact absurd h1 (pure_ne_error _ _)

theorem get_mapping_unfold (split : List Char → Char → List (List Char))
    (read_int : List Char → Option Int) (models : List (List Char)) (key : List Char)
    (n : Int) (hn : 0 ≤ n) :
    (∃ model name, models = [model] ∧
      parse_partitions_and_model split read_int model [] = .ok (name, []) ∧
      get_mapping split read_int models key n =
        if name = none_name then .ok ([], List.replicate n.toNat (-1))
        else .ok (List.replicate n.toNat name,
          (List.range n.toNat).map (fun i : Nat => (i : Int)))) ∨
    (∃ model e, models = [model] ∧
      parse_partitions_and_model split read_int model [] = .error e ∧
      get_mapping split read_int models key n = .error e) ∨
    ((models.length ≠ 1 ∨ ∀ model ∈ models, ∀ r,
        parse_partitions_and_model split read_int model [] = .ok r → r.2 ≠ []) ∧
      ¬ single_plain split read_int models ∧
      get_mapping split read_int models key n =
        get_mapping_main split read_int models key n) := by
  have hn2 : ¬ n < 0 := by omega
  unfold get_mapping
  rw [if_neg hn2]
  by_cases h1 : models.length = 1
  · rw [if_pos h1]
    obtain ⟨model, rfl⟩ := List.length_eq_one.mp h1
    simp only [List.headD_cons]
    cases hp : parse_partitions_and_model split read_int model [] with
    | error e => exact Or.inr (Or.inl ⟨model, e, rfl, hp, rfl⟩)
    | ok r =>
      obtain ⟨name, ps⟩ := r
      by_cases h0 : ps.length = 0
      · have hnil : ps = [] := List.length_eq_zero.mp h0
        subst hnil
        refine Or.inl ⟨model, name, rfl, hp, ?_⟩
        dsimp only [bind, Except.bind]
        rw [if_pos h0]
        by_cases hnone : name = none_name
        · rw [if_pos hnone, if_pos hnone]; rfl
        · rw [if_neg hnone, if_neg hnone]; rfl
      · refine Or.inr (Or.inr ⟨Or.inr ?_, ?_, ?_⟩)
        · intro m hm r hr
          rw [List.mem_singleton.mp hm, hp] at hr
          simp only [Except.ok.injEq] at hr
          subst hr
          intro hnil
          have hnil2 : ps = [] := hnil
          exact h0 (by rw [hnil2]; rfl)
        · rintro ⟨m, nm, hm, hpm⟩
          simp only [List.cons.injEq, and_true] at hm
          subst hm
          rw [hp] at hpm
          simp only [Except.ok.injEq, Prod.mk.injEq] at hpm
          exact h0 (by rw [hpm.2]; rfl)
        · dsimp only [bind, Except.bind]
          rw [if_neg h0]
  · rw [if_neg h1]
    refine Or.inr (Or.inr ⟨Or.inl h1, ?_, rfl⟩)
    rintro ⟨m, nm, hm, _⟩
    exact h1 (by rw [hm]; rfl)

theorem given_partitions_single_plain (split : List Char → Char → List (List Char))
    (read_int : List Char → Option Int) (model name : List Char)
    (h : parse_partitions_and_model split read_int model [] = .ok (name, [])) :
    given_partitions split read_int [model] = [] := by
  rw [given_partitions_cons, h]
  rfl

theorem get_mapping_ok_given (split : List Char → Char → List (List Char))
    (read_int : List Char → Option Int) (models : List (List Char)) (key : List Char)
    (n : Int) (r : List (List Char) × List Int)
    (h : get_mapping split read_int models key n = .ok r) :
    (∀ p ∈ given_partitions split read_int models, 1 ≤ p ∧ p ≤ n) ∧
    (given_partitions split read_int models).Nodup := by
  by_cases hn : 0 ≤ n
  · rcases get_mapping_unfold split read_int models key n hn with
      ⟨model, name, rfl, hp, _⟩ | ⟨model, e, _, _, he⟩ | ⟨hmain, _, hm⟩
    · rw [given_partitions_single_plain split read_int model name hp]
      exact ⟨fun p hp => absurd hp (List.not_mem_nil _), List.nodup_nil⟩
    · rw [he] at h
      exact Except.noConfusion h
    · rw [hm] at h
      obtain ⟨names1, m1, hinv, _, _⟩ :=
        get_mapping_main_ok split read_int models key n hn hmain r.1 r.2 h
      exact ⟨hinv.2.2.2.2, hinv.2.2.2.1⟩
  · unfold get_mapping at h
    rw [if_pos (by omega)] at h
    exact Except.noConfusion h

theorem get_mapping_error_exception (split : List Char → Char → List (List Char))
    (read_int : List Char → Option Int) (models : List (List Char)) (key : List Char)
    (n : Int) (e : Fault)
    (h : get_mapping split read_int models key n = .error e) :
    ∃ msg, e = .exception msg := by
  by_cases hn : 0 ≤ n
  · rcases get_mapping_unfold split read_int models key n hn with
      ⟨model, name, _, _, hv⟩ | ⟨model, e2, _, hp, he⟩ | ⟨hmain, _, hm⟩
    · rw [hv] at h
      split_ifs at h
    · rw [he] at h
      simp only [Except.error.injEq] at h
      subst h
      exact parse_partitions_and_model_error _ _ _ _ _ hp
    · rw [hm] at h
      exact get_mapping_main_error split read_int models key n hn hmain e h
  · unfold get_mapping at h
    rw [if_pos (by omega)] at h
    simp only [Except.error.injEq] at h
    exact ⟨_, h.symm⟩

/-- C22. The function `get_mapping(args,key,n)` of `setup.C` returns only if the partition
numbers given in the `--key` arguments all lie in `1..n` and none of them is given twice;
when a partition number is out of range or repeated, the call throws an exception. -/
theorem C22_get_mapping_partitions_once_in_range (split : List Char → Char → List (List Char))
    (read_int : List Char → Option Int) (models : List (List Char)) (key : List Char)
    (n : Int) :
    (∀ r, get_mapping split read_int models key n = .ok r →
      (∀ p ∈ given_partitions split read_int models, 1 ≤ p ∧ p ≤ n) ∧
      (given_partitions split read_int models).Nodup) ∧
    (((∃ p ∈ given_partitions split read_int models, p < 1 ∨ n < p) ∨
        ¬ (given_partitions split read_int models).Nodup) →
      ∃ msg, get_mapping split read_int models key n = .error (.exception msg)) := by
  refine ⟨fun r h => get_mapping_ok_given split read_int models key n r h, ?_⟩
  intro hbad
  cases hres : get_mapping split read_int models key n with
  | error e =>
    obtain ⟨msg, rfl⟩ := get_mapping_error_exception split read_int models key n e hres
    exact ⟨msg, rfl⟩
  | ok r =>
    exfalso
    obtain ⟨hrange, hnd⟩ := get_mapping_ok_given split read_int models key n r hres
    rcases hbad with ⟨p, hp, hout⟩ | hdup
    · have := hrange p hp
      omega
    · exact hdup hnd

/-- A call checked against C22: the arguments `1,3:H` and `2:none` for four partitions. -/
theorem C22_get_mapping_partitions_once_in_range_witness :
    get_mapping (fun s c => split_on c s []) read_decimal
        [['1', ',', '3', ':', 'H'], ['2', ':', 'n', 'o', 'n', 'e']] ['k'] 4
      = .ok ([['H'], []], [0, -1, 0, 1]) ∧
    ((∀ p ∈ given_partitions (fun s c => split_on c s []) read_decimal
        [['1', ',', '3', ':', 'H'], ['2', ':', 'n', 'o', 'n', 'e']], 1 ≤ p ∧ p ≤ 4) ∧
      (given_partitions (fun s c => split_on c s []) read_decimal
        [['1', ',', '3', ':', 'H'], ['2', ':', 'n', 'o', 'n', 'e']]).Nodup) :=
  ⟨by decide,
   (C22_get_mapping_partitions_once_in_range (fun s c => split_on c s []) read_decimal
      [['1', ',', '3', ':', 'H'], ['2', ':', 'n', 'o', 'n', 'e']] ['k'] 4).1
      ([['H'], []], [0, -1, 0, 1]) (by decide)⟩

theorem vget_replicate_names (k : Nat) (a : List Char) (i : Int) (h0 : 0 ≤ i)
    (h1 : i < (k : Int)) : vget (List.replicate k a) i = .ok a := by
  rw [vget_eq_ok]
  refine ⟨h0, ?_⟩
  rw [List.getElem?_replicate, if_pos (by omega)]

theorem vget_range_map (k : Nat) (i : Int) (h0 : 0 ≤ i) (h1 : i < (k : Int)) :
    vget ((List.range k).map (fun j : Nat => (j : Int))) i = .ok i := by
  rw [vget_eq_ok]
  refine ⟨h0, ?_⟩
  rw [List.getElem?_map, List.getElem?_range (by omega)]
  simp only [Option.map_some', Option.some.injEq]
  omega

theorem get_mapping_main_entries (split : List Char → Char → List (List Char))
    (read_int : List Char → Option Int) (models : List (List Char)) (key : List Char)
    (n : Int) (hn : 0 ≤ n)
    (hmain : models.length ≠ 1 ∨ ∀ model ∈ models, ∀ r,
      parse_partitions_and_model split read_int model [] = .ok r → r.2 ≠ [])
    (names : List (List Char)) (mapping : List Int)
    (h : get_mapping_main split read_int models key n = .ok (names, mapping)) :
    (mapping.length : Int) = n ∧
    (∀ v ∈ mapping, v = -1 ∨ (0 ≤ v ∧ v < (names.length : Int))) ∧
    (∀ p : Int, 1 ≤ p → p ≤ n → p ∉ given_partitions split read_int models →
      ∃ w : Nat, vget mapping (p - 1) = .ok (w : Int) ∧ names[w]? = some [] ∧
        ∀ q : Int, q ≠ p → vget mapping (q - 1) ≠ .ok (w : Int)) := by
  obtain ⟨names1, m1, hinv, rfl, rfl⟩ :=
    get_mapping_main_ok split read_int models key n hn hmain names mapping h
  obtain ⟨h1, h2, h3, _, _⟩ := hinv
  have hpre : ∀ v ∈ m1, v = -2 ∨ v < (names1.length : Int) := by
    intro v hv
    rcases h3 v hv with h | h | h
    · exact Or.inl h
    · exact Or.inr (by omega)
    · exact Or.inr h.2
  obtain ⟨f1, f2, _, f4, f5⟩ := get_mapping_fill_spec m1 names1 hpre
  refine ⟨by rw [f1]; exact h1, ?_, ?_⟩
  · intro v hv
    obtain ⟨i, hi, hiv⟩ := List.getElem_of_mem hv
    have hi2 : i < m1.length := by omega
    have hget : (get_mapping_fill m1 names1).1[i]? = some v := by
      rw [List.getElem?_eq_getElem hi, hiv]
    obtain ⟨ha, hb⟩ := f5 i m1[i] (List.getElem?_eq_getElem hi2)
    by_cases hx : m1[i] = -2
    · obtain ⟨w, hw, _, hw2, _⟩ := hb hx
      rw [hw] at hget
      simp only [Option.some.injEq] at hget
      right
      omega
    · rw [ha hx] at hget
      simp only [Option.some.injEq] at hget
      rcases h3 m1[i] (List.getElem_mem hi2) with h | h | h
      · exact absurd h hx
      · left; omega
      · right; omega
  · intro p hp1 hp2 hp
    have hcur := (h2 p hp1 hp2).mpr hp
    obtain ⟨_, hcur2⟩ := (vget_eq_ok _ _ _).mp hcur
    obtain ⟨_, hb⟩ := f5 _ _ hcur2
    obtain ⟨w, hw, hw1, hw2, hw3⟩ := hb rfl
    refine ⟨w, (vget_eq_ok _ _ _).mpr ⟨by omega, hw⟩, f4 w hw1 hw2, ?_⟩
    intro q hq hcon
    obtain ⟨hq0, hq1⟩ := (vget_eq_ok _ _ _).mp hcon
    exact hw3 (q - 1).toNat (by omega) hq1

/-- C23 (as stated, refuted). With the single argument `--k=H` and two partitions no
partition number is mentioned, `get_mapping` succeeds, and partition 1 is mapped to the
index 0 whose name is `H`, not the empty string.  With the single argument `--k=none`
the unmentioned partitions are mapped to `-1`, not to an index of their own. -/
theorem C23_single_argument_names_every_partition :
    get_mapping (fun s c => split_on c s []) read_decimal [['H']] ['k'] 2
      = .ok ([['H'], ['H']], [0, 1]) ∧
    given_partitions (fun s c => split_on c s []) read_decimal [['H']] = [] ∧
    vget [(0 : Int), 1] (1 - 1) = .ok 0 ∧
    vget [['H'], ['H']] 0 = .ok ['H'] ∧ ['H'] ≠ ([] : List Char) ∧
    get_mapping (fun s c => split_on c s []) read_decimal [none_name] ['k'] 2
      = .ok ([], [-1, -1]) ∧
    given_partitions (fun s c => split_on c s []) read_decimal [none_name] = [] := by
  decide

/-- C23 (amended). When `get_mapping` succeeds, `mapping` has one entry for each of the `n`
partitions and each entry is `-1` or the index of a name: the sentinel `-2` never escapes.
Unless the command line holds exactly one `--key` argument and that argument gives no
partition numbers, every partition that is not mentioned in any `--key` argument is mapped
to an index whose name is the empty string and which no other partition shares.  In the
excepted case `--key=name` no partition is mentioned: for `none` every partition is mapped
to `-1` and there is no name, and otherwise partition `p` is mapped to the index `p-1`,
whose name is a copy of `name`. -/
theorem C23_get_mapping_result (split : List Char → Char → List (List Char))
    (read_int : List Char → Option Int) (models : List (List Char)) (key : List Char)
    (n : Int) (names : List (List Char)) (mapping : List Int)
    (h : get_mapping split read_int models key n = .ok (names, mapping)) :
    (mapping.length : Int) = n ∧
    (∀ v ∈ mapping, v = -1 ∨ (0 ≤ v ∧ v < (names.length : Int))) ∧
    (¬ single_plain split read_int models →
      ∀ p : Int, 1 ≤ p → p ≤ n → p ∉ given_partitions split read_int models →
        ∃ w : Nat, vget mapping (p - 1) = .ok (w : Int) ∧ names[w]? = some [] ∧
          ∀ q : Int, q ≠ p → vget mapping (q - 1) ≠ .ok (w : Int)) ∧
    (single_plain split read_int models →
      ∃ model name, models = [model] ∧
        parse_partitions_and_model split read_int model [] = .ok (name, []) ∧
        given_partitions split read_int models = [] ∧
        (name = none_name →
          names = [] ∧ ∀ p : Int, 1 ≤ p → p ≤ n → vget mapping (p - 1) = .ok (-1)) ∧
        (name ≠ none_name →
          ∀ p : Int, 1 ≤ p → p ≤ n →
            vget mapping (p - 1) = .ok (p - 1) ∧ vget names (p - 1) = .ok name)) := by
  have hn : 0 ≤ n := by
    by_contra hneg
    unfold get_mapping at h
    rw [if_pos (by omega)] at h
    exact Except.noConfusion h
  rcases get_mapping_unfold split read_int models key n hn with
    ⟨model, name, rfl, hp, hv⟩ | ⟨model, e, _, _, he⟩ | ⟨hmain, hns, hm⟩
  · have hsp : single_plain split read_int [model] := ⟨model, name, rfl, hp⟩
    rw [hv] at h
    by_cases hnone : name = none_name
    · rw [if_pos hnone] at h
      simp only [Except.ok.injEq, Prod.mk.injEq] at h
      obtain ⟨rfl, rfl⟩ := h
      refine ⟨by rw [List.length_replicate]; omega,
        fun v hv => Or.inl (List.eq_of_mem_replicate hv), fun hc => absurd hsp hc, ?_⟩
      intro _
      refine ⟨model, name, rfl, hp, given_partitions_single_plain _ _ _ _ hp, ?_,
        fun hc => absurd hnone hc⟩
      intro _
      exact ⟨rfl, fun p hp1 hp2 => vget_replicate _ _ _ (by omega) (by omega)⟩
    · rw [if_neg hnone] at h
      simp only [Except.ok.injEq, Prod.mk.injEq] at h
      obtain ⟨rfl, rfl⟩ := h
      refine ⟨by rw [List.length_map, List.length_range]; omega, ?_,
        fun hc => absurd hsp hc, ?_⟩
      · intro v hv
        obtain ⟨j, hj, rfl⟩ := List.mem_map.mp hv
        have := List.mem_range.mp hj
        right
        rw [List.length_replicate]
        omega
      · intro _
        refine ⟨model, name, rfl, hp, given_partitions_single_plain _ _ _ _ hp,
          fun hc => absurd hc hnone, ?_⟩
        intro _ p hp1 hp2
        exact ⟨vget_range_map _ _ (by omega) (by omega),
          vget_replicate_names _ _ _ (by omega) (by omega)⟩
  · rw [he] at h
    exact Except.noConfusion h
  · rw [hm] at h
    obtain ⟨g1, g2, g3⟩ :=
      get_mapping_main_entries split read_int models key n hn hmain names mapping h
    exact ⟨g1, g2, fun _ => g3, fun hc => absurd hc hns⟩

/-- Two calls checked against C23 (amended): the arguments `1,3:H` and `2:none` for four
partitions, where partition 4 is not mentioned, and the single argument `H` for two
partitions. -/
theorem C23_get_mapping_result_witness :
    (get_mapping (fun s c => split_on c s []) read_decimal
        [['1', ',', '3', ':', 'H'], ['2', ':', 'n', 'o', 'n', 'e']] ['k'] 4
      = .ok ([['H'], []], [0, -1, 0, 1]) ∧
     ((([0, -1, 0, 1] : List Int).length : Int) = 4 ∧
      ∀ v ∈ ([0, -1, 0, 1] : List Int),
        v = -1 ∨ (0 ≤ v ∧ v < (([['H'], []] : List (List Char)).length : Int)))) ∧
    (get_mapping (fun s c => split_on c s []) read_decimal [['H']] ['k'] 2
      = .ok ([['H'], ['H']], [0, 1]) ∧
     (([0, 1] : List Int).length : Int) = 2) :=
  ⟨⟨by decide,
    ⟨(C23_get_mapping_result (fun s c => split_on c s []) read_decimal
      [['1', ',', '3', ':', 'H'], ['2', ':', 'n', 'o', 'n', 'e']] ['k'] 4
      [['H'], []] [0, -1, 0, 1] (by decide)).1,
     (C23_get_mapping_result (fun s c => split_on c s []) read_decimal
      [['1', ',', '3', ':', 'H'], ['2', ':', 'n', 'o', 'n', 'e']] ['k'] 4
      [['H'], []] [0, -1, 0, 1] (by decide)).2.1⟩⟩,
   by decide,
   (C23_get_mapping_result (fun s c => split_on c s []) read_decimal [['H']] ['k'] 2
      [['H'], ['H']] [0, 1] (by decide)).1⟩

end BAliPhy
